import Mathlib

/-! # Page-table engine of `src/src/mm.c`

A shallow embedding of the page-table engine (`mm_map_level`,
`mm_populate_table_pte`, `mm_ptable_identity_map`, `mm_ptable_unmap`,
`mm_ptable_identity_map_page`, `mm_is_mapped_recursive`, `mm_ptable_init`,
`mm_ptable_dump`, `mm_ptable_unmap_hypervisor`, `mm_init`) together with
theorems about it.

**The model**

* Machine words are natural numbers; arithmetic that can overflow a 64-bit
  register is reduced modulo `2 ^ 64`.
* A pointer `pte_t *` into a table is a pair of the table's base address and a
  slot index; `pte++` increments the index. Memory is a total function from
  (table base, slot) to the stored word. Well-formed states keep the tables page
  aligned and the slot indices below `PAGE_SIZE / sizeof(pte_t)`, so distinct
  pairs are distinct memory cells.
* The architecture backend (`arch_mm_*`) is a parameter, the structure `Arch`;
  what the engine relies on is collected in `Contract`. `demo` is a concrete
  backend in the style of the AArch64 descriptors, used to run the engine.
* The page allocator is an oracle: the list of the results its future calls
  return, `0` standing for `NULL`. Every pattern of failures is an oracle.
* The `while` loop of `mm_map_level` is given as many iterations as a table has
  slots and returns `none` if that is not enough; `mm_map_level_returns` shows
  it always is.
* The TLB maintenance of the backend is a trace of events in the state.
* Next to the state-passing functions, the mutators have an event-level
  embedding: the list of their stores and fences in program order
  (`mm_map_level_events` and the like); `replay` of the events gives the memory
  of the state-passing function.
* The stores and the calls of the TLB primitives of `mm_ptable_identity_map`
  and `mm_ptable_unmap` are also given as one sequence in program order
  (`Effect`, `mm_ptable_identity_map_effects`); `perform` of the sequence gives
  the memory and the TLB trace of the state-passing function.

**Contents**

* Address arithmetic: the slot index stays below 512 and `begin` does not
  overflow (`loopPos_step`).
* Footprints and frames: what a walk of the mapper can touch
  (`mm_map_level_post`), in particular the dry run changes no answer of the
  query.
* Finished walks: after a successful dry run the committing walk needs no
  allocation, and a second call finds nothing left to do (`mm_map_level_done`,
  `mm_map_level_rerun`).
* The single-page mapper within the coverage of the table
  (`identity_map_page_in_coverage`).
* TLB maintenance (`two_walks_tlb`), the bounds of the traversal
  (`mm_map_level_returns_any`, `loop_slots_bound`), the split of a block
  (`populate_alloc`), the placement of blocks (`mm_map_level_placed`), the
  order of publication of new tables (`loop_trace`) and the place of the
  invalidation among the stores (`two_walks_maintenance`).
* Runs of the engine on concrete tables, which exhibit three defects of the
  source: the recursive call of `mm_map_level` passes `va_begin` and `va_end`
  on unchanged although `begin` and `pa` have advanced, the range guard of
  `mm_is_mapped_recursive` compares the address with a bound computed from the
  address itself, and `mm_init` drops the results of its mapping steps.
-/

namespace Mm

/-! ## Constants -/

/-- Modelled from the spec: `PAGE_BITS` of the missing header `mm.h`; the spec
fixes `PAGE_SIZE = 4096`. -/
def PAGE_BITS : Nat := 12

/-- Modelled from the spec: `PAGE_LEVEL_BITS` of the missing header `mm.h`; the
spec fixes it to 9. -/
def PAGE_LEVEL_BITS : Nat := 9

/-- Modelled from the spec: `PAGE_SIZE` is `1 << PAGE_BITS`, 4096 bytes. -/
def PAGE_SIZE : Nat := 2 ^ PAGE_BITS

/-- Number of slots of a table, `PAGE_SIZE / sizeof(pte_t)` with 8-byte
entries. -/
def ENTRIES : Nat := PAGE_SIZE / 8

/-- Size of the 64-bit machine word the addresses and entries live in. -/
def WORD : Nat := 2 ^ 64

/-- `MAP_FLAG_SYNC` of `mm.c`. -/
def MAP_FLAG_SYNC : Nat := 0x01

/-- `MAP_FLAG_COMMIT` of `mm.c`. -/
def MAP_FLAG_COMMIT : Nat := 0x02

/-- Modelled from the spec: mode flag `R` of the missing header `mm.h`. -/
def MM_MODE_R : Nat := 0x01

/-- Modelled from the spec: mode flag `W` of the missing header `mm.h`. -/
def MM_MODE_W : Nat := 0x02

/-- Modelled from the spec: mode flag `X` of the missing header `mm.h`. -/
def MM_MODE_X : Nat := 0x04

/-- Modelled from the spec: mode flag `D` of the missing header `mm.h`. -/
def MM_MODE_D : Nat := 0x08

/-- Modelled from the spec: mode flag `NOSYNC` of the missing header `mm.h`,
selecting the non-synchronising allocator. -/
def MM_MODE_NOSYNC : Nat := 0x10

/-- Modelled from the spec: mode flag `STAGE1` of the missing header `mm.h`. -/
def MM_MODE_STAGE1 : Nat := 0x20

/-- Modelled from the spec: mode flag `NOINVALIDATE` of the missing header
`mm.h`, suppressing TLB maintenance. -/
def MM_MODE_NOINVALIDATE : Nat := 0x40

/-! ## Architecture backend -/

/-- The architecture backend consumed by `mm.c` (the `arch_mm_*` functions of
the missing architecture header), taken as a parameter. -/
structure Arch where
  /-- `arch_mm_max_level(mode)` -/
  arch_mm_max_level : Nat → Nat
  /-- `arch_mm_is_block_allowed(level)` -/
  arch_mm_is_block_allowed : Nat → Bool
  /-- `arch_mm_absent_pte()` -/
  arch_mm_absent_pte : Nat
  /-- `arch_mm_mode_to_attrs(mode)` -/
  arch_mm_mode_to_attrs : Nat → Nat
  /-- `arch_mm_pte_is_present(pte)` -/
  arch_mm_pte_is_present : Nat → Bool
  /-- `arch_mm_pte_is_block(pte)` -/
  arch_mm_pte_is_block : Nat → Bool
  /-- `arch_mm_pte_is_table(pte)` -/
  arch_mm_pte_is_table : Nat → Bool
  /-- `arch_mm_pa_to_page_pte(pa, attrs)` -/
  arch_mm_pa_to_page_pte : Nat → Nat → Nat
  /-- `arch_mm_pa_to_block_pte(pa, attrs)` -/
  arch_mm_pa_to_block_pte : Nat → Nat → Nat
  /-- `arch_mm_pa_to_table_pte(pa)` -/
  arch_mm_pa_to_table_pte : Nat → Nat
  /-- `arch_mm_block_to_page_pte(pte)` -/
  arch_mm_block_to_page_pte : Nat → Nat
  /-- `arch_mm_pte_to_table(pte)` -/
  arch_mm_pte_to_table : Nat → Nat
  /-- `arch_mm_clear_va(va)` -/
  arch_mm_clear_va : Nat → Nat
  /-- `arch_mm_clear_pa(pa)` -/
  arch_mm_clear_pa : Nat → Nat

/-! ## Machine state -/

/-- Table memory: the word stored in slot `i` of the table at base `p`. -/
abbrev Mem := Nat → Nat → Nat

/-- Store `v` in slot `i` of the table at base `p`. -/
def Mem.write (m : Mem) (p i v : Nat) : Mem :=
  fun q j => if q = p ∧ j = i then v else m q j

/-- A call of one of the backend's TLB primitives. -/
inductive TlbEvent where
  /-- `arch_mm_invalidate_stage1_range(begin, end)` -/
  | stage1 (va_begin va_end : Nat)
  /-- `arch_mm_invalidate_stage2_range(begin, end)` -/
  | stage2 (va_begin va_end : Nat)
  deriving DecidableEq, Repr

/-- The state the engine works on: table memory, the allocator oracle and the
trace of TLB calls issued so far (most recent first). -/
structure State where
  /-- table memory -/
  mem : Mem
  /-- results of the future allocator calls, `0` for `NULL` -/
  heap : List Nat
  /-- TLB calls issued, most recent first -/
  tlb : List TlbEvent

/-- `struct mm_ptable`: the root table and the identifier. -/
structure mm_ptable where
  /-- `t->table` -/
  table : Nat
  /-- `t->id` -/
  id : Nat

/-- Modelled from the spec: `halloc_aligned(PAGE_SIZE, PAGE_SIZE)` of the
missing `alloc.c`, yielding a page or `NULL`: the next answer of the oracle,
`NULL` once the oracle is exhausted. -/
def halloc_aligned (s : State) : Nat × State :=
  match s.heap with
  | [] => (0, s)
  | p :: rest => (p, { s with heap := rest })

/-- Modelled from the spec: `halloc_aligned_nosync(PAGE_SIZE, PAGE_SIZE)` of the
missing `alloc.c`, the same allocator without locking. -/
def halloc_aligned_nosync (s : State) : Nat × State :=
  halloc_aligned s

/-! ## Address arithmetic -/

/-- Bitwise complement of a 64-bit word, `~x`. -/
def not64 (x : Nat) : Nat := (WORD - 1) ^^^ (x % WORD)

/-- `mm_entry_size(level)`. -/
def mm_entry_size (level : Nat) : Nat :=
  (1 <<< (PAGE_BITS + level * PAGE_LEVEL_BITS)) % WORD

/-- `mm_level_end(va, level)`. -/
def mm_level_end (va level : Nat) : Nat :=
  (((va >>> (PAGE_BITS + (level + 1) * PAGE_LEVEL_BITS)) + 1)
      <<< (PAGE_BITS + (level + 1) * PAGE_LEVEL_BITS)) % WORD

/-- `mm_index(va, level)`. -/
def mm_index (va level : Nat) : Nat :=
  (va >>> (PAGE_BITS + level * PAGE_LEVEL_BITS)) &&& ((1 <<< PAGE_LEVEL_BITS) - 1)

/-! ## Sub-table population -/

/-- The initialisation loop of `mm_populate_table_pte`:
`for (i = 0; i < PAGE_SIZE / sizeof(paddr_t); i++) { ntable[i] = new_pte; new_pte += inc; }`
with `n` iterations left. -/
def mm_populate_fill (ntable inc : Nat) : Nat → Nat → Nat → Mem → Mem
  | 0, _, _, m => m
  | n + 1, i, new_pte, m =>
    mm_populate_fill ntable inc n (i + 1) ((new_pte + inc) % WORD) (m.write ntable i new_pte)

/-- `mm_populate_table_pte(pte, level, sync_alloc)`, the slot `pte` given as
table base and index. Returns the sub-table (0 for `NULL`) and the new state. -/
def mm_populate_table_pte (A : Arch) (table idx level : Nat) (sync_alloc : Bool)
    (s : State) : Nat × State :=
  let v := s.mem table idx
  if A.arch_mm_pte_is_table v then
    (A.arch_mm_pte_to_table v, s)
  else
    let r := (if sync_alloc then halloc_aligned else halloc_aligned_nosync) s
    let ntable := r.1
    let s1 := r.2
    if ntable = 0 then
      (0, s1)
    else
      let inc := if !A.arch_mm_pte_is_block v then 0 else mm_entry_size (level - 1)
      let new_pte :=
        if !A.arch_mm_pte_is_block v then A.arch_mm_absent_pte
        else if level = 1 then A.arch_mm_block_to_page_pte v else v
      let m1 := mm_populate_fill ntable inc ENTRIES 0 new_pte s1.mem
      (ntable, { s1 with mem := m1.write table idx (A.arch_mm_pa_to_table_pte ntable) })

/-- `mm_free_page_pte(pte, level, sync)`: not implemented in the source, it
does nothing. -/
def mm_free_page_pte (_pte _level : Nat) (_sync : Bool) (s : State) : State := s

/-! ## The mapper -/

/-- The `while (begin < end)` loop of `mm_map_level` at `level`, on the table
`table`, with `idx` the slot `pte` points at. `recurse pa nt s` is the
recursive call `mm_map_level(va_begin, va_end, pa, attrs, nt, level - 1, flags)`.
The first argument bounds the number of iterations; `none` means the bound was
reached with the loop condition still true. -/
def mm_map_level_loop (A : Arch) (recurse : Nat → Nat → State → Option (Bool × State))
    (level end_ entry_size attrs : Nat) (commit sync : Bool) (table : Nat) :
    Nat → Nat → Nat → Nat → State → Option (Bool × State)
  | 0, begin, _, _, s => if begin < end_ then none else some (true, s)
  | fuel + 1, begin, pa, idx, s =>
    if begin < end_ then
      let begin1 := ((begin + entry_size) % WORD) &&& not64 (entry_size - 1)
      let pa1 := ((pa + entry_size) % WORD) &&& not64 (entry_size - 1)
      if level = 0 then
        let s1 := if commit then
            { s with mem := s.mem.write table idx (A.arch_mm_pa_to_page_pte pa attrs) }
          else s
        mm_map_level_loop A recurse level end_ entry_size attrs commit sync table
          fuel begin1 pa1 (idx + 1) s1
      else if end_ - begin ≥ entry_size ∧ A.arch_mm_is_block_allowed level = true ∧
          begin &&& (entry_size - 1) = 0 then
        let s1 := if commit then
            let v := s.mem table idx
            mm_free_page_pte v level sync
              { s with mem := s.mem.write table idx (A.arch_mm_pa_to_block_pte pa attrs) }
          else s
        mm_map_level_loop A recurse level end_ entry_size attrs commit sync table
          fuel begin1 pa1 (idx + 1) s1
      else
        let r := mm_populate_table_pte A table idx level sync s
        if r.1 = 0 then
          some (false, r.2)
        else
          match recurse pa r.1 r.2 with
          | none => none
          | some (false, s2) => some (false, s2)
          | some (true, s2) =>
            mm_map_level_loop A recurse level end_ entry_size attrs commit sync table
              fuel begin1 pa1 (idx + 1) s2
    else
      some (true, s)

/-- `mm_map_level(va_begin, va_end, pa, attrs, table, level, flags)`. The
recursive call passes the parameters `va_begin` and `va_end` on unchanged, as
the source does. The loop is given `ENTRIES` iterations. -/
def mm_map_level (A : Arch) (va_begin va_end attrs flags : Nat) :
    Nat → Nat → Nat → State → Option (Bool × State)
  | level, pa, table, s =>
    let level_end := mm_level_end va_begin level
    let end_ := if va_end > level_end then level_end else va_end
    let commit := decide (flags &&& MAP_FLAG_COMMIT ≠ 0)
    let sync := decide (flags &&& MAP_FLAG_SYNC ≠ 0)
    mm_map_level_loop A
      (match level with
        | 0 => fun _ _ _ => none
        | l + 1 => fun pa1 nt s1 => mm_map_level A va_begin va_end attrs flags l pa1 nt s1)
      level end_ (mm_entry_size level) attrs commit sync table
      ENTRIES va_begin pa (mm_index va_begin level) s

/-- `mm_invalidate_tlb(begin, end, stage1)`. -/
def mm_invalidate_tlb (va_begin va_end : Nat) (stage1 : Bool) (s : State) : State :=
  if stage1 then { s with tlb := TlbEvent.stage1 va_begin va_end :: s.tlb }
  else { s with tlb := TlbEvent.stage2 va_begin va_end :: s.tlb }

/-- `mm_ptable_identity_map(t, begin, end, mode)`. -/
def mm_ptable_identity_map (A : Arch) (t : mm_ptable) (va_begin va_end mode : Nat)
    (s : State) : Option (Bool × State) :=
  let attrs := A.arch_mm_mode_to_attrs mode
  let flags := if mode &&& MM_MODE_NOSYNC ≠ 0 then 0 else MAP_FLAG_SYNC
  let level := A.arch_mm_max_level mode
  let table := t.table
  let paddr := A.arch_mm_clear_pa va_begin
  let begin := A.arch_mm_clear_va va_begin
  let end_ := A.arch_mm_clear_va ((va_end + (PAGE_SIZE - 1)) % WORD)
  match mm_map_level A begin end_ attrs flags level paddr table s with
  | none => none
  | some (false, s1) => some (false, s1)
  | some (true, s1) =>
    match mm_map_level A begin end_ attrs (flags ||| MAP_FLAG_COMMIT) level paddr table s1 with
    | none => none
    | some (_, s2) =>
      some (true,
        if mode &&& MM_MODE_NOINVALIDATE = 0 then
          mm_invalidate_tlb begin end_ (decide (mode &&& MM_MODE_STAGE1 ≠ 0)) s2
        else s2)

/-- `mm_ptable_unmap(t, begin, end, mode)`. -/
def mm_ptable_unmap (A : Arch) (t : mm_ptable) (va_begin va_end mode : Nat)
    (s : State) : Option (Bool × State) :=
  let flags := if mode &&& MM_MODE_NOSYNC ≠ 0 then 0 else MAP_FLAG_SYNC
  let level := A.arch_mm_max_level mode
  let table := t.table
  let begin := A.arch_mm_clear_va va_begin
  let end_ := A.arch_mm_clear_va ((va_end + (PAGE_SIZE - 1)) % WORD)
  match mm_map_level A begin end_ 0 flags level begin table s with
  | none => none
  | some (false, s1) => some (false, s1)
  | some (true, s1) =>
    match mm_map_level A begin end_ 0 (flags ||| MAP_FLAG_COMMIT) level begin table s1 with
    | none => none
    | some (_, s2) =>
      some (true,
        if mode &&& MM_MODE_NOINVALIDATE = 0 then
          mm_invalidate_tlb begin end_ (decide (mode &&& MM_MODE_STAGE1 ≠ 0)) s2
        else s2)

/-- The loop `for (i = arch_mm_max_level(mode); i > 0; i--)` of
`mm_ptable_identity_map_page`, followed by the store of the page entry. -/
def mm_ptable_identity_map_page_loop (A : Arch) (va pa attrs : Nat) (sync : Bool) :
    Nat → Nat → State → Bool × State
  | 0, table, s =>
    (true, { s with mem := s.mem.write table (mm_index va 0) (A.arch_mm_pa_to_page_pte pa attrs) })
  | i + 1, table, s =>
    let r := mm_populate_table_pte A table (mm_index va (i + 1)) (i + 1) sync s
    if r.1 = 0 then (false, r.2)
    else mm_ptable_identity_map_page_loop A va pa attrs sync i r.1 r.2

/-- `mm_ptable_identity_map_page(t, va, mode)`. -/
def mm_ptable_identity_map_page (A : Arch) (t : mm_ptable) (va mode : Nat)
    (s : State) : Bool × State :=
  let attrs := A.arch_mm_mode_to_attrs mode
  let table := t.table
  let sync := decide (mode &&& MM_MODE_NOSYNC = 0)
  let pa := A.arch_mm_clear_pa va
  let va1 := A.arch_mm_clear_va va
  mm_ptable_identity_map_page_loop A va1 pa attrs sync (A.arch_mm_max_level mode) table s

/-! ## The query -/

/-- `mm_is_mapped_recursive(table, addr, level)`. -/
def mm_is_mapped_recursive (A : Arch) (m : Mem) (addr : Nat) : Nat → Nat → Bool
  | level, table =>
    if addr ≥ mm_level_end addr level then false
    else
      let pte := m table (mm_index addr level)
      match level with
      | 0 => A.arch_mm_pte_is_present pte
      | l + 1 =>
        if A.arch_mm_is_block_allowed (l + 1) && A.arch_mm_pte_is_block pte then true
        else if A.arch_mm_pte_is_table pte then
          mm_is_mapped_recursive A m addr l (A.arch_mm_pte_to_table pte)
        else false

/-- `mm_ptable_is_mapped(t, addr, mode)`. -/
def mm_ptable_is_mapped (A : Arch) (t : mm_ptable) (addr mode : Nat) (s : State) : Bool :=
  mm_is_mapped_recursive A s.mem (A.arch_mm_clear_va addr) (A.arch_mm_max_level mode) t.table

/-! ## Initialisation -/

/-- The loop of `mm_ptable_init`:
`for (i = 0; i < PAGE_SIZE / sizeof(pte_t); i++) { table[i] = arch_mm_absent_pte(); }`
with `n` iterations left. -/
def mm_ptable_init_loop (A : Arch) (table : Nat) : Nat → Nat → Mem → Mem
  | 0, _, m => m
  | n + 1, i, m => mm_ptable_init_loop A table n (i + 1) (m.write table i A.arch_mm_absent_pte)

/-- `mm_ptable_init(t, id, mode)`: returns the result, the handle as left in
`*t` and the new state. -/
def mm_ptable_init (A : Arch) (t : mm_ptable) (id mode : Nat) (s : State) :
    Bool × mm_ptable × State :=
  let r := if mode &&& MM_MODE_NOSYNC ≠ 0 then halloc_aligned_nosync s else halloc_aligned s
  if r.1 = 0 then (false, t, r.2)
  else
    (true, { table := r.1, id := id },
      { r.2 with mem := mm_ptable_init_loop A r.1 ENTRIES 0 r.2.mem })

/-! ## The dump -/

/-- `mm_dump_table_recursive(table, level, max_level)`: the lines written to the
debug log, each the indentation, the slot index and the entry. -/
def mm_dump_table_recursive (A : Arch) (m : Mem) (max_level : Nat) :
    Nat → Nat → List (Nat × Nat × Nat)
  | level, table =>
    (List.range ENTRIES).flatMap fun i =>
      if !A.arch_mm_pte_is_present (m table i) then []
      else
        (4 * (max_level - level), i, m table i) ::
          (match level with
            | 0 => []
            | l + 1 =>
              if A.arch_mm_pte_is_table (m table i) then
                mm_dump_table_recursive A m max_level l (A.arch_mm_pte_to_table (m table i))
              else [])

/-- `mm_ptable_dump(t, mode)`: the lines written to the debug log. -/
def mm_ptable_dump (A : Arch) (t : mm_ptable) (mode : Nat) (s : State) :
    List (Nat × Nat × Nat) :=
  mm_dump_table_recursive A s.mem (A.arch_mm_max_level mode) (A.arch_mm_max_level mode) t.table

/-! ## The hypervisor's own table and the image -/

/-- The platform the engine is linked into: the image layout symbols of the
linker script (`text_begin`, ..., `data_end`), the UART base `PL011_BASE` of the
missing platform header, and the result of the backend's bring-up function
`arch_mm_init(table, first)`. All of them are external to `mm.c` and taken as
parameters. -/
structure Platform where
  /-- `text_begin` -/
  text_begin : Nat
  /-- `text_end` -/
  text_end : Nat
  /-- `rodata_begin` -/
  rodata_begin : Nat
  /-- `rodata_end` -/
  rodata_end : Nat
  /-- `data_begin` -/
  data_begin : Nat
  /-- `data_end` -/
  data_end : Nat
  /-- `PL011_BASE` -/
  PL011_BASE : Nat
  /-- `arch_mm_init(table, first)` -/
  arch_mm_init : Nat → Bool → Bool

/-- `mm_ptable_defrag(t, mode)`: not implemented in the source, it does
nothing. -/
def mm_ptable_defrag (_t : mm_ptable) (_mode : Nat) (s : State) : State := s

/-- `mm_ptable_unmap_hypervisor(t, mode)`: the three unmaps joined by `&&`. -/
def mm_ptable_unmap_hypervisor (A : Arch) (P : Platform) (t : mm_ptable) (mode : Nat)
    (s : State) : Option (Bool × State) :=
  match mm_ptable_unmap A t P.text_begin P.text_end mode s with
  | none => none
  | some (false, s1) => some (false, s1)
  | some (true, s1) =>
    match mm_ptable_unmap A t P.rodata_begin P.rodata_end mode s1 with
    | none => none
    | some (false, s2) => some (false, s2)
    | some (true, s2) => mm_ptable_unmap A t P.data_begin P.data_end mode s2

/-- `mm_identity_map(begin, end, mode)`, on the hypervisor's table `ptable`. -/
def mm_identity_map (A : Arch) (ptable : mm_ptable) (va_begin va_end mode : Nat)
    (s : State) : Option (Bool × State) :=
  mm_ptable_identity_map A ptable va_begin va_end (mode ||| MM_MODE_STAGE1) s

/-- `mm_unmap(begin, end, mode)`, on the hypervisor's table `ptable`. -/
def mm_unmap (A : Arch) (ptable : mm_ptable) (va_begin va_end mode : Nat)
    (s : State) : Option (Bool × State) :=
  mm_ptable_unmap A ptable va_begin va_end (mode ||| MM_MODE_STAGE1) s

/-- `mm_init()`: returns the result, the hypervisor's table `ptable` as the call
leaves it, and the new state. The results of the four mapping calls are
dropped, as in the source. -/
def mm_init (A : Arch) (P : Platform) (ptable : mm_ptable) (s : State) :
    Option (Bool × mm_ptable × State) :=
  let r := mm_ptable_init A ptable 0 (MM_MODE_NOSYNC ||| MM_MODE_STAGE1) s
  if r.1 = false then
    some (false, r.2.1, r.2.2)
  else
    let r1 := mm_ptable_identity_map_page A r.2.1 P.PL011_BASE
      (MM_MODE_R ||| MM_MODE_W ||| MM_MODE_D ||| MM_MODE_NOSYNC ||| MM_MODE_STAGE1) r.2.2
    match mm_identity_map A r.2.1 P.text_begin P.text_end (MM_MODE_X ||| MM_MODE_NOSYNC) r1.2 with
    | none => none
    | some r2 =>
      match mm_identity_map A r.2.1 P.rodata_begin P.rodata_end
          (MM_MODE_R ||| MM_MODE_NOSYNC) r2.2 with
      | none => none
      | some r3 =>
        match mm_identity_map A r.2.1 P.data_begin P.data_end
            (MM_MODE_R ||| MM_MODE_W ||| MM_MODE_NOSYNC) r3.2 with
        | none => none
        | some r4 => some (P.arch_mm_init r.2.1.table true, r.2.1, r4.2)

/-- `mm_cpu_init()`. -/
def mm_cpu_init (P : Platform) (ptable : mm_ptable) : Bool :=
  P.arch_mm_init ptable.table false

/-- `mm_defrag()`. -/
def mm_defrag (ptable : mm_ptable) (s : State) : State :=
  mm_ptable_defrag ptable MM_MODE_STAGE1 s

/-! ## The slots of a run -/

/-- The slots the loop of `mm_map_level` points `pte` at: the index, in `table`,
of the slot of every iteration whose body runs, in the order of the run. The
function follows the control flow of `mm_map_level_loop` step by step and
records the slot index instead of the state. -/
def mm_map_level_loop_slots (A : Arch) (recurse : Nat → Nat → State → Option (Bool × State))
    (level end_ entry_size attrs : Nat) (commit sync : Bool) (table : Nat) :
    Nat → Nat → Nat → Nat → State → List Nat
  | 0, _, _, _, _ => []
  | fuel + 1, begin, pa, idx, s =>
    if begin < end_ then
      let begin1 := ((begin + entry_size) % WORD) &&& not64 (entry_size - 1)
      let pa1 := ((pa + entry_size) % WORD) &&& not64 (entry_size - 1)
      idx ::
        (if level = 0 then
          let s1 := if commit then
              { s with mem := s.mem.write table idx (A.arch_mm_pa_to_page_pte pa attrs) }
            else s
          mm_map_level_loop_slots A recurse level end_ entry_size attrs commit sync table
            fuel begin1 pa1 (idx + 1) s1
        else if end_ - begin ≥ entry_size ∧ A.arch_mm_is_block_allowed level = true ∧
            begin &&& (entry_size - 1) = 0 then
          let s1 := if commit then
              let v := s.mem table idx
              mm_free_page_pte v level sync
                { s with mem := s.mem.write table idx (A.arch_mm_pa_to_block_pte pa attrs) }
            else s
          mm_map_level_loop_slots A recurse level end_ entry_size attrs commit sync table
            fuel begin1 pa1 (idx + 1) s1
        else
          let r := mm_populate_table_pte A table idx level sync s
          if r.1 = 0 then
            []
          else
            match recurse pa r.1 r.2 with
            | none => []
            | some (false, _) => []
            | some (true, s2) =>
              mm_map_level_loop_slots A recurse level end_ entry_size attrs commit sync table
                fuel begin1 pa1 (idx + 1) s2)
    else
      []

/-- The slots of `table` that the call
`mm_map_level(va_begin, va_end, pa, attrs, table, level, flags)` points `pte`
at, in order. -/
def mm_map_level_slots (A : Arch) (va_begin va_end attrs flags level pa table : Nat)
    (s : State) : List Nat :=
  mm_map_level_loop_slots A
    (match level with
      | 0 => fun _ _ _ => none
      | l + 1 => fun pa1 nt s1 => mm_map_level A va_begin va_end attrs flags l pa1 nt s1)
    level (if va_end > mm_level_end va_begin level then mm_level_end va_begin level else va_end)
    (mm_entry_size level) attrs (decide (flags &&& MAP_FLAG_COMMIT ≠ 0))
    (decide (flags &&& MAP_FLAG_SYNC ≠ 0)) table
    ENTRIES va_begin pa (mm_index va_begin level) s

/-! ## The memory events of a run -/

/-- A memory event of the engine, in program order: a store of `val` into slot
`idx` of the table at `table`, or the release fence
`atomic_thread_fence(memory_order_release)`. -/
inductive MemEvent where
  /-- `table[idx] = val` -/
  | store (table idx val : Nat)
  /-- `atomic_thread_fence(memory_order_release)` -/
  | fence
  deriving DecidableEq

/-- The memory after the events `evs`, performed in order on `m`. -/
def replay : List MemEvent → Mem → Mem
  | [], m => m
  | MemEvent.store t i v :: evs, m => replay evs (m.write t i v)
  | MemEvent.fence :: evs, m => replay evs m

/-- Every slot of the table `q` has been stored to by the events `evs`. -/
def Stored (evs : List MemEvent) (q : Nat) : Prop :=
  ∀ i, i < ENTRIES → ∃ v, MemEvent.store q i v ∈ evs

/-- The events of the initialisation loop of `mm_populate_table_pte`, following
`mm_populate_fill`: one store per iteration. -/
def mm_populate_fill_events (ntable inc : Nat) : Nat → Nat → Nat → List MemEvent
  | 0, _, _ => []
  | n + 1, i, new_pte =>
    MemEvent.store ntable i new_pte ::
      mm_populate_fill_events ntable inc n (i + 1) ((new_pte + inc) % WORD)

/-- The events of `mm_populate_table_pte(pte, level, sync_alloc)`, following
`mm_populate_table_pte` statement by statement: nothing when the slot holds a
table or the allocation fails; otherwise the stores of the initialisation loop,
the release fence and the store of the table entry into the slot. -/
def mm_populate_table_pte_events (A : Arch) (table idx level : Nat) (sync_alloc : Bool)
    (s : State) : List MemEvent :=
  let v := s.mem table idx
  if A.arch_mm_pte_is_table v then
    []
  else
    let r := (if sync_alloc then halloc_aligned else halloc_aligned_nosync) s
    let ntable := r.1
    if ntable = 0 then
      []
    else
      let inc := if !A.arch_mm_pte_is_block v then 0 else mm_entry_size (level - 1)
      let new_pte :=
        if !A.arch_mm_pte_is_block v then A.arch_mm_absent_pte
        else if level = 1 then A.arch_mm_block_to_page_pte v else v
      mm_populate_fill_events ntable inc ENTRIES 0 new_pte ++
        [MemEvent.fence, MemEvent.store table idx (A.arch_mm_pa_to_table_pte ntable)]

/-- The events of the loop of `mm_map_level`, following `mm_map_level_loop`
branch by branch: the store of the leaf entry when committing, or the events of
`mm_populate_table_pte` followed by the events of the recursive call
(`recurse_events`), and then the events of the rest of the loop. -/
def mm_map_level_loop_events (A : Arch) (recurse : Nat → Nat → State → Option (Bool × State))
    (recurse_events : Nat → Nat → State → List MemEvent)
    (level end_ entry_size attrs : Nat) (commit sync : Bool) (table : Nat) :
    Nat → Nat → Nat → Nat → State → List MemEvent
  | 0, _, _, _, _ => []
  | fuel + 1, begin, pa, idx, s =>
    if begin < end_ then
      let begin1 := ((begin + entry_size) % WORD) &&& not64 (entry_size - 1)
      let pa1 := ((pa + entry_size) % WORD) &&& not64 (entry_size - 1)
      if level = 0 then
        let s1 := if commit then
            { s with mem := s.mem.write table idx (A.arch_mm_pa_to_page_pte pa attrs) }
          else s
        (if commit then [MemEvent.store table idx (A.arch_mm_pa_to_page_pte pa attrs)] else []) ++
          mm_map_level_loop_events A recurse recurse_events level end_ entry_size attrs commit
            sync table fuel begin1 pa1 (idx + 1) s1
      else if end_ - begin ≥ entry_size ∧ A.arch_mm_is_block_allowed level = true ∧
          begin &&& (entry_size - 1) = 0 then
        let s1 := if commit then
            let v := s.mem table idx
            mm_free_page_pte v level sync
              { s with mem := s.mem.write table idx (A.arch_mm_pa_to_block_pte pa attrs) }
          else s
        (if commit then [MemEvent.store table idx (A.arch_mm_pa_to_block_pte pa attrs)] else []) ++
          mm_map_level_loop_events A recurse recurse_events level end_ entry_size attrs commit
            sync table fuel begin1 pa1 (idx + 1) s1
      else
        let r := mm_populate_table_pte A table idx level sync s
        mm_populate_table_pte_events A table idx level sync s ++
          (if r.1 = 0 then
            []
          else
            recurse_events pa r.1 r.2 ++
              (match recurse pa r.1 r.2 with
              | none => []
              | some (false, _) => []
              | some (true, s2) =>
                mm_map_level_loop_events A recurse recurse_events level end_ entry_size attrs
                  commit sync table fuel begin1 pa1 (idx + 1) s2))
    else
      []

/-- The events of `mm_map_level(va_begin, va_end, pa, attrs, table, level,
flags)`, in program order. -/
def mm_map_level_events (A : Arch) (va_begin va_end attrs flags : Nat) :
    Nat → Nat → Nat → State → List MemEvent
  | level, pa, table, s =>
    let level_end := mm_level_end va_begin level
    let end_ := if va_end > level_end then level_end else va_end
    let commit := decide (flags &&& MAP_FLAG_COMMIT ≠ 0)
    let sync := decide (flags &&& MAP_FLAG_SYNC ≠ 0)
    mm_map_level_loop_events A
      (match level with
        | 0 => fun _ _ _ => none
        | l + 1 => fun pa1 nt s1 => mm_map_level A va_begin va_end attrs flags l pa1 nt s1)
      (match level with
        | 0 => fun _ _ _ => []
        | l + 1 => fun pa1 nt s1 => mm_map_level_events A va_begin va_end attrs flags l pa1 nt s1)
      level end_ (mm_entry_size level) attrs commit sync table
      ENTRIES va_begin pa (mm_index va_begin level) s

/-- The events of the two walks of `mm_ptable_identity_map` and
`mm_ptable_unmap`: the events of the dry run and, when it returns true, the
events of the commit walk on the state it left. -/
def two_walks_events (A : Arch) (va_begin va_end attrs flags level pa table : Nat)
    (s : State) : List MemEvent :=
  mm_map_level_events A va_begin va_end attrs flags level pa table s ++
    (match mm_map_level A va_begin va_end attrs flags level pa table s with
    | none => []
    | some (false, _) => []
    | some (true, s1) =>
      mm_map_level_events A va_begin va_end attrs (flags ||| MAP_FLAG_COMMIT) level pa table s1)

/-- The events of `mm_ptable_identity_map(t, begin, end, mode)`. -/
def mm_ptable_identity_map_events (A : Arch) (t : mm_ptable) (va_begin va_end mode : Nat)
    (s : State) : List MemEvent :=
  two_walks_events A (A.arch_mm_clear_va va_begin)
    (A.arch_mm_clear_va ((va_end + (PAGE_SIZE - 1)) % WORD)) (A.arch_mm_mode_to_attrs mode)
    (if mode &&& MM_MODE_NOSYNC ≠ 0 then 0 else MAP_FLAG_SYNC) (A.arch_mm_max_level mode)
    (A.arch_mm_clear_pa va_begin) t.table s

/-- The events of `mm_ptable_unmap(t, begin, end, mode)`. -/
def mm_ptable_unmap_events (A : Arch) (t : mm_ptable) (va_begin va_end mode : Nat)
    (s : State) : List MemEvent :=
  two_walks_events A (A.arch_mm_clear_va va_begin)
    (A.arch_mm_clear_va ((va_end + (PAGE_SIZE - 1)) % WORD)) 0
    (if mode &&& MM_MODE_NOSYNC ≠ 0 then 0 else MAP_FLAG_SYNC) (A.arch_mm_max_level mode)
    (A.arch_mm_clear_va va_begin) t.table s

/-- The events of the loop of `mm_ptable_identity_map_page` and of the store of
the page entry, following `mm_ptable_identity_map_page_loop`. -/
def mm_ptable_identity_map_page_loop_events (A : Arch) (va pa attrs : Nat) (sync : Bool) :
    Nat → Nat → State → List MemEvent
  | 0, table, _ => [MemEvent.store table (mm_index va 0) (A.arch_mm_pa_to_page_pte pa attrs)]
  | i + 1, table, s =>
    let r := mm_populate_table_pte A table (mm_index va (i + 1)) (i + 1) sync s
    mm_populate_table_pte_events A table (mm_index va (i + 1)) (i + 1) sync s ++
      (if r.1 = 0 then []
      else mm_ptable_identity_map_page_loop_events A va pa attrs sync i r.1 r.2)

/-- The events of `mm_ptable_identity_map_page(t, va, mode)`. -/
def mm_ptable_identity_map_page_events (A : Arch) (t : mm_ptable) (va mode : Nat)
    (s : State) : List MemEvent :=
  mm_ptable_identity_map_page_loop_events A (A.arch_mm_clear_va va) (A.arch_mm_clear_pa va)
    (A.arch_mm_mode_to_attrs mode) (decide (mode &&& MM_MODE_NOSYNC = 0))
    (A.arch_mm_max_level mode) t.table s

/-! ## The effects of a run -/

/-- An effect of the engine that is visible outside it, in program order: a
memory event or a call of one of the backend's TLB primitives. -/
inductive Effect where
  /-- a store or the release fence -/
  | mem (e : MemEvent)
  /-- `arch_mm_invalidate_stage1_range` or `arch_mm_invalidate_stage2_range` -/
  | tlb (e : TlbEvent)
  deriving DecidableEq

/-- The state after the effects `effs`, performed in order on `s`: a store
writes the memory, the fence changes nothing, a TLB call is put in front of the
TLB trace. -/
def perform : List Effect → State → State
  | [], s => s
  | Effect.mem (MemEvent.store t i v) :: effs, s =>
    perform effs { s with mem := s.mem.write t i v }
  | Effect.mem MemEvent.fence :: effs, s => perform effs s
  | Effect.tlb e :: effs, s => perform effs { s with tlb := e :: s.tlb }

/-- The effects of `mm_invalidate_tlb(begin, end, stage1)`, following
`mm_invalidate_tlb`: the call of the stage-1 or of the stage-2 primitive. -/
def mm_invalidate_tlb_effects (va_begin va_end : Nat) (stage1 : Bool) : List Effect :=
  if stage1 then [Effect.tlb (TlbEvent.stage1 va_begin va_end)]
  else [Effect.tlb (TlbEvent.stage2 va_begin va_end)]

/-- The effects of `mm_map_level(va_begin, va_end, pa, attrs, table, level,
flags)`, in program order: its memory events; `mm_map_level` and the functions
it calls call no TLB primitive. -/
def mm_map_level_effects (A : Arch) (va_begin va_end attrs flags level pa table : Nat)
    (s : State) : List Effect :=
  (mm_map_level_events A va_begin va_end attrs flags level pa table s).map Effect.mem

/-- The effects of the body shared by `mm_ptable_identity_map` and
`mm_ptable_unmap`, statement by statement: the effects of the dry run; when it
returns true, the effects of the commit walk on the state it left; and then,
unless `NOINVALIDATE` is set in `mode`, the effects of `mm_invalidate_tlb`. -/
def two_walks_effects (A : Arch) (va_begin va_end attrs flags level pa table mode : Nat)
    (s : State) : List Effect :=
  mm_map_level_effects A va_begin va_end attrs flags level pa table s ++
    (match mm_map_level A va_begin va_end attrs flags level pa table s with
    | none => []
    | some (false, _) => []
    | some (true, s1) =>
      mm_map_level_effects A va_begin va_end attrs (flags ||| MAP_FLAG_COMMIT) level pa table s1 ++
        (match mm_map_level A va_begin va_end attrs (flags ||| MAP_FLAG_COMMIT) level pa table
            s1 with
        | none => []
        | some _ =>
          if mode &&& MM_MODE_NOINVALIDATE = 0 then
            mm_invalidate_tlb_effects va_begin va_end (decide (mode &&& MM_MODE_STAGE1 ≠ 0))
          else []))

/-- The effects of `mm_ptable_identity_map(t, begin, end, mode)`, in program
order. -/
def mm_ptable_identity_map_effects (A : Arch) (t : mm_ptable) (va_begin va_end mode : Nat)
    (s : State) : List Effect :=
  two_walks_effects A (A.arch_mm_clear_va va_begin)
    (A.arch_mm_clear_va ((va_end + (PAGE_SIZE - 1)) % WORD)) (A.arch_mm_mode_to_attrs mode)
    (if mode &&& MM_MODE_NOSYNC ≠ 0 then 0 else MAP_FLAG_SYNC) (A.arch_mm_max_level mode)
    (A.arch_mm_clear_pa va_begin) t.table mode s

/-- The effects of `mm_ptable_unmap(t, begin, end, mode)`, in program order. -/
def mm_ptable_unmap_effects (A : Arch) (t : mm_ptable) (va_begin va_end mode : Nat)
    (s : State) : List Effect :=
  two_walks_effects A (A.arch_mm_clear_va va_begin)
    (A.arch_mm_clear_va ((va_end + (PAGE_SIZE - 1)) % WORD)) 0
    (if mode &&& MM_MODE_NOSYNC ≠ 0 then 0 else MAP_FLAG_SYNC) (A.arch_mm_max_level mode)
    (A.arch_mm_clear_va va_begin) t.table mode s

/-! ## Specification vocabulary -/

/-- Bit position at which the slot index of a level starts,
`PAGE_BITS + level * PAGE_LEVEL_BITS`. -/
def level_shift (level : Nat) : Nat := PAGE_BITS + level * PAGE_LEVEL_BITS

/-- Position of the loop of `mm_map_level` at `level`: `pa` is page aligned and
the slot index `idx` is the one `begin` belongs to in the table that holds
`va_begin`. -/
def LoopPos (level va_begin begin pa idx : Nat) : Prop :=
  pa % PAGE_SIZE = 0 ∧
  begin / 2 ^ level_shift level = va_begin / (2 ^ level_shift level * 512) * 512 + idx

/-- Tables reachable from the table `p` at `level` through table entries. -/
def footprint (A : Arch) (m : Mem) : Nat → Nat → Set Nat
  | 0, p => {q | q = p}
  | l + 1, p => {q | q = p ∨ ∃ j, j < ENTRIES ∧ A.arch_mm_pte_is_table (m p j) = true ∧
      q ∈ footprint A m l (A.arch_mm_pte_to_table (m p j))}

/-- Tables reachable through slot `j` of the table `p` at `level`. -/
def subtree (A : Arch) (m : Mem) (level p j : Nat) : Set Nat :=
  match level with
  | 0 => {_q | False}
  | l + 1 => {q | j < ENTRIES ∧ A.arch_mm_pte_is_table (m p j) = true ∧
      q ∈ footprint A m l (A.arch_mm_pte_to_table (m p j))}

/-- The tables below `p` form a tree: sub-tables under different slots share no
table, no sub-table reaches back to `p`, and entries that classify as blocks sit
at levels where blocks are allowed. -/
def Tree (A : Arch) (m : Mem) : Nat → Nat → Prop
  | 0, _ => True
  | l + 1, p =>
    (∀ j, j < ENTRIES → A.arch_mm_pte_is_block (m p j) = true →
      A.arch_mm_is_block_allowed (l + 1) = true) ∧
    (∀ j, j < ENTRIES → A.arch_mm_pte_is_table (m p j) = true →
      Tree A m l (A.arch_mm_pte_to_table (m p j)) ∧
      p ∉ footprint A m l (A.arch_mm_pte_to_table (m p j))) ∧
    (∀ i j, i < ENTRIES → j < ENTRIES → i ≠ j →
      A.arch_mm_pte_is_table (m p i) = true → A.arch_mm_pte_is_table (m p j) = true →
      ∀ q, q ∈ footprint A m l (A.arch_mm_pte_to_table (m p i)) →
        q ∉ footprint A m l (A.arch_mm_pte_to_table (m p j)))

/-- The pages an allocator oracle can still hand out. -/
def fresh_pages (heap : List Nat) : Set Nat := {q | q ≠ 0 ∧ q ∈ heap}

/-- The allocator oracle is sound with respect to the tables `U` in use: every
page it hands out is page aligned, fits a pointer, is not in use, and is handed
out once. -/
def HeapOK (heap : List Nat) (U : Set Nat) : Prop :=
  (∀ q, q ∈ fresh_pages heap → q ∉ U ∧ q % PAGE_SIZE = 0 ∧ q < WORD) ∧
  heap.Pairwise (fun a b => a ≠ 0 → a ≠ b)

/-- A well-formed table handle: the tables reachable from the root form a tree
of the depth the mode asks for, the allocator hands out pages that are not part
of it, and every reachable table is page aligned. -/
def WellFormed (A : Arch) (t : mm_ptable) (mode : Nat) (s : State) : Prop :=
  Tree A s.mem (A.arch_mm_max_level mode) t.table ∧
  HeapOK s.heap (footprint A s.mem (A.arch_mm_max_level mode) t.table) ∧
  ∀ q, q ∈ footprint A s.mem (A.arch_mm_max_level mode) t.table → q % PAGE_SIZE = 0

/-- The contract of the architecture backend the engine relies on: the three
kinds of entries are told apart by the classifiers, the encoders produce entries
of the kind they are named after, a block stays a block (and a page stays
present) when the size of a lower-level entry is added to it, blocks are allowed
at every level below one that allows them, cleared addresses are page-aligned
64-bit values and the top-level table covers at most the 64-bit address
space. -/
structure Contract (A : Arch) : Prop where
  /-- the absent entry is not present -/
  absent_not_present : A.arch_mm_pte_is_present A.arch_mm_absent_pte = false
  /-- the absent entry is not a block -/
  absent_not_block : A.arch_mm_pte_is_block A.arch_mm_absent_pte = false
  /-- the absent entry is not a table -/
  absent_not_table : A.arch_mm_pte_is_table A.arch_mm_absent_pte = false
  /-- the absent entry is a 64-bit value -/
  absent_lt : A.arch_mm_absent_pte < WORD
  /-- a table entry classifies as a table -/
  table_is_table : ∀ p, p % PAGE_SIZE = 0 → p < WORD →
    A.arch_mm_pte_is_table (A.arch_mm_pa_to_table_pte p) = true
  /-- a table entry decodes to the table it was made from -/
  table_to_table : ∀ p, p % PAGE_SIZE = 0 → p < WORD →
    A.arch_mm_pte_to_table (A.arch_mm_pa_to_table_pte p) = p
  /-- a table is not a block -/
  table_not_block : ∀ v, A.arch_mm_pte_is_table v = true → A.arch_mm_pte_is_block v = false
  /-- a page entry made with the attributes of a mode is present -/
  page_present : ∀ pa mode, pa % PAGE_SIZE = 0 →
    A.arch_mm_pte_is_present (A.arch_mm_pa_to_page_pte pa (A.arch_mm_mode_to_attrs mode)) = true
  /-- a block entry made with the attributes of a mode is a block -/
  block_is_block : ∀ pa mode, pa % PAGE_SIZE = 0 →
    A.arch_mm_pte_is_block (A.arch_mm_pa_to_block_pte pa (A.arch_mm_mode_to_attrs mode)) = true
  /-- a block entry made with the attributes of a mode is present -/
  block_present : ∀ pa mode, pa % PAGE_SIZE = 0 →
    A.arch_mm_pte_is_present (A.arch_mm_pa_to_block_pte pa (A.arch_mm_mode_to_attrs mode)) = true
  /-- a page entry made with attributes 0 is not present, not a block and not a
  table -/
  page_zero_absent : ∀ pa, pa % PAGE_SIZE = 0 →
    A.arch_mm_pte_is_present (A.arch_mm_pa_to_page_pte pa 0) = false ∧
    A.arch_mm_pte_is_block (A.arch_mm_pa_to_page_pte pa 0) = false ∧
    A.arch_mm_pte_is_table (A.arch_mm_pa_to_page_pte pa 0) = false
  /-- a block entry made with attributes 0 is not present, not a block and not a
  table -/
  block_zero_absent : ∀ pa, pa % PAGE_SIZE = 0 →
    A.arch_mm_pte_is_present (A.arch_mm_pa_to_block_pte pa 0) = false ∧
    A.arch_mm_pte_is_block (A.arch_mm_pa_to_block_pte pa 0) = false ∧
    A.arch_mm_pte_is_table (A.arch_mm_pa_to_block_pte pa 0) = false
  /-- a block stays a block when an entry size is added -/
  block_step : ∀ v level, A.arch_mm_pte_is_block v = true →
    A.arch_mm_pte_is_block ((v + mm_entry_size level) % WORD) = true
  /-- the page made from a block is present -/
  block_to_page_present : ∀ v, A.arch_mm_pte_is_block v = true →
    A.arch_mm_pte_is_present (A.arch_mm_block_to_page_pte v) = true
  /-- a present page stays present when a page size is added -/
  present_step : ∀ v, A.arch_mm_pte_is_present v = true →
    A.arch_mm_pte_is_present ((v + mm_entry_size 0) % WORD) = true
  /-- blocks are allowed below a level that allows them -/
  allowed_down : ∀ level, 1 ≤ level → A.arch_mm_is_block_allowed (level + 1) = true →
    A.arch_mm_is_block_allowed level = true
  /-- the top-level table covers at most the 64-bit address space -/
  levels_fit : ∀ mode, level_shift (A.arch_mm_max_level mode + 1) ≤ 64
  /-- cleared virtual addresses are 64-bit values -/
  clear_va_lt : ∀ va, A.arch_mm_clear_va va < WORD
  /-- cleared virtual addresses are page aligned -/
  clear_va_aligned : ∀ va, A.arch_mm_clear_va va % PAGE_SIZE = 0
  /-- cleared physical addresses are page aligned -/
  clear_pa_aligned : ∀ pa, A.arch_mm_clear_pa pa % PAGE_SIZE = 0

/-- What a run of the mapper rooted at the table `p` of `level` may do to the
state: the tables still form a tree, the TLB trace is untouched, the allocator
advanced by the pages `used`, the footprint grew by pages of `used` only, and
tables outside the old footprint and `used` are unchanged. -/
def Ext (A : Arch) (level p : Nat) (s s' : State) : Prop :=
  Tree A s'.mem level p ∧ s'.tlb = s.tlb ∧
  ∃ used, s.heap = used ++ s'.heap ∧
    (∀ q, q ∈ footprint A s'.mem level p →
      q ∈ footprint A s.mem level p ∨ q ∈ fresh_pages used) ∧
    (∀ q, q ∉ footprint A s.mem level p → q ∉ fresh_pages used →
      ∀ i, s'.mem q i = s.mem q i)

/-- What a call of the mapper at `level` on the table `p` guarantees: the
extension `Ext`, and an unchanged answer to every query when nothing is
committed. -/
def CallPost (A : Arch) (commit : Bool) (level p : Nat) (s s' : State) : Prop :=
  Ext A level p s s' ∧
  (commit = false → ∀ x, mm_is_mapped_recursive A s'.mem x level p =
    mm_is_mapped_recursive A s.mem x level p)

/-- The slots `j` of the table `p` selected by `keep`, and the tables below
them, are the same in `s'` as in `s`. -/
def Keeps (A : Arch) (level p : Nat) (keep : Nat → Prop) (s s' : State) : Prop :=
  ∀ j, keep j → s'.mem p j = s.mem p j ∧
    ∀ q, q ∈ subtree A s.mem level p j → ∀ i, s'.mem q i = s.mem q i

/-- The value the initialisation loop of `mm_populate_table_pte` stores in the
`k`-th slot it writes, starting from the template `v`. -/
def fill_val (inc : Nat) : Nat → Nat → Nat
  | 0, v => v
  | k + 1, v => fill_val inc k ((v + inc) % WORD)

/-- The loop of `mm_map_level` has nothing left to do on the memory `m`: at
every iteration it would run, the slot of a leaf holds the entry a committing
walk writes (asked for when `commit` is set only), and the slot it descends
through holds a table on which the recursive call has nothing left to do
(`rec_done`). The first argument bounds the iterations as in
`mm_map_level_loop`. -/
def done_loop (A : Arch) (rec_done : Nat → Nat → Mem → Prop)
    (level end_ entry_size attrs : Nat) (commit : Bool) (table : Nat) :
    Nat → Nat → Nat → Nat → Mem → Prop
  | 0, begin, _, _, _ => ¬ begin < end_
  | fuel + 1, begin, pa, idx, m =>
    begin < end_ →
      (if level = 0 then
        (commit = true → m table idx = A.arch_mm_pa_to_page_pte pa attrs)
      else if end_ - begin ≥ entry_size ∧ A.arch_mm_is_block_allowed level = true ∧
          begin &&& (entry_size - 1) = 0 then
        (commit = true → m table idx = A.arch_mm_pa_to_block_pte pa attrs)
      else
        A.arch_mm_pte_is_table (m table idx) = true ∧
        A.arch_mm_pte_to_table (m table idx) ≠ 0 ∧
        rec_done pa (A.arch_mm_pte_to_table (m table idx)) m) ∧
      done_loop A rec_done level end_ entry_size attrs commit table fuel
        (((begin + entry_size) % WORD) &&& not64 (entry_size - 1))
        (((pa + entry_size) % WORD) &&& not64 (entry_size - 1)) (idx + 1) m

/-- The call `mm_map_level(va_begin, va_end, pa, attrs, table, level, _)` has
nothing left to do on the memory `m`: every sub-table it needs is there and,
when `commit` is set, every leaf entry it writes is already in place. -/
def Done (A : Arch) (va_begin va_end attrs : Nat) (commit : Bool) :
    Nat → Nat → Nat → Mem → Prop
  | level, pa, table, m =>
    done_loop A
      (match level with
        | 0 => fun _ _ _ => True
        | l + 1 => fun pa1 nt m1 => Done A va_begin va_end attrs commit l pa1 nt m1)
      level
      (if va_end > mm_level_end va_begin level then mm_level_end va_begin level else va_end)
      (mm_entry_size level) attrs commit table
      ENTRIES va_begin pa (mm_index va_begin level) m

/-- The entry at which the walk of `mm_is_mapped_recursive` for `addr` ends,
together with its level: a block at a level that allows blocks, an entry that
is not a table, or the entry of level 0. -/
def walk_leaf (A : Arch) (m : Mem) (addr : Nat) : Nat → Nat → Nat × Nat
  | 0, table => (0, m table (mm_index addr 0))
  | l + 1, table =>
    if A.arch_mm_is_block_allowed (l + 1) &&
        A.arch_mm_pte_is_block (m table (mm_index addr (l + 1))) then
      (l + 1, m table (mm_index addr (l + 1)))
    else if A.arch_mm_pte_is_table (m table (mm_index addr (l + 1))) then
      walk_leaf A m addr l (A.arch_mm_pte_to_table (m table (mm_index addr (l + 1))))
    else (l + 1, m table (mm_index addr (l + 1)))

/-- The entry of level `target` on the path of `addr` below the table `table`
of `level`, when table entries lead down to that level. -/
def walk_entry (A : Arch) (m : Mem) (addr target : Nat) : Nat → Nat → Option Nat
  | 0, table => if target = 0 then some (m table (mm_index addr 0)) else none
  | l + 1, table =>
    if target = l + 1 then some (m table (mm_index addr (l + 1)))
    else if A.arch_mm_pte_is_table (m table (mm_index addr (l + 1))) then
      walk_entry A m addr target l (A.arch_mm_pte_to_table (m table (mm_index addr (l + 1))))
    else none

/-- A virtual address rounded down to a page. -/
def page_floor (va : Nat) : Nat := va / PAGE_SIZE * PAGE_SIZE

/-- A virtual address rounded up to a page. -/
def page_ceil (va : Nat) : Nat := (va + (PAGE_SIZE - 1)) / PAGE_SIZE * PAGE_SIZE

/-- The range invalidation of the stage that `mode` selects: the stage-1
primitive if `STAGE1` is set in `mode`, the stage-2 primitive otherwise. -/
def range_invalidation (mode va_begin va_end : Nat) : TlbEvent :=
  if mode &&& MM_MODE_STAGE1 ≠ 0 then TlbEvent.stage1 va_begin va_end
  else TlbEvent.stage2 va_begin va_end

/-- The physical address the table `table` of `level` translates `addr` to,
`none` when `addr` is not mapped: the walk is the one of
`mm_is_mapped_recursive`, and the leaf entry it ends at, an entry covering
`mm_entry_size` of its level, maps `addr` to the output address of the entry
plus the offset of `addr` in the entry. The output address of an entry is given
by `pa_of`, a decoder that `mm.c` does not use and that is taken as a
parameter. -/
def translate (A : Arch) (pa_of : Nat → Nat) (m : Mem) (addr : Nat) : Nat → Nat → Option Nat
  | level, table =>
    if addr ≥ mm_level_end addr level then none
    else
      let pte := m table (mm_index addr level)
      match level with
      | 0 =>
        if A.arch_mm_pte_is_present pte then some (pa_of pte + addr % mm_entry_size 0) else none
      | l + 1 =>
        if A.arch_mm_is_block_allowed (l + 1) && A.arch_mm_pte_is_block pte then
          some (pa_of pte + addr % mm_entry_size (l + 1))
        else if A.arch_mm_pte_is_table pte then
          translate A pa_of m addr l (A.arch_mm_pte_to_table pte)
        else none

/-- An entry `v` of a table of `level` is placed well: if it classifies as a
block, blocks are allowed at `level` and the output address it encodes (as
given by the decoder `pa_of`) is aligned to the entry size of `level`. -/
def BlockOK (A : Arch) (pa_of : Nat → Nat) (level v : Nat) : Prop :=
  A.arch_mm_pte_is_block v = true →
    A.arch_mm_is_block_allowed level = true ∧ pa_of v % mm_entry_size level = 0

/-- The block-placement invariant on the tables reachable from the table `p` of
`level`: every entry that classifies as a block sits at a level that allows
blocks and encodes an output address aligned to the entry size of its level. -/
def Placed (A : Arch) (pa_of : Nat → Nat) (m : Mem) : Nat → Nat → Prop
  | 0, p => ∀ j, j < ENTRIES → BlockOK A pa_of 0 (m p j)
  | l + 1, p =>
    (∀ j, j < ENTRIES → BlockOK A pa_of (l + 1) (m p j)) ∧
    (∀ j, j < ENTRIES → A.arch_mm_pte_is_table (m p j) = true →
      Placed A pa_of m l (A.arch_mm_pte_to_table (m p j)))

/-- What the block-placement invariant asks of the backend and of the decoder
`pa_of` of output addresses, beyond `Contract`: page entries do not classify as
blocks, neither when made from an address nor when made from a block, and stay
so when a page size is added; a block entry made from an aligned address
encodes an aligned address, and an entry that encodes an aligned address still
does when the entry size is added to it; and `arch_mm_clear_pa` and
`arch_mm_clear_va` clear the same bits. -/
structure PlacementContract (A : Arch) (pa_of : Nat → Nat) : Prop where
  /-- a page entry made with the attributes of a mode is not a block -/
  page_not_block : ∀ pa mode, pa % PAGE_SIZE = 0 →
    A.arch_mm_pte_is_block (A.arch_mm_pa_to_page_pte pa (A.arch_mm_mode_to_attrs mode)) = false
  /-- the page made from a block is not a block -/
  block_to_page_not_block : ∀ v, A.arch_mm_pte_is_block v = true →
    A.arch_mm_pte_is_block (A.arch_mm_block_to_page_pte v) = false
  /-- a present entry that is not a block stays so when a page size is added -/
  page_step_not_block : ∀ v, A.arch_mm_pte_is_present v = true →
    A.arch_mm_pte_is_block v = false →
    A.arch_mm_pte_is_block ((v + mm_entry_size 0) % WORD) = false
  /-- a block entry made from an aligned address encodes an aligned address -/
  block_aligned : ∀ pa mode level, level_shift level < 64 → pa % mm_entry_size level = 0 →
    pa_of (A.arch_mm_pa_to_block_pte pa (A.arch_mm_mode_to_attrs mode)) % mm_entry_size level = 0
  /-- an entry that encodes an aligned address still does when the entry size
  is added -/
  step_aligned : ∀ v level, level_shift level < 64 → pa_of v % mm_entry_size level = 0 →
    pa_of ((v + mm_entry_size level) % WORD) % mm_entry_size level = 0
  /-- physical and virtual addresses are cleared alike -/
  clear_pa_eq : ∀ x, A.arch_mm_clear_pa x = A.arch_mm_clear_va x

/-- The physical address a call of `mm_map_level` at `level` is given is in
step with `va_begin` within the span of the table, or aligned to that span. -/
def CallSync (level va_begin pa : Nat) : Prop :=
  pa % 2 ^ level_shift (level + 1) = va_begin % 2 ^ level_shift (level + 1) ∨
  pa % 2 ^ level_shift (level + 1) = 0

/-- The physical address of an iteration of the loop of `mm_map_level` at
`level`: the one the call was given, at the first iteration, or aligned to the
entry size of `level`. -/
def LoopSync (level va_begin begin pa : Nat) : Prop :=
  (begin = va_begin ∧ CallSync level va_begin pa) ∨ pa % 2 ^ level_shift level = 0

/-- The events `evs` of a run that starts in the state `s`, seen from the table
`p` of `level`: at every point of the run, every table reachable from `p` was
reachable at the start or has had every slot stored to by the events so far;
and every store goes to a table that was reachable at the start or to a page
the allocator had still to hand out. -/
def TraceSafe (A : Arch) (level p : Nat) (s : State) (evs : List MemEvent) : Prop :=
  ∀ pre suf, evs = pre ++ suf →
    (∀ q, q ∈ footprint A (replay pre s.mem) level p →
      q ∈ footprint A s.mem level p ∨ Stored pre q) ∧
    (∀ t i v, MemEvent.store t i v ∈ pre →
      t ∈ footprint A s.mem level p ∨ t ∈ fresh_pages s.heap)

/-- The events `evs` are the run from the state `s` to the state `s'`, seen
from the table `p` of `level`: performing them on the memory of `s` gives the
memory of `s'`, they are safe (`TraceSafe`), and `s'` extends `s` (`Ext`). -/
def TraceRun (A : Arch) (level p : Nat) (s : State) (evs : List MemEvent) (s' : State) : Prop :=
  replay evs s.mem = s'.mem ∧ TraceSafe A level p s evs ∧ Ext A level p s s'

/-! ## A concrete backend -/

/-- A concrete backend in the style of the AArch64 long-descriptor format, used
to run the engine on concrete inputs: bit 0 marks a valid entry, bit 1
distinguishes tables (and level-0 pages) from blocks, the attributes sit in the
low bits, four levels of tables, blocks at levels 1 and 2. -/
def demo : Arch where
  arch_mm_max_level := fun _ => 3
  arch_mm_is_block_allowed := fun l => l == 1 || l == 2
  arch_mm_absent_pte := 0
  arch_mm_mode_to_attrs := fun mode => 1 ||| ((mode &&& 0xf) <<< 2)
  arch_mm_pte_is_present := fun p => p &&& 1 != 0
  arch_mm_pte_is_block := fun p => p &&& 3 == 1
  arch_mm_pte_is_table := fun p => p &&& 3 == 3
  arch_mm_pa_to_page_pte := fun pa attrs => pa ||| attrs ||| ((attrs &&& 1) <<< 1)
  arch_mm_pa_to_block_pte := fun pa attrs => pa ||| attrs
  arch_mm_pa_to_table_pte := fun pa => pa ||| 3
  arch_mm_block_to_page_pte := fun p => p ||| 2
  arch_mm_pte_to_table := fun p => p &&& not64 (PAGE_SIZE - 1)
  arch_mm_clear_va := fun va => va &&& not64 (PAGE_SIZE - 1)
  arch_mm_clear_pa := fun pa => pa &&& not64 (PAGE_SIZE - 1)

/-- A machine before initialisation: zeroed memory and an allocator that hands
out eight distinct pages and then fails. -/
def boot : State :=
  { mem := fun _ _ => 0
    heap := [0x10000, 0x11000, 0x12000, 0x13000, 0x14000, 0x15000, 0x16000, 0x17000]
    tlb := [] }

/-- The handle left by `mm_ptable_init` on `boot`. -/
def fresh_table : mm_ptable := (mm_ptable_init demo ⟨0, 0⟩ 0 0 boot).2.1

/-- The state left by `mm_ptable_init` on `boot`. -/
def fresh : State := (mm_ptable_init demo ⟨0, 0⟩ 0 0 boot).2.2

/-- The state a mapper call leaves (the state `s` it started from when the
iteration bound was hit). -/
def state_after (s : State) (r : Option (Bool × State)) : State :=
  match r with
  | some p => p.2
  | none => s

/-- The result a mapper call returns, `none` when the iteration bound was hit. -/
def result_of (r : Option (Bool × State)) : Option Bool :=
  r.map (fun p => p.1)

/-- The mode `R | W` used in the concrete runs. -/
def mode_rw : Nat := MM_MODE_R ||| MM_MODE_W

/-- Mapping the two pages `[0x1ff000, 0x201000)`, which lie on both sides of a
2 MiB boundary, on the fresh table. -/
def map_across : Option (Bool × State) :=
  mm_ptable_identity_map demo fresh_table 0x1ff000 0x201000 mode_rw fresh

/-- Mapping `[0x3fe00000, 0x40400000)`, which reaches over a 1 GiB boundary, on
the fresh table. -/
def map_across_gib : Option (Bool × State) :=
  mm_ptable_identity_map demo fresh_table 0x3fe00000 0x40400000 mode_rw fresh

/-- The state after mapping the 4 MiB `[0, 0x400000)` on the fresh table. -/
def mapped_4m : State :=
  state_after fresh (mm_ptable_identity_map demo fresh_table 0 0x400000 mode_rw fresh)

/-- Unmapping the two pages `[0x1ff000, 0x201000)` from `mapped_4m`. -/
def unmap_across : Option (Bool × State) :=
  mm_ptable_unmap demo fresh_table 0x1ff000 0x201000 mode_rw mapped_4m

/-- Mapping the single page at `0x09000000` on the fresh table. -/
def map_uart : Bool × State :=
  mm_ptable_identity_map_page demo fresh_table 0x09000000
    (MM_MODE_R ||| MM_MODE_W ||| MM_MODE_D) fresh


/-- The image layout used in the concrete runs: a text, a rodata and a data
segment of one page each, the UART at `0x09000000`, and a backend bring-up that
succeeds. -/
def image : Platform :=
  { text_begin := 0x80000, text_end := 0x81000
    rodata_begin := 0x81000, rodata_end := 0x82000
    data_begin := 0x82000, data_end := 0x83000
    PL011_BASE := 0x09000000
    arch_mm_init := fun _ _ => true }

/-- A machine before initialisation whose allocator hands out a single page and
then fails. -/
def boot_one : State := { boot with heap := [0x10000] }

/-- The state `mm_ptable_init` leaves when `mm_init` runs on `boot_one`. -/
def init_one : State :=
  (mm_ptable_init demo ⟨0, 0⟩ 0 (MM_MODE_NOSYNC ||| MM_MODE_STAGE1) boot_one).2.2

/-- The handle `mm_ptable_init` leaves when `mm_init` runs on `boot_one`. -/
def table_one : mm_ptable :=
  (mm_ptable_init demo ⟨0, 0⟩ 0 (MM_MODE_NOSYNC ||| MM_MODE_STAGE1) boot_one).2.1

/-- The output address of an entry of the concrete backend: the entry without
its low `PAGE_BITS`, which hold the attributes. -/
def demo_pa_of (pte : Nat) : Nat := pte / PAGE_SIZE * PAGE_SIZE

/-! ## Address arithmetic: lemmas -/

theorem not64_pow_sub_one (s : Nat) (hs : s ≤ 64) (i : Nat) :
    (not64 (2 ^ s - 1)).testBit i = (decide (i < 64) && decide (s ≤ i)) := by
  have h1 : 2 ^ s - 1 < WORD := by
    have : 2 ^ s ≤ 2 ^ 64 := Nat.pow_le_pow_right (by norm_num) hs
    have : 0 < 2 ^ s := Nat.pos_pow_of_pos _ (by norm_num)
    unfold WORD; omega
  unfold not64
  rw [Nat.mod_eq_of_lt h1, Nat.testBit_xor]
  unfold WORD
  rw [Nat.testBit_two_pow_sub_one, Nat.testBit_two_pow_sub_one]
  by_cases h64 : i < 64 <;> by_cases hsi : i < s <;> simp [h64, hsi] <;> omega

theorem land_not64 (x s : Nat) (hs : s ≤ 64) (hx : x < WORD) :
    x &&& not64 (2 ^ s - 1) = x / 2 ^ s * 2 ^ s := by
  apply Nat.eq_of_testBit_eq
  intro i
  rw [Nat.testBit_and, not64_pow_sub_one s hs, ← Nat.shiftRight_eq_div_pow, ← Nat.shiftLeft_eq,
    Nat.testBit_shiftLeft, Nat.testBit_shiftRight]
  by_cases hsi : s ≤ i
  · have : s + (i - s) = i := by omega
    rw [this]
    by_cases h64 : i < 64
    · simp [hsi, h64]
    · have : x.testBit i = false := by
        apply Nat.testBit_lt_two_pow
        calc x < 2 ^ 64 := hx
          _ ≤ 2 ^ i := Nat.pow_le_pow_right (by norm_num) (by omega)
      simp [this]
  · simp [hsi]

theorem level_shift_succ (level : Nat) : level_shift (level + 1) = level_shift level + 9 := by
  unfold level_shift PAGE_LEVEL_BITS; ring

theorem two_pow_level_shift_succ (level : Nat) :
    2 ^ level_shift (level + 1) = 2 ^ level_shift level * 512 := by
  rw [level_shift_succ, pow_add]; norm_num

theorem word_eq_mul (S : Nat) (hS : S ≤ 64) : WORD = 2 ^ (64 - S) * 2 ^ S := by
  rw [← pow_add]
  have : 64 - S + S = 64 := by omega
  rw [this]; rfl

theorem mm_entry_size_eq (level : Nat) (h : level_shift level < 64) :
    mm_entry_size level = 2 ^ level_shift level := by
  unfold mm_entry_size
  rw [Nat.shiftLeft_eq, one_mul]
  apply Nat.mod_eq_of_lt
  unfold WORD
  exact Nat.pow_lt_pow_right (by norm_num) h

theorem mm_index_eq (va level : Nat) :
    mm_index va level = va / 2 ^ level_shift level % 512 := by
  unfold mm_index
  rw [Nat.shiftRight_eq_div_pow]
  have : (1 <<< PAGE_LEVEL_BITS) - 1 = 2 ^ 9 - 1 := by decide
  rw [this, Nat.and_pow_two_sub_one_eq_mod]
  rfl

theorem mm_index_lt (va level : Nat) : mm_index va level < ENTRIES := by
  rw [mm_index_eq]
  have : ENTRIES = 512 := by decide
  omega

theorem mm_level_end_eq (va level : Nat) :
    mm_level_end va level =
      ((va / 2 ^ level_shift (level + 1) + 1) * 2 ^ level_shift (level + 1)) % WORD := by
  unfold mm_level_end
  rw [Nat.shiftRight_eq_div_pow, Nat.shiftLeft_eq]
  rfl

/-- The next multiple of `2 ^ S` above a 64-bit value is at most `2 ^ 64`. -/
theorem next_multiple_le (va S : Nat) (hS : S ≤ 64) (hva : va < WORD) :
    (va / 2 ^ S + 1) * 2 ^ S ≤ WORD := by
  have hpos : 0 < 2 ^ S := Nat.pos_pow_of_pos _ (by norm_num)
  have h1 : va / 2 ^ S < 2 ^ (64 - S) := by
    rw [Nat.div_lt_iff_lt_mul hpos, ← word_eq_mul S hS]
    exact hva
  have h2 : (va / 2 ^ S + 1) * 2 ^ S ≤ 2 ^ (64 - S) * 2 ^ S :=
    Nat.mul_le_mul_right _ h1
  rw [← word_eq_mul S hS] at h2
  exact h2

/-- When the end of the level has not wrapped, it is the next multiple of the
table's span above `va`. -/
theorem mm_level_end_of_lt (va x level : Nat) (hS : level_shift (level + 1) ≤ 64)
    (hva : va < WORD) (hx : x < mm_level_end va level) :
    mm_level_end va level = (va / 2 ^ level_shift (level + 1) + 1) * 2 ^ level_shift (level + 1) ∧
    (va / 2 ^ level_shift (level + 1) + 1) * 2 ^ level_shift (level + 1) < WORD := by
  rw [mm_level_end_eq] at hx ⊢
  rcases Nat.lt_or_eq_of_le (next_multiple_le va _ hS hva) with hlt | heq
  · exact ⟨Nat.mod_eq_of_lt hlt, hlt⟩
  · rw [heq, Nat.mod_self] at hx
    omega

/-- The arithmetic of one step of the loop: the slot index stays below 512 and
the rounded successor of `begin` does not overflow. -/
theorem loop_arith (es W j k b idx : Nat) (hes : 0 < es) (hW : W = j * (es * 512))
    (hX : (k + 1) * (es * 512) < W) (hlt : b < (k + 1) * (es * 512))
    (hidx : b / es = k * 512 + idx) :
    idx < 512 ∧ b + es < W ∧ (b + es) / es = k * 512 + (idx + 1) := by
  have hq : b / es < (k + 1) * 512 := by
    rw [Nat.div_lt_iff_lt_mul hes]
    calc b < (k + 1) * (es * 512) := hlt
      _ = (k + 1) * 512 * es := by ring
  have hkj : k + 1 < j := by
    by_contra hc
    have h1 : j ≤ k + 1 := by omega
    have h2 : j * (es * 512) ≤ (k + 1) * (es * 512) := Nat.mul_le_mul_right _ h1
    omega
  have h3 : (k + 2) * (es * 512) ≤ j * (es * 512) := Nat.mul_le_mul_right _ (by omega)
  have h4 : (k + 2) * (es * 512) = (k + 1) * (es * 512) + es * 512 := by ring
  have h512 : es ≤ es * 512 := by omega
  refine ⟨by omega, by omega, ?_⟩
  rw [Nat.add_div_right _ hes, hidx]
  omega

theorem loopPos_init (level va_begin pa : Nat) (hpa : pa % PAGE_SIZE = 0) :
    LoopPos level va_begin va_begin pa (mm_index va_begin level) := by
  refine ⟨hpa, ?_⟩
  rw [mm_index_eq, ← Nat.div_div_eq_div_mul]
  omega

theorem entry_size_aligned (level x : Nat) :
    (x * 2 ^ level_shift level) % PAGE_SIZE = 0 := by
  have : 2 ^ level_shift level = 2 ^ (level * PAGE_LEVEL_BITS) * PAGE_SIZE := by
    unfold level_shift PAGE_SIZE
    rw [Nat.add_comm, pow_add]
  rw [this, ← Nat.mul_assoc]
  exact Nat.mul_mod_left _ _

theorem loopPos_step (level va_begin va_end begin pa idx : Nat)
    (hS : level_shift (level + 1) ≤ 64) (hva : va_begin < WORD)
    (hpos : LoopPos level va_begin begin pa idx)
    (hlt : begin < (if va_end > mm_level_end va_begin level then mm_level_end va_begin level
      else va_end)) :
    idx < ENTRIES ∧
    LoopPos level va_begin
      (((begin + mm_entry_size level) % WORD) &&& not64 (mm_entry_size level - 1))
      (((pa + mm_entry_size level) % WORD) &&& not64 (mm_entry_size level - 1)) (idx + 1) := by
  have hs9 := level_shift_succ level
  have hs : level_shift level < 64 := by omega
  have hs' : level_shift level ≤ 64 := by omega
  have hlt' : begin < mm_level_end va_begin level := by
    split at hlt <;> omega
  obtain ⟨hle, hX⟩ := mm_level_end_of_lt va_begin begin level hS hva hlt'
  rw [hle] at hlt'
  rw [two_pow_level_shift_succ] at hlt' hX
  obtain ⟨hpa, hidx⟩ := hpos
  have hespos : 0 < 2 ^ level_shift level := Nat.pos_pow_of_pos _ (by norm_num)
  have hW : WORD = 2 ^ (64 - level_shift (level + 1)) * (2 ^ level_shift level * 512) := by
    rw [← two_pow_level_shift_succ]; exact word_eq_mul _ hS
  obtain ⟨h1, h2, h3⟩ := loop_arith _ _ _ _ _ _ hespos hW hX hlt' hidx
  have hE : ENTRIES = 512 := by decide
  rw [mm_entry_size_eq level hs]
  refine ⟨by omega, ?_, ?_⟩
  · rw [land_not64 _ _ hs' (Nat.mod_lt _ (by unfold WORD; norm_num))]
    exact entry_size_aligned _ _
  · rw [Nat.mod_eq_of_lt h2, land_not64 _ _ hs' h2, Nat.mul_div_cancel _ hespos, h3]

theorem mm_level_end_nest (addr level : Nat) (hS : level_shift (level + 2) ≤ 64)
    (h : addr < mm_level_end addr (level + 1)) : addr < mm_level_end addr level := by
  have hW : mm_level_end addr (level + 1) < WORD := by
    rw [mm_level_end_eq]; exact Nat.mod_lt _ (by unfold WORD; norm_num)
  have haddr : addr < WORD := by omega
  obtain ⟨h1, h2⟩ := mm_level_end_of_lt addr addr (level + 1) hS haddr h
  rw [h1] at h
  rw [mm_level_end_eq]
  rw [two_pow_level_shift_succ (level + 1)] at h h2
  have hpos : 0 < 2 ^ level_shift (level + 1) := Nat.pos_pow_of_pos _ (by norm_num)
  have hq : addr / 2 ^ level_shift (level + 1)
      < (addr / (2 ^ level_shift (level + 1) * 512) + 1) * 512 := by
    rw [Nat.div_lt_iff_lt_mul hpos]
    calc addr < (addr / (2 ^ level_shift (level + 1) * 512) + 1)
            * (2 ^ level_shift (level + 1) * 512) := h
      _ = (addr / (2 ^ level_shift (level + 1) * 512) + 1) * 512
            * 2 ^ level_shift (level + 1) := by ring
  have hle : (addr / 2 ^ level_shift (level + 1) + 1) * 2 ^ level_shift (level + 1)
      ≤ (addr / (2 ^ level_shift (level + 1) * 512) + 1)
          * (2 ^ level_shift (level + 1) * 512) := by
    calc (addr / 2 ^ level_shift (level + 1) + 1) * 2 ^ level_shift (level + 1)
        ≤ ((addr / (2 ^ level_shift (level + 1) * 512) + 1) * 512)
            * 2 ^ level_shift (level + 1) := Nat.mul_le_mul_right _ hq
      _ = _ := by ring
  rw [Nat.mod_eq_of_lt (by omega)]
  exact (Nat.div_lt_iff_lt_mul hpos).1 (Nat.lt_succ_self _)

/-! ## Unfolding the recursive definitions -/

theorem mm_is_mapped_recursive_zero (A : Arch) (m : Mem) (addr p : Nat) :
    mm_is_mapped_recursive A m addr 0 p =
      if addr ≥ mm_level_end addr 0 then false
      else A.arch_mm_pte_is_present (m p (mm_index addr 0)) := by
  rw [mm_is_mapped_recursive]

theorem mm_is_mapped_recursive_succ (A : Arch) (m : Mem) (addr l p : Nat) :
    mm_is_mapped_recursive A m addr (l + 1) p =
      if addr ≥ mm_level_end addr (l + 1) then false
      else if A.arch_mm_is_block_allowed (l + 1) && A.arch_mm_pte_is_block (m p (mm_index addr (l + 1)))
        then true
      else if A.arch_mm_pte_is_table (m p (mm_index addr (l + 1))) then
        mm_is_mapped_recursive A m addr l (A.arch_mm_pte_to_table (m p (mm_index addr (l + 1))))
      else false := by
  rw [mm_is_mapped_recursive]

theorem mm_map_level_loop_zero (A : Arch) (recurse : Nat → Nat → State → Option (Bool × State))
    (level end_ entry_size attrs : Nat) (commit sync : Bool) (table begin pa idx : Nat) (s : State) :
    mm_map_level_loop A recurse level end_ entry_size attrs commit sync table 0 begin pa idx s =
      if begin < end_ then none else some (true, s) := by
  rw [mm_map_level_loop]

theorem mm_map_level_eq (A : Arch) (va_begin va_end attrs flags level pa table : Nat) (s : State) :
    mm_map_level A va_begin va_end attrs flags level pa table s =
    mm_map_level_loop A
      (match level with
        | 0 => fun _ _ _ => none
        | l + 1 => fun pa1 nt s1 => mm_map_level A va_begin va_end attrs flags l pa1 nt s1)
      level (if va_end > mm_level_end va_begin level then mm_level_end va_begin level else va_end)
      (mm_entry_size level) attrs (decide (flags &&& MAP_FLAG_COMMIT ≠ 0))
      (decide (flags &&& MAP_FLAG_SYNC ≠ 0)) table
      ENTRIES va_begin pa (mm_index va_begin level) s := by
  cases level <;> rw [mm_map_level]

/-! ## Footprints and frames -/

theorem footprint_eq (A : Arch) (m : Mem) (level p : Nat) :
    footprint A m level p = {q | q = p ∨ ∃ j, q ∈ subtree A m level p j} := by
  cases level with
  | zero => ext q; simp [footprint, subtree]
  | succ l =>
    ext q
    simp only [footprint, subtree, Set.mem_setOf_eq]

theorem self_mem_footprint (A : Arch) (m : Mem) (level p : Nat) : p ∈ footprint A m level p := by
  cases level <;> simp [footprint]

/-- The footprint, the tree property and the query depend on the tables of the
footprint only. -/
theorem footprint_agree (A : Arch) (m m' : Mem) :
    ∀ level p, (∀ q, q ∈ footprint A m level p → ∀ i, i < ENTRIES → m' q i = m q i) →
      footprint A m' level p = footprint A m level p := by
  intro level
  induction level with
  | zero => intro p _; rfl
  | succ l ih =>
    intro p h
    have hp : ∀ i, i < ENTRIES → m' p i = m p i := h p (self_mem_footprint A m (l + 1) p)
    ext q
    simp only [footprint, Set.mem_setOf_eq]
    constructor
    · rintro (rfl | ⟨j, hj, ht, hq⟩)
      · exact Or.inl rfl
      · rw [hp j hj] at ht hq
        rw [ih _ (fun q' hq' i hi => h q' (Or.inr ⟨j, hj, ht, hq'⟩) i hi)] at hq
        exact Or.inr ⟨j, hj, ht, hq⟩
    · rintro (rfl | ⟨j, hj, ht, hq⟩)
      · exact Or.inl rfl
      · refine Or.inr ⟨j, hj, ?_, ?_⟩
        · rw [hp j hj]; exact ht
        · rw [hp j hj, ih _ (fun q' hq' i hi => h q' (Or.inr ⟨j, hj, ht, hq'⟩) i hi)]
          exact hq

theorem tree_agree (A : Arch) (m m' : Mem) :
    ∀ level p, (∀ q, q ∈ footprint A m level p → ∀ i, i < ENTRIES → m' q i = m q i) →
      Tree A m level p → Tree A m' level p := by
  intro level
  induction level with
  | zero => intro p _ _; trivial
  | succ l ih =>
    intro p h ht
    have hp : ∀ i, i < ENTRIES → m' p i = m p i := h p (self_mem_footprint A m (l + 1) p)
    have hsub : ∀ j, j < ENTRIES → A.arch_mm_pte_is_table (m p j) = true →
        ∀ q, q ∈ footprint A m l (A.arch_mm_pte_to_table (m p j)) →
          ∀ i, i < ENTRIES → m' q i = m q i :=
      fun j hj htj q hq i hi => h q (Or.inr ⟨j, hj, htj, hq⟩) i hi
    obtain ⟨hb, hc, hd⟩ := ht
    refine ⟨?_, ?_, ?_⟩
    · intro j hj hbj
      rw [hp j hj] at hbj
      exact hb j hj hbj
    · intro j hj htj
      rw [hp j hj] at htj ⊢
      rw [footprint_agree A m m' l _ (hsub j hj htj)]
      exact ⟨ih _ (hsub j hj htj) (hc j hj htj).1, (hc j hj htj).2⟩
    · intro i j hi hj hij hti htj
      rw [hp i hi] at hti ⊢
      rw [hp j hj] at htj ⊢
      rw [footprint_agree A m m' l _ (hsub i hi hti), footprint_agree A m m' l _ (hsub j hj htj)]
      exact hd i j hi hj hij hti htj


theorem is_mapped_agree (A : Arch) (m m' : Mem) (addr : Nat) :
    ∀ level p, (∀ q, q ∈ footprint A m level p → ∀ i, i < ENTRIES → m' q i = m q i) →
      mm_is_mapped_recursive A m' addr level p = mm_is_mapped_recursive A m addr level p := by
  intro level
  induction level with
  | zero =>
    intro p h
    rw [mm_is_mapped_recursive_zero, mm_is_mapped_recursive_zero,
      h p (self_mem_footprint A m 0 p) _ (mm_index_lt _ _)]
  | succ l ih =>
    intro p h
    rw [mm_is_mapped_recursive_succ, mm_is_mapped_recursive_succ,
      h p (self_mem_footprint A m (l + 1) p) _ (mm_index_lt _ _)]
    by_cases ht : A.arch_mm_pte_is_table (m p (mm_index addr (l + 1))) = true
    · rw [ih _ (fun q hq i hi => h q (Or.inr ⟨_, mm_index_lt _ _, ht, hq⟩) i hi)]
    · simp [ht]

theorem write_same (m : Mem) (p i v : Nat) : (m.write p i v) p i = v := by
  simp [Mem.write]

theorem write_other (m : Mem) (p i v q j : Nat) (h : q ≠ p ∨ j ≠ i) :
    (m.write p i v) q j = m q j := by
  unfold Mem.write
  rcases h with h | h <;> simp [h]

theorem fill_spec (ntable inc : Nat) :
    ∀ n i v (m : Mem) q j,
      (mm_populate_fill ntable inc n i v m) q j =
        if q = ntable ∧ i ≤ j ∧ j < i + n then fill_val inc (j - i) v else m q j := by
  intro n
  induction n with
  | zero =>
    intro i v m q j
    rw [mm_populate_fill]
    have : ¬(q = ntable ∧ i ≤ j ∧ j < i + 0) := by omega
    rw [if_neg this]
  | succ n ih =>
    intro i v m q j
    rw [mm_populate_fill, ih]
    by_cases h1 : q = ntable ∧ i + 1 ≤ j ∧ j < i + 1 + n
    · have h2 : q = ntable ∧ i ≤ j ∧ j < i + (n + 1) := ⟨h1.1, by omega, by omega⟩
      rw [if_pos h1, if_pos h2]
      have : j - i = (j - (i + 1)) + 1 := by omega
      rw [this, fill_val]
    · rw [if_neg h1]
      by_cases h2 : q = ntable ∧ i ≤ j ∧ j < i + (n + 1)
      · have hji : j = i := by
          by_contra hne
          exact h1 ⟨h2.1, by omega, by omega⟩
        rw [if_pos h2, hji, h2.1, write_same, Nat.sub_self, fill_val]
      · rw [if_neg h2]
        apply write_other
        by_contra hc
        push_neg at hc
        exact h2 ⟨hc.1, by omega, by omega⟩

theorem fill_val_pred (P : Nat → Prop) (inc : Nat) (hstep : ∀ w, P w → P ((w + inc) % WORD)) :
    ∀ k v, P v → P (fill_val inc k v) := by
  intro k
  induction k with
  | zero => intro v hv; exact hv
  | succ k ih => intro v hv; rw [fill_val]; exact ih _ (hstep v hv)

theorem fill_val_zero_inc (v : Nat) (hv : v < WORD) : ∀ k, fill_val 0 k v = v := by
  intro k
  induction k with
  | zero => rfl
  | succ k ih => rw [fill_val, Nat.add_zero, Nat.mod_eq_of_lt hv, ih]

theorem mem_fresh_pages_append (l1 l2 : List Nat) (q : Nat) :
    q ∈ fresh_pages (l1 ++ l2) ↔ q ∈ fresh_pages l1 ∨ q ∈ fresh_pages l2 := by
  simp only [fresh_pages, Set.mem_setOf_eq, List.mem_append]
  tauto

theorem heapOK_mono (heap : List Nat) (U V : Set Nat) (h : HeapOK heap U)
    (hVU : ∀ q, q ∈ V → q ∈ U) : HeapOK heap V :=
  ⟨fun q hq => ⟨fun hv => (h.1 q hq).1 (hVU q hv), (h.1 q hq).2⟩, h.2⟩

/-- Pages already handed out are not handed out again. -/
theorem heapOK_used_not_rest (used rest : List Nat) (U : Set Nat)
    (h : HeapOK (used ++ rest) U) (q : Nat) (hq : q ∈ fresh_pages used) :
    q ∉ fresh_pages rest := by
  intro hr
  have := (List.pairwise_append.1 h.2).2.2 q hq.2 q hr.2 hq.1
  exact this rfl

theorem heapOK_advance (used rest : List Nat) (U V : Set Nat)
    (h : HeapOK (used ++ rest) U)
    (hV : ∀ q, q ∈ V → q ∈ U ∨ q ∈ fresh_pages used) : HeapOK rest V := by
  refine ⟨fun q hq => ⟨?_, ?_⟩, (List.pairwise_append.1 h.2).2.1⟩
  · intro hv
    rcases hV q hv with hu | hu
    · exact (h.1 q ((mem_fresh_pages_append _ _ _).2 (Or.inr hq))).1 hu
    · exact heapOK_used_not_rest used rest U h q hu hq
  · exact (h.1 q ((mem_fresh_pages_append _ _ _).2 (Or.inr hq))).2

theorem ext_refl (A : Arch) (level p : Nat) (s : State) (ht : Tree A s.mem level p) :
    Ext A level p s s :=
  ⟨ht, rfl, [], rfl, fun _ hq => Or.inl hq, fun _ _ _ _ => rfl⟩

theorem ext_trans (A : Arch) (level p : Nat) (s s1 s2 : State)
    (h1 : Ext A level p s s1) (h2 : Ext A level p s1 s2) : Ext A level p s s2 := by
  obtain ⟨_, htlb1, u1, hu1, hg1, hf1⟩ := h1
  obtain ⟨ht2, htlb2, u2, hu2, hg2, hf2⟩ := h2
  refine ⟨ht2, htlb2.trans htlb1, u1 ++ u2, ?_, ?_, ?_⟩
  · rw [hu1, hu2, List.append_assoc]
  · intro q hq
    rcases hg2 q hq with h | h
    · rcases hg1 q h with h' | h'
      · exact Or.inl h'
      · exact Or.inr ((mem_fresh_pages_append _ _ _).2 (Or.inl h'))
    · exact Or.inr ((mem_fresh_pages_append _ _ _).2 (Or.inr h))
  · intro q hq hu i
    have hu1' : q ∉ fresh_pages u1 := fun h => hu ((mem_fresh_pages_append _ _ _).2 (Or.inl h))
    have hu2' : q ∉ fresh_pages u2 := fun h => hu ((mem_fresh_pages_append _ _ _).2 (Or.inr h))
    have hq1 : q ∉ footprint A s1.mem level p := by
      intro h
      rcases hg1 q h with h' | h'
      · exact hq h'
      · exact hu1' h'
    rw [hf2 q hq1 hu2' i, hf1 q hq hu1' i]

theorem heapOK_ext (A : Arch) (level p : Nat) (s s' : State)
    (h : HeapOK s.heap (footprint A s.mem level p)) (he : Ext A level p s s') :
    HeapOK s'.heap (footprint A s'.mem level p) := by
  obtain ⟨_, _, u, hu, hg, _⟩ := he
  rw [hu] at h
  exact heapOK_advance u s'.heap _ _ h hg

theorem subtree_subset_footprint (A : Arch) (m : Mem) (level p j q : Nat)
    (h : q ∈ subtree A m level p j) : q ∈ footprint A m level p := by
  rw [footprint_eq]; exact Or.inr ⟨j, h⟩

theorem subtree_agree (A : Arch) (m m' : Mem) (level p j : Nat)
    (hslot : m' p j = m p j)
    (h : ∀ q, q ∈ subtree A m level p j → ∀ i, m' q i = m q i) :
    subtree A m' level p j = subtree A m level p j := by
  cases level with
  | zero => rfl
  | succ l =>
    ext q
    simp only [subtree, Set.mem_setOf_eq, hslot]
    constructor
    · rintro ⟨hj, ht, hq⟩
      rw [footprint_agree A m m' l _ (fun q' hq' i _ => h q' ⟨hj, ht, hq'⟩ i)] at hq
      exact ⟨hj, ht, hq⟩
    · rintro ⟨hj, ht, hq⟩
      rw [footprint_agree A m m' l _ (fun q' hq' i _ => h q' ⟨hj, ht, hq'⟩ i)]
      exact ⟨hj, ht, hq⟩

theorem keeps_trans (A : Arch) (level p : Nat) (k1 k2 k : Nat → Prop) (s s1 s2 : State)
    (h1 : Keeps A level p k1 s s1) (h2 : Keeps A level p k2 s1 s2)
    (hk : ∀ j, k j → k1 j ∧ k2 j) : Keeps A level p k s s2 := by
  intro j hj
  obtain ⟨hs1, ht1⟩ := h1 j (hk j hj).1
  obtain ⟨hs2, ht2⟩ := h2 j (hk j hj).2
  have hsub := subtree_agree A s.mem s1.mem level p j hs1 ht1
  refine ⟨hs2.trans hs1, fun q hq i => ?_⟩
  rw [ht2 q (by rw [hsub]; exact hq) i, ht1 q hq i]

theorem keeps_refl (A : Arch) (level p : Nat) (k : Nat → Prop) (s : State) :
    Keeps A level p k s s := fun _ _ => ⟨rfl, fun _ _ _ => rfl⟩

theorem keeps_weaken (A : Arch) (level p : Nat) (k1 k : Nat → Prop) (s s1 : State)
    (h1 : Keeps A level p k1 s s1) (hk : ∀ j, k j → k1 j) : Keeps A level p k s s1 :=
  fun j hj => h1 j (hk j hj)

/-- A store into the table `p` does not change a footprint that does not hold `p`. -/
theorem write_agree_footprint (A : Arch) (m : Mem) (p idx v level r : Nat)
    (hp : p ∉ footprint A m level r) :
    ∀ q, q ∈ footprint A m level r → ∀ i, i < ENTRIES → (m.write p idx v) q i = m q i := by
  intro q hq i _
  apply write_other
  left
  intro h
  exact hp (h ▸ hq)

theorem ext_write (A : Arch) (level p idx v : Nat) (s s2 : State)
    (hmem : s2.mem = s.mem.write p idx v) (hheap : s2.heap = s.heap) (htlb : s2.tlb = s.tlb)
    (ht : Tree A s.mem level p)
    (hv : level ≠ 0 → A.arch_mm_pte_is_table v = false ∧
      (A.arch_mm_pte_is_block v = true → A.arch_mm_is_block_allowed level = true)) :
    Ext A level p s s2 ∧ Keeps A level p (fun j => j ≠ idx) s s2 := by
  unfold Ext Keeps
  rw [hmem, hheap, htlb]
  cases level with
  | zero =>
    refine ⟨⟨trivial, rfl, [], rfl, fun q hq => Or.inl hq, ?_⟩, ?_⟩
    · intro q hq _ i
      exact write_other _ _ _ _ _ _ (Or.inl hq)
    · intro j hj
      exact ⟨write_other _ _ _ _ _ _ (Or.inr hj), fun q hq => hq.elim⟩
  | succ l =>
    obtain ⟨hvt, hvb⟩ := hv (Nat.succ_ne_zero l)
    obtain ⟨hb, hc, hd⟩ := ht
    have hslot : ∀ j, j ≠ idx → (s.mem.write p idx v) p j = s.mem p j :=
      fun j hj => write_other _ _ _ _ _ _ (Or.inr hj)
    have hfp : ∀ j, j < ENTRIES → A.arch_mm_pte_is_table (s.mem p j) = true →
        footprint A (s.mem.write p idx v) l (A.arch_mm_pte_to_table (s.mem p j)) =
          footprint A s.mem l (A.arch_mm_pte_to_table (s.mem p j)) :=
      fun j hj htj => footprint_agree A _ _ l _
        (write_agree_footprint A s.mem p idx v l _ (hc j hj htj).2)
    have htab : ∀ j, A.arch_mm_pte_is_table ((s.mem.write p idx v) p j) = true →
        j ≠ idx := by
      intro j hj hji
      rw [hji, write_same, hvt] at hj
      exact Bool.false_ne_true hj
    refine ⟨⟨⟨?_, ?_, ?_⟩, rfl, [], rfl, ?_, ?_⟩, ?_⟩
    · intro j hj hbj
      by_cases hji : j = idx
      · rw [hji, write_same] at hbj
        exact hvb hbj
      · rw [hslot j hji] at hbj
        exact hb j hj hbj
    · intro j hj htj
      have hji := htab j htj
      rw [hslot j hji] at htj ⊢
      rw [hfp j hj htj]
      exact ⟨tree_agree A _ _ l _ (write_agree_footprint A s.mem p idx v l _ (hc j hj htj).2)
        (hc j hj htj).1, (hc j hj htj).2⟩
    · intro i j hi hj hij hti htj
      have hii := htab i hti
      have hji := htab j htj
      rw [hslot i hii] at hti ⊢
      rw [hslot j hji] at htj ⊢
      rw [hfp i hi hti, hfp j hj htj]
      exact hd i j hi hj hij hti htj
    · intro q hq
      left
      rcases hq with rfl | ⟨j, hj, htj, hq⟩
      · exact Or.inl rfl
      · have hji := htab j htj
        rw [hslot j hji] at htj hq
        rw [hfp j hj htj] at hq
        exact Or.inr ⟨j, hj, htj, hq⟩
    · intro q hq _ i
      apply write_other
      left
      intro h
      exact hq (h ▸ self_mem_footprint A s.mem (l + 1) p)
    · intro j hj
      refine ⟨hslot j hj, ?_⟩
      rintro q ⟨hjl, htj, hq⟩ i
      apply write_other
      left
      intro h
      exact (hc j hjl htj).2 (h ▸ hq)

theorem ext_lift (A : Arch) (l p idx : Nat) (s1 s2 : State) (hidx : idx < ENTRIES)
    (ht : Tree A s1.mem (l + 1) p)
    (hT : A.arch_mm_pte_is_table (s1.mem p idx) = true)
    (hh : HeapOK s1.heap (footprint A s1.mem (l + 1) p))
    (he : Ext A l (A.arch_mm_pte_to_table (s1.mem p idx)) s1 s2) :
    Ext A (l + 1) p s1 s2 ∧ Keeps A (l + 1) p (fun j => j ≠ idx) s1 s2 ∧
      (∀ i, s2.mem p i = s1.mem p i) := by
  obtain ⟨hb, hc, hd⟩ := ht
  obtain ⟨ht2, htlb, u, hu, hg, hf⟩ := he
  -- tables of the parent's footprint are not handed out by the allocator
  have hfresh : ∀ q, q ∈ footprint A s1.mem (l + 1) p → q ∉ fresh_pages u := by
    intro q hq hqu
    have : q ∈ fresh_pages s1.heap := by
      rw [hu]; exact (mem_fresh_pages_append _ _ _).2 (Or.inl hqu)
    exact (hh.1 q this).1 hq
  have hp : ∀ i, s2.mem p i = s1.mem p i :=
    hf p (hc idx hidx hT).2 (hfresh p (self_mem_footprint A s1.mem (l + 1) p))
  have hsib : ∀ j, j < ENTRIES → j ≠ idx → A.arch_mm_pte_is_table (s1.mem p j) = true →
      ∀ q, q ∈ footprint A s1.mem l (A.arch_mm_pte_to_table (s1.mem p j)) →
        ∀ i, s2.mem q i = s1.mem q i := by
    intro j hj hji htj q hq
    exact hf q (hd j idx hj hidx hji htj hT q hq) (hfresh q (Or.inr ⟨j, hj, htj, hq⟩))
  have hfp : ∀ j, j < ENTRIES → j ≠ idx → A.arch_mm_pte_is_table (s1.mem p j) = true →
      footprint A s2.mem l (A.arch_mm_pte_to_table (s1.mem p j)) =
        footprint A s1.mem l (A.arch_mm_pte_to_table (s1.mem p j)) :=
    fun j hj hji htj => footprint_agree A _ _ l _ (fun q hq i _ => hsib j hj hji htj q hq i)
  -- the footprint of the child in the new state
  have hchild : ∀ q, q ∈ footprint A s2.mem l (A.arch_mm_pte_to_table (s1.mem p idx)) →
      (q ∈ footprint A s1.mem l (A.arch_mm_pte_to_table (s1.mem p idx)) ∨ q ∈ fresh_pages u) :=
    hg
  refine ⟨⟨⟨?_, ?_, ?_⟩, htlb, u, hu, ?_, ?_⟩, ?_, hp⟩
  · intro j hj hbj
    rw [hp j] at hbj
    exact hb j hj hbj
  · intro j hj htj
    rw [hp j] at htj ⊢
    by_cases hji : j = idx
    · subst hji
      refine ⟨ht2, fun hmem => ?_⟩
      rcases hchild p hmem with h | h
      · exact (hc j hj htj).2 h
      · exact hfresh p (self_mem_footprint A s1.mem (l + 1) p) h
    · rw [hfp j hj hji htj]
      exact ⟨tree_agree A _ _ l _ (fun q hq i _ => hsib j hj hji htj q hq i) (hc j hj htj).1,
        (hc j hj htj).2⟩
  · intro i j hi hj hij hti htj q hq
    rw [hp i] at hti hq
    rw [hp j] at htj ⊢
    by_cases hii : i = idx
    · subst hii
      have hji : j ≠ i := fun h => hij h.symm
      rw [hfp j hj hji htj]
      rcases hchild q hq with h | h
      · exact hd i j hi hj hij hti htj q h
      · intro hqj
        exact hfresh q (Or.inr ⟨j, hj, htj, hqj⟩) h
    · rw [hfp i hi hii hti] at hq
      by_cases hji : j = idx
      · subst hji
        intro hqj
        rcases hchild q hqj with h | h
        · exact hd i j hi hj hij hti htj q hq h
        · exact hfresh q (Or.inr ⟨i, hi, hti, hq⟩) h
      · rw [hfp j hj hji htj]
        exact hd i j hi hj hij hti htj q hq
  · intro q hq
    rcases hq with rfl | ⟨j, hj, htj, hq⟩
    · exact Or.inl (Or.inl rfl)
    · rw [hp j] at htj hq
      by_cases hji : j = idx
      · subst hji
        rcases hchild q hq with h | h
        · exact Or.inl (Or.inr ⟨j, hj, htj, h⟩)
        · exact Or.inr h
      · rw [hfp j hj hji htj] at hq
        exact Or.inl (Or.inr ⟨j, hj, htj, hq⟩)
  · intro q hq hqu i
    exact hf q (fun h => hq (Or.inr ⟨idx, hidx, hT, h⟩)) hqu i
  · intro j hji
    refine ⟨hp j, ?_⟩
    rintro q ⟨hj, htj, hq⟩ i
    exact hsib j hj hji htj q hq i

theorem is_mapped_lift (A : Arch) (l p idx : Nat) (m1 m2 : Mem)
    (hp : ∀ i, m2 p i = m1 p i)
    (hk : ∀ j, j ≠ idx → ∀ q, q ∈ subtree A m1 (l + 1) p j → ∀ i, m2 q i = m1 q i)
    (hchild : ∀ x, mm_is_mapped_recursive A m2 x l (A.arch_mm_pte_to_table (m1 p idx)) =
      mm_is_mapped_recursive A m1 x l (A.arch_mm_pte_to_table (m1 p idx)))
    (x : Nat) :
    mm_is_mapped_recursive A m2 x (l + 1) p = mm_is_mapped_recursive A m1 x (l + 1) p := by
  rw [mm_is_mapped_recursive_succ, mm_is_mapped_recursive_succ, hp]
  by_cases ht : A.arch_mm_pte_is_table (m1 p (mm_index x (l + 1))) = true
  · by_cases hji : mm_index x (l + 1) = idx
    · rw [hji, hchild]
    · rw [is_mapped_agree A m1 m2 x l _
        (fun q hq i _ => hk _ hji q ⟨mm_index_lt _ _, ht, hq⟩ i)]
  · simp [ht]

/-- A table none of whose entries is a table is a tree on its own. -/
theorem footprint_leaf_table (A : Arch) (m : Mem) (l nt : Nat)
    (h : l ≠ 0 → ∀ i, i < ENTRIES → A.arch_mm_pte_is_table (m nt i) = false) :
    ∀ q, q ∈ footprint A m l nt ↔ q = nt := by
  intro q
  cases l with
  | zero => simp [footprint]
  | succ l =>
    simp only [footprint, Set.mem_setOf_eq]
    constructor
    · rintro (h1 | ⟨j, hj, htj, _⟩)
      · exact h1
      · rw [h (Nat.succ_ne_zero l) j hj] at htj
        exact absurd htj Bool.false_ne_true
    · intro h1; exact Or.inl h1

theorem tree_leaf_table (A : Arch) (m : Mem) (l nt : Nat)
    (h : l ≠ 0 → ∀ i, i < ENTRIES → A.arch_mm_pte_is_table (m nt i) = false ∧
      (A.arch_mm_pte_is_block (m nt i) = true → A.arch_mm_is_block_allowed l = true)) :
    Tree A m l nt := by
  cases l with
  | zero => trivial
  | succ l =>
    have h' := h (Nat.succ_ne_zero l)
    refine ⟨fun j hj hb => (h' j hj).2 hb, ?_, ?_⟩
    · intro j hj htj
      rw [(h' j hj).1] at htj
      exact absurd htj Bool.false_ne_true
    · intro i j hi _ _ hti
      rw [(h' i hi).1] at hti
      exact absurd hti Bool.false_ne_true

/-- Linking a fresh table without sub-tables into slot `idx` of the table `p`. -/
theorem ext_link (A : Arch) (l p idx nt : Nat) (m m2 : Mem) (hidx : idx < ENTRIES)
    (ht : Tree A m (l + 1) p)
    (hfresh : nt ∉ footprint A m (l + 1) p)
    (hold : A.arch_mm_pte_is_table (m p idx) = false)
    (h1 : ∀ q i, q ≠ p → q ≠ nt → m2 q i = m q i)
    (h2 : ∀ j, j ≠ idx → m2 p j = m p j)
    (h3t : A.arch_mm_pte_is_table (m2 p idx) = true)
    (h3b : A.arch_mm_pte_is_block (m2 p idx) = false)
    (h3p : A.arch_mm_pte_to_table (m2 p idx) = nt)
    (h4 : l ≠ 0 → ∀ i, i < ENTRIES → A.arch_mm_pte_is_table (m2 nt i) = false ∧
      (A.arch_mm_pte_is_block (m2 nt i) = true → A.arch_mm_is_block_allowed l = true)) :
    Tree A m2 (l + 1) p ∧
    (∀ q, q ∈ footprint A m2 (l + 1) p → q ∈ footprint A m (l + 1) p ∨ q = nt) ∧
    (∀ j, j ≠ idx → ∀ q, q ∈ subtree A m (l + 1) p j → ∀ i, m2 q i = m q i) := by
  obtain ⟨hb, hc, hd⟩ := ht
  have hntp : nt ≠ p := fun h => hfresh (h ▸ self_mem_footprint A m (l + 1) p)
  have hfpnt := footprint_leaf_table A m2 l nt (fun hl i hi => (h4 hl i hi).1)
  have hsib : ∀ j, j < ENTRIES → A.arch_mm_pte_is_table (m p j) = true →
      ∀ q, q ∈ footprint A m l (A.arch_mm_pte_to_table (m p j)) → ∀ i, m2 q i = m q i := by
    intro j hj htj q hq i
    apply h1
    · intro h; exact (hc j hj htj).2 (h ▸ hq)
    · intro h; exact hfresh (Or.inr ⟨j, hj, htj, h ▸ hq⟩)
  have hfp : ∀ j, j < ENTRIES → A.arch_mm_pte_is_table (m p j) = true →
      footprint A m2 l (A.arch_mm_pte_to_table (m p j)) =
        footprint A m l (A.arch_mm_pte_to_table (m p j)) :=
    fun j hj htj => footprint_agree A _ _ l _ (fun q hq i _ => hsib j hj htj q hq i)
  refine ⟨⟨?_, ?_, ?_⟩, ?_, ?_⟩
  · intro j hj hbj
    by_cases hji : j = idx
    · rw [hji, h3b] at hbj
      exact absurd hbj Bool.false_ne_true
    · rw [h2 j hji] at hbj
      exact hb j hj hbj
  · intro j hj htj
    by_cases hji : j = idx
    · subst hji
      rw [h3p]
      exact ⟨tree_leaf_table A m2 l nt h4, fun h => hntp ((hfpnt p).1 h).symm⟩
    · rw [h2 j hji] at htj ⊢
      rw [hfp j hj htj]
      exact ⟨tree_agree A _ _ l _ (fun q hq i _ => hsib j hj htj q hq i) (hc j hj htj).1,
        (hc j hj htj).2⟩
  · intro i j hi hj hij hti htj q hq
    by_cases hii : i = idx
    · subst hii
      have hji : j ≠ i := fun h => hij h.symm
      rw [h3p] at hq
      rw [h2 j hji] at htj ⊢
      rw [hfp j hj htj, (hfpnt q).1 hq]
      exact fun h => hfresh (Or.inr ⟨j, hj, htj, h⟩)
    · rw [h2 i hii] at hti hq
      rw [hfp i hi hti] at hq
      by_cases hji : j = idx
      · subst hji
        rw [h3p]
        intro h
        rw [(hfpnt q).1 h] at hq
        exact hfresh (Or.inr ⟨i, hi, hti, hq⟩)
      · rw [h2 j hji] at htj ⊢
        rw [hfp j hj htj]
        exact hd i j hi hj hij hti htj q hq
  · intro q hq
    rcases hq with rfl | ⟨j, hj, htj, hq⟩
    · exact Or.inl (Or.inl rfl)
    · by_cases hji : j = idx
      · subst hji
        rw [h3p] at hq
        exact Or.inr ((hfpnt q).1 hq)
      · rw [h2 j hji] at htj hq
        rw [hfp j hj htj] at hq
        exact Or.inl (Or.inr ⟨j, hj, htj, hq⟩)
  · rintro j _ q ⟨hj, htj, hq⟩ i
    exact hsib j hj htj q hq i

theorem halloc_sel_eq (sync : Bool) (s : State) :
    (if sync then halloc_aligned else halloc_aligned_nosync) s = halloc_aligned s := by
  cases sync <;> rfl

/-- The three ways `mm_populate_table_pte` can go: the slot already holds a
table, the allocation fails, or a new table is filled and linked. -/
theorem populate_cases (A : Arch) (p idx level : Nat) (sync : Bool) (s : State) :
    (A.arch_mm_pte_is_table (s.mem p idx) = true ∧
      mm_populate_table_pte A p idx level sync s = (A.arch_mm_pte_to_table (s.mem p idx), s)) ∨
    (A.arch_mm_pte_is_table (s.mem p idx) = false ∧
      (mm_populate_table_pte A p idx level sync s).1 = 0 ∧
      (mm_populate_table_pte A p idx level sync s).2.mem = s.mem ∧
      (mm_populate_table_pte A p idx level sync s).2.tlb = s.tlb ∧
      ∃ used, s.heap = used ++ (mm_populate_table_pte A p idx level sync s).2.heap ∧
        ∀ q, q ∉ fresh_pages used) ∨
    (A.arch_mm_pte_is_table (s.mem p idx) = false ∧
      ∃ nt rest, s.heap = nt :: rest ∧ nt ≠ 0 ∧
        (mm_populate_table_pte A p idx level sync s).1 = nt ∧
        (mm_populate_table_pte A p idx level sync s).2.heap = rest ∧
        (mm_populate_table_pte A p idx level sync s).2.tlb = s.tlb ∧
        (mm_populate_table_pte A p idx level sync s).2.mem =
          (mm_populate_fill nt
            (if !A.arch_mm_pte_is_block (s.mem p idx) then 0 else mm_entry_size (level - 1))
            ENTRIES 0
            (if !A.arch_mm_pte_is_block (s.mem p idx) then A.arch_mm_absent_pte
              else if level = 1 then A.arch_mm_block_to_page_pte (s.mem p idx) else s.mem p idx)
            s.mem).write p idx (A.arch_mm_pa_to_table_pte nt)) := by
  unfold mm_populate_table_pte
  simp only [halloc_sel_eq]
  by_cases ht : A.arch_mm_pte_is_table (s.mem p idx) = true
  · left
    simp [ht]
  · right
    have ht' : A.arch_mm_pte_is_table (s.mem p idx) = false := by simpa using ht
    simp only [ht', Bool.false_eq_true, if_false]
    cases hheap : s.heap with
    | nil =>
      left
      refine ⟨trivial, ?_⟩
      simp [halloc_aligned, hheap, fresh_pages]
    | cons nt rest =>
      by_cases hnt : nt = 0
      · left
        refine ⟨trivial, ?_⟩
        simp only [halloc_aligned, hheap, hnt, if_true]
        refine ⟨trivial, trivial, trivial, [0], rfl, fun q hq => ?_⟩
        simp [fresh_pages] at hq
      · right
        refine ⟨trivial, nt, rest, rfl, hnt, ?_⟩
        simp [halloc_aligned, hheap, hnt]

/-- The entries the split of the entry `v` at level `l + 1` writes into the new
table: absent entries when `v` is not a block, present pages when it is a block
at level 1, blocks otherwise. -/
theorem split_entries (A : Arch) (hA : Contract A) (l v k : Nat) :
    (A.arch_mm_pte_is_block v = false →
      fill_val (if !A.arch_mm_pte_is_block v then 0 else mm_entry_size (l + 1 - 1)) k
        (if !A.arch_mm_pte_is_block v then A.arch_mm_absent_pte
          else if l + 1 = 1 then A.arch_mm_block_to_page_pte v else v) = A.arch_mm_absent_pte) ∧
    (A.arch_mm_pte_is_block v = true → l = 0 →
      A.arch_mm_pte_is_present
        (fill_val (if !A.arch_mm_pte_is_block v then 0 else mm_entry_size (l + 1 - 1)) k
        (if !A.arch_mm_pte_is_block v then A.arch_mm_absent_pte
          else if l + 1 = 1 then A.arch_mm_block_to_page_pte v else v)) = true) ∧
    (A.arch_mm_pte_is_block v = true → l ≠ 0 →
      A.arch_mm_pte_is_block
        (fill_val (if !A.arch_mm_pte_is_block v then 0 else mm_entry_size (l + 1 - 1)) k
        (if !A.arch_mm_pte_is_block v then A.arch_mm_absent_pte
          else if l + 1 = 1 then A.arch_mm_block_to_page_pte v else v)) = true) := by
  refine ⟨?_, ?_, ?_⟩
  · intro hb
    simp only [hb, Bool.not_false, if_true]
    exact fill_val_zero_inc _ hA.absent_lt k
  · intro hb hl
    subst hl
    simp only [hb, Bool.not_true, Bool.false_eq_true, if_false, if_true, Nat.zero_add,
      Nat.sub_self]
    exact fill_val_pred (fun w => A.arch_mm_pte_is_present w = true) _
      (fun w hw => hA.present_step w hw) k _ (hA.block_to_page_present v hb)
  · intro hb hl
    have h1 : ¬(l + 1 = 1) := by omega
    simp only [hb, Bool.not_true, Bool.false_eq_true, if_false, h1, Nat.add_sub_cancel]
    exact fill_val_pred (fun w => A.arch_mm_pte_is_block w = true) _
      (fun w hw => hA.block_step w l hw) k _ hb

theorem not_table_of_block (A : Arch) (hA : Contract A) (v : Nat)
    (h : A.arch_mm_pte_is_block v = true) : A.arch_mm_pte_is_table v = false := by
  by_contra hc
  have ht : A.arch_mm_pte_is_table v = true := by simpa using hc
  rw [hA.table_not_block v ht] at h
  exact Bool.false_ne_true h

theorem populate_ext (A : Arch) (hA : Contract A) (l p idx : Nat) (sync : Bool) (s : State)
    (hidx : idx < ENTRIES) (hS : level_shift (l + 2) ≤ 64)
    (ht : Tree A s.mem (l + 1) p)
    (hh : HeapOK s.heap (footprint A s.mem (l + 1) p)) :
    Ext A (l + 1) p s (mm_populate_table_pte A p idx (l + 1) sync s).2 ∧
    Keeps A (l + 1) p (fun j => j ≠ idx) s (mm_populate_table_pte A p idx (l + 1) sync s).2 ∧
    (∀ x, mm_is_mapped_recursive A (mm_populate_table_pte A p idx (l + 1) sync s).2.mem x (l + 1) p
      = mm_is_mapped_recursive A s.mem x (l + 1) p) ∧
    ((mm_populate_table_pte A p idx (l + 1) sync s).1 ≠ 0 →
      A.arch_mm_pte_is_table ((mm_populate_table_pte A p idx (l + 1) sync s).2.mem p idx) = true ∧
      A.arch_mm_pte_to_table ((mm_populate_table_pte A p idx (l + 1) sync s).2.mem p idx) =
        (mm_populate_table_pte A p idx (l + 1) sync s).1) ∧
    (A.arch_mm_pte_is_table (s.mem p idx) = true →
      mm_populate_table_pte A p idx (l + 1) sync s = (A.arch_mm_pte_to_table (s.mem p idx), s)) := by
  rcases populate_cases A p idx (l + 1) sync s with
    ⟨hT, heq⟩ | ⟨hT, h0, hmem, htlb, used, hused, hnone⟩ |
    ⟨hT, nt, rest, hheap, hnt, hr1, hr2, htlb, hmem⟩
  · rw [heq]
    exact ⟨ext_refl A _ _ _ ht, keeps_refl A _ _ _ _, fun _ => rfl, fun _ => ⟨hT, rfl⟩,
      fun _ => rfl⟩
  · refine ⟨⟨?_, htlb, used, hused, ?_, ?_⟩, ?_, ?_, ?_, ?_⟩
    · rw [hmem]; exact ht
    · intro q hq; rw [hmem] at hq; exact Or.inl hq
    · intro q _ _ i; rw [hmem]
    · intro j _; rw [hmem]; exact ⟨rfl, fun _ _ _ => rfl⟩
    · intro x; rw [hmem]
    · intro h; exact absurd h0 h
    · intro h; rw [hT] at h; exact absurd h Bool.false_ne_true
  · -- a new table is filled and linked
    have hfr : nt ∈ fresh_pages s.heap := by
      rw [hheap]; exact ⟨hnt, List.mem_cons_self _ _⟩
    obtain ⟨hnew, hal, hlt⟩ := hh.1 nt hfr
    have hntp : nt ≠ p := fun h => hnew (h ▸ self_mem_footprint A s.mem (l + 1) p)
    obtain ⟨m2, hm2⟩ : ∃ m2, m2 = (mm_populate_table_pte A p idx (l + 1) sync s).2.mem :=
      ⟨_, rfl⟩
    rw [← hm2] at hmem
    have h1 : ∀ q i, q ≠ p → q ≠ nt → m2 q i = s.mem q i := by
      intro q i hqp hqn
      rw [hmem, write_other _ _ _ _ _ _ (Or.inl hqp), fill_spec, if_neg (fun h => hqn h.1)]
    have h2 : ∀ j, j ≠ idx → m2 p j = s.mem p j := by
      intro j hj
      rw [hmem, write_other _ _ _ _ _ _ (Or.inr hj), fill_spec,
        if_neg (fun h => hntp h.1.symm)]
    have h3 : m2 p idx = A.arch_mm_pa_to_table_pte nt := by
      rw [hmem, write_same]
    have h3t := hA.table_is_table nt hal hlt
    have h3p := hA.table_to_table nt hal hlt
    have h3b := hA.table_not_block _ h3t
    have hent : ∀ i, i < ENTRIES → m2 nt i =
        fill_val (if !A.arch_mm_pte_is_block (s.mem p idx) then 0 else mm_entry_size (l + 1 - 1)) i
          (if !A.arch_mm_pte_is_block (s.mem p idx) then A.arch_mm_absent_pte
            else if l + 1 = 1 then A.arch_mm_block_to_page_pte (s.mem p idx) else s.mem p idx) := by
      intro i hi
      rw [hmem, write_other _ _ _ _ _ _ (Or.inl hntp), fill_spec,
        if_pos ⟨rfl, Nat.zero_le _, by omega⟩, Nat.sub_zero]
    have hballow : A.arch_mm_pte_is_block (s.mem p idx) = true →
        A.arch_mm_is_block_allowed (l + 1) = true := ht.1 idx hidx
    have h4 : l ≠ 0 → ∀ i, i < ENTRIES → A.arch_mm_pte_is_table (m2 nt i) = false ∧
        (A.arch_mm_pte_is_block (m2 nt i) = true → A.arch_mm_is_block_allowed l = true) := by
      intro hl i hi
      rw [hent i hi]
      obtain ⟨ha, _, hb⟩ := split_entries A hA l (s.mem p idx) i
      rcases Bool.eq_false_or_eq_true (A.arch_mm_pte_is_block (s.mem p idx)) with hbv | hbv
      · exact ⟨not_table_of_block A hA _ (hb hbv hl),
          fun _ => hA.allowed_down l (by omega) (hballow hbv)⟩
      · rw [ha hbv]
        refine ⟨hA.absent_not_table, fun h => ?_⟩
        rw [hA.absent_not_block] at h
        exact absurd h Bool.false_ne_true
    obtain ⟨htree, hgrow, hsub⟩ := ext_link A l p idx nt s.mem m2 hidx ht hnew hT h1 h2
      (h3 ▸ h3t) (h3 ▸ h3b) (h3 ▸ h3p) h4
    clear hmem
    subst hm2
    refine ⟨⟨htree, htlb, [nt], ?_, ?_, ?_⟩, ?_, ?_, ?_, ?_⟩
    · rw [hr2, hheap]; rfl
    · intro q hq
      rcases hgrow q hq with h | h
      · exact Or.inl h
      · exact Or.inr ⟨h ▸ hnt, h ▸ List.mem_singleton_self _⟩
    · intro q hq hqu i
      apply h1
      · intro h; exact hq (h ▸ self_mem_footprint A s.mem (l + 1) p)
      · intro h; exact hqu ⟨h ▸ hnt, h ▸ List.mem_singleton_self _⟩
    · intro j hj
      exact ⟨h2 j hj, hsub j hj⟩
    · intro x
      rw [mm_is_mapped_recursive_succ, mm_is_mapped_recursive_succ]
      by_cases hend : x ≥ mm_level_end x (l + 1)
      · rw [if_pos hend, if_pos hend]
      · rw [if_neg hend, if_neg hend]
        by_cases hji : mm_index x (l + 1) = idx
        · rw [hji, h3, h3b, h3t, h3p, hT]
          simp only [Bool.and_false, Bool.false_eq_true, if_false, if_true]
          have hend' : ¬ x ≥ mm_level_end x l := by
            have := mm_level_end_nest x l hS (by omega)
            omega
          cases l with
          | zero =>
            rw [mm_is_mapped_recursive_zero, if_neg hend', hent _ (mm_index_lt _ _)]
            obtain ⟨ha, hb, _⟩ := split_entries A hA 0 (s.mem p idx) (mm_index x 0)
            rcases Bool.eq_false_or_eq_true (A.arch_mm_pte_is_block (s.mem p idx)) with hbv | hbv
            · rw [hb hbv rfl, hballow hbv, hbv]; simp
            · rw [ha hbv, hA.absent_not_present, hbv]; simp
          | succ l' =>
            rw [mm_is_mapped_recursive_succ, if_neg hend', hent _ (mm_index_lt _ _)]
            obtain ⟨ha, _, hb⟩ := split_entries A hA (l' + 1) (s.mem p idx)
              (mm_index x (l' + 1))
            rcases Bool.eq_false_or_eq_true (A.arch_mm_pte_is_block (s.mem p idx)) with hbv | hbv
            · rw [hb hbv (Nat.succ_ne_zero l'), hballow hbv,
                hA.allowed_down (l' + 1) (by omega) (hballow hbv), hbv]
              simp
            · rw [ha hbv, hA.absent_not_block, hA.absent_not_table, hbv]; simp
        · rw [h2 _ hji]
          by_cases htj : A.arch_mm_pte_is_table (s.mem p (mm_index x (l + 1))) = true
          · rw [is_mapped_agree A s.mem _ x l _
              (fun q hq i _ => hsub _ hji q ⟨mm_index_lt _ _, htj, hq⟩ i)]
          · simp [htj]
    · intro _
      rw [hr1, h3]
      exact ⟨h3t, h3p⟩
    · intro h; rw [hT] at h; exact absurd h Bool.false_ne_true

theorem footprint_child_subset (A : Arch) (m : Mem) (l p idx : Nat) (hidx : idx < ENTRIES)
    (hT : A.arch_mm_pte_is_table (m p idx) = true) :
    ∀ q, q ∈ footprint A m l (A.arch_mm_pte_to_table (m p idx)) → q ∈ footprint A m (l + 1) p :=
  fun _ hq => Or.inr ⟨idx, hidx, hT, hq⟩

theorem callPost_refl (A : Arch) (commit : Bool) (level p : Nat) (s : State)
    (ht : Tree A s.mem level p) : CallPost A commit level p s s :=
  ⟨ext_refl A _ _ _ ht, fun _ _ => rfl⟩

theorem callPost_trans (A : Arch) (commit : Bool) (level p : Nat) (s s1 s2 : State)
    (h1 : CallPost A commit level p s s1) (h2 : CallPost A commit level p s1 s2) :
    CallPost A commit level p s s2 :=
  ⟨ext_trans A _ _ _ _ _ h1.1 h2.1, fun hc x => (h2.2 hc x).trans (h1.2 hc x)⟩

theorem loop_ext (A : Arch) (hA : Contract A)
    (recurse : Nat → Nat → State → Option (Bool × State))
    (level va_begin va_end end_ attrs : Nat) (commit sync : Bool) (p : Nat)
    (hend : end_ = if va_end > mm_level_end va_begin level then mm_level_end va_begin level
      else va_end)
    (hS : level_shift (level + 1) ≤ 64) (hva : va_begin < WORD)
    (hleaf : commit = true → ∀ pa, pa % PAGE_SIZE = 0 →
      A.arch_mm_pte_is_table (A.arch_mm_pa_to_block_pte pa attrs) = false)
    (hrec : ∀ l, level = l + 1 → ∀ pa nt s ok s', pa % PAGE_SIZE = 0 →
      Tree A s.mem l nt → HeapOK s.heap (footprint A s.mem l nt) →
      recurse pa nt s = some (ok, s') → CallPost A commit l nt s s') :
    ∀ fuel begin pa idx s ok s', LoopPos level va_begin begin pa idx →
      Tree A s.mem level p → HeapOK s.heap (footprint A s.mem level p) →
      mm_map_level_loop A recurse level end_ (mm_entry_size level) attrs commit sync p
        fuel begin pa idx s = some (ok, s') →
      CallPost A commit level p s s' ∧ Keeps A level p (fun j => j < idx) s s' := by
  intro fuel
  induction fuel with
  | zero =>
    intro begin pa idx s ok s' _ ht _ h
    rw [mm_map_level_loop] at h
    by_cases hlt : begin < end_
    · rw [if_pos hlt] at h
      exact absurd h (by simp)
    · rw [if_neg hlt] at h
      simp only [Option.some.injEq, Prod.mk.injEq] at h
      obtain ⟨-, rfl⟩ := h
      exact ⟨callPost_refl A _ _ _ _ ht, keeps_refl A _ _ _ _⟩
  | succ fuel ih =>
    intro begin pa idx s ok s' hpos ht hh h
    rw [mm_map_level_loop] at h
    by_cases hlt : begin < end_
    · rw [if_pos hlt] at h
      obtain ⟨hidx, hpos'⟩ := loopPos_step level va_begin va_end begin pa idx hS hva hpos
        (hend ▸ hlt)
      -- composition with the rest of the loop
      have hrest : ∀ s1, CallPost A commit level p s s1 →
          Keeps A level p (fun j => j ≠ idx) s s1 →
          mm_map_level_loop A recurse level end_ (mm_entry_size level) attrs commit sync p fuel
            (((begin + mm_entry_size level) % WORD) &&& not64 (mm_entry_size level - 1))
            (((pa + mm_entry_size level) % WORD) &&& not64 (mm_entry_size level - 1))
            (idx + 1) s1 = some (ok, s') →
          CallPost A commit level p s s' ∧ Keeps A level p (fun j => j < idx) s s' := by
        intro s1 hc1 hk1 hrun
        obtain ⟨hc2, hk2⟩ := ih _ _ _ s1 ok s' hpos' hc1.1.1 (heapOK_ext A _ _ _ _ hh hc1.1) hrun
        exact ⟨callPost_trans A _ _ _ _ _ _ hc1 hc2,
          keeps_trans A _ _ _ _ _ _ _ _ hk1 hk2 (fun j hj => ⟨by omega, by omega⟩)⟩
      have hwrite : ∀ v, (commit = true → level ≠ 0 → A.arch_mm_pte_is_table v = false ∧
          (A.arch_mm_pte_is_block v = true → A.arch_mm_is_block_allowed level = true)) →
          ∀ s1, s1 = (if commit = true then { s with mem := s.mem.write p idx v } else s) →
          CallPost A commit level p s s1 ∧ Keeps A level p (fun j => j ≠ idx) s s1 := by
        intro v hv s1 hs1
        cases commit with
        | false =>
          simp only [Bool.false_eq_true, if_false] at hs1
          subst hs1
          exact ⟨callPost_refl A _ _ _ _ ht, keeps_refl A _ _ _ _⟩
        | true =>
          simp only [if_true] at hs1
          subst hs1
          obtain ⟨he, hk⟩ := ext_write A level p idx v s { s with mem := s.mem.write p idx v }
            rfl rfl rfl ht (hv rfl)
          exact ⟨⟨he, fun hc => absurd hc (by simp)⟩, hk⟩
      by_cases hl0 : level = 0
      · simp only [if_pos hl0] at h
        obtain ⟨hc1, hk1⟩ := hwrite (A.arch_mm_pa_to_page_pte pa attrs)
          (fun _ hne => absurd hl0 hne) _ rfl
        exact hrest _ hc1 hk1 h
      · simp only [if_neg hl0] at h
        by_cases hblk : end_ - begin ≥ mm_entry_size level ∧
            A.arch_mm_is_block_allowed level = true ∧ begin &&& (mm_entry_size level - 1) = 0
        · simp only [if_pos hblk] at h
          simp only [mm_free_page_pte] at h
          obtain ⟨hc1, hk1⟩ := hwrite (A.arch_mm_pa_to_block_pte pa attrs)
            (fun hc _ => ⟨hleaf hc pa hpos.1, fun _ => hblk.2.1⟩) _ rfl
          exact hrest _ hc1 hk1 h
        · simp only [if_neg hblk] at h
          obtain ⟨l, rfl⟩ := Nat.exists_eq_succ_of_ne_zero hl0
          obtain ⟨he, hk, hm, hlink, -⟩ := populate_ext A hA l p idx sync s hidx hS ht hh
          generalize mm_populate_table_pte A p idx (l + 1) sync s = r at h he hk hm hlink
          obtain ⟨nt, s1⟩ := r
          simp only at h he hk hm hlink
          by_cases hnt : nt = 0
          · rw [if_pos hnt] at h
            simp only [Option.some.injEq, Prod.mk.injEq] at h
            obtain ⟨-, rfl⟩ := h
            exact ⟨⟨he, fun _ => hm⟩, keeps_weaken A _ _ _ _ _ _ hk (fun j hj => by omega)⟩
          · rw [if_neg hnt] at h
            obtain ⟨hT1, hp1⟩ := hlink hnt
            have ht1 : Tree A s1.mem (l + 1) p := he.1
            have hh1 := heapOK_ext A _ _ _ _ hh he
            have htc : Tree A s1.mem l nt := hp1 ▸ (ht1.2.1 idx hidx hT1).1
            have hhc : HeapOK s1.heap (footprint A s1.mem l nt) :=
              heapOK_mono _ _ _ hh1 (hp1 ▸ footprint_child_subset A s1.mem l p idx hidx hT1)
            cases hrc : recurse pa nt s1 with
            | none => rw [hrc] at h; exact absurd h (by simp)
            | some res =>
              obtain ⟨ok2, s2⟩ := res
              rw [hrc] at h
              obtain ⟨hce, hcm⟩ := hrec l rfl pa nt s1 ok2 s2 hpos.1 htc hhc hrc
              obtain ⟨he2, hk2, hp2⟩ := ext_lift A l p idx s1 s2 hidx ht1 hT1 hh1
                (hp1.symm ▸ hce)
              have hc12 : CallPost A commit (l + 1) p s1 s2 :=
                ⟨he2, fun hc x => is_mapped_lift A l p idx s1.mem s2.mem hp2
                  (fun j hj => (hk2 j hj).2) (by rw [hp1]; exact hcm hc) x⟩
              have hc02 := callPost_trans A _ _ _ _ _ _ ⟨he, fun _ => hm⟩ hc12
              have hk02 : Keeps A (l + 1) p (fun j => j ≠ idx) s s2 :=
                keeps_trans A _ _ _ _ _ _ _ _ hk hk2 (fun j hj => ⟨hj, hj⟩)
              cases ok2 with
              | false =>
                simp only [Option.some.injEq, Prod.mk.injEq] at h
                obtain ⟨-, rfl⟩ := h
                exact ⟨hc02, keeps_weaken A _ _ _ _ _ _ hk02 (fun j hj => by omega)⟩
              | true =>
                exact hrest s2 hc02 hk02 h
    · rw [if_neg hlt] at h
      simp only [Option.some.injEq, Prod.mk.injEq] at h
      obtain ⟨-, rfl⟩ := h
      exact ⟨callPost_refl A _ _ _ _ ht, keeps_refl A _ _ _ _⟩

theorem level_shift_mono (a b : Nat) (h : a ≤ b) : level_shift a ≤ level_shift b := by
  unfold level_shift
  exact Nat.add_le_add_left (Nat.mul_le_mul_right _ h) _

theorem mm_map_level_post (A : Arch) (hA : Contract A) (va_begin va_end attrs flags : Nat)
    (hva : va_begin < WORD)
    (hleaf : decide (flags &&& MAP_FLAG_COMMIT ≠ 0) = true → ∀ pa, pa % PAGE_SIZE = 0 →
      A.arch_mm_pte_is_table (A.arch_mm_pa_to_block_pte pa attrs) = false) :
    ∀ level, level_shift (level + 1) ≤ 64 → ∀ pa table s ok s', pa % PAGE_SIZE = 0 →
      Tree A s.mem level table → HeapOK s.heap (footprint A s.mem level table) →
      mm_map_level A va_begin va_end attrs flags level pa table s = some (ok, s') →
      CallPost A (decide (flags &&& MAP_FLAG_COMMIT ≠ 0)) level table s s' := by
  intro level
  induction level with
  | zero =>
    intro hS pa table s ok s' hpa ht hh h
    rw [mm_map_level_eq] at h
    exact (loop_ext A hA _ 0 va_begin va_end _ attrs _ _ table rfl hS hva hleaf
      (fun l hl => absurd hl (by omega)) ENTRIES va_begin pa _ s ok s'
      (loopPos_init 0 va_begin pa hpa) ht hh h).1
  | succ l ih =>
    intro hS pa table s ok s' hpa ht hh h
    rw [mm_map_level_eq] at h
    refine (loop_ext A hA _ (l + 1) va_begin va_end _ attrs _ _ table rfl hS hva hleaf
      ?_ ENTRIES va_begin pa _ s ok s' (loopPos_init (l + 1) va_begin pa hpa) ht hh h).1
    intro l' hl' pa1 nt s1 ok1 s1' hpa1 ht1 hh1 hrun
    have hll : l' = l := by omega
    subst hll
    exact ih (le_trans (level_shift_mono _ _ (by omega)) hS) pa1 nt s1 ok1 s1' hpa1 ht1 hh1 hrun

/-! ## A finished walk: running it again changes nothing -/

theorem write_self (m : Mem) (p i v : Nat) (h : m p i = v) : m.write p i v = m := by
  funext q j
  unfold Mem.write
  split
  · next hc =>
    obtain ⟨rfl, rfl⟩ := hc
    exact h.symm
  · rfl

theorem populate_hit (A : Arch) (p idx level : Nat) (sync : Bool) (s : State)
    (h : A.arch_mm_pte_is_table (s.mem p idx) = true) :
    mm_populate_table_pte A p idx level sync s = (A.arch_mm_pte_to_table (s.mem p idx), s) := by
  unfold mm_populate_table_pte
  simp [h]

theorem Done_eq (A : Arch) (va_begin va_end attrs : Nat) (commit : Bool)
    (level pa table : Nat) (m : Mem) :
    Done A va_begin va_end attrs commit level pa table m =
    done_loop A
      (match level with
        | 0 => fun _ _ _ => True
        | l + 1 => fun pa1 nt m1 => Done A va_begin va_end attrs commit l pa1 nt m1)
      level
      (if va_end > mm_level_end va_begin level then mm_level_end va_begin level else va_end)
      (mm_entry_size level) attrs commit table
      ENTRIES va_begin pa (mm_index va_begin level) m := by
  cases level <;> rw [Done]

theorem loop_rerun (A : Arch) (recurse : Nat → Nat → State → Option (Bool × State))
    (rec_done : Nat → Nat → Mem → Prop)
    (level end_ entry_size attrs : Nat) (c commit sync : Bool) (p : Nat)
    (hc : commit = true → c = true)
    (hrec : level ≠ 0 → ∀ pa nt s, rec_done pa nt s.mem → recurse pa nt s = some (true, s)) :
    ∀ fuel begin pa idx s,
      done_loop A rec_done level end_ entry_size attrs c p fuel begin pa idx s.mem →
      mm_map_level_loop A recurse level end_ entry_size attrs commit sync p fuel begin pa idx s
        = some (true, s) := by
  intro fuel
  induction fuel with
  | zero =>
    intro begin pa idx s h
    rw [done_loop] at h
    rw [mm_map_level_loop, if_neg h]
  | succ fuel ih =>
    intro begin pa idx s h
    rw [done_loop] at h
    rw [mm_map_level_loop]
    by_cases hlt : begin < end_
    · rw [if_pos hlt]
      obtain ⟨hhead, htail⟩ := h hlt
      have hw : ∀ v, (c = true → s.mem p idx = v) →
          (if commit = true then { s with mem := s.mem.write p idx v } else s) = s := by
        intro v hv
        cases commit with
        | false => rfl
        | true =>
          simp only [if_true]
          rw [write_self _ _ _ _ (hv (hc rfl))]
      by_cases hl0 : level = 0
      · rw [if_pos hl0] at hhead
        simp only [if_pos hl0]
        rw [hw _ hhead]
        exact ih _ _ _ s htail
      · rw [if_neg hl0] at hhead
        simp only [if_neg hl0]
        by_cases hblk : end_ - begin ≥ entry_size ∧
            A.arch_mm_is_block_allowed level = true ∧ begin &&& (entry_size - 1) = 0
        · rw [if_pos hblk] at hhead
          simp only [if_pos hblk, mm_free_page_pte]
          rw [hw _ hhead]
          exact ih _ _ _ s htail
        · rw [if_neg hblk] at hhead
          obtain ⟨hT, hnz, hd⟩ := hhead
          simp only [if_neg hblk, populate_hit A p idx level sync s hT, if_neg hnz, hrec hl0 _ _ s hd]
          exact ih _ _ _ s htail
    · rw [if_neg hlt]

theorem mm_map_level_rerun (A : Arch) (va_begin va_end attrs flags : Nat) (c : Bool)
    (hc : decide (flags &&& MAP_FLAG_COMMIT ≠ 0) = true → c = true) :
    ∀ level pa table s, Done A va_begin va_end attrs c level pa table s.mem →
      mm_map_level A va_begin va_end attrs flags level pa table s = some (true, s) := by
  intro level
  induction level with
  | zero =>
    intro pa table s h
    rw [Done_eq] at h
    rw [mm_map_level_eq]
    exact loop_rerun A _ _ 0 _ _ attrs c _ _ table hc (fun h0 => absurd rfl h0) _ _ _ _ s h
  | succ l ih =>
    intro pa table s h
    rw [Done_eq] at h
    rw [mm_map_level_eq]
    exact loop_rerun A _ _ (l + 1) _ _ attrs c _ _ table hc
      (fun _ pa1 nt s1 h1 => ih pa1 nt s1 h1) _ _ _ _ s h

theorem done_loop_agree (A : Arch) (rec_done : Nat → Nat → Mem → Prop)
    (level va_begin va_end end_ attrs : Nat) (c : Bool) (p : Nat)
    (hend : end_ = if va_end > mm_level_end va_begin level then mm_level_end va_begin level
      else va_end)
    (hS : level_shift (level + 1) ≤ 64) (hva : va_begin < WORD) (m m' : Mem)
    (hrecT : ∀ l, level = l + 1 → ∀ pa nt, pa % PAGE_SIZE = 0 →
      (∀ q, q ∈ footprint A m l nt → ∀ i, m' q i = m q i) →
      rec_done pa nt m → rec_done pa nt m') :
    ∀ fuel begin pa idx, LoopPos level va_begin begin pa idx →
      (∀ j, idx ≤ j → m' p j = m p j ∧ ∀ q, q ∈ subtree A m level p j → ∀ i, m' q i = m q i) →
      done_loop A rec_done level end_ (mm_entry_size level) attrs c p fuel begin pa idx m →
      done_loop A rec_done level end_ (mm_entry_size level) attrs c p fuel begin pa idx m' := by
  intro fuel
  induction fuel with
  | zero =>
    intro begin pa idx _ _ h
    rw [done_loop] at h ⊢
    exact h
  | succ fuel ih =>
    intro begin pa idx hpos hag h
    rw [done_loop] at h ⊢
    intro hlt
    obtain ⟨hhead, htail⟩ := h hlt
    obtain ⟨hidx, hpos'⟩ := loopPos_step level va_begin va_end begin pa idx hS hva hpos
      (hend ▸ hlt)
    obtain ⟨hslot, hsub⟩ := hag idx (Nat.le_refl _)
    refine ⟨?_, ih _ _ _ hpos' (fun j hj => hag j (by omega)) htail⟩
    by_cases hl0 : level = 0
    · rw [if_pos hl0] at hhead ⊢
      rw [hslot]; exact hhead
    · rw [if_neg hl0] at hhead ⊢
      by_cases hblk : end_ - begin ≥ mm_entry_size level ∧
          A.arch_mm_is_block_allowed level = true ∧ begin &&& (mm_entry_size level - 1) = 0
      · rw [if_pos hblk] at hhead ⊢
        rw [hslot]; exact hhead
      · rw [if_neg hblk] at hhead ⊢
        rw [hslot]
        obtain ⟨hT, hnz, hd⟩ := hhead
        obtain ⟨l, rfl⟩ := Nat.exists_eq_succ_of_ne_zero hl0
        exact ⟨hT, hnz, hrecT l rfl pa _ hpos.1 (fun q hq i => hsub q ⟨hidx, hT, hq⟩ i) hd⟩

theorem Done_agree (A : Arch) (va_begin va_end attrs : Nat) (c : Bool) (hva : va_begin < WORD) :
    ∀ level, level_shift (level + 1) ≤ 64 → ∀ pa table (m m' : Mem), pa % PAGE_SIZE = 0 →
      (∀ q, q ∈ footprint A m level table → ∀ i, m' q i = m q i) →
      Done A va_begin va_end attrs c level pa table m →
      Done A va_begin va_end attrs c level pa table m' := by
  intro level
  induction level with
  | zero =>
    intro hS pa table m m' hpa hag h
    rw [Done_eq] at h ⊢
    exact done_loop_agree A _ 0 va_begin va_end _ attrs c table rfl hS hva m m'
      (fun l hl => absurd hl (by omega)) _ _ _ _ (loopPos_init 0 va_begin pa hpa)
      (fun j _ => ⟨hag table (self_mem_footprint A m 0 table) j, fun q hq => hq.elim⟩) h
  | succ l ih =>
    intro hS pa table m m' hpa hag h
    rw [Done_eq] at h ⊢
    refine done_loop_agree A _ (l + 1) va_begin va_end _ attrs c table rfl hS hva m m'
      ?_ _ _ _ _ (loopPos_init (l + 1) va_begin pa hpa)
      (fun j _ => ⟨hag table (self_mem_footprint A m (l + 1) table) j,
        fun q hq => hag q (subtree_subset_footprint A m (l + 1) table j q hq)⟩) h
    intro l' hl' pa1 nt hpa1 hag1 h1
    have hll : l' = l := by omega
    subst hll
    exact ih (le_trans (level_shift_mono _ _ (by omega)) hS) pa1 nt m m' hpa1 hag1 h1

theorem loop_done (A : Arch) (hA : Contract A)
    (recurse : Nat → Nat → State → Option (Bool × State))
    (rec_done : Bool → Nat → Nat → Mem → Prop)
    (level va_begin va_end end_ attrs : Nat) (commit sync : Bool) (p : Nat)
    (hend : end_ = if va_end > mm_level_end va_begin level then mm_level_end va_begin level
      else va_end)
    (hS : level_shift (level + 1) ≤ 64) (hva : va_begin < WORD)
    (hleaf : commit = true → ∀ pa, pa % PAGE_SIZE = 0 →
      A.arch_mm_pte_is_table (A.arch_mm_pa_to_block_pte pa attrs) = false)
    (hrec : ∀ l, level = l + 1 → ∀ pa nt s ok s', pa % PAGE_SIZE = 0 →
      Tree A s.mem l nt → HeapOK s.heap (footprint A s.mem l nt) →
      recurse pa nt s = some (ok, s') → CallPost A commit l nt s s')
    (hrecD : ∀ l, level = l + 1 → ∀ pa nt s ok s', pa % PAGE_SIZE = 0 →
      Tree A s.mem l nt → HeapOK s.heap (footprint A s.mem l nt) →
      (commit = true → rec_done false pa nt s.mem) →
      recurse pa nt s = some (ok, s') →
      (ok = true → rec_done commit pa nt s'.mem) ∧ (commit = true → ok = true ∧ s'.heap = s.heap))
    (hrecT : ∀ l, level = l + 1 → ∀ c pa nt (m m' : Mem), pa % PAGE_SIZE = 0 →
      (∀ q, q ∈ footprint A m l nt → ∀ i, m' q i = m q i) →
      rec_done c pa nt m → rec_done c pa nt m') :
    ∀ fuel begin pa idx s ok s', LoopPos level va_begin begin pa idx →
      Tree A s.mem level p → HeapOK s.heap (footprint A s.mem level p) →
      (commit = true → done_loop A (rec_done false) level end_ (mm_entry_size level) attrs false p
        fuel begin pa idx s.mem) →
      mm_map_level_loop A recurse level end_ (mm_entry_size level) attrs commit sync p
        fuel begin pa idx s = some (ok, s') →
      (ok = true → done_loop A (rec_done commit) level end_ (mm_entry_size level) attrs commit p
        fuel begin pa idx s'.mem) ∧
      (commit = true → ok = true ∧ s'.heap = s.heap) := by
  intro fuel
  induction fuel with
  | zero =>
    intro begin pa idx s ok s' _ _ _ _ h
    rw [mm_map_level_loop] at h
    by_cases hlt : begin < end_
    · rw [if_pos hlt] at h
      exact absurd h (by simp)
    · rw [if_neg hlt] at h
      simp only [Option.some.injEq, Prod.mk.injEq] at h
      obtain ⟨rfl, rfl⟩ := h
      refine ⟨fun _ => ?_, fun _ => ⟨rfl, rfl⟩⟩
      rw [done_loop]; exact hlt
  | succ fuel ih =>
    intro begin pa idx s ok s' hpos ht hh hprep h
    rw [mm_map_level_loop] at h
    by_cases hlt : begin < end_
    · rw [if_pos hlt] at h
      obtain ⟨hidx, hpos'⟩ := loopPos_step level va_begin va_end begin pa idx hS hva hpos
        (hend ▸ hlt)
      have hprep' : commit = true →
          (if level = 0 then
            (false = true → s.mem p idx = A.arch_mm_pa_to_page_pte pa attrs)
          else if end_ - begin ≥ mm_entry_size level ∧ A.arch_mm_is_block_allowed level = true ∧
              begin &&& (mm_entry_size level - 1) = 0 then
            (false = true → s.mem p idx = A.arch_mm_pa_to_block_pte pa attrs)
          else
            A.arch_mm_pte_is_table (s.mem p idx) = true ∧
            A.arch_mm_pte_to_table (s.mem p idx) ≠ 0 ∧
            rec_done false pa (A.arch_mm_pte_to_table (s.mem p idx)) s.mem) ∧
          done_loop A (rec_done false) level end_ (mm_entry_size level) attrs false p fuel
            (((begin + mm_entry_size level) % WORD) &&& not64 (mm_entry_size level - 1))
            (((pa + mm_entry_size level) % WORD) &&& not64 (mm_entry_size level - 1))
            (idx + 1) s.mem := by
        intro hc
        have := hprep hc
        rw [done_loop] at this
        exact this hlt
      -- the rest of the loop, from a state `s1` in which this iteration is done
      have hrest : ∀ s1, CallPost A commit level p s s1 →
          Keeps A level p (fun j => j ≠ idx) s s1 →
          (commit = true → s1.heap = s.heap) →
          (if level = 0 then
            (commit = true → s1.mem p idx = A.arch_mm_pa_to_page_pte pa attrs)
          else if end_ - begin ≥ mm_entry_size level ∧ A.arch_mm_is_block_allowed level = true ∧
              begin &&& (mm_entry_size level - 1) = 0 then
            (commit = true → s1.mem p idx = A.arch_mm_pa_to_block_pte pa attrs)
          else
            A.arch_mm_pte_is_table (s1.mem p idx) = true ∧
            A.arch_mm_pte_to_table (s1.mem p idx) ≠ 0 ∧
            rec_done commit pa (A.arch_mm_pte_to_table (s1.mem p idx)) s1.mem) →
          mm_map_level_loop A recurse level end_ (mm_entry_size level) attrs commit sync p fuel
            (((begin + mm_entry_size level) % WORD) &&& not64 (mm_entry_size level - 1))
            (((pa + mm_entry_size level) % WORD) &&& not64 (mm_entry_size level - 1))
            (idx + 1) s1 = some (ok, s') →
          (ok = true → done_loop A (rec_done commit) level end_ (mm_entry_size level) attrs
            commit p (fuel + 1) begin pa idx s'.mem) ∧
          (commit = true → ok = true ∧ s'.heap = s.heap) := by
        intro s1 hc1 hk1 hheap1 hhead1 hrun
        have ht1 : Tree A s1.mem level p := hc1.1.1
        have hh1 := heapOK_ext A _ _ _ _ hh hc1.1
        have hprep1 : commit = true → done_loop A (rec_done false) level end_
            (mm_entry_size level) attrs false p fuel
            (((begin + mm_entry_size level) % WORD) &&& not64 (mm_entry_size level - 1))
            (((pa + mm_entry_size level) % WORD) &&& not64 (mm_entry_size level - 1))
            (idx + 1) s1.mem := by
          intro hc
          exact done_loop_agree A _ level va_begin va_end end_ attrs false p hend hS hva
            s.mem s1.mem (fun l hl pa1 nt hpa1 hag hd => hrecT l hl false pa1 nt _ _ hpa1 hag hd)
            _ _ _ _ hpos' (fun j hj => hk1 j (by omega)) (hprep' hc).2
        obtain ⟨hd2, hok2⟩ := ih _ _ _ s1 ok s' hpos' ht1 hh1 hprep1 hrun
        obtain ⟨-, hk2⟩ := loop_ext A hA recurse level va_begin va_end end_ attrs commit sync p
          hend hS hva hleaf hrec fuel _ _ _ s1 ok s' hpos' ht1 hh1 hrun
        obtain ⟨hslot, hsub⟩ := hk2 idx (Nat.lt_succ_self idx)
        refine ⟨fun hok => ?_, fun hc => ⟨(hok2 hc).1, ((hok2 hc).2).trans (hheap1 hc)⟩⟩
        rw [done_loop]
        intro _
        refine ⟨?_, hd2 hok⟩
        by_cases hl0 : level = 0
        · rw [if_pos hl0] at hhead1 ⊢
          rw [hslot]; exact hhead1
        · rw [if_neg hl0] at hhead1 ⊢
          by_cases hblk : end_ - begin ≥ mm_entry_size level ∧
              A.arch_mm_is_block_allowed level = true ∧ begin &&& (mm_entry_size level - 1) = 0
          · rw [if_pos hblk] at hhead1 ⊢
            rw [hslot]; exact hhead1
          · rw [if_neg hblk] at hhead1 ⊢
            rw [hslot]
            obtain ⟨hT, hnz, hd⟩ := hhead1
            obtain ⟨l, rfl⟩ := Nat.exists_eq_succ_of_ne_zero hl0
            exact ⟨hT, hnz, hrecT l rfl commit pa _ _ _ hpos.1
              (fun q hq i => hsub q ⟨hidx, hT, hq⟩ i) hd⟩
      have hwrite : ∀ v, (commit = true → level ≠ 0 → A.arch_mm_pte_is_table v = false ∧
          (A.arch_mm_pte_is_block v = true → A.arch_mm_is_block_allowed level = true)) →
          ∀ s1, s1 = (if commit = true then { s with mem := s.mem.write p idx v } else s) →
          CallPost A commit level p s s1 ∧ Keeps A level p (fun j => j ≠ idx) s s1 ∧
          (commit = true → s1.heap = s.heap) ∧ (commit = true → s1.mem p idx = v) := by
        intro v hv s1 hs1
        cases commit with
        | false =>
          simp only [Bool.false_eq_true, if_false] at hs1
          subst hs1
          exact ⟨callPost_refl A _ _ _ _ ht, keeps_refl A _ _ _ _, fun h => absurd h (by simp),
            fun h => absurd h (by simp)⟩
        | true =>
          simp only [if_true] at hs1
          subst hs1
          obtain ⟨he, hk⟩ := ext_write A level p idx v s { s with mem := s.mem.write p idx v }
            rfl rfl rfl ht (hv rfl)
          exact ⟨⟨he, fun hc => absurd hc (by simp)⟩, hk, fun _ => rfl,
            fun _ => write_same _ _ _ _⟩
      by_cases hl0 : level = 0
      · simp only [if_pos hl0] at h
        obtain ⟨hc1, hk1, hh1, hv1⟩ := hwrite (A.arch_mm_pa_to_page_pte pa attrs)
          (fun _ hne => absurd hl0 hne) _ rfl
        exact hrest _ hc1 hk1 hh1 (by rw [if_pos hl0]; exact hv1) h
      · simp only [if_neg hl0] at h
        by_cases hblk : end_ - begin ≥ mm_entry_size level ∧
            A.arch_mm_is_block_allowed level = true ∧ begin &&& (mm_entry_size level - 1) = 0
        · simp only [if_pos hblk, mm_free_page_pte] at h
          obtain ⟨hc1, hk1, hh1, hv1⟩ := hwrite (A.arch_mm_pa_to_block_pte pa attrs)
            (fun hc _ => ⟨hleaf hc pa hpos.1, fun _ => hblk.2.1⟩) _ rfl
          exact hrest _ hc1 hk1 hh1 (by rw [if_neg hl0, if_pos hblk]; exact hv1) h
        · simp only [if_neg hblk] at h
          obtain ⟨l, rfl⟩ := Nat.exists_eq_succ_of_ne_zero hl0
          have hprepd : commit = true → A.arch_mm_pte_is_table (s.mem p idx) = true ∧
              A.arch_mm_pte_to_table (s.mem p idx) ≠ 0 ∧
              rec_done false pa (A.arch_mm_pte_to_table (s.mem p idx)) s.mem := by
            intro hc
            have := (hprep' hc).1
            rw [if_neg hl0, if_neg hblk] at this
            exact this
          obtain ⟨he, hk, hm, hlink, hhit⟩ := populate_ext A hA l p idx sync s hidx hS ht hh
          generalize mm_populate_table_pte A p idx (l + 1) sync s = r at h he hk hm hlink hhit
          obtain ⟨nt, s1⟩ := r
          simp only at h he hk hm hlink hhit
          have hs1 : commit = true → nt = A.arch_mm_pte_to_table (s.mem p idx) ∧ s1 = s := by
            intro hc
            have := hhit (hprepd hc).1
            simp only [Prod.mk.injEq] at this
            exact this
          by_cases hnt : nt = 0
          · rw [if_pos hnt] at h
            simp only [Option.some.injEq, Prod.mk.injEq] at h
            obtain ⟨rfl, rfl⟩ := h
            refine ⟨fun hf => absurd hf (by simp), fun hc => ?_⟩
            exact absurd ((hs1 hc).1 ▸ hnt) (hprepd hc).2.1
          · rw [if_neg hnt] at h
            obtain ⟨hT1, hp1⟩ := hlink hnt
            have ht1 : Tree A s1.mem (l + 1) p := he.1
            have hh1 := heapOK_ext A _ _ _ _ hh he
            have htc : Tree A s1.mem l nt := hp1 ▸ (ht1.2.1 idx hidx hT1).1
            have hhc : HeapOK s1.heap (footprint A s1.mem l nt) :=
              heapOK_mono _ _ _ hh1 (hp1 ▸ footprint_child_subset A s1.mem l p idx hidx hT1)
            cases hrc : recurse pa nt s1 with
            | none => rw [hrc] at h; exact absurd h (by simp)
            | some res =>
              obtain ⟨ok2, s2⟩ := res
              rw [hrc] at h
              obtain ⟨hce, hcm⟩ := hrec l rfl pa nt s1 ok2 s2 hpos.1 htc hhc hrc
              have hpre : commit = true → rec_done false pa nt s1.mem := by
                intro hc
                obtain ⟨h1, h2⟩ := hs1 hc
                rw [h1, h2]
                exact (hprepd hc).2.2
              obtain ⟨hdc, hokc⟩ := hrecD l rfl pa nt s1 ok2 s2 hpos.1 htc hhc hpre hrc
              obtain ⟨he2, hk2, hp2⟩ := ext_lift A l p idx s1 s2 hidx ht1 hT1 hh1
                (hp1.symm ▸ hce)
              have hc12 : CallPost A commit (l + 1) p s1 s2 :=
                ⟨he2, fun hc x => is_mapped_lift A l p idx s1.mem s2.mem hp2
                  (fun j hj => (hk2 j hj).2) (by rw [hp1]; exact hcm hc) x⟩
              have hc02 := callPost_trans A _ _ _ _ _ _ ⟨he, fun _ => hm⟩ hc12
              have hk02 : Keeps A (l + 1) p (fun j => j ≠ idx) s s2 :=
                keeps_trans A _ _ _ _ _ _ _ _ hk hk2 (fun j hj => ⟨hj, hj⟩)
              cases ok2 with
              | false =>
                simp only [Option.some.injEq, Prod.mk.injEq] at h
                obtain ⟨rfl, rfl⟩ := h
                exact ⟨fun hf => absurd hf (by simp),
                  fun hc => absurd (hokc hc).1 (by simp)⟩
              | true =>
                refine hrest s2 hc02 hk02 ?_ ?_ h
                · intro hc
                  rw [(hokc hc).2, (hs1 hc).2]
                · rw [if_neg hl0, if_neg hblk, hp2 idx, hp1]
                  exact ⟨hT1, hnt, hdc rfl⟩
    · rw [if_neg hlt] at h
      simp only [Option.some.injEq, Prod.mk.injEq] at h
      obtain ⟨rfl, rfl⟩ := h
      refine ⟨fun _ => ?_, fun _ => ⟨rfl, rfl⟩⟩
      rw [done_loop]
      intro hc
      exact absurd hc hlt

theorem mm_map_level_done (A : Arch) (hA : Contract A) (va_begin va_end attrs flags : Nat)
    (hva : va_begin < WORD)
    (hleaf : decide (flags &&& MAP_FLAG_COMMIT ≠ 0) = true → ∀ pa, pa % PAGE_SIZE = 0 →
      A.arch_mm_pte_is_table (A.arch_mm_pa_to_block_pte pa attrs) = false) :
    ∀ level, level_shift (level + 1) ≤ 64 → ∀ pa table s ok s', pa % PAGE_SIZE = 0 →
      Tree A s.mem level table → HeapOK s.heap (footprint A s.mem level table) →
      (decide (flags &&& MAP_FLAG_COMMIT ≠ 0) = true →
        Done A va_begin va_end attrs false level pa table s.mem) →
      mm_map_level A va_begin va_end attrs flags level pa table s = some (ok, s') →
      (ok = true → Done A va_begin va_end attrs (decide (flags &&& MAP_FLAG_COMMIT ≠ 0))
        level pa table s'.mem) ∧
      (decide (flags &&& MAP_FLAG_COMMIT ≠ 0) = true → ok = true ∧ s'.heap = s.heap) := by
  intro level
  induction level with
  | zero =>
    intro hS pa table s ok s' hpa ht hh hprep h
    rw [mm_map_level_eq] at h
    have hprep' := fun hc => (Done_eq A va_begin va_end attrs false 0 pa table s.mem).mp (hprep hc)
    rw [Done_eq]
    exact loop_done A hA _ (fun _ _ _ _ => True) 0 va_begin va_end _ attrs _ _ table rfl hS hva
      hleaf (fun l hl => absurd hl (by omega)) (fun l hl => absurd hl (by omega))
      (fun l hl => absurd hl (by omega)) ENTRIES va_begin pa _ s ok s'
      (loopPos_init 0 va_begin pa hpa) ht hh hprep' h
  | succ l ih =>
    intro hS pa table s ok s' hpa ht hh hprep h
    rw [mm_map_level_eq] at h
    have hprep' := fun hc =>
      (Done_eq A va_begin va_end attrs false (l + 1) pa table s.mem).mp (hprep hc)
    rw [Done_eq]
    have hSl : level_shift (l + 1) ≤ 64 := le_trans (level_shift_mono _ _ (by omega)) hS
    refine loop_done A hA _ (fun c pa1 nt m1 => Done A va_begin va_end attrs c l pa1 nt m1)
      (l + 1) va_begin va_end _ attrs _ _ table rfl hS hva hleaf ?_ ?_ ?_
      ENTRIES va_begin pa _ s ok s' (loopPos_init (l + 1) va_begin pa hpa) ht hh hprep' h
    · intro l' hl' pa1 nt s1 ok1 s1' hpa1 ht1 hh1 hrun
      have hll : l' = l := by omega
      subst hll
      exact mm_map_level_post A hA va_begin va_end attrs flags hva hleaf l' hSl pa1 nt s1 ok1 s1'
        hpa1 ht1 hh1 hrun
    · intro l' hl' pa1 nt s1 ok1 s1' hpa1 ht1 hh1 hpre hrun
      have hll : l' = l := by omega
      subst hll
      exact ih hSl pa1 nt s1 ok1 s1' hpa1 ht1 hh1 hpre hrun
    · intro l' hl' c pa1 nt m m' hpa1 hag hd
      have hll : l' = l := by omega
      subst hll
      exact Done_agree A va_begin va_end attrs c hva l' hSl pa1 nt m m' hpa1 hag hd

/-! ## The flags of the two walks -/

theorem dry_flags (mode : Nat) :
    decide ((if mode &&& MM_MODE_NOSYNC ≠ 0 then 0 else MAP_FLAG_SYNC) &&& MAP_FLAG_COMMIT ≠ 0)
      = false := by
  split <;> decide

theorem commit_flags (mode : Nat) :
    decide (((if mode &&& MM_MODE_NOSYNC ≠ 0 then 0 else MAP_FLAG_SYNC) ||| MAP_FLAG_COMMIT)
      &&& MAP_FLAG_COMMIT ≠ 0) = true := by
  split <;> decide

theorem eq_of_result (r : Option (Bool × State)) (s : State) (b : Bool)
    (h : result_of r = some b) : r = some (b, state_after s r) := by
  cases r with
  | none => simp [result_of] at h
  | some p =>
    obtain ⟨b', s'⟩ := p
    simp only [result_of, Option.map_some', Option.some.injEq] at h
    subst h
    rfl

theorem mm_invalidate_tlb_mem (b e : Nat) (st : Bool) (s : State) :
    (mm_invalidate_tlb b e st s).mem = s.mem ∧ (mm_invalidate_tlb b e st s).heap = s.heap := by
  unfold mm_invalidate_tlb
  split <;> exact ⟨rfl, rfl⟩

/-- A run that extends the tree of a well-formed table leaves it well formed. -/
theorem wellFormed_ext (A : Arch) (t : mm_ptable) (mode : Nat) (s s' : State)
    (hwf : WellFormed A t mode s) (he : Ext A (A.arch_mm_max_level mode) t.table s s') :
    WellFormed A t mode s' := by
  refine ⟨he.1, heapOK_ext A _ _ _ _ hwf.2.1 he, fun q hq => ?_⟩
  obtain ⟨_, _, u, hu, hg, _⟩ := he
  rcases hg q hq with h | h
  · exact hwf.2.2 q h
  · have : q ∈ fresh_pages s.heap := by
      rw [hu]; exact (mem_fresh_pages_append _ _ _).2 (Or.inl h)
    exact (hwf.2.1.1 q this).2.1

/-- The two walks of a mapper call keep the table well formed. -/
theorem wellFormed_two_walks (A : Arch) (hA : Contract A) (t : mm_ptable)
    (va_begin va_end attrs flags pa mode : Nat) (s sd sc : State) (okd okc : Bool)
    (hva : va_begin < WORD) (hpa : pa % PAGE_SIZE = 0)
    (hflags : decide (flags &&& MAP_FLAG_COMMIT ≠ 0) = false)
    (hleaf : ∀ pa, pa % PAGE_SIZE = 0 →
      A.arch_mm_pte_is_table (A.arch_mm_pa_to_block_pte pa attrs) = false)
    (hwf : WellFormed A t mode s)
    (hdry : mm_map_level A va_begin va_end attrs flags (A.arch_mm_max_level mode) pa t.table s
      = some (okd, sd))
    (hcom : mm_map_level A va_begin va_end attrs (flags ||| MAP_FLAG_COMMIT)
      (A.arch_mm_max_level mode) pa t.table sd = some (okc, sc)) :
    WellFormed A t mode sd ∧ WellFormed A t mode sc := by
  have hpostd := mm_map_level_post A hA _ _ _ _ hva
    (fun hc => absurd hc (by rw [hflags]; simp))
    (A.arch_mm_max_level mode) (hA.levels_fit mode) _ t.table s okd sd hpa hwf.1 hwf.2.1 hdry
  have hwfd : WellFormed A t mode sd := wellFormed_ext A t mode s sd hwf hpostd.1
  have hpostc := mm_map_level_post A hA _ _ _ _ hva (fun _ => hleaf)
    (A.arch_mm_max_level mode) (hA.levels_fit mode) _ t.table sd okc sc hpa hwfd.1 hwfd.2.1 hcom
  exact ⟨hwfd, wellFormed_ext A t mode sd sc hwfd hpostc.1⟩

theorem wellFormed_tlb (A : Arch) (t : mm_ptable) (mode : Nat) (s s' : State)
    (hm : s'.mem = s.mem) (hh : s'.heap = s.heap) (h : WellFormed A t mode s) :
    WellFormed A t mode s' := by
  unfold WellFormed at h ⊢
  rw [hm, hh]; exact h

/-- `mm_ptable_identity_map` keeps the table well formed, whatever it returns. -/
theorem wellFormed_identity_map (A : Arch) (hA : Contract A) (t : mm_ptable)
    (va_begin va_end mode : Nat) (s s' : State) (ok : Bool) (hwf : WellFormed A t mode s)
    (h : mm_ptable_identity_map A t va_begin va_end mode s = some (ok, s')) :
    WellFormed A t mode s' := by
  have hleaf : ∀ pa, pa % PAGE_SIZE = 0 →
      A.arch_mm_pte_is_table (A.arch_mm_pa_to_block_pte pa (A.arch_mm_mode_to_attrs mode)) = false :=
    fun pa hpa => not_table_of_block A hA _ (hA.block_is_block pa mode hpa)
  unfold mm_ptable_identity_map at h
  simp only at h
  cases hdry : mm_map_level A (A.arch_mm_clear_va va_begin)
      (A.arch_mm_clear_va ((va_end + (PAGE_SIZE - 1)) % WORD)) (A.arch_mm_mode_to_attrs mode)
      (if mode &&& MM_MODE_NOSYNC ≠ 0 then 0 else MAP_FLAG_SYNC) (A.arch_mm_max_level mode)
      (A.arch_mm_clear_pa va_begin) t.table s with
  | none => rw [hdry] at h; exact absurd h (by simp)
  | some res =>
    obtain ⟨okd, sd⟩ := res
    rw [hdry] at h
    cases okd with
    | false =>
      simp only [Option.some.injEq, Prod.mk.injEq] at h
      obtain ⟨-, rfl⟩ := h
      have hpostd := mm_map_level_post A hA _ _ _ _ (hA.clear_va_lt va_begin)
        (fun hc => absurd hc (by rw [dry_flags]; simp))
        (A.arch_mm_max_level mode) (hA.levels_fit mode) _ t.table s false sd
        (hA.clear_pa_aligned va_begin) hwf.1 hwf.2.1 hdry
      exact wellFormed_ext A t mode s sd hwf hpostd.1
    | true =>
      simp only at h
      cases hcom : mm_map_level A (A.arch_mm_clear_va va_begin)
          (A.arch_mm_clear_va ((va_end + (PAGE_SIZE - 1)) % WORD)) (A.arch_mm_mode_to_attrs mode)
          ((if mode &&& MM_MODE_NOSYNC ≠ 0 then 0 else MAP_FLAG_SYNC) ||| MAP_FLAG_COMMIT)
          (A.arch_mm_max_level mode) (A.arch_mm_clear_pa va_begin) t.table sd with
      | none => rw [hcom] at h; exact absurd h (by simp)
      | some res2 =>
        obtain ⟨okc, sc⟩ := res2
        rw [hcom] at h
        simp only [Option.some.injEq, Prod.mk.injEq] at h
        obtain ⟨-, rfl⟩ := h
        have hw := (wellFormed_two_walks A hA t _ _ _ _ _ mode s sd sc true okc
          (hA.clear_va_lt va_begin) (hA.clear_pa_aligned va_begin) (dry_flags mode) hleaf hwf
          hdry hcom).2
        split
        · exact wellFormed_tlb A t mode _ _ (mm_invalidate_tlb_mem _ _ _ _).1
            (mm_invalidate_tlb_mem _ _ _ _).2 hw
        · exact hw

theorem wellFormed_state_after (A : Arch) (hA : Contract A) (t : mm_ptable)
    (va_begin va_end mode : Nat) (s : State) (hwf : WellFormed A t mode s) :
    WellFormed A t mode (state_after s (mm_ptable_identity_map A t va_begin va_end mode s)) := by
  cases h : mm_ptable_identity_map A t va_begin va_end mode s with
  | none => exact hwf
  | some res =>
    obtain ⟨ok, s'⟩ := res
    exact wellFormed_identity_map A hA t va_begin va_end mode s s' ok hwf h

/-- `mm_ptable_unmap` keeps the table well formed, whatever it returns. -/
theorem wellFormed_unmap (A : Arch) (hA : Contract A) (t : mm_ptable)
    (va_begin va_end mode : Nat) (s s' : State) (ok : Bool) (hwf : WellFormed A t mode s)
    (h : mm_ptable_unmap A t va_begin va_end mode s = some (ok, s')) :
    WellFormed A t mode s' := by
  have hleaf : ∀ pa, pa % PAGE_SIZE = 0 →
      A.arch_mm_pte_is_table (A.arch_mm_pa_to_block_pte pa 0) = false :=
    fun pa hpa => (hA.block_zero_absent pa hpa).2.2
  unfold mm_ptable_unmap at h
  simp only at h
  cases hdry : mm_map_level A (A.arch_mm_clear_va va_begin)
      (A.arch_mm_clear_va ((va_end + (PAGE_SIZE - 1)) % WORD)) 0
      (if mode &&& MM_MODE_NOSYNC ≠ 0 then 0 else MAP_FLAG_SYNC) (A.arch_mm_max_level mode)
      (A.arch_mm_clear_va va_begin) t.table s with
  | none => rw [hdry] at h; exact absurd h (by simp)
  | some res =>
    obtain ⟨okd, sd⟩ := res
    rw [hdry] at h
    cases okd with
    | false =>
      simp only [Option.some.injEq, Prod.mk.injEq] at h
      obtain ⟨-, rfl⟩ := h
      have hpostd := mm_map_level_post A hA _ _ _ _ (hA.clear_va_lt va_begin)
        (fun hc => absurd hc (by rw [dry_flags]; simp))
        (A.arch_mm_max_level mode) (hA.levels_fit mode) _ t.table s false sd
        (hA.clear_va_aligned va_begin) hwf.1 hwf.2.1 hdry
      exact wellFormed_ext A t mode s sd hwf hpostd.1
    | true =>
      simp only at h
      cases hcom : mm_map_level A (A.arch_mm_clear_va va_begin)
          (A.arch_mm_clear_va ((va_end + (PAGE_SIZE - 1)) % WORD)) 0
          ((if mode &&& MM_MODE_NOSYNC ≠ 0 then 0 else MAP_FLAG_SYNC) ||| MAP_FLAG_COMMIT)
          (A.arch_mm_max_level mode) (A.arch_mm_clear_va va_begin) t.table sd with
      | none => rw [hcom] at h; exact absurd h (by simp)
      | some res2 =>
        obtain ⟨okc, sc⟩ := res2
        rw [hcom] at h
        simp only [Option.some.injEq, Prod.mk.injEq] at h
        obtain ⟨-, rfl⟩ := h
        have hw := (wellFormed_two_walks A hA t _ _ _ _ _ mode s sd sc true okc
          (hA.clear_va_lt va_begin) (hA.clear_va_aligned va_begin) (dry_flags mode) hleaf hwf
          hdry hcom).2
        split
        · exact wellFormed_tlb A t mode _ _ (mm_invalidate_tlb_mem _ _ _ _).1
            (mm_invalidate_tlb_mem _ _ _ _).2 hw
        · exact hw

/-! ## The single-page mapper -/

/-- Two page-aligned addresses within the coverage of a table of `level` that
have the same slot index at every level are equal. -/
theorem index_differ (level x y : Nat)
    (hx : x < 2 ^ level_shift (level + 1)) (hy : y < 2 ^ level_shift (level + 1))
    (hxa : x % PAGE_SIZE = 0) (hya : y % PAGE_SIZE = 0)
    (h : ∀ l, l ≤ level → mm_index x l = mm_index y l) : x = y := by
  have key : ∀ k, k ≤ level + 1 →
      x / 2 ^ level_shift (level + 1 - k) = y / 2 ^ level_shift (level + 1 - k) := by
    intro k
    induction k with
    | zero =>
      intro _
      rw [Nat.sub_zero, Nat.div_eq_of_lt hx, Nat.div_eq_of_lt hy]
    | succ k ih =>
      intro hk
      have hprev := ih (by omega)
      have hl : level + 1 - k = (level + 1 - (k + 1)) + 1 := by omega
      rw [hl, two_pow_level_shift_succ, ← Nat.div_div_eq_div_mul, ← Nat.div_div_eq_div_mul]
        at hprev
      have hidx := h (level + 1 - (k + 1)) (by omega)
      rw [mm_index_eq, mm_index_eq] at hidx
      omega
  have h0 := key (level + 1) (Nat.le_refl _)
  rw [Nat.sub_self] at h0
  have hP : 2 ^ level_shift 0 = PAGE_SIZE := rfl
  rw [hP] at h0
  have hps : PAGE_SIZE = 4096 := by decide
  rw [hps] at h0 hxa hya
  omega

theorem level_shift_lt (level : Nat) (h : level_shift level ≤ 64) : level_shift level < 64 := by
  unfold level_shift PAGE_BITS PAGE_LEVEL_BITS at h ⊢
  omega

/-- Within the coverage of the table the end of the level is above the address. -/
theorem lt_mm_level_end (addr level : Nat) (hS : level_shift (level + 1) ≤ 64)
    (h : addr < 2 ^ level_shift (level + 1)) : addr < mm_level_end addr level := by
  have hW : 2 ^ level_shift (level + 1) < WORD :=
    Nat.pow_lt_pow_right (by norm_num) (level_shift_lt _ hS)
  rw [mm_level_end_eq, Nat.div_eq_of_lt h, Nat.zero_add, Nat.one_mul, Nat.mod_eq_of_lt hW]
  exact h

theorem is_mapped_lift_one (A : Arch) (l p idx : Nat) (m1 m2 : Mem)
    (hp : ∀ i, m2 p i = m1 p i)
    (hk : ∀ j, j ≠ idx → ∀ q, q ∈ subtree A m1 (l + 1) p j → ∀ i, m2 q i = m1 q i)
    (x : Nat)
    (hchild : mm_index x (l + 1) = idx →
      mm_is_mapped_recursive A m2 x l (A.arch_mm_pte_to_table (m1 p idx)) =
      mm_is_mapped_recursive A m1 x l (A.arch_mm_pte_to_table (m1 p idx))) :
    mm_is_mapped_recursive A m2 x (l + 1) p = mm_is_mapped_recursive A m1 x (l + 1) p := by
  rw [mm_is_mapped_recursive_succ, mm_is_mapped_recursive_succ, hp]
  by_cases ht : A.arch_mm_pte_is_table (m1 p (mm_index x (l + 1))) = true
  · by_cases hji : mm_index x (l + 1) = idx
    · rw [hji, hchild hji]
    · rw [is_mapped_agree A m1 m2 x l _
        (fun q hq i _ => hk _ hji q ⟨mm_index_lt _ _, ht, hq⟩ i)]
  · simp [ht]

/-- What the loop of `mm_ptable_identity_map_page` does below the table `table`
of level `i`: it extends the tree, and when it succeeds the page of `va` is
mapped and the query for every address that leaves the path of `va` at some
level is unchanged. -/
theorem page_loop_spec (A : Arch) (hA : Contract A) (va pa mode : Nat) (sync : Bool)
    (hpa : pa % PAGE_SIZE = 0) :
    ∀ i, level_shift (i + 1) ≤ 64 → ∀ table s, Tree A s.mem i table →
      HeapOK s.heap (footprint A s.mem i table) →
      Ext A i table s
        (mm_ptable_identity_map_page_loop A va pa (A.arch_mm_mode_to_attrs mode) sync i table s).2 ∧
      ((mm_ptable_identity_map_page_loop A va pa (A.arch_mm_mode_to_attrs mode) sync i table s).1
          = true →
        (va < mm_level_end va i → mm_is_mapped_recursive A
          (mm_ptable_identity_map_page_loop A va pa (A.arch_mm_mode_to_attrs mode) sync i table s).2.mem
          va i table = true) ∧
        ∀ x, (∃ l, l ≤ i ∧ mm_index x l ≠ mm_index va l) →
          mm_is_mapped_recursive A
            (mm_ptable_identity_map_page_loop A va pa (A.arch_mm_mode_to_attrs mode) sync i table
              s).2.mem x i table = mm_is_mapped_recursive A s.mem x i table) := by
  intro i
  induction i with
  | zero =>
    intro _ table s ht _
    rw [mm_ptable_identity_map_page_loop]
    refine ⟨(ext_write A 0 table (mm_index va 0)
      (A.arch_mm_pa_to_page_pte pa (A.arch_mm_mode_to_attrs mode)) s
      { s with mem := (s.mem.write table (mm_index va 0)
          (A.arch_mm_pa_to_page_pte pa (A.arch_mm_mode_to_attrs mode))) } rfl rfl rfl ht
      (fun h => absurd rfl h)).1, fun _ => ⟨fun hlt => ?_, fun x hx => ?_⟩⟩
    · rw [mm_is_mapped_recursive_zero, if_neg (by omega)]
      show A.arch_mm_pte_is_present ((s.mem.write table (mm_index va 0) _) table (mm_index va 0))
        = true
      rw [write_same]
      exact hA.page_present pa mode hpa
    · obtain ⟨l, hl, hne⟩ := hx
      have hl0 : l = 0 := by omega
      subst hl0
      rw [mm_is_mapped_recursive_zero, mm_is_mapped_recursive_zero]
      show (if x ≥ mm_level_end x 0 then false else A.arch_mm_pte_is_present
        ((s.mem.write table (mm_index va 0) _) table (mm_index x 0))) = _
      rw [write_other _ _ _ _ _ _ (Or.inr hne)]
  | succ i ih =>
    intro hS table s ht hh
    rw [mm_ptable_identity_map_page_loop]
    have hSi : level_shift (i + 1) ≤ 64 := le_trans (level_shift_mono _ _ (by omega)) hS
    obtain ⟨he, hk, hm, hlink, -⟩ := populate_ext A hA i table (mm_index va (i + 1)) sync s
      (mm_index_lt _ _) hS ht hh
    generalize mm_populate_table_pte A table (mm_index va (i + 1)) (i + 1) sync s = r
      at he hk hm hlink
    obtain ⟨nt, s1⟩ := r
    simp only at he hk hm hlink ⊢
    by_cases hnt : nt = 0
    · rw [if_pos hnt]
      exact ⟨he, fun h => absurd h (by simp)⟩
    · rw [if_neg hnt]
      obtain ⟨hT1, hp1⟩ := hlink hnt
      have ht1 : Tree A s1.mem (i + 1) table := he.1
      have hh1 := heapOK_ext A _ _ _ _ hh he
      have htc : Tree A s1.mem i nt := hp1 ▸ (ht1.2.1 _ (mm_index_lt _ _) hT1).1
      have hhc : HeapOK s1.heap (footprint A s1.mem i nt) :=
        heapOK_mono _ _ _ hh1
          (hp1 ▸ footprint_child_subset A s1.mem i table _ (mm_index_lt _ _) hT1)
      obtain ⟨hce, hcm⟩ := ih hSi nt s1 htc hhc
      generalize mm_ptable_identity_map_page_loop A va pa (A.arch_mm_mode_to_attrs mode) sync i
        nt s1 = r2 at hce hcm
      obtain ⟨ok2, s2⟩ := r2
      simp only at hce hcm ⊢
      obtain ⟨he2, hk2, hp2⟩ := ext_lift A i table (mm_index va (i + 1)) s1 s2
        (mm_index_lt _ _) ht1 hT1 hh1 (hp1.symm ▸ hce)
      refine ⟨ext_trans A _ _ _ _ _ he he2, fun hok => ⟨fun hlt => ?_, fun x hx => ?_⟩⟩
      · rw [mm_is_mapped_recursive_succ, if_neg (by omega), hp2, hA.table_not_block _ hT1, hT1,
          hp1]
        simp only [Bool.and_false, Bool.false_eq_true, if_false, if_true]
        exact (hcm hok).1 (mm_level_end_nest va i hS hlt)
      · rw [← hm x]
        apply is_mapped_lift_one A i table (mm_index va (i + 1)) s1.mem s2.mem hp2
          (fun j hj => (hk2 j hj).2) x
        intro hidx
        rw [hp1]
        apply (hcm hok).2 x
        obtain ⟨l, hl, hne⟩ := hx
        refine ⟨l, ?_, hne⟩
        by_contra hc
        have : l = i + 1 := by omega
        subst this
        exact hne hidx


/-- `mm_ptable_identity_map_page` within the coverage of the table: when it
returns true the page of `va` is mapped, the query for every other page within
the coverage is unchanged, and the table is still well formed. -/
theorem identity_map_page_in_coverage (A : Arch) (hA : Contract A) (t : mm_ptable)
    (va mode : Nat) (s : State) (hwf : WellFormed A t mode s)
    (hcov : A.arch_mm_clear_va va < 2 ^ level_shift (A.arch_mm_max_level mode + 1))
    (hok : (mm_ptable_identity_map_page A t va mode s).1 = true) :
    mm_ptable_is_mapped A t va mode (mm_ptable_identity_map_page A t va mode s).2 = true ∧
    (∀ x, A.arch_mm_clear_va x < 2 ^ level_shift (A.arch_mm_max_level mode + 1) →
      A.arch_mm_clear_va x ≠ A.arch_mm_clear_va va →
      mm_ptable_is_mapped A t x mode (mm_ptable_identity_map_page A t va mode s).2 =
        mm_ptable_is_mapped A t x mode s) ∧
    WellFormed A t mode (mm_ptable_identity_map_page A t va mode s).2 := by
  unfold mm_ptable_identity_map_page at hok ⊢
  simp only at hok ⊢
  obtain ⟨he, hq⟩ := page_loop_spec A hA (A.arch_mm_clear_va va) (A.arch_mm_clear_pa va) mode
    (decide (mode &&& MM_MODE_NOSYNC = 0)) (hA.clear_pa_aligned va)
    (A.arch_mm_max_level mode) (hA.levels_fit mode) t.table s hwf.1 hwf.2.1
  obtain ⟨hva, hx⟩ := hq hok
  refine ⟨hva (lt_mm_level_end _ _ (hA.levels_fit mode) hcov), fun x hxc hne => ?_,
    wellFormed_ext A t mode s _ hwf he⟩
  apply hx
  by_contra hc
  push_neg at hc
  exact hne (index_differ (A.arch_mm_max_level mode) _ _ hxc hcov (hA.clear_va_aligned x)
    (hA.clear_va_aligned va) (fun l hl => hc l hl))

/-! ## The mapper returns -/

/-- The loop of `mm_map_level` ends within the iterations it is given: with
`fuel` iterations left and the slot index at `idx`, `idx + fuel` reaching the
number of slots is enough. -/
theorem loop_returns (A : Arch) (recurse : Nat → Nat → State → Option (Bool × State))
    (level va_begin va_end end_ attrs : Nat) (commit sync : Bool) (p : Nat)
    (hend : end_ = if va_end > mm_level_end va_begin level then mm_level_end va_begin level
      else va_end)
    (hS : level_shift (level + 1) ≤ 64) (hva : va_begin < WORD)
    (hrec : level ≠ 0 → ∀ pa nt s, pa % PAGE_SIZE = 0 → recurse pa nt s ≠ none) :
    ∀ fuel begin pa idx s, LoopPos level va_begin begin pa idx → ENTRIES ≤ idx + fuel →
      mm_map_level_loop A recurse level end_ (mm_entry_size level) attrs commit sync p
        fuel begin pa idx s ≠ none := by
  intro fuel
  induction fuel with
  | zero =>
    intro begin pa idx s hpos hf
    rw [mm_map_level_loop]
    by_cases hlt : begin < end_
    · have := (loopPos_step level va_begin va_end begin pa idx hS hva hpos (hend ▸ hlt)).1
      omega
    · rw [if_neg hlt]; simp
  | succ fuel ih =>
    intro begin pa idx s hpos hf
    rw [mm_map_level_loop]
    by_cases hlt : begin < end_
    · rw [if_pos hlt]
      obtain ⟨_, hpos'⟩ := loopPos_step level va_begin va_end begin pa idx hS hva hpos
        (hend ▸ hlt)
      by_cases hl0 : level = 0
      · simp only [if_pos hl0]
        exact ih _ _ _ _ hpos' (by omega)
      · simp only [if_neg hl0]
        by_cases hblk : end_ - begin ≥ mm_entry_size level ∧
            A.arch_mm_is_block_allowed level = true ∧ begin &&& (mm_entry_size level - 1) = 0
        · simp only [if_pos hblk]
          exact ih _ _ _ _ hpos' (by omega)
        · simp only [if_neg hblk]
          generalize mm_populate_table_pte A p idx level sync s = r
          obtain ⟨nt, s1⟩ := r
          simp only
          by_cases hnt : nt = 0
          · rw [if_pos hnt]; simp
          · rw [if_neg hnt]
            cases hrc : recurse pa nt s1 with
            | none => exact absurd hrc (hrec hl0 pa nt s1 hpos.1)
            | some res =>
              obtain ⟨ok2, s2⟩ := res
              cases ok2 with
              | false => simp
              | true => exact ih _ _ _ _ hpos' (by omega)
    · rw [if_neg hlt]; simp

/-- `mm_map_level` returns: the iteration bound of the model is never hit. -/
theorem mm_map_level_returns (A : Arch) (va_begin va_end attrs flags : Nat)
    (hva : va_begin < WORD) :
    ∀ level, level_shift (level + 1) ≤ 64 → ∀ pa table s, pa % PAGE_SIZE = 0 →
      mm_map_level A va_begin va_end attrs flags level pa table s ≠ none := by
  intro level
  induction level with
  | zero =>
    intro hS pa table s hpa
    rw [mm_map_level_eq]
    exact loop_returns A _ 0 va_begin va_end _ attrs _ _ table rfl hS hva
      (fun h => absurd rfl h) ENTRIES va_begin pa _ s (loopPos_init 0 va_begin pa hpa)
      (by omega)
  | succ l ih =>
    intro hS pa table s hpa
    rw [mm_map_level_eq]
    exact loop_returns A _ (l + 1) va_begin va_end _ attrs _ _ table rfl hS hva
      (fun _ pa1 nt s1 hpa1 => ih (le_trans (level_shift_mono _ _ (by omega)) hS) pa1 nt s1 hpa1)
      ENTRIES va_begin pa _ s (loopPos_init (l + 1) va_begin pa hpa) (by omega)

/-- `mm_ptable_identity_map` returns a result for every input. -/
theorem mm_ptable_identity_map_returns (A : Arch) (hA : Contract A) (t : mm_ptable)
    (va_begin va_end mode : Nat) (s : State) :
    mm_ptable_identity_map A t va_begin va_end mode s ≠ none := by
  unfold mm_ptable_identity_map
  simp only
  have h1 := mm_map_level_returns A (A.arch_mm_clear_va va_begin)
    (A.arch_mm_clear_va ((va_end + (PAGE_SIZE - 1)) % WORD)) (A.arch_mm_mode_to_attrs mode)
    (if mode &&& MM_MODE_NOSYNC ≠ 0 then 0 else MAP_FLAG_SYNC) (hA.clear_va_lt va_begin)
    (A.arch_mm_max_level mode) (hA.levels_fit mode) (A.arch_mm_clear_pa va_begin) t.table s
    (hA.clear_pa_aligned va_begin)
  cases hdry : mm_map_level A (A.arch_mm_clear_va va_begin)
      (A.arch_mm_clear_va ((va_end + (PAGE_SIZE - 1)) % WORD)) (A.arch_mm_mode_to_attrs mode)
      (if mode &&& MM_MODE_NOSYNC ≠ 0 then 0 else MAP_FLAG_SYNC) (A.arch_mm_max_level mode)
      (A.arch_mm_clear_pa va_begin) t.table s with
  | none => exact absurd hdry h1
  | some res =>
    obtain ⟨okd, sd⟩ := res
    cases okd with
    | false => simp
    | true =>
      simp only
      have h2 := mm_map_level_returns A (A.arch_mm_clear_va va_begin)
        (A.arch_mm_clear_va ((va_end + (PAGE_SIZE - 1)) % WORD)) (A.arch_mm_mode_to_attrs mode)
        ((if mode &&& MM_MODE_NOSYNC ≠ 0 then 0 else MAP_FLAG_SYNC) ||| MAP_FLAG_COMMIT)
        (hA.clear_va_lt va_begin)
        (A.arch_mm_max_level mode) (hA.levels_fit mode) (A.arch_mm_clear_pa va_begin) t.table sd
        (hA.clear_pa_aligned va_begin)
      cases hcom : mm_map_level A (A.arch_mm_clear_va va_begin)
          (A.arch_mm_clear_va ((va_end + (PAGE_SIZE - 1)) % WORD)) (A.arch_mm_mode_to_attrs mode)
          ((if mode &&& MM_MODE_NOSYNC ≠ 0 then 0 else MAP_FLAG_SYNC) ||| MAP_FLAG_COMMIT)
          (A.arch_mm_max_level mode) (A.arch_mm_clear_pa va_begin) t.table sd with
      | none => exact absurd hcom h2
      | some res2 => simp

/-! ## The concrete backend meets the contract -/

theorem or_and_mask (a b c : Nat) : (a ||| b) &&& c = (a &&& c) ||| (b &&& c) := by
  rw [Nat.and_comm, Nat.and_or_distrib_left, Nat.and_comm c a, Nat.and_comm c b]

theorem and_three (x : Nat) : x &&& 3 = x % 4 := Nat.and_pow_two_sub_one_eq_mod x 2

theorem aligned_and_three (pa : Nat) (h : pa % PAGE_SIZE = 0) : pa &&& 3 = 0 := by
  rw [and_three]
  have : PAGE_SIZE = 4096 := by decide
  rw [this] at h
  omega

theorem aligned_and_one (pa : Nat) (h : pa % PAGE_SIZE = 0) : pa &&& 1 = 0 := by
  rw [Nat.and_one_is_mod]
  have : PAGE_SIZE = 4096 := by decide
  rw [this] at h
  omega

theorem shl_two_and_three (y : Nat) : (y <<< 2) &&& 3 = 0 := by
  rw [and_three, Nat.shiftLeft_eq]
  omega

theorem shl_two_and_one (y : Nat) : (y <<< 2) &&& 1 = 0 := by
  rw [Nat.and_one_is_mod, Nat.shiftLeft_eq]
  omega

theorem mm_entry_size_mod_four (level : Nat) : mm_entry_size level % 4 = 0 := by
  unfold mm_entry_size WORD
  rw [Nat.mod_mod_of_dvd _ (by decide : 4 ∣ 2 ^ 64), Nat.shiftLeft_eq, one_mul]
  unfold PAGE_BITS
  rw [pow_add]
  omega

theorem add_entry_size_and_three (v level : Nat) :
    ((v + mm_entry_size level) % WORD) &&& 3 = v &&& 3 := by
  rw [and_three, and_three]
  unfold WORD
  rw [Nat.mod_mod_of_dvd _ (by decide : 4 ∣ 2 ^ 64)]
  have := mm_entry_size_mod_four level
  omega

theorem add_entry_size_and_one (v level : Nat) :
    ((v + mm_entry_size level) % WORD) &&& 1 = v &&& 1 := by
  rw [Nat.and_one_is_mod, Nat.and_one_is_mod]
  unfold WORD
  rw [Nat.mod_mod_of_dvd _ (by decide : 2 ∣ 2 ^ 64)]
  have := mm_entry_size_mod_four level
  omega

theorem aligned_or_small (p a : Nat) (hp : p % PAGE_SIZE = 0) (ha : a < 2 ^ 12) :
    p ||| a = p + a := by
  have h1 : p = 2 ^ 12 * (p / 2 ^ 12) := by
    have : PAGE_SIZE = 2 ^ 12 := rfl
    rw [this] at hp
    omega
  rw [h1, ← Nat.mul_add_lt_is_or ha]

theorem and_not64_page_aligned (x : Nat) : (x &&& not64 (PAGE_SIZE - 1)) % PAGE_SIZE = 0 := by
  have hP : PAGE_SIZE = 2 ^ 12 := rfl
  rw [hP, ← Nat.and_pow_two_sub_one_eq_mod, Nat.and_assoc]
  have : not64 (2 ^ 12 - 1) &&& (2 ^ 12 - 1) = 0 := by decide
  rw [this, Nat.and_zero]

theorem demo_contract : Contract demo where
  absent_not_present := by decide
  absent_not_block := by decide
  absent_not_table := by decide
  absent_lt := by decide
  table_is_table := by
    intro p hp _
    show (p ||| 3) &&& 3 == 3
    rw [or_and_mask, aligned_and_three p hp]
    decide
  table_to_table := by
    intro p hp hlt
    show (p ||| 3) &&& not64 (PAGE_SIZE - 1) = p
    have h3 : p ||| 3 = p + 3 := aligned_or_small p 3 hp (by norm_num)
    have hlt' : p ||| 3 < WORD := Nat.or_lt_two_pow hlt (by norm_num)
    have := land_not64 (p ||| 3) 12 (by norm_num) hlt'
    have hP : PAGE_SIZE = 2 ^ 12 := rfl
    rw [hP, this, h3]
    rw [hP] at hp
    omega
  table_not_block := by
    intro v hv
    have h3 : v &&& 3 = 3 := by simpa [demo] using hv
    show (v &&& 3 == 1) = false
    rw [h3]; decide
  page_present := by
    intro pa mode hpa
    show ((pa ||| (1 ||| ((mode &&& 0xf) <<< 2)) ||| (((1 ||| ((mode &&& 0xf) <<< 2)) &&& 1) <<< 1))
      &&& 1 != 0) = true
    rw [or_and_mask, or_and_mask, or_and_mask, aligned_and_one pa hpa, shl_two_and_one]
    simp
  block_is_block := by
    intro pa mode hpa
    show ((pa ||| (1 ||| ((mode &&& 0xf) <<< 2))) &&& 3 == 1) = true
    rw [or_and_mask, or_and_mask, aligned_and_three pa hpa, shl_two_and_three]
    decide
  block_present := by
    intro pa mode hpa
    show ((pa ||| (1 ||| ((mode &&& 0xf) <<< 2))) &&& 1 != 0) = true
    rw [or_and_mask, or_and_mask, aligned_and_one pa hpa, shl_two_and_one]
    decide
  page_zero_absent := by
    intro pa hpa
    show ((pa ||| 0 ||| ((0 &&& 1) <<< 1)) &&& 1 != 0) = false ∧
      ((pa ||| 0 ||| ((0 &&& 1) <<< 1)) &&& 3 == 1) = false ∧
      ((pa ||| 0 ||| ((0 &&& 1) <<< 1)) &&& 3 == 3) = false
    simp only [Nat.or_zero, Nat.zero_and, Nat.zero_shiftLeft]
    rw [aligned_and_one pa hpa, aligned_and_three pa hpa]
    decide
  block_zero_absent := by
    intro pa hpa
    show ((pa ||| 0) &&& 1 != 0) = false ∧ ((pa ||| 0) &&& 3 == 1) = false ∧
      ((pa ||| 0) &&& 3 == 3) = false
    rw [Nat.or_zero, aligned_and_one pa hpa, aligned_and_three pa hpa]
    decide
  block_step := by
    intro v level hv
    show (((v + mm_entry_size level) % WORD) &&& 3 == 1) = true
    rw [add_entry_size_and_three]
    exact hv
  block_to_page_present := by
    intro v hv
    have h3 : v &&& 3 = 1 := by simpa [demo] using hv
    show ((v ||| 2) &&& 1 != 0) = true
    rw [or_and_mask, Nat.and_one_is_mod]
    rw [and_three] at h3
    have : v % 2 = 1 := by omega
    rw [this]
    decide
  present_step := by
    intro v hv
    show (((v + mm_entry_size 0) % WORD) &&& 1 != 0) = true
    rw [add_entry_size_and_one]
    exact hv
  allowed_down := by
    intro level hl h
    have h2 : level + 1 = 1 ∨ level + 1 = 2 := by simpa [demo] using h
    have : level = 1 := by omega
    subst this
    decide
  levels_fit := by
    intro _
    show level_shift (3 + 1) ≤ 64
    decide
  clear_va_lt := by
    intro va
    exact Nat.and_lt_two_pow va (by decide)
  clear_va_aligned := fun va => and_not64_page_aligned va
  clear_pa_aligned := fun pa => and_not64_page_aligned pa

theorem init_loop_spec (A : Arch) (table : Nat) :
    ∀ n i (m : Mem) q j,
      (mm_ptable_init_loop A table n i m) q j =
        if q = table ∧ i ≤ j ∧ j < i + n then A.arch_mm_absent_pte else m q j := by
  intro n
  induction n with
  | zero =>
    intro i m q j
    rw [mm_ptable_init_loop]
    have : ¬(q = table ∧ i ≤ j ∧ j < i + 0) := by omega
    rw [if_neg this]
  | succ n ih =>
    intro i m q j
    rw [mm_ptable_init_loop, ih]
    by_cases h1 : q = table ∧ i + 1 ≤ j ∧ j < i + 1 + n
    · rw [if_pos h1, if_pos ⟨h1.1, by omega, by omega⟩]
    · rw [if_neg h1]
      by_cases h2 : q = table ∧ i ≤ j ∧ j < i + (n + 1)
      · have hji : j = i := by
          by_contra hne
          exact h1 ⟨h2.1, by omega, by omega⟩
        rw [if_pos h2, hji, h2.1, write_same]
      · rw [if_neg h2]
        apply write_other
        by_contra hc
        push_neg at hc
        exact h2 ⟨hc.1, by omega, by omega⟩

theorem mm_ptable_init_cases (A : Arch) (t0 : mm_ptable) (id mode : Nat) (s : State)
    (hok : (mm_ptable_init A t0 id mode s).1 = true) :
    ∃ nt rest, s.heap = nt :: rest ∧ nt ≠ 0 ∧
      (mm_ptable_init A t0 id mode s).2.1 = { table := nt, id := id } ∧
      (mm_ptable_init A t0 id mode s).2.2.heap = rest ∧
      (mm_ptable_init A t0 id mode s).2.2.tlb = s.tlb ∧
      (mm_ptable_init A t0 id mode s).2.2.mem =
        mm_ptable_init_loop A nt ENTRIES 0 s.mem := by
  unfold mm_ptable_init at hok ⊢
  have hsel : (if mode &&& MM_MODE_NOSYNC ≠ 0 then halloc_aligned_nosync s else halloc_aligned s)
      = halloc_aligned s := by
    split <;> rfl
  simp only [hsel] at hok ⊢
  cases hheap : s.heap with
  | nil => simp [halloc_aligned, hheap] at hok
  | cons nt rest =>
    by_cases hnt : nt = 0
    · simp [halloc_aligned, hheap, hnt] at hok
    · refine ⟨nt, rest, rfl, hnt, ?_⟩
      simp [halloc_aligned, hheap, hnt]

/-- A table fresh from `mm_ptable_init` is well formed for every mode. -/
theorem wellFormed_init (A : Arch) (hA : Contract A) (t0 : mm_ptable) (id mode mode' : Nat)
    (s : State) (hh : HeapOK s.heap (fun _ => False))
    (hok : (mm_ptable_init A t0 id mode s).1 = true) :
    WellFormed A (mm_ptable_init A t0 id mode s).2.1 mode' (mm_ptable_init A t0 id mode s).2.2 := by
  obtain ⟨nt, rest, hheap, hnt, ht, hr, -, hmem⟩ := mm_ptable_init_cases A t0 id mode s hok
  unfold WellFormed
  rw [ht, hr, hmem]
  have hent : ∀ i, i < ENTRIES →
      (mm_ptable_init_loop A nt ENTRIES 0 s.mem) nt i = A.arch_mm_absent_pte := by
    intro i hi
    rw [init_loop_spec, if_pos ⟨rfl, Nat.zero_le _, by omega⟩]
  have hfp := footprint_leaf_table A (mm_ptable_init_loop A nt ENTRIES 0 s.mem)
    (A.arch_mm_max_level mode') nt (fun _ i hi => by rw [hent i hi]; exact hA.absent_not_table)
  refine ⟨tree_leaf_table A _ _ nt (fun _ i hi => ?_), ?_, ?_⟩
  · rw [hent i hi]
    refine ⟨hA.absent_not_table, fun h => ?_⟩
    rw [hA.absent_not_block] at h
    exact absurd h Bool.false_ne_true
  · rw [hheap] at hh
    apply heapOK_advance [nt] rest (fun _ => False) _ hh
    intro q hq
    right
    have := (hfp q).1 hq
    exact ⟨this ▸ hnt, this ▸ List.mem_singleton_self _⟩
  · intro q hq
    rw [(hfp q).1 hq]
    exact (hh.1 nt (by rw [hheap]; exact ⟨hnt, List.mem_cons_self _ _⟩)).2.1

theorem heapOK_boot : HeapOK boot.heap (fun _ => False) := by
  refine ⟨fun q hq => ⟨fun h => h, ?_⟩, by decide⟩
  have hq' : q ∈ boot.heap := hq.2
  simp only [boot, List.mem_cons, List.mem_singleton, List.not_mem_nil, or_false] at hq'
  rcases hq' with h | h | h | h | h | h | h | h <;> subst h <;> decide

theorem wellFormed_fresh (mode : Nat) : WellFormed demo fresh_table mode fresh :=
  wellFormed_init demo demo_contract ⟨0, 0⟩ 0 0 mode boot heapOK_boot (by decide)

theorem wellFormed_mapped_4m : WellFormed demo fresh_table mode_rw mapped_4m :=
  wellFormed_state_after demo demo_contract fresh_table 0 0x400000 mode_rw fresh
    (wellFormed_fresh mode_rw)

/-! ## Initialisation and the image -/

/-- A table whose slots all hold the absent entry maps no address, at any
level. -/
theorem is_mapped_absent_table (A : Arch)
    (hp : A.arch_mm_pte_is_present A.arch_mm_absent_pte = false)
    (hb : A.arch_mm_pte_is_block A.arch_mm_absent_pte = false)
    (ht : A.arch_mm_pte_is_table A.arch_mm_absent_pte = false)
    (m : Mem) (table : Nat) (hent : ∀ i, i < ENTRIES → m table i = A.arch_mm_absent_pte)
    (addr level : Nat) :
    mm_is_mapped_recursive A m addr level table = false := by
  cases level with
  | zero =>
    rw [mm_is_mapped_recursive_zero]
    split
    · rfl
    · rw [hent _ (mm_index_lt _ _), hp]
  | succ l =>
    rw [mm_is_mapped_recursive_succ]
    split
    · rfl
    · rw [hent _ (mm_index_lt _ _), hb, ht]
      simp

/-- The selected allocator of `mm_ptable_init`. -/
theorem init_alloc_eq (mode : Nat) (s : State) :
    (if mode &&& MM_MODE_NOSYNC ≠ 0 then halloc_aligned_nosync s else halloc_aligned s)
      = halloc_aligned s := by
  split <;> rfl

/-- `mm_ptable_unmap` always returns (the iteration bound of the model is never
hit). -/
theorem mm_ptable_unmap_returns (A : Arch) (hA : Contract A) (t : mm_ptable)
    (va_begin va_end mode : Nat) (s : State) :
    mm_ptable_unmap A t va_begin va_end mode s ≠ none := by
  unfold mm_ptable_unmap
  simp only
  have h1 := mm_map_level_returns A (A.arch_mm_clear_va va_begin)
    (A.arch_mm_clear_va ((va_end + (PAGE_SIZE - 1)) % WORD)) 0
    (if mode &&& MM_MODE_NOSYNC ≠ 0 then 0 else MAP_FLAG_SYNC) (hA.clear_va_lt va_begin)
    (A.arch_mm_max_level mode) (hA.levels_fit mode) (A.arch_mm_clear_va va_begin) t.table s
    (hA.clear_va_aligned va_begin)
  cases hdry : mm_map_level A (A.arch_mm_clear_va va_begin)
      (A.arch_mm_clear_va ((va_end + (PAGE_SIZE - 1)) % WORD)) 0
      (if mode &&& MM_MODE_NOSYNC ≠ 0 then 0 else MAP_FLAG_SYNC) (A.arch_mm_max_level mode)
      (A.arch_mm_clear_va va_begin) t.table s with
  | none => exact absurd hdry h1
  | some res =>
    obtain ⟨okd, sd⟩ := res
    cases okd with
    | false => simp
    | true =>
      simp only
      have h2 := mm_map_level_returns A (A.arch_mm_clear_va va_begin)
        (A.arch_mm_clear_va ((va_end + (PAGE_SIZE - 1)) % WORD)) 0
        ((if mode &&& MM_MODE_NOSYNC ≠ 0 then 0 else MAP_FLAG_SYNC) ||| MAP_FLAG_COMMIT)
        (hA.clear_va_lt va_begin)
        (A.arch_mm_max_level mode) (hA.levels_fit mode) (A.arch_mm_clear_va va_begin) t.table sd
        (hA.clear_va_aligned va_begin)
      cases hcom : mm_map_level A (A.arch_mm_clear_va va_begin)
          (A.arch_mm_clear_va ((va_end + (PAGE_SIZE - 1)) % WORD)) 0
          ((if mode &&& MM_MODE_NOSYNC ≠ 0 then 0 else MAP_FLAG_SYNC) ||| MAP_FLAG_COMMIT)
          (A.arch_mm_max_level mode) (A.arch_mm_clear_va va_begin) t.table sd with
      | none => exact absurd hcom h2
      | some res2 => simp

/-- A call that returns has a result and a state. -/
theorem exists_of_ne_none {r : Option (Bool × State)} (h : r ≠ none) :
    ∃ ok s, r = some (ok, s) := by
  cases r with
  | none => exact absurd rfl h
  | some p => exact ⟨p.1, p.2, rfl⟩

/-! ## TLB maintenance -/

/-- `mm_populate_table_pte` issues no TLB maintenance. -/
theorem populate_tlb (A : Arch) (p idx level : Nat) (sync : Bool) (s : State) :
    (mm_populate_table_pte A p idx level sync s).2.tlb = s.tlb := by
  rcases populate_cases A p idx level sync s with ⟨-, h⟩ | ⟨-, -, -, h, -⟩ |
    ⟨-, nt, rest, -, -, -, -, h, -⟩
  · rw [h]
  · exact h
  · exact h

/-- The loop of `mm_map_level` issues no TLB maintenance if the recursive call
issues none. -/
theorem loop_tlb (A : Arch) (recurse : Nat → Nat → State → Option (Bool × State))
    (level end_ es attrs : Nat) (commit sync : Bool) (p : Nat)
    (hrec : ∀ pa nt s r, recurse pa nt s = some r → r.2.tlb = s.tlb) :
    ∀ fuel begin pa idx s r,
      mm_map_level_loop A recurse level end_ es attrs commit sync p fuel begin pa idx s = some r →
      r.2.tlb = s.tlb := by
  intro fuel
  induction fuel with
  | zero =>
    intro begin pa idx s r h
    rw [mm_map_level_loop] at h
    by_cases hlt : begin < end_
    · rw [if_pos hlt] at h; cases h
    · rw [if_neg hlt] at h; cases h; rfl
  | succ fuel ih =>
    intro begin pa idx s r h
    rw [mm_map_level_loop] at h
    by_cases hlt : begin < end_
    · rw [if_pos hlt] at h
      by_cases hl0 : level = 0
      · simp only [if_pos hl0] at h
        have := ih _ _ _ _ _ h
        rw [this]
        cases commit <;> rfl
      · simp only [if_neg hl0] at h
        by_cases hblk : end_ - begin ≥ es ∧
            A.arch_mm_is_block_allowed level = true ∧ begin &&& (es - 1) = 0
        · simp only [if_pos hblk] at h
          have := ih _ _ _ _ _ h
          rw [this]
          cases commit <;> rfl
        · simp only [if_neg hblk] at h
          have hp := populate_tlb A p idx level sync s
          generalize mm_populate_table_pte A p idx level sync s = q at h hp
          obtain ⟨nt, s1⟩ := q
          simp only at h hp
          by_cases hnt : nt = 0
          · rw [if_pos hnt] at h
            cases h
            exact hp
          · rw [if_neg hnt] at h
            cases hrc : recurse pa nt s1 with
            | none => rw [hrc] at h; cases h
            | some res =>
              have h2 := hrec pa nt s1 res hrc
              rw [hrc] at h
              obtain ⟨ok2, s2⟩ := res
              cases ok2 with
              | false =>
                simp only at h
                cases h
                exact h2.trans hp
              | true =>
                simp only at h
                exact (ih _ _ _ _ _ h).trans (h2.trans hp)
    · rw [if_neg hlt] at h; cases h; rfl

/-- `mm_map_level` issues no TLB maintenance. -/
theorem mm_map_level_tlb (A : Arch) (va_begin va_end attrs flags : Nat) :
    ∀ level pa table s r, mm_map_level A va_begin va_end attrs flags level pa table s = some r →
      r.2.tlb = s.tlb := by
  intro level
  induction level with
  | zero =>
    intro pa table s r h
    rw [mm_map_level_eq] at h
    exact loop_tlb A _ 0 _ _ attrs _ _ table (fun _ _ _ _ h => by cases h) _ _ _ _ _ _ h
  | succ l ih =>
    intro pa table s r h
    rw [mm_map_level_eq] at h
    exact loop_tlb A _ (l + 1) _ _ attrs _ _ table (fun pa1 nt s1 r1 h1 => ih pa1 nt s1 r1 h1)
      _ _ _ _ _ _ h

/-- The TLB trace after `mm_invalidate_tlb`. -/
theorem mm_invalidate_tlb_trace (va_begin va_end mode : Nat) (s : State) :
    (mm_invalidate_tlb va_begin va_end (decide (mode &&& MM_MODE_STAGE1 ≠ 0)) s).tlb =
      range_invalidation mode va_begin va_end :: s.tlb := by
  unfold mm_invalidate_tlb range_invalidation
  by_cases h : mode &&& MM_MODE_STAGE1 ≠ 0
  · rw [if_pos h, decide_eq_true h]; rfl
  · rw [if_neg h, decide_eq_false h]; rfl

/-- What the two walks and the invalidation shared by `mm_ptable_identity_map`
and `mm_ptable_unmap` do to the TLB trace. -/
theorem two_walks_tlb (A : Arch) (b e attrs flags level pa table mode : Nat) (s : State)
    (r : Option (Bool × State))
    (hr : r = match mm_map_level A b e attrs flags level pa table s with
      | none => none
      | some (false, s1) => some (false, s1)
      | some (true, s1) =>
        match mm_map_level A b e attrs (flags ||| MAP_FLAG_COMMIT) level pa table s1 with
        | none => none
        | some (_, s2) =>
          some (true,
            if mode &&& MM_MODE_NOINVALIDATE = 0 then
              mm_invalidate_tlb b e (decide (mode &&& MM_MODE_STAGE1 ≠ 0)) s2
            else s2)) :
    (∀ s', r = some (true, s') →
      (∃ sd okc sc, mm_map_level A b e attrs flags level pa table s = some (true, sd) ∧
        mm_map_level A b e attrs (flags ||| MAP_FLAG_COMMIT) level pa table sd = some (okc, sc) ∧
        s'.mem = sc.mem ∧ sc.tlb = s.tlb) ∧
      (mode &&& MM_MODE_NOINVALIDATE = 0 → s'.tlb = range_invalidation mode b e :: s.tlb) ∧
      (mode &&& MM_MODE_NOINVALIDATE ≠ 0 → s'.tlb = s.tlb)) ∧
    (∀ s', r = some (false, s') → s'.tlb = s.tlb) := by
  subst hr
  cases hdry : mm_map_level A b e attrs flags level pa table s with
  | none => simp
  | some res =>
    obtain ⟨okd, sd⟩ := res
    have hd := mm_map_level_tlb A b e attrs flags level pa table s _ hdry
    simp only at hd
    cases okd with
    | false =>
      simp only
      refine ⟨fun s' h => ?_, fun s' h => ?_⟩
      · cases h
      · cases h
        exact hd
    | true =>
      simp only
      cases hcom : mm_map_level A b e attrs (flags ||| MAP_FLAG_COMMIT) level pa table sd with
      | none => simp
      | some res2 =>
        obtain ⟨okc, sc⟩ := res2
        have hc := mm_map_level_tlb A b e attrs _ level pa table sd _ hcom
        simp only at hc
        simp only
        refine ⟨fun s' h => ?_, fun s' h => ?_⟩
        · cases h
          by_cases hn : mode &&& MM_MODE_NOINVALIDATE = 0
          · rw [if_pos hn]
            refine ⟨⟨sd, okc, sc, rfl, hcom, ?_, hc.trans hd⟩, fun _ => ?_, fun h => absurd hn h⟩
            · exact (mm_invalidate_tlb_mem _ _ _ _).1
            · rw [mm_invalidate_tlb_trace, hc, hd]
          · rw [if_neg hn]
            exact ⟨⟨sd, okc, sc, rfl, hcom, rfl, hc.trans hd⟩, fun h => absurd h hn,
              fun _ => hc.trans hd⟩
        · cases h

/-- The concrete backend's `arch_mm_clear_va` drops the low `PAGE_BITS`. -/
theorem demo_clear_va (x : Nat) (hx : x < WORD) : demo.arch_mm_clear_va x = page_floor x :=
  land_not64 x 12 (by decide) hx

/-! ## The commit walk -/

/-- Flags with `MAP_FLAG_COMMIT` or-ed in have the commit bit set. -/
theorem commit_bit_set (flags : Nat) (h : flags &&& MAP_FLAG_COMMIT = 0) :
    decide ((flags ||| MAP_FLAG_COMMIT) &&& MAP_FLAG_COMMIT ≠ 0) = true := by
  rw [or_and_mask, h]
  decide

/-- Block entries made with the attributes of a mode do not classify as
tables. -/
theorem mode_block_not_table (A : Arch) (hA : Contract A) (mode pa : Nat)
    (hpa : pa % PAGE_SIZE = 0) :
    A.arch_mm_pte_is_table (A.arch_mm_pa_to_block_pte pa (A.arch_mm_mode_to_attrs mode))
      = false := by
  rcases Bool.eq_false_or_eq_true (A.arch_mm_pte_is_table
    (A.arch_mm_pa_to_block_pte pa (A.arch_mm_mode_to_attrs mode))) with h | h
  · have := hA.table_not_block _ h
    rw [hA.block_is_block pa mode hpa] at this
    cases this
  · exact h

/-! ## Bounds of the traversal -/

theorem loopPos_step_any (level va_begin va_end begin idx : Nat)
    (hS : level_shift (level + 1) ≤ 64) (hva : va_begin < WORD)
    (hpos : LoopPos level va_begin begin 0 idx)
    (hlt : begin < (if va_end > mm_level_end va_begin level then mm_level_end va_begin level
      else va_end)) :
    idx < ENTRIES ∧
    LoopPos level va_begin
      (((begin + mm_entry_size level) % WORD) &&& not64 (mm_entry_size level - 1)) 0 (idx + 1) := by
  obtain ⟨h1, h2⟩ := loopPos_step level va_begin va_end begin 0 idx hS hva hpos hlt
  exact ⟨h1, Nat.zero_mod _, h2.2⟩

theorem loopPos_init_any (level va_begin : Nat) :
    LoopPos level va_begin va_begin 0 (mm_index va_begin level) :=
  loopPos_init level va_begin 0 (Nat.zero_mod _)

/-- The loop of `mm_map_level` ends within the iterations it is given, whatever
`pa` is. -/
theorem loop_returns_any (A : Arch) (recurse : Nat → Nat → State → Option (Bool × State))
    (level va_begin va_end end_ attrs : Nat) (commit sync : Bool) (p : Nat)
    (hend : end_ = if va_end > mm_level_end va_begin level then mm_level_end va_begin level
      else va_end)
    (hS : level_shift (level + 1) ≤ 64) (hva : va_begin < WORD)
    (hrec : level ≠ 0 → ∀ pa nt s, recurse pa nt s ≠ none) :
    ∀ fuel begin pa idx s, LoopPos level va_begin begin 0 idx → ENTRIES ≤ idx + fuel →
      mm_map_level_loop A recurse level end_ (mm_entry_size level) attrs commit sync p
        fuel begin pa idx s ≠ none := by
  intro fuel
  induction fuel with
  | zero =>
    intro begin pa idx s hpos hf
    rw [mm_map_level_loop]
    by_cases hlt : begin < end_
    · have := (loopPos_step_any level va_begin va_end begin idx hS hva hpos (hend ▸ hlt)).1
      omega
    · rw [if_neg hlt]; simp
  | succ fuel ih =>
    intro begin pa idx s hpos hf
    rw [mm_map_level_loop]
    by_cases hlt : begin < end_
    · rw [if_pos hlt]
      obtain ⟨_, hpos'⟩ := loopPos_step_any level va_begin va_end begin idx hS hva hpos
        (hend ▸ hlt)
      by_cases hl0 : level = 0
      · simp only [if_pos hl0]
        exact ih _ _ _ _ hpos' (by omega)
      · simp only [if_neg hl0]
        by_cases hblk : end_ - begin ≥ mm_entry_size level ∧
            A.arch_mm_is_block_allowed level = true ∧ begin &&& (mm_entry_size level - 1) = 0
        · simp only [if_pos hblk]
          exact ih _ _ _ _ hpos' (by omega)
        · simp only [if_neg hblk]
          generalize mm_populate_table_pte A p idx level sync s = r
          obtain ⟨nt, s1⟩ := r
          simp only
          by_cases hnt : nt = 0
          · rw [if_pos hnt]; simp
          · rw [if_neg hnt]
            cases hrc : recurse pa nt s1 with
            | none => exact absurd hrc (hrec hl0 pa nt s1)
            | some res =>
              obtain ⟨ok2, s2⟩ := res
              cases ok2 with
              | false => simp
              | true => exact ih _ _ _ _ hpos' (by omega)
    · rw [if_neg hlt]; simp

/-- `mm_map_level` returns for every `pa`: the iteration bound of the model is
never hit. -/
theorem mm_map_level_returns_any (A : Arch) (va_begin va_end attrs flags : Nat)
    (hva : va_begin < WORD) :
    ∀ level, level_shift (level + 1) ≤ 64 → ∀ pa table s,
      mm_map_level A va_begin va_end attrs flags level pa table s ≠ none := by
  intro level
  induction level with
  | zero =>
    intro hS pa table s
    rw [mm_map_level_eq]
    exact loop_returns_any A _ 0 va_begin va_end _ attrs _ _ table rfl hS hva
      (fun h => absurd rfl h) ENTRIES va_begin pa _ s (loopPos_init_any 0 va_begin)
      (by omega)
  | succ l ih =>
    intro hS pa table s
    rw [mm_map_level_eq]
    exact loop_returns_any A _ (l + 1) va_begin va_end _ attrs _ _ table rfl hS hva
      (fun _ pa1 nt s1 => ih (le_trans (level_shift_mono _ _ (by omega)) hS) pa1 nt s1)
      ENTRIES va_begin pa _ s (loopPos_init_any (l + 1) va_begin) (by omega)

/-- The loop variable advances: from a `begin` between `va_begin` and the capped
end, the rounded successor is above `begin` and not beyond the end of the
level. -/
theorem begin_advances (level va_begin va_end begin : Nat)
    (hS : level_shift (level + 1) ≤ 64) (hva : va_begin < WORD) (hge : va_begin ≤ begin)
    (hlt : begin < (if va_end > mm_level_end va_begin level then mm_level_end va_begin level
      else va_end)) :
    begin < ((begin + mm_entry_size level) % WORD) &&& not64 (mm_entry_size level - 1) ∧
    ((begin + mm_entry_size level) % WORD) &&& not64 (mm_entry_size level - 1)
      ≤ mm_level_end va_begin level := by
  have hs9 := level_shift_succ level
  have hs : level_shift level < 64 := by omega
  have hs' : level_shift level ≤ 64 := by omega
  have hlt' : begin < mm_level_end va_begin level := by
    split at hlt <;> omega
  obtain ⟨hle, hX⟩ := mm_level_end_of_lt va_begin begin level hS hva hlt'
  rw [hle] at hlt' ⊢
  rw [two_pow_level_shift_succ] at hlt' hX ⊢
  have hespos : 0 < 2 ^ level_shift level := Nat.pos_pow_of_pos _ (by norm_num)
  have hW : WORD = 2 ^ (64 - level_shift (level + 1)) * (2 ^ level_shift level * 512) := by
    rw [← two_pow_level_shift_succ]; exact word_eq_mul _ hS
  have hk : va_begin / (2 ^ level_shift level * 512) * 512 ≤ begin / 2 ^ level_shift level := by
    rw [Nat.le_div_iff_mul_le hespos]
    calc va_begin / (2 ^ level_shift level * 512) * 512 * 2 ^ level_shift level
        = va_begin / (2 ^ level_shift level * 512) * (2 ^ level_shift level * 512) := by ring
      _ ≤ va_begin := Nat.div_mul_le_self _ _
      _ ≤ begin := hge
  have hidx : begin / 2 ^ level_shift level = va_begin / (2 ^ level_shift level * 512) * 512 +
      (begin / 2 ^ level_shift level - va_begin / (2 ^ level_shift level * 512) * 512) := by
    omega
  obtain ⟨h1, h2, h3⟩ := loop_arith _ _ _ _ _ _ hespos hW hX hlt' hidx
  rw [mm_entry_size_eq level hs, Nat.mod_eq_of_lt h2, land_not64 _ _ hs' h2, h3]
  constructor
  · have := (Nat.div_lt_iff_lt_mul hespos).1 (Nat.lt_succ_self (begin / 2 ^ level_shift level))
    rw [hidx] at this
    exact this
  · calc (va_begin / (2 ^ level_shift level * 512) * 512 +
          (begin / 2 ^ level_shift level - va_begin / (2 ^ level_shift level * 512) * 512 + 1))
          * 2 ^ level_shift level
        ≤ ((va_begin / (2 ^ level_shift level * 512) + 1) * 512) * 2 ^ level_shift level :=
          Nat.mul_le_mul_right _ (by omega)
      _ = (va_begin / (2 ^ level_shift level * 512) + 1) * (2 ^ level_shift level * 512) := by
          ring

/-- At level 0 the loop of `mm_map_level` never makes the recursive call: its
result is the same whatever the recursive call would do. -/
theorem loop_level_zero (A : Arch) (r1 r2 : Nat → Nat → State → Option (Bool × State))
    (end_ es attrs : Nat) (commit sync : Bool) (p : Nat) :
    ∀ fuel begin pa idx s,
      mm_map_level_loop A r1 0 end_ es attrs commit sync p fuel begin pa idx s =
      mm_map_level_loop A r2 0 end_ es attrs commit sync p fuel begin pa idx s := by
  intro fuel
  induction fuel with
  | zero =>
    intro begin pa idx s
    rw [mm_map_level_loop, mm_map_level_loop]
  | succ fuel ih =>
    intro begin pa idx s
    rw [mm_map_level_loop, mm_map_level_loop]
    by_cases hlt : begin < end_
    · rw [if_pos hlt, if_pos hlt]
      simp only [if_true]
      exact ih _ _ _ _
    · rw [if_neg hlt, if_neg hlt]

/-- The slots the loop points `pte` at lie between the slot it starts from and
the end of the table, and there are no more of them than slots from there to
the end of the table. -/
theorem loop_slots_bound (A : Arch) (recurse : Nat → Nat → State → Option (Bool × State))
    (level va_begin va_end end_ attrs : Nat) (commit sync : Bool) (p : Nat)
    (hend : end_ = if va_end > mm_level_end va_begin level then mm_level_end va_begin level
      else va_end)
    (hS : level_shift (level + 1) ≤ 64) (hva : va_begin < WORD) :
    ∀ fuel begin pa idx s, LoopPos level va_begin begin 0 idx →
      (∀ i ∈ mm_map_level_loop_slots A recurse level end_ (mm_entry_size level) attrs commit sync p
          fuel begin pa idx s, idx ≤ i ∧ i < ENTRIES) ∧
      (mm_map_level_loop_slots A recurse level end_ (mm_entry_size level) attrs commit sync p
          fuel begin pa idx s).length ≤ ENTRIES - idx := by
  intro fuel
  induction fuel with
  | zero =>
    intro begin pa idx s _
    rw [mm_map_level_loop_slots]
    exact ⟨fun i hi => (by cases hi), Nat.zero_le _⟩
  | succ fuel ih =>
    intro begin pa idx s hpos
    rw [mm_map_level_loop_slots]
    by_cases hlt : begin < end_
    · rw [if_pos hlt]
      obtain ⟨hidx, hpos'⟩ := loopPos_step_any level va_begin va_end begin idx hS hva hpos
        (hend ▸ hlt)
      have key : ∀ l : List Nat,
          ((∀ i ∈ l, idx + 1 ≤ i ∧ i < ENTRIES) ∧ l.length ≤ ENTRIES - (idx + 1)) →
          (∀ i ∈ idx :: l, idx ≤ i ∧ i < ENTRIES) ∧ (idx :: l).length ≤ ENTRIES - idx := by
        intro l hl
        refine ⟨fun i hi => ?_, ?_⟩
        · rcases List.mem_cons.1 hi with h | h
          · subst h; exact ⟨le_refl _, hidx⟩
          · have := hl.1 i h
            omega
        · rw [List.length_cons]
          have := hl.2
          omega
      have nil : (∀ i ∈ ([] : List Nat), idx + 1 ≤ i ∧ i < ENTRIES) ∧
          ([] : List Nat).length ≤ ENTRIES - (idx + 1) :=
        ⟨fun i hi => (by cases hi), Nat.zero_le _⟩
      apply key
      by_cases hl0 : level = 0
      · simp only [if_pos hl0]
        exact ih _ _ _ _ hpos'
      · simp only [if_neg hl0]
        by_cases hblk : end_ - begin ≥ mm_entry_size level ∧
            A.arch_mm_is_block_allowed level = true ∧ begin &&& (mm_entry_size level - 1) = 0
        · simp only [if_pos hblk]
          exact ih _ _ _ _ hpos'
        · simp only [if_neg hblk]
          generalize mm_populate_table_pte A p idx level sync s = r
          obtain ⟨nt, s1⟩ := r
          simp only
          by_cases hnt : nt = 0
          · rw [if_pos hnt]; exact nil
          · rw [if_neg hnt]
            cases hrc : recurse pa nt s1 with
            | none => exact nil
            | some res =>
              obtain ⟨ok2, s2⟩ := res
              cases ok2 with
              | false => exact nil
              | true => exact ih _ _ _ _ hpos'
    · rw [if_neg hlt]
      exact ⟨fun i hi => (by cases hi), Nat.zero_le _⟩

/-- At a level whose table span does not fit 64 bits, the end of the level
truncates to 0. -/
theorem mm_level_end_wide (va level : Nat) (hva : va < WORD)
    (h : 64 < level_shift (level + 1)) : mm_level_end va level = 0 := by
  rw [mm_level_end_eq]
  have hle : WORD ≤ 2 ^ level_shift (level + 1) :=
    Nat.pow_le_pow_right (by norm_num) (le_of_lt h)
  rw [Nat.div_eq_of_lt (lt_of_lt_of_le hva hle), Nat.zero_add, Nat.one_mul]
  exact Nat.mod_eq_zero_of_dvd (pow_dvd_pow 2 (le_of_lt h))

/-- The capped end at such a level is 0. -/
theorem capped_end_wide (va_begin va_end level : Nat) (hva : va_begin < WORD)
    (h : 64 < level_shift (level + 1)) :
    (if va_end > mm_level_end va_begin level then mm_level_end va_begin level else va_end) = 0 := by
  rw [mm_level_end_wide va_begin level hva h]
  split <;> omega

/-- A loop of `mm_map_level` whose capped end is 0 does not run. -/
theorem loop_idle (A : Arch) (recurse : Nat → Nat → State → Option (Bool × State))
    (level es attrs : Nat) (commit sync : Bool) (p fuel begin pa idx : Nat) (s : State) :
    mm_map_level_loop A recurse level 0 es attrs commit sync p fuel begin pa idx s
      = some (true, s) ∧
    mm_map_level_loop_slots A recurse level 0 es attrs commit sync p fuel begin pa idx s = [] := by
  cases fuel with
  | zero =>
    rw [mm_map_level_loop, mm_map_level_loop_slots, if_neg (Nat.not_lt_zero _)]
    exact ⟨rfl, rfl⟩
  | succ n =>
    rw [mm_map_level_loop, mm_map_level_loop_slots, if_neg (Nat.not_lt_zero _),
      if_neg (Nat.not_lt_zero _)]
    exact ⟨rfl, rfl⟩

/-- `mm_map_level` at a level whose table span does not fit 64 bits returns at
once. -/
theorem mm_map_level_wide (A : Arch) (va_begin va_end attrs flags level pa table : Nat)
    (s : State) (hva : va_begin < WORD) (h : 64 < level_shift (level + 1)) :
    mm_map_level A va_begin va_end attrs flags level pa table s = some (true, s) ∧
    mm_map_level_slots A va_begin va_end attrs flags level pa table s = [] := by
  rw [mm_map_level_eq]
  unfold mm_map_level_slots
  rw [capped_end_wide va_begin va_end level hva h]
  exact ⟨(loop_idle A _ _ _ _ _ _ _ _ _ _ _ _).1, (loop_idle A _ _ _ _ _ _ _ _ _ _ _ _).2⟩

/-- A loop of `mm_map_level` whose capped end is 0 has nothing to do. -/
theorem done_loop_idle (A : Arch) (rd : Nat → Nat → Mem → Prop)
    (level es attrs : Nat) (commit : Bool) (p fuel begin pa idx : Nat) (m : Mem) :
    done_loop A rd level 0 es attrs commit p fuel begin pa idx m := by
  cases fuel with
  | zero =>
    rw [done_loop]
    exact Nat.not_lt_zero _
  | succ n =>
    rw [done_loop]
    intro h
    exact absurd h (Nat.not_lt_zero _)

/-- At a level whose table span does not fit 64 bits `mm_map_level` has nothing
to do. -/
theorem done_wide (A : Arch) (va_begin va_end attrs : Nat) (commit : Bool)
    (level pa table : Nat) (m : Mem) (hva : va_begin < WORD)
    (h : 64 < level_shift (level + 1)) :
    Done A va_begin va_end attrs commit level pa table m := by
  rw [Done_eq, capped_end_wide va_begin va_end level hva h]
  exact done_loop_idle A _ _ _ _ _ _ _ _ _ _ _

/-! ## Splitting a block -/

/-- The walk of `translate` at level 0. -/
theorem translate_zero (A : Arch) (pa_of : Nat → Nat) (m : Mem) (addr p : Nat) :
    translate A pa_of m addr 0 p =
      if addr ≥ mm_level_end addr 0 then none
      else if A.arch_mm_pte_is_present (m p (mm_index addr 0)) then
        some (pa_of (m p (mm_index addr 0)) + addr % mm_entry_size 0)
      else none := by
  rw [translate]

/-- The walk of `translate` above level 0. -/
theorem translate_succ (A : Arch) (pa_of : Nat → Nat) (m : Mem) (addr l p : Nat) :
    translate A pa_of m addr (l + 1) p =
      if addr ≥ mm_level_end addr (l + 1) then none
      else if A.arch_mm_is_block_allowed (l + 1) &&
          A.arch_mm_pte_is_block (m p (mm_index addr (l + 1))) then
        some (pa_of (m p (mm_index addr (l + 1))) + addr % mm_entry_size (l + 1))
      else if A.arch_mm_pte_is_table (m p (mm_index addr (l + 1))) then
        translate A pa_of m addr l (A.arch_mm_pte_to_table (m p (mm_index addr (l + 1))))
      else none := by
  rw [translate]

/-- The translation depends on the tables of the footprint only. -/
theorem translate_agree (A : Arch) (pa_of : Nat → Nat) (m m' : Mem) (addr : Nat) :
    ∀ level p, (∀ q, q ∈ footprint A m level p → ∀ i, i < ENTRIES → m' q i = m q i) →
      translate A pa_of m' addr level p = translate A pa_of m addr level p := by
  intro level
  induction level with
  | zero =>
    intro p h
    rw [translate_zero, translate_zero,
      h p (self_mem_footprint A m 0 p) _ (mm_index_lt _ _)]
  | succ l ih =>
    intro p h
    rw [translate_succ, translate_succ,
      h p (self_mem_footprint A m (l + 1) p) _ (mm_index_lt _ _)]
    by_cases ht : A.arch_mm_pte_is_table (m p (mm_index addr (l + 1))) = true
    · rw [ih _ (fun q hq i hi => h q (Or.inr ⟨_, mm_index_lt _ _, ht, hq⟩) i hi)]
    · simp [ht]

/-- The value the initialisation loop stores in its `k`-th slot, in closed
form. -/
theorem fill_val_closed (inc : Nat) : ∀ k v, v < WORD → fill_val inc k v = (v + k * inc) % WORD := by
  intro k
  induction k with
  | zero =>
    intro v hv
    rw [fill_val, Nat.zero_mul, Nat.add_zero, Nat.mod_eq_of_lt hv]
  | succ k ih =>
    intro v _
    rw [fill_val, ih _ (Nat.mod_lt _ (by unfold WORD; norm_num)), Nat.mod_add_mod]
    congr 1
    ring

/-- The offset of an address in an entry of level `l + 1` is the offset of its
slot of level `l` plus its offset in the entry of level `l`. -/
theorem offset_split (x l : Nat) (hS : level_shift (l + 1) < 64) :
    x % mm_entry_size (l + 1) = mm_index x l * mm_entry_size l + x % mm_entry_size l := by
  have hs9 := level_shift_succ l
  rw [mm_entry_size_eq (l + 1) hS, mm_entry_size_eq l (by omega), mm_index_eq,
    two_pow_level_shift_succ, Nat.mod_mul]
  ring

/-- The memory `mm_populate_table_pte` leaves when it allocates a sub-table. -/
theorem populate_alloc (A : Arch) (hA : Contract A) (l p idx : Nat) (sync : Bool) (s : State)
    (hidx : idx < ENTRIES)
    (ht : Tree A s.mem (l + 1) p)
    (hh : HeapOK s.heap (footprint A s.mem (l + 1) p))
    (hT : A.arch_mm_pte_is_table (s.mem p idx) = false)
    (hok : (mm_populate_table_pte A p idx (l + 1) sync s).1 ≠ 0) :
    (mm_populate_table_pte A p idx (l + 1) sync s).1 ≠ p ∧
    (∀ j, j ≠ idx → (mm_populate_table_pte A p idx (l + 1) sync s).2.mem p j = s.mem p j) ∧
    (mm_populate_table_pte A p idx (l + 1) sync s).2.mem p idx =
      A.arch_mm_pa_to_table_pte (mm_populate_table_pte A p idx (l + 1) sync s).1 ∧
    A.arch_mm_pte_is_table
      (A.arch_mm_pa_to_table_pte (mm_populate_table_pte A p idx (l + 1) sync s).1) = true ∧
    A.arch_mm_pte_to_table
      (A.arch_mm_pa_to_table_pte (mm_populate_table_pte A p idx (l + 1) sync s).1) =
        (mm_populate_table_pte A p idx (l + 1) sync s).1 ∧
    (∀ i, i < ENTRIES →
      (mm_populate_table_pte A p idx (l + 1) sync s).2.mem
        (mm_populate_table_pte A p idx (l + 1) sync s).1 i =
      fill_val (if !A.arch_mm_pte_is_block (s.mem p idx) then 0 else mm_entry_size (l + 1 - 1)) i
        (if !A.arch_mm_pte_is_block (s.mem p idx) then A.arch_mm_absent_pte
          else if l + 1 = 1 then A.arch_mm_block_to_page_pte (s.mem p idx) else s.mem p idx)) ∧
    (∀ j, j ≠ idx → ∀ q, q ∈ subtree A s.mem (l + 1) p j → ∀ i,
      (mm_populate_table_pte A p idx (l + 1) sync s).2.mem q i = s.mem q i) := by
  rcases populate_cases A p idx (l + 1) sync s with
    ⟨hT', _⟩ | ⟨_, h0, _⟩ | ⟨_, nt, rest, hheap, hnt, hr1, hr2, htlb, hmem⟩
  · rw [hT] at hT'; cases hT'
  · exact absurd h0 hok
  · have hfr : nt ∈ fresh_pages s.heap := by
      rw [hheap]; exact ⟨hnt, List.mem_cons_self _ _⟩
    obtain ⟨hnew, hal, hlt⟩ := hh.1 nt hfr
    have hntp : nt ≠ p := fun h => hnew (h ▸ self_mem_footprint A s.mem (l + 1) p)
    obtain ⟨m2, hm2⟩ : ∃ m2, m2 = (mm_populate_table_pte A p idx (l + 1) sync s).2.mem :=
      ⟨_, rfl⟩
    rw [← hm2] at hmem ⊢
    rw [hr1]
    have h1 : ∀ q i, q ≠ p → q ≠ nt → m2 q i = s.mem q i := by
      intro q i hqp hqn
      rw [hmem, write_other _ _ _ _ _ _ (Or.inl hqp), fill_spec, if_neg (fun h => hqn h.1)]
    have h2 : ∀ j, j ≠ idx → m2 p j = s.mem p j := by
      intro j hj
      rw [hmem, write_other _ _ _ _ _ _ (Or.inr hj), fill_spec,
        if_neg (fun h => hntp h.1.symm)]
    have h3 : m2 p idx = A.arch_mm_pa_to_table_pte nt := by
      rw [hmem, write_same]
    have h3t := hA.table_is_table nt hal hlt
    have h3p := hA.table_to_table nt hal hlt
    have h3b := hA.table_not_block _ h3t
    have hent : ∀ i, i < ENTRIES → m2 nt i =
        fill_val (if !A.arch_mm_pte_is_block (s.mem p idx) then 0 else mm_entry_size (l + 1 - 1)) i
          (if !A.arch_mm_pte_is_block (s.mem p idx) then A.arch_mm_absent_pte
            else if l + 1 = 1 then A.arch_mm_block_to_page_pte (s.mem p idx) else s.mem p idx) := by
      intro i hi
      rw [hmem, write_other _ _ _ _ _ _ (Or.inl hntp), fill_spec,
        if_pos ⟨rfl, Nat.zero_le _, by omega⟩, Nat.sub_zero]
    have hballow : A.arch_mm_pte_is_block (s.mem p idx) = true →
        A.arch_mm_is_block_allowed (l + 1) = true := ht.1 idx hidx
    have h4 : l ≠ 0 → ∀ i, i < ENTRIES → A.arch_mm_pte_is_table (m2 nt i) = false ∧
        (A.arch_mm_pte_is_block (m2 nt i) = true → A.arch_mm_is_block_allowed l = true) := by
      intro hl i hi
      rw [hent i hi]
      obtain ⟨ha, _, hb⟩ := split_entries A hA l (s.mem p idx) i
      rcases Bool.eq_false_or_eq_true (A.arch_mm_pte_is_block (s.mem p idx)) with hbv | hbv
      · exact ⟨not_table_of_block A hA _ (hb hbv hl),
          fun _ => hA.allowed_down l (by omega) (hballow hbv)⟩
      · rw [ha hbv]
        refine ⟨hA.absent_not_table, fun h => ?_⟩
        rw [hA.absent_not_block] at h
        exact absurd h Bool.false_ne_true
    obtain ⟨-, -, hsub⟩ := ext_link A l p idx nt s.mem m2 hidx ht hnew hT h1 h2
      (h3 ▸ h3t) (h3 ▸ h3b) (h3 ▸ h3p) h4
    exact ⟨hntp, h2, h3, h3t, h3p, hent, hsub⟩

/-- The sub-table of a well-formed table is the root of a tree, and the
allocator hands out no page of it. -/
theorem tree_child (A : Arch) (m : Mem) (heap : List Nat) (l p j c : Nat) (hj : j < ENTRIES)
    (hT : A.arch_mm_pte_is_table (m p j) = true) (hc : A.arch_mm_pte_to_table (m p j) = c)
    (ht : Tree A m (l + 1) p) (hh : HeapOK heap (footprint A m (l + 1) p)) :
    Tree A m l c ∧ HeapOK heap (footprint A m l c) := by
  subst hc
  exact ⟨(ht.2.1 j hj hT).1, heapOK_mono _ _ _ hh (footprint_child_subset A m l p j hj hT)⟩

set_option maxRecDepth 100000 in
/-- The table of level 1 at `0x12000` of the state `mapped_4m`. -/
theorem tree_mapped_4m_level1 :
    Tree demo mapped_4m.mem 1 0x12000 ∧
    HeapOK mapped_4m.heap (footprint demo mapped_4m.mem 1 0x12000) := by
  have h3 := wellFormed_mapped_4m
  have h2 := tree_child demo mapped_4m.mem mapped_4m.heap 2 fresh_table.table 0 0x11000
    (by decide) (by decide!) (by decide!) h3.1 h3.2.1
  exact tree_child demo mapped_4m.mem mapped_4m.heap 1 0x11000 0 0x12000
    (by decide) (by decide!) (by decide!) h2.1 h2.2

/-! ## Block placement -/

/-- The block-placement invariant at level 0. -/
theorem placed_zero (A : Arch) (pa_of : Nat → Nat) (m : Mem) (p : Nat) :
    Placed A pa_of m 0 p ↔ ∀ j, j < ENTRIES → BlockOK A pa_of 0 (m p j) := by
  rw [Placed]

/-- The block-placement invariant above level 0. -/
theorem placed_succ (A : Arch) (pa_of : Nat → Nat) (m : Mem) (l p : Nat) :
    Placed A pa_of m (l + 1) p ↔
      (∀ j, j < ENTRIES → BlockOK A pa_of (l + 1) (m p j)) ∧
      (∀ j, j < ENTRIES → A.arch_mm_pte_is_table (m p j) = true →
        Placed A pa_of m l (A.arch_mm_pte_to_table (m p j))) := by
  rw [Placed]

/-- The block-placement invariant depends on the tables of the footprint
only. -/
theorem placed_agree (A : Arch) (pa_of : Nat → Nat) (m m' : Mem) :
    ∀ level p, (∀ q, q ∈ footprint A m level p → ∀ i, i < ENTRIES → m' q i = m q i) →
      Placed A pa_of m level p → Placed A pa_of m' level p := by
  intro level
  induction level with
  | zero =>
    intro p h hp
    rw [placed_zero] at hp ⊢
    intro j hj
    rw [h p (self_mem_footprint A m 0 p) j hj]
    exact hp j hj
  | succ l ih =>
    intro p h hp
    rw [placed_succ] at hp ⊢
    have hpp : ∀ i, i < ENTRIES → m' p i = m p i := h p (self_mem_footprint A m (l + 1) p)
    refine ⟨fun j hj => ?_, fun j hj htj => ?_⟩
    · rw [hpp j hj]
      exact hp.1 j hj
    · rw [hpp j hj] at htj ⊢
      exact ih _ (fun q hq i hi => h q (Or.inr ⟨j, hj, htj, hq⟩) i hi) (hp.2 j hj htj)

/-- The invariant after a change confined to slot `idx` of the table `p` and to
what is below it. -/
theorem placed_update (A : Arch) (pa_of : Nat → Nat) (level p idx : Nat) (s s' : State)
    (hp : Placed A pa_of s.mem level p)
    (hk : Keeps A level p (fun j => j ≠ idx) s s')
    (hb : BlockOK A pa_of level (s'.mem p idx))
    (hc : ∀ l, level = l + 1 → A.arch_mm_pte_is_table (s'.mem p idx) = true →
      Placed A pa_of s'.mem l (A.arch_mm_pte_to_table (s'.mem p idx))) :
    Placed A pa_of s'.mem level p := by
  cases level with
  | zero =>
    rw [placed_zero] at hp ⊢
    intro j hj
    by_cases hji : j = idx
    · rw [hji]; exact hb
    · rw [(hk j hji).1]
      exact hp j hj
  | succ l =>
    rw [placed_succ] at hp ⊢
    refine ⟨fun j hj => ?_, fun j hj htj => ?_⟩
    · by_cases hji : j = idx
      · rw [hji]; exact hb
      · rw [(hk j hji).1]
        exact hp.1 j hj
    · by_cases hji : j = idx
      · rw [hji] at htj ⊢
        exact hc l rfl htj
      · rw [(hk j hji).1] at htj ⊢
        exact placed_agree A pa_of s.mem s'.mem l _
          (fun q hq i _ => (hk j hji).2 q ⟨hj, htj, hq⟩ i) (hp.2 j hj htj)

/-- Alignment to the entry size of a level gives alignment to the entry size of
the level below. -/
theorem aligned_down (x l : Nat) (hS : level_shift (l + 1) < 64)
    (h : x % mm_entry_size (l + 1) = 0) : x % mm_entry_size l = 0 := by
  have hs9 := level_shift_succ l
  rw [mm_entry_size_eq (l + 1) hS, two_pow_level_shift_succ] at h
  rw [mm_entry_size_eq l (by omega)]
  exact Nat.dvd_iff_mod_eq_zero.1
    (Nat.dvd_trans (Dvd.intro 512 rfl) (Nat.dvd_of_mod_eq_zero h))

/-- `mm_populate_table_pte` keeps the block-placement invariant. -/
theorem populate_placed (A : Arch) (hA : Contract A) (pa_of : Nat → Nat)
    (hP : PlacementContract A pa_of) (l p idx : Nat) (sync : Bool) (s : State)
    (hidx : idx < ENTRIES) (hS : level_shift (l + 2) ≤ 64)
    (ht : Tree A s.mem (l + 1) p)
    (hh : HeapOK s.heap (footprint A s.mem (l + 1) p))
    (hp : Placed A pa_of s.mem (l + 1) p) :
    Placed A pa_of (mm_populate_table_pte A p idx (l + 1) sync s).2.mem (l + 1) p := by
  rcases populate_cases A p idx (l + 1) sync s with
    ⟨_, heq⟩ | ⟨_, _, hmem, _⟩ | ⟨hT, nt, rest, _, hnt, hr1, _⟩
  · rw [heq]; exact hp
  · rw [hmem]; exact hp
  · have hok : (mm_populate_table_pte A p idx (l + 1) sync s).1 ≠ 0 := by rw [hr1]; exact hnt
    obtain ⟨-, -, h3, h3t, h3p, hent, -⟩ := populate_alloc A hA l p idx sync s hidx ht hh hT hok
    have hk := (populate_ext A hA l p idx sync s hidx hS ht hh).2.1
    have hs9 : level_shift (l + 2) = level_shift (l + 1) + 9 := level_shift_succ (l + 1)
    have hvb := (placed_succ A pa_of s.mem l p).1 hp |>.1 idx hidx
    apply placed_update A pa_of (l + 1) p idx s _ hp hk
    · intro hb
      rw [h3, hA.table_not_block _ h3t] at hb
      cases hb
    · intro l' hl' _
      have hll : l' = l := by omega
      subst hll
      rw [h3, h3p]
      cases l' with
      | zero =>
        rw [placed_zero]
        intro j hj hb
        exfalso
        rw [hent j hj] at hb
        rcases Bool.eq_false_or_eq_true (A.arch_mm_pte_is_block (s.mem p idx)) with hbv | hbv
        · rw [hbv] at hb
          simp only [Bool.not_true, Bool.false_eq_true, if_false, if_true] at hb
          have := fill_val_pred
            (fun w => A.arch_mm_pte_is_present w = true ∧ A.arch_mm_pte_is_block w = false)
            (mm_entry_size (0 + 1 - 1))
            (fun w hw => ⟨hA.present_step w hw.1, hP.page_step_not_block w hw.1 hw.2⟩) j
            (A.arch_mm_block_to_page_pte (s.mem p idx))
            ⟨hA.block_to_page_present _ hbv, hP.block_to_page_not_block _ hbv⟩
          rw [this.2] at hb
          cases hb
        · rw [(split_entries A hA 0 (s.mem p idx) j).1 hbv, hA.absent_not_block] at hb
          cases hb
      | succ l'' =>
        rw [placed_succ]
        have hsz : l'' + 1 + 1 - 1 = l'' + 1 := by omega
        have hs8 : level_shift (l'' + 1 + 1) = level_shift (l'' + 1) + 9 :=
          level_shift_succ (l'' + 1)
        refine ⟨fun j hj hb => ?_, fun j hj htj => ?_⟩
        · rw [hent j hj] at hb ⊢
          rcases Bool.eq_false_or_eq_true (A.arch_mm_pte_is_block (s.mem p idx)) with hbv | hbv
          · obtain ⟨hal, hpa⟩ := hvb hbv
            refine ⟨hA.allowed_down (l'' + 1) (by omega) hal, ?_⟩
            rw [hbv]
            simp only [Bool.not_true, Bool.false_eq_true, if_false, hsz,
              show ¬ (l'' + 1 + 1 = 1) by omega]
            exact fill_val_pred (fun w => pa_of w % mm_entry_size (l'' + 1) = 0)
              (mm_entry_size (l'' + 1))
              (fun w hw => hP.step_aligned w (l'' + 1) (by omega) hw) j (s.mem p idx)
              (aligned_down _ (l'' + 1) (by omega) hpa)
          · rw [(split_entries A hA (l'' + 1) (s.mem p idx) j).1 hbv, hA.absent_not_block] at hb
            cases hb
        · exfalso
          rw [hent j hj] at htj
          rcases Bool.eq_false_or_eq_true (A.arch_mm_pte_is_block (s.mem p idx)) with hbv | hbv
          · rw [not_table_of_block A hA _
              ((split_entries A hA (l'' + 1) (s.mem p idx) j).2.2 hbv (Nat.succ_ne_zero _))] at htj
            cases htj
          · rw [(split_entries A hA (l'' + 1) (s.mem p idx) j).1 hbv, hA.absent_not_table] at htj
            cases htj

/-- Congruence modulo the span of a table gives congruence modulo the entry
size. -/
theorem mod_down (x y l : Nat)
    (h : x % 2 ^ level_shift (l + 1) = y % 2 ^ level_shift (l + 1)) :
    x % 2 ^ level_shift l = y % 2 ^ level_shift l := by
  have hd : 2 ^ level_shift l ∣ 2 ^ level_shift (l + 1) := by
    rw [two_pow_level_shift_succ]; exact Dvd.intro 512 rfl
  rw [← Nat.mod_mod_of_dvd x hd, ← Nat.mod_mod_of_dvd y hd, h]

/-- The recursive call is given a physical address in step with `va_begin`. -/
theorem callSync_down (l va_begin begin pa : Nat) (h : LoopSync (l + 1) va_begin begin pa) :
    CallSync l va_begin pa := by
  rcases h with ⟨-, h | h⟩ | h
  · exact Or.inl (mod_down _ _ (l + 1) h)
  · right
    have := mod_down pa 0 (l + 1) (by rw [h, Nat.zero_mod])
    rw [this, Nat.zero_mod]
  · exact Or.inr h

/-- Where the loop writes a block, the physical address is aligned to the entry
size. -/
theorem loopSync_block (level va_begin begin pa : Nat) (hs : level_shift level < 64)
    (h : LoopSync level va_begin begin pa)
    (hb : begin &&& (mm_entry_size level - 1) = 0) : pa % mm_entry_size level = 0 := by
  rw [mm_entry_size_eq level hs] at hb ⊢
  rw [Nat.and_pow_two_sub_one_eq_mod] at hb
  rcases h with ⟨hbv, h | h⟩ | h
  · rw [mod_down _ _ level h, ← hbv, hb]
  · have := mod_down pa 0 level (by rw [h, Nat.zero_mod])
    rw [this, Nat.zero_mod]
  · exact h

/-- After an iteration the physical address is aligned to the entry size. -/
theorem loopSync_next (level va_begin begin pa : Nat) (hs : level_shift level < 64) :
    LoopSync level va_begin begin
      (((pa + mm_entry_size level) % WORD) &&& not64 (mm_entry_size level - 1)) := by
  right
  rw [mm_entry_size_eq level hs,
    land_not64 _ _ (by omega) (Nat.mod_lt _ (by unfold WORD; norm_num))]
  exact Nat.mul_mod_left _ _

/-- The loop of `mm_map_level` keeps the block-placement invariant. -/
theorem loop_placed (A : Arch) (hA : Contract A) (pa_of : Nat → Nat)
    (recurse : Nat → Nat → State → Option (Bool × State))
    (level va_begin va_end end_ attrs : Nat) (commit sync : Bool) (p : Nat)
    (hP : PlacementContract A pa_of)
    (hend : end_ = if va_end > mm_level_end va_begin level then mm_level_end va_begin level
      else va_end)
    (hS : level_shift (level + 1) ≤ 64) (hva : va_begin < WORD)
    (hleaf : commit = true → ∀ pa, pa % PAGE_SIZE = 0 →
      A.arch_mm_pte_is_table (A.arch_mm_pa_to_block_pte pa attrs) = false)
    (hblock : ∀ pa lv, level_shift lv < 64 → pa % mm_entry_size lv = 0 →
      A.arch_mm_pte_is_block (A.arch_mm_pa_to_block_pte pa attrs) = true →
      pa_of (A.arch_mm_pa_to_block_pte pa attrs) % mm_entry_size lv = 0)
    (hpage : ∀ pa, pa % PAGE_SIZE = 0 →
      A.arch_mm_pte_is_block (A.arch_mm_pa_to_page_pte pa attrs) = false)
    (hrec : ∀ l, level = l + 1 → ∀ pa nt s ok s', pa % PAGE_SIZE = 0 →
      Tree A s.mem l nt → HeapOK s.heap (footprint A s.mem l nt) →
      recurse pa nt s = some (ok, s') → CallPost A commit l nt s s')
    (hrecp : ∀ l, level = l + 1 → ∀ pa nt s ok s', pa % PAGE_SIZE = 0 →
      CallSync l va_begin pa →
      Tree A s.mem l nt → HeapOK s.heap (footprint A s.mem l nt) →
      Placed A pa_of s.mem l nt →
      recurse pa nt s = some (ok, s') → Placed A pa_of s'.mem l nt) :
    ∀ fuel begin pa idx s ok s', LoopPos level va_begin begin pa idx →
      LoopSync level va_begin begin pa →
      Tree A s.mem level p → HeapOK s.heap (footprint A s.mem level p) →
      Placed A pa_of s.mem level p →
      mm_map_level_loop A recurse level end_ (mm_entry_size level) attrs commit sync p
        fuel begin pa idx s = some (ok, s') →
      Placed A pa_of s'.mem level p := by
  have hs9 := level_shift_succ level
  have hs : level_shift level < 64 := by omega
  intro fuel
  induction fuel with
  | zero =>
    intro begin pa idx s ok s' _ _ _ _ hp h
    rw [mm_map_level_loop] at h
    by_cases hlt : begin < end_
    · rw [if_pos hlt] at h
      exact absurd h (by simp)
    · rw [if_neg hlt] at h
      simp only [Option.some.injEq, Prod.mk.injEq] at h
      obtain ⟨-, rfl⟩ := h
      exact hp
  | succ fuel ih =>
    intro begin pa idx s ok s' hpos hsync ht hh hp h
    rw [mm_map_level_loop] at h
    by_cases hlt : begin < end_
    · rw [if_pos hlt] at h
      obtain ⟨hidx, hpos'⟩ := loopPos_step level va_begin va_end begin pa idx hS hva hpos
        (hend ▸ hlt)
      have hsync' := loopSync_next level va_begin
        (((begin + mm_entry_size level) % WORD) &&& not64 (mm_entry_size level - 1)) pa hs
      -- a store of a leaf entry into the slot
      have hwrite : ∀ v, (commit = true → level ≠ 0 → A.arch_mm_pte_is_table v = false ∧
          (A.arch_mm_pte_is_block v = true → A.arch_mm_is_block_allowed level = true)) →
          (commit = true → BlockOK A pa_of level v) →
          (commit = true → level ≠ 0 → A.arch_mm_pte_is_table v = false) →
          ∀ s1, s1 = (if commit = true then { s with mem := s.mem.write p idx v } else s) →
          Tree A s1.mem level p ∧ HeapOK s1.heap (footprint A s1.mem level p) ∧
            Placed A pa_of s1.mem level p := by
        intro v hv hbo hvt s1 hs1
        cases commit with
        | false =>
          simp only [Bool.false_eq_true, if_false] at hs1
          subst hs1
          exact ⟨ht, hh, hp⟩
        | true =>
          simp only [if_true] at hs1
          subst hs1
          obtain ⟨he, hk⟩ := ext_write A level p idx v s { s with mem := s.mem.write p idx v }
            rfl rfl rfl ht (hv rfl)
          refine ⟨he.1, heapOK_ext A _ _ _ _ hh he, ?_⟩
          apply placed_update A pa_of level p idx s _ hp hk
          · show BlockOK A pa_of level ((s.mem.write p idx v) p idx)
            rw [write_same]
            exact hbo rfl
          · intro l hl htv
            exfalso
            have : (s.mem.write p idx v) p idx = v := write_same _ _ _ _
            rw [show ({ s with mem := s.mem.write p idx v } : State).mem p idx = v from this,
              hvt rfl (by omega)] at htv
            cases htv
      by_cases hl0 : level = 0
      · simp only [if_pos hl0] at h
        obtain ⟨ht1, hh1, hp1⟩ := hwrite (A.arch_mm_pa_to_page_pte pa attrs)
          (fun _ hne => absurd hl0 hne)
          (fun _ hb => by rw [hpage pa hpos.1] at hb; cases hb)
          (fun _ hne => absurd hl0 hne) _ rfl
        exact ih _ _ _ _ ok s' hpos' hsync' ht1 hh1 hp1 h
      · simp only [if_neg hl0] at h
        by_cases hblk : end_ - begin ≥ mm_entry_size level ∧
            A.arch_mm_is_block_allowed level = true ∧ begin &&& (mm_entry_size level - 1) = 0
        · simp only [if_pos hblk] at h
          simp only [mm_free_page_pte] at h
          obtain ⟨ht1, hh1, hp1⟩ := hwrite (A.arch_mm_pa_to_block_pte pa attrs)
            (fun hc _ => ⟨hleaf hc pa hpos.1, fun _ => hblk.2.1⟩)
            (fun _ hb => ⟨hblk.2.1, hblock pa level hs
              (loopSync_block level va_begin begin pa hs hsync hblk.2.2) hb⟩)
            (fun hc _ => hleaf hc pa hpos.1) _ rfl
          exact ih _ _ _ _ ok s' hpos' hsync' ht1 hh1 hp1 h
        · simp only [if_neg hblk] at h
          obtain ⟨l, rfl⟩ := Nat.exists_eq_succ_of_ne_zero hl0
          obtain ⟨he, -, -, hlink, -⟩ := populate_ext A hA l p idx sync s hidx hS ht hh
          have hpp := populate_placed A hA pa_of hP l p idx sync s hidx hS ht hh hp
          generalize mm_populate_table_pte A p idx (l + 1) sync s = r at h he hlink hpp
          obtain ⟨nt, s1⟩ := r
          simp only at h he hlink hpp
          by_cases hnt : nt = 0
          · rw [if_pos hnt] at h
            simp only [Option.some.injEq, Prod.mk.injEq] at h
            obtain ⟨-, rfl⟩ := h
            exact hpp
          · rw [if_neg hnt] at h
            obtain ⟨hT1, hp1⟩ := hlink hnt
            have ht1 : Tree A s1.mem (l + 1) p := he.1
            have hh1 := heapOK_ext A _ _ _ _ hh he
            have htc : Tree A s1.mem l nt := hp1 ▸ (ht1.2.1 idx hidx hT1).1
            have hhc : HeapOK s1.heap (footprint A s1.mem l nt) :=
              heapOK_mono _ _ _ hh1 (hp1 ▸ footprint_child_subset A s1.mem l p idx hidx hT1)
            have hpc : Placed A pa_of s1.mem l nt :=
              hp1 ▸ ((placed_succ A pa_of s1.mem l p).1 hpp).2 idx hidx hT1
            cases hrc : recurse pa nt s1 with
            | none => rw [hrc] at h; exact absurd h (by simp)
            | some res =>
              obtain ⟨ok2, s2⟩ := res
              rw [hrc] at h
              obtain ⟨hce, -⟩ := hrec l rfl pa nt s1 ok2 s2 hpos.1 htc hhc hrc
              have hpc2 := hrecp l rfl pa nt s1 ok2 s2 hpos.1
                (callSync_down l va_begin begin pa hsync) htc hhc hpc hrc
              obtain ⟨he2, hk2, hp2⟩ := ext_lift A l p idx s1 s2 hidx ht1 hT1 hh1
                (hp1.symm ▸ hce)
              have hpl2 : Placed A pa_of s2.mem (l + 1) p := by
                apply placed_update A pa_of (l + 1) p idx s1 s2 hpp hk2
                · intro hb
                  rw [hp2 idx, hA.table_not_block _ hT1] at hb
                  cases hb
                · intro l' hl' _
                  have hll : l' = l := by omega
                  subst hll
                  rw [hp2 idx, hp1]
                  exact hpc2
              cases ok2 with
              | false =>
                simp only [Option.some.injEq, Prod.mk.injEq] at h
                obtain ⟨-, rfl⟩ := h
                exact hpl2
              | true =>
                exact ih _ _ _ s2 ok s' hpos' hsync' he2.1 (heapOK_ext A _ _ _ _ hh1 he2) hpl2 h
    · rw [if_neg hlt] at h
      simp only [Option.some.injEq, Prod.mk.injEq] at h
      obtain ⟨-, rfl⟩ := h
      exact hp

/-- An address aligned to an entry size is page aligned. -/
theorem page_aligned_of_entry_aligned (pa level : Nat) (hs : level_shift level < 64)
    (h : pa % mm_entry_size level = 0) : pa % PAGE_SIZE = 0 := by
  rw [mm_entry_size_eq level hs] at h
  have hd : PAGE_SIZE ∣ 2 ^ level_shift level := by
    unfold level_shift PAGE_SIZE
    rw [pow_add]
    exact Dvd.intro _ rfl
  exact Nat.dvd_iff_mod_eq_zero.1 (Nat.dvd_trans hd (Nat.dvd_of_mod_eq_zero h))

/-- `mm_map_level` keeps the block-placement invariant. -/
theorem mm_map_level_placed (A : Arch) (hA : Contract A) (pa_of : Nat → Nat)
    (hP : PlacementContract A pa_of) (va_begin va_end attrs flags : Nat)
    (hva : va_begin < WORD)
    (hleaf : ∀ pa, pa % PAGE_SIZE = 0 →
      A.arch_mm_pte_is_table (A.arch_mm_pa_to_block_pte pa attrs) = false)
    (hblock : ∀ pa lv, level_shift lv < 64 → pa % mm_entry_size lv = 0 →
      A.arch_mm_pte_is_block (A.arch_mm_pa_to_block_pte pa attrs) = true →
      pa_of (A.arch_mm_pa_to_block_pte pa attrs) % mm_entry_size lv = 0)
    (hpage : ∀ pa, pa % PAGE_SIZE = 0 →
      A.arch_mm_pte_is_block (A.arch_mm_pa_to_page_pte pa attrs) = false) :
    ∀ level, level_shift (level + 1) ≤ 64 → ∀ pa table s ok s', pa % PAGE_SIZE = 0 →
      CallSync level va_begin pa →
      Tree A s.mem level table → HeapOK s.heap (footprint A s.mem level table) →
      Placed A pa_of s.mem level table →
      mm_map_level A va_begin va_end attrs flags level pa table s = some (ok, s') →
      Placed A pa_of s'.mem level table := by
  intro level
  induction level with
  | zero =>
    intro hS pa table s ok s' hpa hsync ht hh hp h
    rw [mm_map_level_eq] at h
    exact loop_placed A hA pa_of _ 0 va_begin va_end _ attrs _ _ table hP rfl hS hva
      (fun _ => hleaf) hblock hpage
      (fun l hl => absurd hl (by omega)) (fun l hl => absurd hl (by omega))
      ENTRIES va_begin pa _ s ok s' (loopPos_init 0 va_begin pa hpa) (Or.inl ⟨rfl, hsync⟩)
      ht hh hp h
  | succ l ih =>
    intro hS pa table s ok s' hpa hsync ht hh hp h
    rw [mm_map_level_eq] at h
    have hSl : level_shift (l + 1) ≤ 64 := le_trans (level_shift_mono _ _ (by omega)) hS
    refine loop_placed A hA pa_of _ (l + 1) va_begin va_end _ attrs _ _ table hP rfl hS hva
      (fun _ => hleaf) hblock hpage ?_ ?_
      ENTRIES va_begin pa _ s ok s' (loopPos_init (l + 1) va_begin pa hpa)
      (Or.inl ⟨rfl, hsync⟩) ht hh hp h
    · intro l' hl' pa1 nt s1 ok1 s1' hpa1 ht1 hh1 hrun
      have hll : l' = l := by omega
      subst hll
      exact mm_map_level_post A hA va_begin va_end attrs flags hva (fun _ => hleaf) l' hSl
        pa1 nt s1 ok1 s1' hpa1 ht1 hh1 hrun
    · intro l' hl' pa1 nt s1 ok1 s1' hpa1 hsync1 ht1 hh1 hp1 hrun
      have hll : l' = l := by omega
      subst hll
      exact ih hSl pa1 nt s1 ok1 s1' hpa1 hsync1 ht1 hh1 hp1 hrun

/-- The dry run and the commit walk of a mapper call keep the block-placement
invariant. -/
theorem two_walks_placed (A : Arch) (hA : Contract A) (pa_of : Nat → Nat)
    (hP : PlacementContract A pa_of) (t : mm_ptable)
    (va_begin va_end attrs flags pa mode : Nat) (s : State)
    (hva : va_begin < WORD) (hpa : pa % PAGE_SIZE = 0)
    (hsync : CallSync (A.arch_mm_max_level mode) va_begin pa)
    (hflags : decide (flags &&& MAP_FLAG_COMMIT ≠ 0) = false)
    (hleaf : ∀ pa, pa % PAGE_SIZE = 0 →
      A.arch_mm_pte_is_table (A.arch_mm_pa_to_block_pte pa attrs) = false)
    (hblock : ∀ pa lv, level_shift lv < 64 → pa % mm_entry_size lv = 0 →
      A.arch_mm_pte_is_block (A.arch_mm_pa_to_block_pte pa attrs) = true →
      pa_of (A.arch_mm_pa_to_block_pte pa attrs) % mm_entry_size lv = 0)
    (hpage : ∀ pa, pa % PAGE_SIZE = 0 →
      A.arch_mm_pte_is_block (A.arch_mm_pa_to_page_pte pa attrs) = false)
    (hwf : WellFormed A t mode s)
    (hp : Placed A pa_of s.mem (A.arch_mm_max_level mode) t.table)
    (r : Option (Bool × State))
    (hr : r = match mm_map_level A va_begin va_end attrs flags (A.arch_mm_max_level mode) pa
        t.table s with
      | none => none
      | some (false, s1) => some (false, s1)
      | some (true, s1) =>
        match mm_map_level A va_begin va_end attrs (flags ||| MAP_FLAG_COMMIT)
            (A.arch_mm_max_level mode) pa t.table s1 with
        | none => none
        | some (_, s2) =>
          some (true,
            if mode &&& MM_MODE_NOINVALIDATE = 0 then
              mm_invalidate_tlb va_begin va_end (decide (mode &&& MM_MODE_STAGE1 ≠ 0)) s2
            else s2))
    (ok : Bool) (s' : State) (h : r = some (ok, s')) :
    Placed A pa_of s'.mem (A.arch_mm_max_level mode) t.table := by
  subst hr
  cases hdry : mm_map_level A va_begin va_end attrs flags (A.arch_mm_max_level mode) pa
      t.table s with
  | none => rw [hdry] at h; exact absurd h (by simp)
  | some res =>
    obtain ⟨okd, sd⟩ := res
    rw [hdry] at h
    have hpd := mm_map_level_placed A hA pa_of hP va_begin va_end attrs flags hva hleaf hblock
      hpage (A.arch_mm_max_level mode) (hA.levels_fit mode) pa t.table s okd sd hpa hsync
      hwf.1 hwf.2.1 hp hdry
    cases okd with
    | false =>
      simp only [Option.some.injEq, Prod.mk.injEq] at h
      obtain ⟨-, rfl⟩ := h
      exact hpd
    | true =>
      simp only at h
      cases hcom : mm_map_level A va_begin va_end attrs (flags ||| MAP_FLAG_COMMIT)
          (A.arch_mm_max_level mode) pa t.table sd with
      | none => rw [hcom] at h; exact absurd h (by simp)
      | some res2 =>
        obtain ⟨okc, sc⟩ := res2
        rw [hcom] at h
        have hwfd := (wellFormed_two_walks A hA t va_begin va_end attrs flags pa mode s sd sc
          true okc hva hpa hflags hleaf hwf hdry hcom).1
        have hpc := mm_map_level_placed A hA pa_of hP va_begin va_end attrs
          (flags ||| MAP_FLAG_COMMIT) hva hleaf hblock hpage (A.arch_mm_max_level mode)
          (hA.levels_fit mode) pa t.table sd okc sc hpa hsync hwfd.1 hwfd.2.1 hpd hcom
        simp only [Option.some.injEq, Prod.mk.injEq] at h
        obtain ⟨-, rfl⟩ := h
        split
        · rw [(mm_invalidate_tlb_mem _ _ _ _).1]; exact hpc
        · exact hpc

/-- `mm_ptable_identity_map` keeps the block-placement invariant, whatever it
returns. -/
theorem identity_map_placed (A : Arch) (hA : Contract A) (pa_of : Nat → Nat)
    (hP : PlacementContract A pa_of) (t : mm_ptable)
    (va_begin va_end mode : Nat) (s s' : State) (ok : Bool) (hwf : WellFormed A t mode s)
    (hp : Placed A pa_of s.mem (A.arch_mm_max_level mode) t.table)
    (h : mm_ptable_identity_map A t va_begin va_end mode s = some (ok, s')) :
    Placed A pa_of s'.mem (A.arch_mm_max_level mode) t.table :=
  two_walks_placed A hA pa_of hP t (A.arch_mm_clear_va va_begin)
    (A.arch_mm_clear_va ((va_end + (PAGE_SIZE - 1)) % WORD)) (A.arch_mm_mode_to_attrs mode)
    (if mode &&& MM_MODE_NOSYNC ≠ 0 then 0 else MAP_FLAG_SYNC) (A.arch_mm_clear_pa va_begin)
    mode s (hA.clear_va_lt va_begin) (hA.clear_pa_aligned va_begin)
    (Or.inl (by rw [hP.clear_pa_eq])) (dry_flags mode)
    (mode_block_not_table A hA mode)
    (fun pa lv hlv hal _ => hP.block_aligned pa mode lv hlv hal)
    (hP.page_not_block · mode) hwf hp
    (mm_ptable_identity_map A t va_begin va_end mode s) rfl ok s' h

/-- `mm_ptable_unmap` keeps the block-placement invariant, whatever it
returns. -/
theorem unmap_placed (A : Arch) (hA : Contract A) (pa_of : Nat → Nat)
    (hP : PlacementContract A pa_of) (t : mm_ptable)
    (va_begin va_end mode : Nat) (s s' : State) (ok : Bool) (hwf : WellFormed A t mode s)
    (hp : Placed A pa_of s.mem (A.arch_mm_max_level mode) t.table)
    (h : mm_ptable_unmap A t va_begin va_end mode s = some (ok, s')) :
    Placed A pa_of s'.mem (A.arch_mm_max_level mode) t.table :=
  two_walks_placed A hA pa_of hP t (A.arch_mm_clear_va va_begin)
    (A.arch_mm_clear_va ((va_end + (PAGE_SIZE - 1)) % WORD)) 0
    (if mode &&& MM_MODE_NOSYNC ≠ 0 then 0 else MAP_FLAG_SYNC) (A.arch_mm_clear_va va_begin)
    mode s (hA.clear_va_lt va_begin) (hA.clear_va_aligned va_begin)
    (Or.inl rfl) (dry_flags mode)
    (fun pa hpa => (hA.block_zero_absent pa hpa).2.2)
    (fun pa lv hlv hal hb => by
      rw [(hA.block_zero_absent pa (page_aligned_of_entry_aligned pa lv hlv hal)).2.1] at hb
      cases hb)
    (fun pa hpa => (hA.page_zero_absent pa hpa).2.1) hwf hp
    (mm_ptable_unmap A t va_begin va_end mode s) rfl ok s' h

/-- The loop of `mm_ptable_identity_map_page` keeps the block-placement
invariant. -/
theorem page_loop_placed (A : Arch) (hA : Contract A) (pa_of : Nat → Nat)
    (hP : PlacementContract A pa_of) (va pa mode : Nat) (sync : Bool)
    (hpa : pa % PAGE_SIZE = 0) :
    ∀ i, level_shift (i + 1) ≤ 64 → ∀ table s, Tree A s.mem i table →
      HeapOK s.heap (footprint A s.mem i table) → Placed A pa_of s.mem i table →
      Placed A pa_of
        (mm_ptable_identity_map_page_loop A va pa (A.arch_mm_mode_to_attrs mode) sync i table s).2.mem
        i table := by
  intro i
  induction i with
  | zero =>
    intro _ table s ht _ hp
    rw [mm_ptable_identity_map_page_loop]
    have hk := (ext_write A 0 table (mm_index va 0)
      (A.arch_mm_pa_to_page_pte pa (A.arch_mm_mode_to_attrs mode)) s
      { s with mem := (s.mem.write table (mm_index va 0)
          (A.arch_mm_pa_to_page_pte pa (A.arch_mm_mode_to_attrs mode))) } rfl rfl rfl ht
      (fun h => absurd rfl h)).2
    apply placed_update A pa_of 0 table (mm_index va 0) s _ hp hk
    · intro hb
      exfalso
      have : (s.mem.write table (mm_index va 0)
          (A.arch_mm_pa_to_page_pte pa (A.arch_mm_mode_to_attrs mode))) table (mm_index va 0)
          = A.arch_mm_pa_to_page_pte pa (A.arch_mm_mode_to_attrs mode) := write_same _ _ _ _
      rw [show ({ s with mem := (s.mem.write table (mm_index va 0)
          (A.arch_mm_pa_to_page_pte pa (A.arch_mm_mode_to_attrs mode))) } : State).mem table
          (mm_index va 0) = _ from this, hP.page_not_block pa mode hpa] at hb
      cases hb
    · intro l hl
      omega
  | succ i ih =>
    intro hS table s ht hh hp
    rw [mm_ptable_identity_map_page_loop]
    have hSi : level_shift (i + 1) ≤ 64 := le_trans (level_shift_mono _ _ (by omega)) hS
    obtain ⟨he, -, -, hlink, -⟩ := populate_ext A hA i table (mm_index va (i + 1)) sync s
      (mm_index_lt _ _) hS ht hh
    have hpp := populate_placed A hA pa_of hP i table (mm_index va (i + 1)) sync s
      (mm_index_lt _ _) hS ht hh hp
    generalize mm_populate_table_pte A table (mm_index va (i + 1)) (i + 1) sync s = r
      at he hlink hpp
    obtain ⟨nt, s1⟩ := r
    simp only at he hlink hpp ⊢
    by_cases hnt : nt = 0
    · rw [if_pos hnt]
      exact hpp
    · rw [if_neg hnt]
      obtain ⟨hT1, hp1⟩ := hlink hnt
      have ht1 : Tree A s1.mem (i + 1) table := he.1
      have hh1 := heapOK_ext A _ _ _ _ hh he
      have htc : Tree A s1.mem i nt := hp1 ▸ (ht1.2.1 _ (mm_index_lt _ _) hT1).1
      have hhc : HeapOK s1.heap (footprint A s1.mem i nt) :=
        heapOK_mono _ _ _ hh1
          (hp1 ▸ footprint_child_subset A s1.mem i table _ (mm_index_lt _ _) hT1)
      have hpc : Placed A pa_of s1.mem i nt :=
        hp1 ▸ ((placed_succ A pa_of s1.mem i table).1 hpp).2 _ (mm_index_lt _ _) hT1
      have hce := (page_loop_spec A hA va pa mode sync hpa i hSi nt s1 htc hhc).1
      have hpc2 := ih hSi nt s1 htc hhc hpc
      generalize mm_ptable_identity_map_page_loop A va pa (A.arch_mm_mode_to_attrs mode) sync i
        nt s1 = r2 at hce hpc2
      obtain ⟨ok2, s2⟩ := r2
      simp only at hce hpc2 ⊢
      obtain ⟨-, hk2, hp2⟩ := ext_lift A i table (mm_index va (i + 1)) s1 s2
        (mm_index_lt _ _) ht1 hT1 hh1 (hp1.symm ▸ hce)
      apply placed_update A pa_of (i + 1) table (mm_index va (i + 1)) s1 s2 hpp hk2
      · intro hb
        rw [hp2 _, hA.table_not_block _ hT1] at hb
        cases hb
      · intro l' hl' _
        have hll : l' = i := by omega
        subst hll
        rw [hp2 _, hp1]
        exact hpc2

/-- `mm_ptable_identity_map_page` keeps the block-placement invariant, whatever
it returns. -/
theorem identity_map_page_placed (A : Arch) (hA : Contract A) (pa_of : Nat → Nat)
    (hP : PlacementContract A pa_of) (t : mm_ptable) (va mode : Nat) (s : State)
    (hwf : WellFormed A t mode s)
    (hp : Placed A pa_of s.mem (A.arch_mm_max_level mode) t.table) :
    Placed A pa_of (mm_ptable_identity_map_page A t va mode s).2.mem
      (A.arch_mm_max_level mode) t.table :=
  page_loop_placed A hA pa_of hP (A.arch_mm_clear_va va) (A.arch_mm_clear_pa va) mode
    (decide (mode &&& MM_MODE_NOSYNC = 0)) (hA.clear_pa_aligned va)
    (A.arch_mm_max_level mode) (hA.levels_fit mode) t.table s hwf.1 hwf.2.1 hp

/-- A table whose slots all hold the absent entry meets the block-placement
invariant, at any level. -/
theorem placed_absent_table (A : Arch) (hA : Contract A) (pa_of : Nat → Nat) (m : Mem)
    (p : Nat) (hent : ∀ i, i < ENTRIES → m p i = A.arch_mm_absent_pte) (level : Nat) :
    Placed A pa_of m level p := by
  have hb : ∀ lv j, j < ENTRIES → BlockOK A pa_of lv (m p j) := by
    intro lv j hj h
    rw [hent j hj, hA.absent_not_block] at h
    cases h
  cases level with
  | zero =>
    rw [placed_zero]
    exact hb 0
  | succ l =>
    rw [placed_succ]
    refine ⟨hb (l + 1), fun j hj htj => ?_⟩
    rw [hent j hj, hA.absent_not_table] at htj
    cases htj

/-- The table `mm_ptable_init` makes meets the block-placement invariant. -/
theorem init_placed (A : Arch) (hA : Contract A) (pa_of : Nat → Nat) (t : mm_ptable)
    (id mode level : Nat) (s : State) (hok : (mm_ptable_init A t id mode s).1 = true) :
    Placed A pa_of (mm_ptable_init A t id mode s).2.2.mem level
      (mm_ptable_init A t id mode s).2.1.table := by
  obtain ⟨nt, rest, -, -, htab, -, -, hmem⟩ := mm_ptable_init_cases A t id mode s hok
  rw [htab]
  apply placed_absent_table A hA
  intro i hi
  rw [hmem, init_loop_spec, if_pos ⟨rfl, Nat.zero_le _, by omega⟩]

/-- A value rounded down to a page is a multiple of `a`, a multiple of the page
size, exactly when its remainder modulo `a` is below the page size. -/
theorem floor_aligned_iff (x a : Nat) (h : PAGE_SIZE ∣ a) (ha : 0 < a) :
    x / PAGE_SIZE * PAGE_SIZE % a = 0 ↔ x % a < PAGE_SIZE := by
  obtain ⟨c, hc⟩ := h
  have hP : PAGE_SIZE = 4096 := by decide
  have key : ∀ q r, r < a → (a * q + r) / PAGE_SIZE * PAGE_SIZE % a = r / PAGE_SIZE * PAGE_SIZE := by
    intro q r hr
    have h1 : (a * q + r) / PAGE_SIZE = c * q + r / PAGE_SIZE := by
      rw [hc, Nat.mul_assoc, Nat.mul_add_div (by rw [hP]; norm_num)]
    have h2 : (c * q + r / PAGE_SIZE) * PAGE_SIZE = a * q + r / PAGE_SIZE * PAGE_SIZE := by
      rw [hc]; ring
    rw [h1, h2, Nat.mul_add_mod]
    exact Nat.mod_eq_of_lt (lt_of_le_of_lt (Nat.div_mul_le_self _ _) hr)
  have hx := key (x / a) (x % a) (Nat.mod_lt _ ha)
  rw [Nat.div_add_mod] at hx
  rw [hx, hP]
  omega

/-- The entry size of a level is a positive multiple of the page size that
divides `2 ^ 64`. -/
theorem entry_size_facts (level : Nat) (hs : level_shift level < 64) :
    PAGE_SIZE ∣ mm_entry_size level ∧ 0 < mm_entry_size level ∧ mm_entry_size level ∣ WORD := by
  rw [mm_entry_size_eq level hs]
  refine ⟨?_, Nat.pos_pow_of_pos _ (by norm_num), ?_⟩
  · unfold level_shift PAGE_SIZE
    rw [pow_add]
    exact Dvd.intro _ rfl
  · unfold WORD
    exact pow_dvd_pow 2 (by omega)

/-- The attributes of a mode of the concrete backend fit the low bits of an
entry. -/
theorem demo_attrs_lt (mode : Nat) : demo.arch_mm_mode_to_attrs mode < 2 ^ 12 := by
  show 1 ||| ((mode &&& 0xf) <<< 2) < 2 ^ 12
  apply Nat.or_lt_two_pow (by norm_num)
  have : mode &&& 0xf ≤ 0xf := Nat.and_le_right
  rw [Nat.shiftLeft_eq]
  omega

/-- The concrete backend and its decoder meet the placement contract. -/
theorem demo_placement : PlacementContract demo demo_pa_of where
  page_not_block := by
    intro pa mode hpa
    show ((pa ||| (1 ||| ((mode &&& 0xf) <<< 2)) ||| (((1 ||| ((mode &&& 0xf) <<< 2)) &&& 1) <<< 1))
      &&& 3 == 1) = false
    rw [or_and_mask (1 : Nat) _ 1, shl_two_and_one, or_and_mask, or_and_mask, or_and_mask,
      aligned_and_three pa hpa, shl_two_and_three]
    decide
  block_to_page_not_block := by
    intro v hv
    have h3 : v &&& 3 = 1 := by simpa [demo] using hv
    show ((v ||| 2) &&& 3 == 1) = false
    rw [or_and_mask, h3]
    decide
  page_step_not_block := by
    intro v _ hv
    show (((v + mm_entry_size 0) % WORD) &&& 3 == 1) = false
    rw [add_entry_size_and_three]
    exact hv
  block_aligned := by
    intro pa mode level hs hal
    obtain ⟨hd, hpos, -⟩ := entry_size_facts level hs
    have hpa : pa % PAGE_SIZE = 0 :=
      Nat.dvd_iff_mod_eq_zero.1 (Nat.dvd_trans hd (Nat.dvd_of_mod_eq_zero hal))
    show demo_pa_of (pa ||| demo.arch_mm_mode_to_attrs mode) % mm_entry_size level = 0
    rw [aligned_or_small pa _ hpa (demo_attrs_lt mode)]
    unfold demo_pa_of
    rw [floor_aligned_iff _ _ hd hpos, Nat.add_mod, hal, Nat.zero_add, Nat.mod_mod]
    have hP : PAGE_SIZE = 2 ^ 12 := rfl
    rw [hP]
    exact lt_of_le_of_lt (Nat.mod_le _ _) (demo_attrs_lt mode)
  step_aligned := by
    intro v level hs h
    obtain ⟨hd, hpos, hw⟩ := entry_size_facts level hs
    unfold demo_pa_of at h ⊢
    rw [floor_aligned_iff _ _ hd hpos] at h ⊢
    rw [Nat.mod_mod_of_dvd _ hw, Nat.add_mod_right]
    exact h
  clear_pa_eq := fun _ => rfl

/-! ## Publication order -/

/-- Replaying events one list after the other. -/
theorem replay_append (e1 e2 : List MemEvent) : ∀ m, replay (e1 ++ e2) m = replay e2 (replay e1 m) := by
  induction e1 with
  | nil => intro m; rfl
  | cons e es ih =>
    intro m
    cases e with
    | store t i v => simp only [List.cons_append, replay]; exact ih _
    | fence => simp only [List.cons_append, replay]; exact ih _

/-- Events leave a table they do not store to as it was. -/
theorem replay_frame (q : Nat) (evs : List MemEvent) :
    ∀ m, (∀ t i v, MemEvent.store t i v ∈ evs → t ≠ q) → ∀ j, replay evs m q j = m q j := by
  induction evs with
  | nil => intro m _ j; rfl
  | cons e es ih =>
    intro m h j
    cases e with
    | store t i v =>
      rw [replay, ih _ (fun t' i' v' hm => h t' i' v' (List.mem_cons_of_mem _ hm)),
        write_other _ _ _ _ _ _ (Or.inl (h t i v (List.mem_cons_self _ _)).symm)]
    | fence =>
      rw [replay]
      exact ih _ (fun t' i' v' hm => h t' i' v' (List.mem_cons_of_mem _ hm)) j

/-- Slots stored to stay stored to when more events follow. -/
theorem stored_append_left (e1 e2 : List MemEvent) (q : Nat) (h : Stored e1 q) :
    Stored (e1 ++ e2) q := by
  intro i hi
  obtain ⟨v, hv⟩ := h i hi
  exact ⟨v, List.mem_append_left _ hv⟩

/-- Slots stored to by later events are stored to by the whole run. -/
theorem stored_append_right (e1 e2 : List MemEvent) (q : Nat) (h : Stored e2 q) :
    Stored (e1 ++ e2) q := by
  intro i hi
  obtain ⟨v, hv⟩ := h i hi
  exact ⟨v, List.mem_append_right _ hv⟩

/-- Replaying the events of the initialisation loop gives the memory the loop
leaves. -/
theorem replay_fill (ntable inc : Nat) :
    ∀ n i v m, replay (mm_populate_fill_events ntable inc n i v) m =
      mm_populate_fill ntable inc n i v m := by
  intro n
  induction n with
  | zero => intro i v m; rw [mm_populate_fill_events, mm_populate_fill]; rfl
  | succ n ih =>
    intro i v m
    rw [mm_populate_fill_events, mm_populate_fill, replay]
    exact ih _ _ _

/-- The events of the initialisation loop in closed form: the `k`-th one stores
`fill_val inc k v` into slot `i + k` of the new table. -/
theorem fill_events_eq (ntable inc : Nat) :
    ∀ n i v, mm_populate_fill_events ntable inc n i v =
      (List.range n).map (fun k => MemEvent.store ntable (i + k) (fill_val inc k v)) := by
  intro n
  induction n with
  | zero => intro i v; rfl
  | succ n ih =>
    intro i v
    rw [mm_populate_fill_events, ih, List.range_succ_eq_map, List.map_cons, List.map_map]
    refine congrArg₂ _ rfl (List.map_congr_left (fun k _ => ?_))
    show MemEvent.store ntable (i + 1 + k) (fill_val inc k ((v + inc) % WORD)) =
      MemEvent.store ntable (i + (k + 1)) (fill_val inc (k + 1) v)
    rw [fill_val]
    congr 1
    omega

/-- The events of the initialisation loop store to the new table only. -/
theorem fill_events_target (ntable inc n i v t j w : Nat)
    (h : MemEvent.store t j w ∈ mm_populate_fill_events ntable inc n i v) : t = ntable := by
  rw [fill_events_eq] at h
  obtain ⟨k, _, hk⟩ := List.mem_map.1 h
  cases hk
  rfl

/-- The events of the initialisation loop store to every slot of the new
table. -/
theorem fill_events_stored (ntable inc v : Nat) :
    Stored (mm_populate_fill_events ntable inc ENTRIES 0 v) ntable := by
  intro i hi
  refine ⟨fill_val inc i v, ?_⟩
  rw [fill_events_eq]
  refine List.mem_map.2 ⟨i, List.mem_range.2 hi, ?_⟩
  rw [Nat.zero_add]

/-- The events of `mm_populate_table_pte` in each of the three ways it can
go. -/
theorem populate_events_cases (A : Arch) (p idx level : Nat) (sync : Bool) (s : State) :
    (A.arch_mm_pte_is_table (s.mem p idx) = true ∧
      mm_populate_table_pte_events A p idx level sync s = []) ∨
    (A.arch_mm_pte_is_table (s.mem p idx) = false ∧
      (mm_populate_table_pte A p idx level sync s).1 = 0 ∧
      mm_populate_table_pte_events A p idx level sync s = []) ∨
    (A.arch_mm_pte_is_table (s.mem p idx) = false ∧
      (mm_populate_table_pte A p idx level sync s).1 ≠ 0 ∧
      (mm_populate_table_pte A p idx level sync s).1 ∈ fresh_pages s.heap ∧
      mm_populate_table_pte_events A p idx level sync s =
        mm_populate_fill_events (mm_populate_table_pte A p idx level sync s).1
          (if !A.arch_mm_pte_is_block (s.mem p idx) then 0 else mm_entry_size (level - 1))
          ENTRIES 0
          (if !A.arch_mm_pte_is_block (s.mem p idx) then A.arch_mm_absent_pte
            else if level = 1 then A.arch_mm_block_to_page_pte (s.mem p idx) else s.mem p idx) ++
        [MemEvent.fence, MemEvent.store p idx
          (A.arch_mm_pa_to_table_pte (mm_populate_table_pte A p idx level sync s).1)] ∧
      (mm_populate_table_pte A p idx level sync s).2.mem =
        (mm_populate_fill (mm_populate_table_pte A p idx level sync s).1
          (if !A.arch_mm_pte_is_block (s.mem p idx) then 0 else mm_entry_size (level - 1))
          ENTRIES 0
          (if !A.arch_mm_pte_is_block (s.mem p idx) then A.arch_mm_absent_pte
            else if level = 1 then A.arch_mm_block_to_page_pte (s.mem p idx) else s.mem p idx)
          s.mem).write p idx
            (A.arch_mm_pa_to_table_pte (mm_populate_table_pte A p idx level sync s).1)) := by
  rcases Bool.eq_false_or_eq_true (A.arch_mm_pte_is_table (s.mem p idx)) with hT | hT
  · left
    refine ⟨hT, ?_⟩
    unfold mm_populate_table_pte_events
    simp only [hT, if_true]
  · right
    rcases populate_cases A p idx level sync s with
      ⟨hT', _⟩ | ⟨_, h0, _⟩ | ⟨_, nt, rest, hheap, hnt, hr1, _, _, hmem⟩
    · rw [hT] at hT'; cases hT'
    · left
      refine ⟨hT, h0, ?_⟩
      unfold mm_populate_table_pte_events
      unfold mm_populate_table_pte at h0
      simp only [hT, Bool.false_eq_true, if_false] at h0 ⊢
      rw [halloc_sel_eq] at h0 ⊢
      by_cases hz : (halloc_aligned s).1 = 0
      · rw [if_pos hz]
      · rw [if_neg hz] at h0
        exact absurd h0 hz
    · right
      have hfr : nt ∈ fresh_pages s.heap := by
        rw [hheap]; exact ⟨hnt, List.mem_cons_self _ _⟩
      have hal : (halloc_aligned s).1 = nt := by
        unfold halloc_aligned
        rw [hheap]
      refine ⟨hT, by rw [hr1]; exact hnt, by rw [hr1]; exact hfr, ?_, by rw [hr1]; exact hmem⟩
      rw [hr1]
      unfold mm_populate_table_pte_events
      simp only [hT, Bool.false_eq_true, if_false]
      rw [halloc_sel_eq, hal, if_neg hnt]

/-- A run without events is safe. -/
theorem traceSafe_nil (A : Arch) (level p : Nat) (s : State) : TraceSafe A level p s [] := by
  intro pre suf h
  have hp : pre = [] := (List.append_eq_nil.1 h.symm).1
  subst hp
  exact ⟨fun q hq => Or.inl hq, fun t i v hm => by cases hm⟩

/-- A run that takes no page from the allocator reaches no new table. -/
theorem ext_noalloc (A : Arch) (level p : Nat) (s s' : State) (he : Ext A level p s s')
    (hh : s'.heap = s.heap) :
    ∀ q, q ∈ footprint A s'.mem level p → q ∈ footprint A s.mem level p := by
  obtain ⟨-, -, used, hu, hg, -⟩ := he
  rw [hh] at hu
  have : used = [] := List.self_eq_append_left.1 hu
  subst this
  intro q hq
  rcases hg q hq with h | h
  · exact h
  · exact absurd h.2 (List.not_mem_nil _)

/-- The store of a leaf entry into a slot of the table `p` is safe. -/
theorem traceSafe_store (A : Arch) (level p idx v : Nat) (s : State)
    (ht : Tree A s.mem level p)
    (hv : level ≠ 0 → A.arch_mm_pte_is_table v = false ∧
      (A.arch_mm_pte_is_block v = true → A.arch_mm_is_block_allowed level = true)) :
    TraceSafe A level p s [MemEvent.store p idx v] := by
  intro pre suf h
  cases pre with
  | nil => exact ⟨fun q hq => Or.inl hq, fun t i v hm => by cases hm⟩
  | cons e pre' =>
    simp only [List.cons_append, List.cons.injEq] at h
    obtain ⟨he, hrest⟩ := h
    have hp : pre' = [] := (List.append_eq_nil.1 hrest.symm).1
    subst hp
    subst he
    refine ⟨fun q hq => Or.inl ?_, fun t i w hm => Or.inl ?_⟩
    · have hext := (ext_write A level p idx v s { s with mem := s.mem.write p idx v }
        rfl rfl rfl ht hv).1
      exact ext_noalloc A level p s _ hext rfl q hq
    · rcases List.mem_singleton.1 hm with hm'
      cases hm'
      exact self_mem_footprint A s.mem level p

/-- The table `mm_populate_table_pte` links is the only new table reachable
after it. -/
theorem populate_growth (A : Arch) (hA : Contract A) (l p idx : Nat) (sync : Bool) (s : State)
    (hidx : idx < ENTRIES) (hS : level_shift (l + 2) ≤ 64)
    (ht : Tree A s.mem (l + 1) p)
    (hh : HeapOK s.heap (footprint A s.mem (l + 1) p)) :
    ∀ q, q ∈ footprint A (mm_populate_table_pte A p idx (l + 1) sync s).2.mem (l + 1) p →
      q ∈ footprint A s.mem (l + 1) p ∨
      (q = (mm_populate_table_pte A p idx (l + 1) sync s).1 ∧
        (mm_populate_table_pte A p idx (l + 1) sync s).1 ≠ 0 ∧
        A.arch_mm_pte_is_table (s.mem p idx) = false) := by
  obtain ⟨he, -⟩ := populate_ext A hA l p idx sync s hidx hS ht hh
  rcases populate_cases A p idx (l + 1) sync s with
    ⟨_, heq⟩ | ⟨_, _, hmem, _⟩ | ⟨hT, nt, rest, hheap, hnt, hr1, hr2, _⟩
  · rw [heq]; exact fun q hq => Or.inl hq
  · rw [hmem]; exact fun q hq => Or.inl hq
  · obtain ⟨-, -, used, hu, hg, -⟩ := he
    rw [hr2, hheap] at hu
    have hused : used = [nt] := by
      have : [nt] ++ rest = used ++ rest := hu
      exact (List.append_cancel_right this).symm
    subst hused
    intro q hq
    rcases hg q hq with h | h
    · exact Or.inl h
    · right
      rw [hr1]
      exact ⟨List.mem_singleton.1 h.2, hnt, hT⟩

/-- The events of `mm_populate_table_pte` are safe: the new table is reachable
only once the table entry is stored, after every slot of it has been stored
to. -/
theorem traceSafe_populate (A : Arch) (hA : Contract A) (l p idx : Nat) (sync : Bool)
    (s : State) (hidx : idx < ENTRIES) (hS : level_shift (l + 2) ≤ 64)
    (ht : Tree A s.mem (l + 1) p)
    (hh : HeapOK s.heap (footprint A s.mem (l + 1) p)) :
    replay (mm_populate_table_pte_events A p idx (l + 1) sync s) s.mem =
      (mm_populate_table_pte A p idx (l + 1) sync s).2.mem ∧
    TraceSafe A (l + 1) p s (mm_populate_table_pte_events A p idx (l + 1) sync s) := by
  rcases populate_events_cases A p idx (l + 1) sync s with
    ⟨hT, hev⟩ | ⟨hT, h0, hev⟩ | ⟨hT, hnt, hfr, hev, hmem⟩
  · rw [hev]
    refine ⟨?_, traceSafe_nil A _ _ _⟩
    rw [(populate_ext A hA l p idx sync s hidx hS ht hh).2.2.2.2 hT]
    rfl
  · rw [hev]
    refine ⟨?_, traceSafe_nil A _ _ _⟩
    rcases populate_cases A p idx (l + 1) sync s with ⟨hT', _⟩ | ⟨_, _, hm, _⟩ | ⟨_, nt, _, _, hn, hr, _⟩
    · rw [hT] at hT'; cases hT'
    · rw [hm]; rfl
    · rw [hr] at h0; exact absurd h0 hn
  · have hrep : replay (mm_populate_table_pte_events A p idx (l + 1) sync s) s.mem =
        (mm_populate_table_pte A p idx (l + 1) sync s).2.mem := by
      rw [hev, replay_append, replay_fill, hmem]
      rfl
    refine ⟨hrep, ?_⟩
    have hnew : (mm_populate_table_pte A p idx (l + 1) sync s).1 ∉ footprint A s.mem (l + 1) p :=
      (hh.1 _ hfr).1
    have hgrow := populate_growth A hA l p idx sync s hidx hS ht hh
    generalize (mm_populate_table_pte A p idx (l + 1) sync s).1 = nt at hnt hfr hev hnew hgrow
    generalize hfe : mm_populate_fill_events nt
      (if !A.arch_mm_pte_is_block (s.mem p idx) then 0 else mm_entry_size (l + 1 - 1)) ENTRIES 0
      (if !A.arch_mm_pte_is_block (s.mem p idx) then A.arch_mm_absent_pte
        else if l + 1 = 1 then A.arch_mm_block_to_page_pte (s.mem p idx) else s.mem p idx)
      = fills at hev
    have hfst : Stored fills nt := hfe ▸ fill_events_stored nt _ _
    have hftg : ∀ t j w, MemEvent.store t j w ∈ fills → t = nt :=
      fun t j w hm => fill_events_target nt _ _ _ _ t j w (hfe ▸ hm)
    -- a run that has stored to the new table only
    have honly : ∀ pre, (∀ t j w, MemEvent.store t j w ∈ pre → t = nt) →
        (∀ q, q ∈ footprint A (replay pre s.mem) (l + 1) p →
          q ∈ footprint A s.mem (l + 1) p ∨ Stored pre q) ∧
        (∀ t i v, MemEvent.store t i v ∈ pre →
          t ∈ footprint A s.mem (l + 1) p ∨ t ∈ fresh_pages s.heap) := by
      intro pre hpre
      refine ⟨fun q hq => Or.inl ?_, fun t i v hm => Or.inr (hpre t i v hm ▸ hfr)⟩
      rw [footprint_agree A s.mem (replay pre s.mem) (l + 1) p] at hq
      · exact hq
      · intro q' hq' j _
        apply replay_frame
        intro t i v hm hc
        have h1 := hpre t i v hm
        rw [hc] at h1
        rw [h1] at hq'
        exact hnew hq'
    -- the whole run
    have hfull : (∀ q, q ∈ footprint A
          (replay (mm_populate_table_pte_events A p idx (l + 1) sync s) s.mem) (l + 1) p →
          q ∈ footprint A s.mem (l + 1) p ∨
            Stored (mm_populate_table_pte_events A p idx (l + 1) sync s) q) ∧
        (∀ t i v, MemEvent.store t i v ∈ mm_populate_table_pte_events A p idx (l + 1) sync s →
          t ∈ footprint A s.mem (l + 1) p ∨ t ∈ fresh_pages s.heap) := by
      refine ⟨fun q hq => ?_, fun t i v hm => ?_⟩
      · rw [hrep] at hq
        rcases hgrow q hq with h | ⟨h, -, -⟩
        · exact Or.inl h
        · right
          rw [hev, h]
          exact stored_append_left _ _ _ hfst
      · rw [hev] at hm
        rcases List.mem_append.1 hm with h | h
        · exact Or.inr (hftg t i v h ▸ hfr)
        · simp only [List.mem_cons, List.mem_singleton, List.not_mem_nil, or_false] at h
          rcases h with h | h
          · cases h
          · cases h
            exact Or.inl (self_mem_footprint A s.mem (l + 1) p)
    intro pre suf h
    have h' := h
    rw [hev] at h'
    rcases List.append_eq_append_iff.1 h' with ⟨c, hfc, hc⟩ | ⟨a, hpa, -⟩
    · cases c with
      | nil =>
        apply honly
        intro t j w hm
        rw [hfc, List.append_nil] at hm
        exact hftg t j w hm
      | cons x c' =>
        simp only [List.cons_append, List.cons.injEq] at hc
        obtain ⟨hx, hc'⟩ := hc
        subst hx
        cases c' with
        | nil =>
          apply honly
          intro t j w hm
          rw [hfc] at hm
          rcases List.mem_append.1 hm with hm' | hm'
          · exact hftg t j w hm'
          · simp at hm'
        | cons y c'' =>
          simp only [List.cons_append, List.cons.injEq] at hc'
          obtain ⟨hy, hc''⟩ := hc'
          have hnil : c'' = [] := (List.append_eq_nil.1 hc''.symm).1
          have hsn : suf = [] := (List.append_eq_nil.1 hc''.symm).2
          subst hnil
          subst hsn
          rw [List.append_nil] at h
          rw [← h]
          exact hfull
    · -- within the initialisation loop
      apply honly
      intro t j w hm
      exact hftg t j w (by rw [hpa]; exact List.mem_append_left _ hm)

/-- A run that is safe seen from the sub-table under slot `idx` of the table
`p` is safe seen from `p`. -/
theorem traceSafe_lift (A : Arch) (l p idx : Nat) (s : State) (evs : List MemEvent)
    (hidx : idx < ENTRIES)
    (ht : Tree A s.mem (l + 1) p)
    (hT : A.arch_mm_pte_is_table (s.mem p idx) = true)
    (hh : HeapOK s.heap (footprint A s.mem (l + 1) p))
    (hc : TraceSafe A l (A.arch_mm_pte_to_table (s.mem p idx)) s evs) :
    TraceSafe A (l + 1) p s evs := by
  intro pre suf h
  obtain ⟨hsafe, htgt⟩ := hc pre suf h
  -- tables the run does not store to
  have hframe : ∀ q, q ∈ footprint A s.mem (l + 1) p →
      q ∉ footprint A s.mem l (A.arch_mm_pte_to_table (s.mem p idx)) →
      ∀ j, replay pre s.mem q j = s.mem q j := by
    intro q hq hnq j
    apply replay_frame
    intro t i v hm hc
    rcases htgt t i v hm with h1 | h1
    · exact hnq (hc ▸ h1)
    · exact (hh.1 t h1).1 (hc ▸ hq)
  have hp : ∀ j, replay pre s.mem p j = s.mem p j :=
    hframe p (self_mem_footprint A s.mem (l + 1) p) (ht.2.1 idx hidx hT).2
  refine ⟨fun q hq => ?_, fun t i v hm => ?_⟩
  · rcases hq with rfl | ⟨j, hj, htj, hqj⟩
    · exact Or.inl (self_mem_footprint A s.mem (l + 1) q)
    · rw [hp j] at htj hqj
      by_cases hji : j = idx
      · subst hji
        rcases hsafe q hqj with h1 | h1
        · exact Or.inl (Or.inr ⟨j, hj, htj, h1⟩)
        · exact Or.inr h1
      · left
        rw [footprint_agree A s.mem (replay pre s.mem) l _] at hqj
        · exact Or.inr ⟨j, hj, htj, hqj⟩
        · intro q' hq' i _
          exact hframe q' (Or.inr ⟨j, hj, htj, hq'⟩)
            (fun hc' => ht.2.2 idx j hidx hj (Ne.symm hji) hT htj q' hc' hq') i
  · rcases htgt t i v hm with h1 | h1
    · exact Or.inl (footprint_child_subset A s.mem l p idx hidx hT t h1)
    · exact Or.inr h1

/-- Two safe runs, one after the other, make a safe run. -/
theorem traceSafe_append (A : Arch) (level p : Nat) (s0 s1 : State) (e1 e2 : List MemEvent)
    (h1 : TraceSafe A level p s0 e1) (hrep : replay e1 s0.mem = s1.mem)
    (hext : Ext A level p s0 s1) (h2 : TraceSafe A level p s1 e2) :
    TraceSafe A level p s0 (e1 ++ e2) := by
  obtain ⟨hfull, htfull⟩ := h1 e1 [] (List.append_nil _).symm
  rw [hrep] at hfull
  obtain ⟨-, -, used, hu, hg, -⟩ := hext
  have hfresh : ∀ t, t ∈ fresh_pages s1.heap → t ∈ fresh_pages s0.heap := by
    intro t ht
    rw [hu]
    exact (mem_fresh_pages_append _ _ _).2 (Or.inr ht)
  have hfoot : ∀ t, t ∈ footprint A s1.mem level p →
      t ∈ footprint A s0.mem level p ∨ t ∈ fresh_pages s0.heap := by
    intro t ht
    rcases hg t ht with h | h
    · exact Or.inl h
    · right
      rw [hu]
      exact (mem_fresh_pages_append _ _ _).2 (Or.inl h)
  intro pre suf h
  rcases List.append_eq_append_iff.1 h with ⟨a, hpa, ha⟩ | ⟨c, hfc, -⟩
  · -- the first run is over
    obtain ⟨hs2, ht2⟩ := h2 a suf ha
    subst hpa
    rw [replay_append, hrep]
    refine ⟨fun q hq => ?_, fun t i v hm => ?_⟩
    · rcases hs2 q hq with h | h
      · rcases hfull q h with h' | h'
        · exact Or.inl h'
        · exact Or.inr (stored_append_left _ _ _ h')
      · exact Or.inr (stored_append_right _ _ _ h)
    · rcases List.mem_append.1 hm with h | h
      · exact htfull t i v h
      · rcases ht2 t i v h with h' | h'
        · exact hfoot t h'
        · exact Or.inr (hfresh t h')
  · exact h1 pre c hfc

/-- The run without events. -/
theorem traceRun_nil (A : Arch) (level p : Nat) (s : State) (ht : Tree A s.mem level p) :
    TraceRun A level p s [] s :=
  ⟨rfl, traceSafe_nil A level p s, ext_refl A level p s ht⟩

/-- Two runs, one after the other. -/
theorem traceRun_append (A : Arch) (level p : Nat) (s0 s1 s2 : State) (e1 e2 : List MemEvent)
    (h1 : TraceRun A level p s0 e1 s1) (h2 : TraceRun A level p s1 e2 s2) :
    TraceRun A level p s0 (e1 ++ e2) s2 :=
  ⟨by rw [replay_append, h1.1, h2.1],
    traceSafe_append A level p s0 s1 e1 e2 h1.2.1 h1.1 h1.2.2 h2.2.1,
    ext_trans A level p s0 s1 s2 h1.2.2 h2.2.2⟩

/-- The run of a store of a leaf entry. -/
theorem traceRun_store (A : Arch) (level p idx v : Nat) (s : State)
    (ht : Tree A s.mem level p)
    (hv : level ≠ 0 → A.arch_mm_pte_is_table v = false ∧
      (A.arch_mm_pte_is_block v = true → A.arch_mm_is_block_allowed level = true)) :
    TraceRun A level p s [MemEvent.store p idx v] { s with mem := s.mem.write p idx v } :=
  ⟨rfl, traceSafe_store A level p idx v s ht hv,
    (ext_write A level p idx v s { s with mem := s.mem.write p idx v } rfl rfl rfl ht hv).1⟩

/-- The run of `mm_populate_table_pte`. -/
theorem traceRun_populate (A : Arch) (hA : Contract A) (l p idx : Nat) (sync : Bool)
    (s : State) (hidx : idx < ENTRIES) (hS : level_shift (l + 2) ≤ 64)
    (ht : Tree A s.mem (l + 1) p)
    (hh : HeapOK s.heap (footprint A s.mem (l + 1) p)) :
    TraceRun A (l + 1) p s (mm_populate_table_pte_events A p idx (l + 1) sync s)
      (mm_populate_table_pte A p idx (l + 1) sync s).2 :=
  ⟨(traceSafe_populate A hA l p idx sync s hidx hS ht hh).1,
    (traceSafe_populate A hA l p idx sync s hidx hS ht hh).2,
    (populate_ext A hA l p idx sync s hidx hS ht hh).1⟩

/-- A run below slot `idx` of the table `p` is a run seen from `p`. -/
theorem traceRun_lift (A : Arch) (l p idx : Nat) (s s' : State) (evs : List MemEvent)
    (hidx : idx < ENTRIES)
    (ht : Tree A s.mem (l + 1) p)
    (hT : A.arch_mm_pte_is_table (s.mem p idx) = true)
    (hh : HeapOK s.heap (footprint A s.mem (l + 1) p))
    (hc : TraceRun A l (A.arch_mm_pte_to_table (s.mem p idx)) s evs s') :
    TraceRun A (l + 1) p s evs s' :=
  ⟨hc.1, traceSafe_lift A l p idx s evs hidx ht hT hh hc.2.1,
    (ext_lift A l p idx s s' hidx ht hT hh hc.2.2).1⟩

/-- The events of the loop of `mm_map_level` are the run of the loop. -/
theorem loop_trace (A : Arch) (hA : Contract A)
    (recurse : Nat → Nat → State → Option (Bool × State))
    (recurse_events : Nat → Nat → State → List MemEvent)
    (level va_begin va_end end_ attrs : Nat) (commit sync : Bool) (p : Nat)
    (hend : end_ = if va_end > mm_level_end va_begin level then mm_level_end va_begin level
      else va_end)
    (hS : level_shift (level + 1) ≤ 64) (hva : va_begin < WORD)
    (hleaf : commit = true → ∀ pa, pa % PAGE_SIZE = 0 →
      A.arch_mm_pte_is_table (A.arch_mm_pa_to_block_pte pa attrs) = false)
    (hrec : ∀ l, level = l + 1 → ∀ pa nt s ok s', pa % PAGE_SIZE = 0 →
      Tree A s.mem l nt → HeapOK s.heap (footprint A s.mem l nt) →
      recurse pa nt s = some (ok, s') → TraceRun A l nt s (recurse_events pa nt s) s') :
    ∀ fuel begin pa idx s ok s', LoopPos level va_begin begin pa idx →
      Tree A s.mem level p → HeapOK s.heap (footprint A s.mem level p) →
      mm_map_level_loop A recurse level end_ (mm_entry_size level) attrs commit sync p
        fuel begin pa idx s = some (ok, s') →
      TraceRun A level p s
        (mm_map_level_loop_events A recurse recurse_events level end_ (mm_entry_size level) attrs
          commit sync p fuel begin pa idx s) s' := by
  intro fuel
  induction fuel with
  | zero =>
    intro begin pa idx s ok s' _ ht _ h
    rw [mm_map_level_loop] at h
    rw [mm_map_level_loop_events]
    by_cases hlt : begin < end_
    · rw [if_pos hlt] at h
      exact absurd h (by simp)
    · rw [if_neg hlt] at h
      simp only [Option.some.injEq, Prod.mk.injEq] at h
      obtain ⟨-, rfl⟩ := h
      exact traceRun_nil A _ _ _ ht
  | succ fuel ih =>
    intro begin pa idx s ok s' hpos ht hh h
    rw [mm_map_level_loop] at h
    rw [mm_map_level_loop_events]
    by_cases hlt : begin < end_
    · rw [if_pos hlt] at h ⊢
      obtain ⟨hidx, hpos'⟩ := loopPos_step level va_begin va_end begin pa idx hS hva hpos
        (hend ▸ hlt)
      -- the rest of the loop after a first run
      have hrest : ∀ s1 seg, TraceRun A level p s seg s1 →
          mm_map_level_loop A recurse level end_ (mm_entry_size level) attrs commit sync p fuel
            (((begin + mm_entry_size level) % WORD) &&& not64 (mm_entry_size level - 1))
            (((pa + mm_entry_size level) % WORD) &&& not64 (mm_entry_size level - 1))
            (idx + 1) s1 = some (ok, s') →
          TraceRun A level p s (seg ++
            mm_map_level_loop_events A recurse recurse_events level end_ (mm_entry_size level)
              attrs commit sync p fuel
              (((begin + mm_entry_size level) % WORD) &&& not64 (mm_entry_size level - 1))
              (((pa + mm_entry_size level) % WORD) &&& not64 (mm_entry_size level - 1))
              (idx + 1) s1) s' := by
        intro s1 seg hrun hloop
        exact traceRun_append A level p s s1 s' _ _ hrun
          (ih _ _ _ s1 ok s' hpos' hrun.2.2.1 (heapOK_ext A _ _ _ _ hh hrun.2.2) hloop)
      -- the store of a leaf entry, when committing
      have hwrite : ∀ v, (commit = true → level ≠ 0 → A.arch_mm_pte_is_table v = false ∧
          (A.arch_mm_pte_is_block v = true → A.arch_mm_is_block_allowed level = true)) →
          TraceRun A level p s (if commit = true then [MemEvent.store p idx v] else [])
            (if commit = true then { s with mem := s.mem.write p idx v } else s) := by
        intro v hv
        cases commit with
        | false =>
          simp only [Bool.false_eq_true, if_false]
          exact traceRun_nil A _ _ _ ht
        | true =>
          simp only [if_true]
          exact traceRun_store A level p idx v s ht (hv rfl)
      by_cases hl0 : level = 0
      · simp only [if_pos hl0] at h ⊢
        exact hrest _ _ (hwrite (A.arch_mm_pa_to_page_pte pa attrs)
          (fun _ hne => absurd hl0 hne)) h
      · simp only [if_neg hl0] at h ⊢
        by_cases hblk : end_ - begin ≥ mm_entry_size level ∧
            A.arch_mm_is_block_allowed level = true ∧ begin &&& (mm_entry_size level - 1) = 0
        · simp only [if_pos hblk] at h ⊢
          simp only [mm_free_page_pte] at h ⊢
          exact hrest _ _ (hwrite (A.arch_mm_pa_to_block_pte pa attrs)
            (fun hc _ => ⟨hleaf hc pa hpos.1, fun _ => hblk.2.1⟩)) h
        · simp only [if_neg hblk] at h ⊢
          obtain ⟨l, rfl⟩ := Nat.exists_eq_succ_of_ne_zero hl0
          obtain ⟨he, -, -, hlink, -⟩ := populate_ext A hA l p idx sync s hidx hS ht hh
          have hrun1 := traceRun_populate A hA l p idx sync s hidx hS ht hh
          generalize mm_populate_table_pte_events A p idx (l + 1) sync s = seg1 at hrun1 ⊢
          generalize mm_populate_table_pte A p idx (l + 1) sync s = r at h he hlink hrun1 ⊢
          obtain ⟨nt, s1⟩ := r
          simp only at h he hlink hrun1 ⊢
          by_cases hnt : nt = 0
          · rw [if_pos hnt] at h ⊢
            simp only [Option.some.injEq, Prod.mk.injEq] at h
            obtain ⟨-, rfl⟩ := h
            rw [List.append_nil]
            exact hrun1
          · rw [if_neg hnt] at h ⊢
            obtain ⟨hT1, hp1⟩ := hlink hnt
            have ht1 : Tree A s1.mem (l + 1) p := he.1
            have hh1 := heapOK_ext A _ _ _ _ hh he
            have htc : Tree A s1.mem l nt := hp1 ▸ (ht1.2.1 idx hidx hT1).1
            have hhc : HeapOK s1.heap (footprint A s1.mem l nt) :=
              heapOK_mono _ _ _ hh1 (hp1 ▸ footprint_child_subset A s1.mem l p idx hidx hT1)
            cases hrc : recurse pa nt s1 with
            | none => rw [hrc] at h; exact absurd h (by simp)
            | some res =>
              obtain ⟨ok2, s2⟩ := res
              rw [hrc] at h
              have hrun2c := hrec l rfl pa nt s1 ok2 s2 hpos.1 htc hhc hrc
              have hrun2 : TraceRun A (l + 1) p s1 (recurse_events pa nt s1) s2 :=
                traceRun_lift A l p idx s1 s2 _ hidx ht1 hT1 hh1 (hp1.symm ▸ hrun2c)
              have hrun12 := traceRun_append A (l + 1) p s s1 s2 _ _ hrun1 hrun2
              cases ok2 with
              | false =>
                simp only [Option.some.injEq, Prod.mk.injEq] at h
                obtain ⟨-, rfl⟩ := h
                simp only [List.append_nil]
                exact hrun12
              | true =>
                simp only at h ⊢
                rw [← List.append_assoc]
                exact hrest s2 _ hrun12 h
    · rw [if_neg hlt] at h ⊢
      simp only [Option.some.injEq, Prod.mk.injEq] at h
      obtain ⟨-, rfl⟩ := h
      exact traceRun_nil A _ _ _ ht

/-- The events of `mm_map_level` are the events of its loop. -/
theorem mm_map_level_events_eq (A : Arch) (va_begin va_end attrs flags level pa table : Nat)
    (s : State) :
    mm_map_level_events A va_begin va_end attrs flags level pa table s =
    mm_map_level_loop_events A
      (match level with
        | 0 => fun _ _ _ => none
        | l + 1 => fun pa1 nt s1 => mm_map_level A va_begin va_end attrs flags l pa1 nt s1)
      (match level with
        | 0 => fun _ _ _ => []
        | l + 1 => fun pa1 nt s1 => mm_map_level_events A va_begin va_end attrs flags l pa1 nt s1)
      level (if va_end > mm_level_end va_begin level then mm_level_end va_begin level else va_end)
      (mm_entry_size level) attrs (decide (flags &&& MAP_FLAG_COMMIT ≠ 0))
      (decide (flags &&& MAP_FLAG_SYNC ≠ 0)) table
      ENTRIES va_begin pa (mm_index va_begin level) s := by
  cases level <;> rw [mm_map_level_events]

/-- The events of `mm_map_level` are the run of the call. -/
theorem mm_map_level_trace (A : Arch) (hA : Contract A) (va_begin va_end attrs flags : Nat)
    (hva : va_begin < WORD)
    (hleaf : decide (flags &&& MAP_FLAG_COMMIT ≠ 0) = true → ∀ pa, pa % PAGE_SIZE = 0 →
      A.arch_mm_pte_is_table (A.arch_mm_pa_to_block_pte pa attrs) = false) :
    ∀ level, level_shift (level + 1) ≤ 64 → ∀ pa table s ok s', pa % PAGE_SIZE = 0 →
      Tree A s.mem level table → HeapOK s.heap (footprint A s.mem level table) →
      mm_map_level A va_begin va_end attrs flags level pa table s = some (ok, s') →
      TraceRun A level table s
        (mm_map_level_events A va_begin va_end attrs flags level pa table s) s' := by
  intro level
  induction level with
  | zero =>
    intro hS pa table s ok s' hpa ht hh h
    rw [mm_map_level_eq] at h
    rw [mm_map_level_events_eq]
    exact loop_trace A hA _ _ 0 va_begin va_end _ attrs _ _ table rfl hS hva hleaf
      (fun l hl => absurd hl (by omega)) ENTRIES va_begin pa _ s ok s'
      (loopPos_init 0 va_begin pa hpa) ht hh h
  | succ l ih =>
    intro hS pa table s ok s' hpa ht hh h
    rw [mm_map_level_eq] at h
    rw [mm_map_level_events_eq]
    have hSl : level_shift (l + 1) ≤ 64 := le_trans (level_shift_mono _ _ (by omega)) hS
    refine loop_trace A hA _ _ (l + 1) va_begin va_end _ attrs _ _ table rfl hS hva hleaf ?_
      ENTRIES va_begin pa _ s ok s' (loopPos_init (l + 1) va_begin pa hpa) ht hh h
    intro l' hl' pa1 nt s1 ok1 s1' hpa1 ht1 hh1 hrun
    have hll : l' = l := by omega
    subst hll
    exact ih hSl pa1 nt s1 ok1 s1' hpa1 ht1 hh1 hrun

/-- The events of the two walks of a mapper call are safe, and performing them
gives the memory the call leaves. -/
theorem two_walks_trace (A : Arch) (hA : Contract A) (t : mm_ptable)
    (va_begin va_end attrs flags pa mode : Nat) (s : State)
    (hva : va_begin < WORD) (hpa : pa % PAGE_SIZE = 0)
    (hflags : decide (flags &&& MAP_FLAG_COMMIT ≠ 0) = false)
    (hleaf : ∀ pa, pa % PAGE_SIZE = 0 →
      A.arch_mm_pte_is_table (A.arch_mm_pa_to_block_pte pa attrs) = false)
    (hwf : WellFormed A t mode s)
    (r : Option (Bool × State))
    (hr : r = match mm_map_level A va_begin va_end attrs flags (A.arch_mm_max_level mode) pa
        t.table s with
      | none => none
      | some (false, s1) => some (false, s1)
      | some (true, s1) =>
        match mm_map_level A va_begin va_end attrs (flags ||| MAP_FLAG_COMMIT)
            (A.arch_mm_max_level mode) pa t.table s1 with
        | none => none
        | some (_, s2) =>
          some (true,
            if mode &&& MM_MODE_NOINVALIDATE = 0 then
              mm_invalidate_tlb va_begin va_end (decide (mode &&& MM_MODE_STAGE1 ≠ 0)) s2
            else s2))
    (ok : Bool) (s' : State) (h : r = some (ok, s')) :
    replay (two_walks_events A va_begin va_end attrs flags (A.arch_mm_max_level mode) pa
      t.table s) s.mem = s'.mem ∧
    TraceSafe A (A.arch_mm_max_level mode) t.table s
      (two_walks_events A va_begin va_end attrs flags (A.arch_mm_max_level mode) pa t.table s) := by
  subst hr
  unfold two_walks_events
  cases hdry : mm_map_level A va_begin va_end attrs flags (A.arch_mm_max_level mode) pa
      t.table s with
  | none => rw [hdry] at h; exact absurd h (by simp)
  | some res =>
    obtain ⟨okd, sd⟩ := res
    rw [hdry] at h
    have hrd := mm_map_level_trace A hA va_begin va_end attrs flags hva
      (fun hc => absurd hc (by rw [hflags]; simp)) (A.arch_mm_max_level mode)
      (hA.levels_fit mode) pa t.table s okd sd hpa hwf.1 hwf.2.1 hdry
    cases okd with
    | false =>
      simp only [Option.some.injEq, Prod.mk.injEq] at h
      obtain ⟨-, rfl⟩ := h
      simp only [List.append_nil]
      exact ⟨hrd.1, hrd.2.1⟩
    | true =>
      simp only at h ⊢
      cases hcom : mm_map_level A va_begin va_end attrs (flags ||| MAP_FLAG_COMMIT)
          (A.arch_mm_max_level mode) pa t.table sd with
      | none => rw [hcom] at h; exact absurd h (by simp)
      | some res2 =>
        obtain ⟨okc, sc⟩ := res2
        rw [hcom] at h
        have hwfd := wellFormed_ext A t mode s sd hwf hrd.2.2
        have hrc := mm_map_level_trace A hA va_begin va_end attrs (flags ||| MAP_FLAG_COMMIT) hva
          (fun _ => hleaf) (A.arch_mm_max_level mode) (hA.levels_fit mode) pa t.table sd okc sc
          hpa hwfd.1 hwfd.2.1 hcom
        have hall := traceRun_append A _ _ s sd sc _ _ hrd hrc
        simp only [Option.some.injEq, Prod.mk.injEq] at h
        obtain ⟨-, rfl⟩ := h
        refine ⟨?_, hall.2.1⟩
        rw [hall.1]
        split
        · exact (mm_invalidate_tlb_mem _ _ _ _).1.symm
        · rfl

/-- The events of the loop of `mm_ptable_identity_map_page` are the run of the
loop. -/
theorem page_loop_trace (A : Arch) (hA : Contract A) (va pa mode : Nat) (sync : Bool) :
    ∀ i, level_shift (i + 1) ≤ 64 → ∀ table s, Tree A s.mem i table →
      HeapOK s.heap (footprint A s.mem i table) →
      TraceRun A i table s
        (mm_ptable_identity_map_page_loop_events A va pa (A.arch_mm_mode_to_attrs mode) sync i
          table s)
        (mm_ptable_identity_map_page_loop A va pa (A.arch_mm_mode_to_attrs mode) sync i table s).2
      := by
  intro i
  induction i with
  | zero =>
    intro _ table s ht _
    rw [mm_ptable_identity_map_page_loop, mm_ptable_identity_map_page_loop_events]
    exact traceRun_store A 0 table _ _ s ht (fun h => absurd rfl h)
  | succ i ih =>
    intro hS table s ht hh
    rw [mm_ptable_identity_map_page_loop, mm_ptable_identity_map_page_loop_events]
    have hSi : level_shift (i + 1) ≤ 64 := le_trans (level_shift_mono _ _ (by omega)) hS
    obtain ⟨he, -, -, hlink, -⟩ := populate_ext A hA i table (mm_index va (i + 1)) sync s
      (mm_index_lt _ _) hS ht hh
    have hrun1 := traceRun_populate A hA i table (mm_index va (i + 1)) sync s
      (mm_index_lt _ _) hS ht hh
    generalize mm_populate_table_pte_events A table (mm_index va (i + 1)) (i + 1) sync s = seg1
      at hrun1 ⊢
    generalize mm_populate_table_pte A table (mm_index va (i + 1)) (i + 1) sync s = r
      at he hlink hrun1 ⊢
    obtain ⟨nt, s1⟩ := r
    simp only at he hlink hrun1 ⊢
    by_cases hnt : nt = 0
    · rw [if_pos hnt, if_pos hnt, List.append_nil]
      exact hrun1
    · rw [if_neg hnt, if_neg hnt]
      obtain ⟨hT1, hp1⟩ := hlink hnt
      have ht1 : Tree A s1.mem (i + 1) table := he.1
      have hh1 := heapOK_ext A _ _ _ _ hh he
      have htc : Tree A s1.mem i nt := hp1 ▸ (ht1.2.1 _ (mm_index_lt _ _) hT1).1
      have hhc : HeapOK s1.heap (footprint A s1.mem i nt) :=
        heapOK_mono _ _ _ hh1
          (hp1 ▸ footprint_child_subset A s1.mem i table _ (mm_index_lt _ _) hT1)
      have hrun2c := ih hSi nt s1 htc hhc
      exact traceRun_append A (i + 1) table s s1 _ _ _ hrun1
        (traceRun_lift A i table (mm_index va (i + 1)) s1 _ _ (mm_index_lt _ _) ht1 hT1 hh1
          (hp1.symm ▸ hrun2c))

/-- The events of `mm_populate_table_pte` when it allocates a sub-table: the
stores of the entries of the new table, slot by slot, then the release fence,
then the store of the table entry. -/
theorem populate_events_order (A : Arch) (table idx level : Nat) (sync : Bool) (s : State)
    (hT : A.arch_mm_pte_is_table (s.mem table idx) = false)
    (hok : (mm_populate_table_pte A table idx level sync s).1 ≠ 0) :
    mm_populate_table_pte_events A table idx level sync s =
      (List.range ENTRIES).map (fun k =>
        MemEvent.store (mm_populate_table_pte A table idx level sync s).1 k
          (fill_val
            (if !A.arch_mm_pte_is_block (s.mem table idx) then 0 else mm_entry_size (level - 1)) k
            (if !A.arch_mm_pte_is_block (s.mem table idx) then A.arch_mm_absent_pte
              else if level = 1 then A.arch_mm_block_to_page_pte (s.mem table idx)
              else s.mem table idx))) ++
      [MemEvent.fence, MemEvent.store table idx
        (A.arch_mm_pa_to_table_pte (mm_populate_table_pte A table idx level sync s).1)] := by
  rcases populate_events_cases A table idx level sync s with
    ⟨hT', _⟩ | ⟨_, h0, _⟩ | ⟨_, _, _, hev, _⟩
  · rw [hT] at hT'; cases hT'
  · exact absurd h0 hok
  · rw [hev, fill_events_eq]
    simp only [Nat.zero_add]

/-! ## The invalidation in program order -/

/-- Performing effects one list after the other. -/
theorem perform_append (e1 e2 : List Effect) :
    ∀ s, perform (e1 ++ e2) s = perform e2 (perform e1 s) := by
  induction e1 with
  | nil => intro s; rfl
  | cons e es ih =>
    intro s
    cases e with
    | mem m =>
      cases m with
      | store t i v => simp only [List.cons_append, perform]; exact ih _
      | fence => simp only [List.cons_append, perform]; exact ih _
    | tlb x => simp only [List.cons_append, perform]; exact ih _

/-- Performing memory events replays them on the memory and leaves the
allocator oracle and the TLB trace as they were. -/
theorem perform_mem (evs : List MemEvent) :
    ∀ s, (perform (evs.map Effect.mem) s).mem = replay evs s.mem ∧
      (perform (evs.map Effect.mem) s).heap = s.heap ∧
      (perform (evs.map Effect.mem) s).tlb = s.tlb := by
  induction evs with
  | nil => intro s; exact ⟨rfl, rfl, rfl⟩
  | cons e es ih =>
    intro s
    cases e with
    | store t i v =>
      simp only [List.map_cons, perform, replay]
      exact ih _
    | fence =>
      simp only [List.map_cons, perform, replay]
      exact ih _

/-- Memory events hold no TLB call. -/
theorem tlb_not_mem_map (evs : List MemEvent) (x : TlbEvent) :
    Effect.tlb x ∉ evs.map Effect.mem := by
  intro h
  obtain ⟨e, _, he⟩ := List.mem_map.1 h
  cases he

/-- The effects of `mm_invalidate_tlb` are the one range invalidation of the
stage that `mode` selects. -/
theorem mm_invalidate_tlb_effects_eq (va_begin va_end mode : Nat) :
    mm_invalidate_tlb_effects va_begin va_end (decide (mode &&& MM_MODE_STAGE1 ≠ 0)) =
      [Effect.tlb (range_invalidation mode va_begin va_end)] := by
  unfold mm_invalidate_tlb_effects range_invalidation
  by_cases h : mode &&& MM_MODE_STAGE1 ≠ 0
  · rw [if_pos h, decide_eq_true h]; rfl
  · rw [if_neg h, decide_eq_false h]; rfl

/-- Replaying the events of `mm_populate_table_pte` gives the memory it
leaves. -/
theorem populate_replay (A : Arch) (p idx level : Nat) (sync : Bool) (s : State) :
    replay (mm_populate_table_pte_events A p idx level sync s) s.mem =
      (mm_populate_table_pte A p idx level sync s).2.mem := by
  rcases populate_events_cases A p idx level sync s with
    ⟨hT, hev⟩ | ⟨hT, h0, hev⟩ | ⟨hT, hnt, hfr, hev, hmem⟩
  · rw [hev]
    rcases populate_cases A p idx level sync s with ⟨_, h⟩ | ⟨hT', _⟩ | ⟨hT', _⟩
    · rw [h]; rfl
    · rw [hT] at hT'; cases hT'
    · rw [hT] at hT'; cases hT'
  · rw [hev]
    rcases populate_cases A p idx level sync s with
      ⟨hT', _⟩ | ⟨_, _, hm, _⟩ | ⟨_, nt, _, _, hn, hr, _⟩
    · rw [hT] at hT'; cases hT'
    · rw [hm]; rfl
    · rw [hr] at h0; exact absurd h0 hn
  · rw [hev, replay_append, replay_fill, hmem]
    rfl

/-- Replaying the events of the loop of `mm_map_level` gives the memory the
loop leaves, if that holds of the recursive call. -/
theorem loop_replay (A : Arch) (recurse : Nat → Nat → State → Option (Bool × State))
    (recurse_events : Nat → Nat → State → List MemEvent)
    (level end_ es attrs : Nat) (commit sync : Bool) (p : Nat)
    (hrec : ∀ pa nt s r, recurse pa nt s = some r →
      replay (recurse_events pa nt s) s.mem = r.2.mem) :
    ∀ fuel begin pa idx s r,
      mm_map_level_loop A recurse level end_ es attrs commit sync p fuel begin pa idx s = some r →
      replay (mm_map_level_loop_events A recurse recurse_events level end_ es attrs commit sync p
        fuel begin pa idx s) s.mem = r.2.mem := by
  intro fuel
  induction fuel with
  | zero =>
    intro begin pa idx s r h
    rw [mm_map_level_loop] at h
    rw [mm_map_level_loop_events]
    by_cases hlt : begin < end_
    · rw [if_pos hlt] at h; cases h
    · rw [if_neg hlt] at h; cases h; rfl
  | succ fuel ih =>
    intro begin pa idx s r h
    rw [mm_map_level_loop] at h
    rw [mm_map_level_loop_events]
    by_cases hlt : begin < end_
    · rw [if_pos hlt] at h ⊢
      by_cases hl0 : level = 0
      · simp only [if_pos hl0] at h ⊢
        rw [replay_append, ← ih _ _ _ _ _ h]
        cases commit <;> rfl
      · simp only [if_neg hl0] at h ⊢
        by_cases hblk : end_ - begin ≥ es ∧
            A.arch_mm_is_block_allowed level = true ∧ begin &&& (es - 1) = 0
        · simp only [if_pos hblk] at h ⊢
          rw [replay_append, ← ih _ _ _ _ _ h]
          cases commit <;> rfl
        · simp only [if_neg hblk] at h ⊢
          rw [replay_append, populate_replay]
          generalize mm_populate_table_pte A p idx level sync s = q at h ⊢
          obtain ⟨nt, s1⟩ := q
          simp only at h ⊢
          by_cases hnt : nt = 0
          · rw [if_pos hnt] at h ⊢
            cases h
            rfl
          · rw [if_neg hnt] at h ⊢
            rw [replay_append]
            cases hrc : recurse pa nt s1 with
            | none => rw [hrc] at h; cases h
            | some res =>
              have h2 := hrec pa nt s1 res hrc
              rw [hrc] at h
              obtain ⟨ok2, s2⟩ := res
              rw [h2]
              cases ok2 with
              | false =>
                simp only at h ⊢
                cases h
                rfl
              | true =>
                simp only at h ⊢
                exact ih _ _ _ _ _ h
    · rw [if_neg hlt] at h ⊢; cases h; rfl

/-- Replaying the events of `mm_map_level` gives the memory the call leaves. -/
theorem mm_map_level_replay (A : Arch) (va_begin va_end attrs flags : Nat) :
    ∀ level pa table s r, mm_map_level A va_begin va_end attrs flags level pa table s = some r →
      replay (mm_map_level_events A va_begin va_end attrs flags level pa table s) s.mem =
        r.2.mem := by
  intro level
  induction level with
  | zero =>
    intro pa table s r h
    rw [mm_map_level_eq] at h
    rw [mm_map_level_events_eq]
    exact loop_replay A _ _ 0 _ _ attrs _ _ table (fun _ _ _ _ h => by cases h) _ _ _ _ _ _ h
  | succ l ih =>
    intro pa table s r h
    rw [mm_map_level_eq] at h
    rw [mm_map_level_events_eq]
    exact loop_replay A _ _ (l + 1) _ _ attrs _ _ table
      (fun pa1 nt s1 r1 h1 => ih pa1 nt s1 r1 h1) _ _ _ _ _ _ h

/-- A TLB call among memory events followed by one TLB call is that call, and
nothing follows it. -/
theorem tlb_split (l : List MemEvent) (y x : TlbEvent) :
    ∀ pre suf, l.map Effect.mem ++ [Effect.tlb y] = pre ++ Effect.tlb x :: suf →
      pre = l.map Effect.mem ∧ x = y ∧ suf = [] := by
  induction l with
  | nil =>
    intro pre suf h
    cases pre with
    | nil =>
      simp only [List.map_nil, List.nil_append, List.cons.injEq, Effect.tlb.injEq] at h
      exact ⟨rfl, h.1.symm, h.2.symm⟩
    | cons p ps =>
      simp only [List.map_nil, List.nil_append, List.cons_append, List.cons.injEq] at h
      exact absurd h.2.symm (List.append_ne_nil_of_right_ne_nil _ (List.cons_ne_nil _ _))
  | cons a l ih =>
    intro pre suf h
    cases pre with
    | nil =>
      simp only [List.map_cons, List.cons_append, List.nil_append, List.cons.injEq] at h
      exact absurd h.1 (by intro hh; cases hh)
    | cons p ps =>
      simp only [List.map_cons, List.cons_append, List.cons.injEq] at h
      obtain ⟨h1, h2, h3⟩ := ih ps suf h.2
      exact ⟨by rw [List.map_cons, ← h.1, h1], h2, h3⟩

/-- The effects of the two walks and the invalidation shared by
`mm_ptable_identity_map` and `mm_ptable_unmap`: performing them gives the
memory and the TLB trace of the state the call leaves; when the call returns
true they are the memory events of the dry run, then those of the commit walk,
then the invalidation unless `NOINVALIDATE` is set, and the memory events alone
give the memory the call leaves; when it returns false they are the memory
events of the dry run. -/
theorem two_walks_order (A : Arch) (b e attrs flags level pa table mode : Nat) (s : State)
    (r : Option (Bool × State))
    (hr : r = match mm_map_level A b e attrs flags level pa table s with
      | none => none
      | some (false, s1) => some (false, s1)
      | some (true, s1) =>
        match mm_map_level A b e attrs (flags ||| MAP_FLAG_COMMIT) level pa table s1 with
        | none => none
        | some (_, s2) =>
          some (true,
            if mode &&& MM_MODE_NOINVALIDATE = 0 then
              mm_invalidate_tlb b e (decide (mode &&& MM_MODE_STAGE1 ≠ 0)) s2
            else s2)) :
    (∀ ok s', r = some (ok, s') →
      (perform (two_walks_effects A b e attrs flags level pa table mode s) s).mem = s'.mem ∧
      (perform (two_walks_effects A b e attrs flags level pa table mode s) s).tlb = s'.tlb) ∧
    (∀ s', r = some (true, s') →
      ∃ sd okc sc, mm_map_level A b e attrs flags level pa table s = some (true, sd) ∧
        mm_map_level A b e attrs (flags ||| MAP_FLAG_COMMIT) level pa table sd = some (okc, sc) ∧
        two_walks_effects A b e attrs flags level pa table mode s =
          (mm_map_level_events A b e attrs flags level pa table s).map Effect.mem ++
          (mm_map_level_events A b e attrs (flags ||| MAP_FLAG_COMMIT) level pa table sd).map
            Effect.mem ++
          (if mode &&& MM_MODE_NOINVALIDATE = 0 then [Effect.tlb (range_invalidation mode b e)]
            else []) ∧
        replay (mm_map_level_events A b e attrs flags level pa table s ++
          mm_map_level_events A b e attrs (flags ||| MAP_FLAG_COMMIT) level pa table sd) s.mem =
          s'.mem) ∧
    (∀ s', r = some (false, s') →
      two_walks_effects A b e attrs flags level pa table mode s =
        (mm_map_level_events A b e attrs flags level pa table s).map Effect.mem) := by
  subst hr
  unfold two_walks_effects mm_map_level_effects
  cases hdry : mm_map_level A b e attrs flags level pa table s with
  | none => simp
  | some res =>
    obtain ⟨okd, sd⟩ := res
    have hd := mm_map_level_tlb A b e attrs flags level pa table s _ hdry
    have hdm := mm_map_level_replay A b e attrs flags level pa table s _ hdry
    simp only at hd hdm
    cases okd with
    | false =>
      simp only [List.append_nil]
      refine ⟨fun ok s' h => ?_, fun s' h => ?_, fun _ _ => trivial⟩
      · simp only [Option.some.injEq, Prod.mk.injEq] at h
        obtain ⟨-, rfl⟩ := h
        have hp := perform_mem (mm_map_level_events A b e attrs flags level pa table s) s
        exact ⟨hp.1.trans hdm, hp.2.2.trans hd.symm⟩
      · cases h
    | true =>
      simp only
      cases hcom : mm_map_level A b e attrs (flags ||| MAP_FLAG_COMMIT) level pa table sd with
      | none => simp
      | some res2 =>
        obtain ⟨okc, sc⟩ := res2
        have hc := mm_map_level_tlb A b e attrs _ level pa table sd _ hcom
        have hcm := mm_map_level_replay A b e attrs _ level pa table sd _ hcom
        simp only at hc hcm
        simp only
        have hrep : replay (mm_map_level_events A b e attrs flags level pa table s ++
            mm_map_level_events A b e attrs (flags ||| MAP_FLAG_COMMIT) level pa table sd) s.mem =
            sc.mem := by
          rw [replay_append, hdm, hcm]
        have hp := perform_mem (mm_map_level_events A b e attrs flags level pa table s ++
            mm_map_level_events A b e attrs (flags ||| MAP_FLAG_COMMIT) level pa table sd) s
        rw [List.map_append] at hp
        refine ⟨fun ok s' h => ?_, fun s' h => ?_, fun s' h => ?_⟩
        · simp only [Option.some.injEq, Prod.mk.injEq] at h
          obtain ⟨-, rfl⟩ := h
          rw [← List.append_assoc, perform_append]
          by_cases hn : mode &&& MM_MODE_NOINVALIDATE = 0
          · rw [if_pos hn, if_pos hn, mm_invalidate_tlb_effects_eq, mm_invalidate_tlb_trace,
              (mm_invalidate_tlb_mem _ _ _ _).1]
            simp only [perform]
            exact ⟨hp.1.trans hrep, by rw [hp.2.2, hc, hd]⟩
          · rw [if_neg hn, if_neg hn]
            simp only [perform]
            exact ⟨hp.1.trans hrep, by rw [hp.2.2, hc, hd]⟩
        · simp only [Option.some.injEq, Prod.mk.injEq, true_and] at h
          subst h
          refine ⟨sd, okc, sc, rfl, hcom, ?_, ?_⟩
          · rw [List.append_assoc]
            by_cases hn : mode &&& MM_MODE_NOINVALIDATE = 0
            · rw [if_pos hn, if_pos hn, mm_invalidate_tlb_effects_eq]
            · rw [if_neg hn, if_neg hn]
          · rw [hrep]
            by_cases hn : mode &&& MM_MODE_NOINVALIDATE = 0
            · rw [if_pos hn]; exact (mm_invalidate_tlb_mem _ _ _ _).1.symm
            · rw [if_neg hn]
        · cases h

/-- What a call of `mm_ptable_identity_map` or `mm_ptable_unmap` that returns
does to the TLB, and where in the effects of the call: the TLB trace grows by
the one invalidation exactly when the call returns true and `NOINVALIDATE` is
not set; the effects performed in order give the memory and the TLB trace the
call leaves; when the call returns true they are the memory events of the dry
run, those of the commit walk and then the invalidation; when it returns false
they hold no TLB call; and wherever a TLB call stands in the effects, nothing
follows it, no TLB call precedes it and the memory is already the one the call
leaves. -/
theorem two_walks_maintenance (A : Arch) (b e attrs flags level pa table mode : Nat)
    (s : State) (r : Option (Bool × State))
    (hr : r = match mm_map_level A b e attrs flags level pa table s with
      | none => none
      | some (false, s1) => some (false, s1)
      | some (true, s1) =>
        match mm_map_level A b e attrs (flags ||| MAP_FLAG_COMMIT) level pa table s1 with
        | none => none
        | some (_, s2) =>
          some (true,
            if mode &&& MM_MODE_NOINVALIDATE = 0 then
              mm_invalidate_tlb b e (decide (mode &&& MM_MODE_STAGE1 ≠ 0)) s2
            else s2))
    (ok : Bool) (s' : State) (h : r = some (ok, s')) :
    (s'.tlb = if ok = true ∧ mode &&& MM_MODE_NOINVALIDATE = 0 then
        range_invalidation mode b e :: s.tlb
      else s.tlb) ∧
    ((perform (two_walks_effects A b e attrs flags level pa table mode s) s).mem = s'.mem ∧
      (perform (two_walks_effects A b e attrs flags level pa table mode s) s).tlb = s'.tlb) ∧
    (ok = true → ∃ sd okc sc,
      mm_map_level A b e attrs flags level pa table s = some (true, sd) ∧
      mm_map_level A b e attrs (flags ||| MAP_FLAG_COMMIT) level pa table sd = some (okc, sc) ∧
      two_walks_effects A b e attrs flags level pa table mode s =
        (mm_map_level_events A b e attrs flags level pa table s).map Effect.mem ++
        (mm_map_level_events A b e attrs (flags ||| MAP_FLAG_COMMIT) level pa table sd).map
          Effect.mem ++
        (if mode &&& MM_MODE_NOINVALIDATE = 0 then [Effect.tlb (range_invalidation mode b e)]
          else []) ∧
      replay (mm_map_level_events A b e attrs flags level pa table s ++
        mm_map_level_events A b e attrs (flags ||| MAP_FLAG_COMMIT) level pa table sd) s.mem =
        s'.mem ∧
      s'.mem = sc.mem ∧ sc.tlb = s.tlb) ∧
    (ok = false → ∀ x, Effect.tlb x ∉ two_walks_effects A b e attrs flags level pa table mode s) ∧
    (∀ pre x suf,
      two_walks_effects A b e attrs flags level pa table mode s = pre ++ Effect.tlb x :: suf →
      suf = [] ∧ (∀ y, Effect.tlb y ∉ pre) ∧ (perform pre s).mem = s'.mem) := by
  have ht := two_walks_tlb A b e attrs flags level pa table mode s r hr
  have ho := two_walks_order A b e attrs flags level pa table mode s r hr
  refine ⟨?_, ho.1 ok s' h, ?_, ?_, ?_⟩
  · cases ok with
    | false =>
      rw [if_neg (by simp)]
      exact ht.2 s' h
    | true =>
      obtain ⟨-, h1, h2⟩ := ht.1 s' h
      by_cases hn : mode &&& MM_MODE_NOINVALIDATE = 0
      · rw [if_pos ⟨rfl, hn⟩]
        exact h1 hn
      · rw [if_neg (fun hh => hn hh.2)]
        exact h2 hn
  · intro hok
    subst hok
    obtain ⟨sd, okc, sc, hd, hc, he, hm⟩ := ho.2.1 s' h
    obtain ⟨⟨sd2, okc2, sc2, hd2, hc2, hm2, ht2⟩, -⟩ := ht.1 s' h
    rw [hd] at hd2
    simp only [Option.some.injEq, Prod.mk.injEq, true_and] at hd2
    subst hd2
    rw [hc] at hc2
    simp only [Option.some.injEq, Prod.mk.injEq] at hc2
    obtain ⟨-, rfl⟩ := hc2
    exact ⟨sd, okc, sc, hd, hc, he, hm, hm2, ht2⟩
  · intro hok x hx
    subst hok
    rw [ho.2.2 s' h] at hx
    exact tlb_not_mem_map _ _ hx
  · intro pre x suf hsplit
    cases ok with
    | false =>
      have hx : Effect.tlb x ∈ two_walks_effects A b e attrs flags level pa table mode s := by
        rw [hsplit]
        exact List.mem_append_right _ (List.mem_cons_self _ _)
      rw [ho.2.2 s' h] at hx
      exact absurd hx (tlb_not_mem_map _ _)
    | true =>
      obtain ⟨sd, okc, sc, -, -, he, hm⟩ := ho.2.1 s' h
      rw [he, ← List.map_append] at hsplit
      by_cases hn : mode &&& MM_MODE_NOINVALIDATE = 0
      · rw [if_pos hn] at hsplit
        obtain ⟨hpre, -, hsuf⟩ := tlb_split _ _ _ _ _ hsplit
        refine ⟨hsuf, fun y => ?_, ?_⟩
        · rw [hpre]
          exact tlb_not_mem_map _ _
        · rw [hpre, (perform_mem _ s).1]
          exact hm
      · rw [if_neg hn, List.append_nil] at hsplit
        have hx : Effect.tlb x ∈ pre ++ Effect.tlb x :: suf :=
          List.mem_append_right _ (List.mem_cons_self _ _)
        rw [← hsplit] at hx
        exact absurd hx (tlb_not_mem_map _ _)

/-! ## The claims -/

set_option maxRecDepth 100000 in
/-- C1 (round trip) fails on the code: on the concrete backend, which meets the
contract, `mm_ptable_identity_map` of the page-aligned range
`[0x1ff000, 0x201000)` on a fresh, well-formed table returns true, and yet the
page `0x200000` of the range is not mapped afterwards. -/
theorem c1_round_trip_fails :
    Contract demo ∧ WellFormed demo fresh_table mode_rw fresh ∧
    (0x1ff000 % PAGE_SIZE = 0 ∧ 0x201000 % PAGE_SIZE = 0 ∧ 0x1ff000 < 0x201000 ∧
      0x201000 ≤ 2 ^ (PAGE_BITS + (demo.arch_mm_max_level mode_rw + 1) * PAGE_LEVEL_BITS)) ∧
    result_of map_across = some true ∧
    (0x1ff000 ≤ 0x200000 ∧ 0x200000 < 0x201000 ∧ 0x200000 % PAGE_SIZE = 0) ∧
    mm_ptable_is_mapped demo fresh_table 0x200000 mode_rw (state_after fresh map_across)
      = false :=
  ⟨demo_contract, wellFormed_fresh mode_rw, by decide!, by decide!, by decide!, by decide!⟩

set_option maxRecDepth 100000 in
/-- C2 (identity translation) fails on the code: after the successful map of
`[0x1ff000, 0x201000)` on a fresh table, the walk for the page `0x200000` of the
range ends at an absent entry of level 0, not at the page entry for the
physical address `0x200000`; that page entry sits in the slot of the virtual
address `0x3ff000` instead. -/
theorem c2_identity_translation_fails :
    result_of map_across = some true ∧
    walk_leaf demo (state_after fresh map_across).mem 0x200000
      (demo.arch_mm_max_level mode_rw) fresh_table.table = (0, demo.arch_mm_absent_pte) ∧
    demo.arch_mm_pa_to_page_pte 0x200000 (demo.arch_mm_mode_to_attrs mode_rw)
      ≠ demo.arch_mm_absent_pte ∧
    walk_leaf demo (state_after fresh map_across).mem 0x3ff000
      (demo.arch_mm_max_level mode_rw) fresh_table.table =
        (0, demo.arch_mm_pa_to_page_pte 0x200000 (demo.arch_mm_mode_to_attrs mode_rw)) := by
  decide!

set_option maxRecDepth 100000 in
/-- C4 (unmap clears the range) fails on the code: on the well-formed table
that maps `[0, 0x400000)`, `mm_ptable_unmap` of the page-aligned range
`[0x1ff000, 0x201000)` returns true, and the page `0x200000` of the range is
still mapped afterwards. -/
theorem c4_unmap_leaves_page_mapped :
    Contract demo ∧ WellFormed demo fresh_table mode_rw mapped_4m ∧
    (0x1ff000 % PAGE_SIZE = 0 ∧ 0x201000 % PAGE_SIZE = 0 ∧ 0x1ff000 < 0x201000 ∧
      0x201000 ≤ 2 ^ (PAGE_BITS + (demo.arch_mm_max_level mode_rw + 1) * PAGE_LEVEL_BITS)) ∧
    result_of unmap_across = some true ∧
    (0x1ff000 ≤ 0x200000 ∧ 0x200000 < 0x201000 ∧ 0x200000 % PAGE_SIZE = 0) ∧
    mm_ptable_is_mapped demo fresh_table 0x200000 mode_rw (state_after mapped_4m unmap_across)
      = true :=
  ⟨demo_contract, wellFormed_mapped_4m, by decide!, by decide!, by decide!, by decide!⟩

set_option maxRecDepth 100000 in
/-- C5 (map touches only the requested range) fails on the code: the successful
map of `[0x1ff000, 0x201000)` on a fresh table leaves the page `0x3ff000`, which
lies outside the range and was not mapped before, mapped. -/
theorem c5_map_touches_outside :
    Contract demo ∧ WellFormed demo fresh_table mode_rw fresh ∧
    result_of map_across = some true ∧
    (0x201000 ≤ 0x3ff000 ∧ 0x3ff000 % PAGE_SIZE = 0 ∧
      0x3ff000 < 2 ^ (PAGE_BITS + (demo.arch_mm_max_level mode_rw + 1) * PAGE_LEVEL_BITS)) ∧
    mm_ptable_is_mapped demo fresh_table 0x3ff000 mode_rw fresh = false ∧
    mm_ptable_is_mapped demo fresh_table 0x3ff000 mode_rw (state_after fresh map_across)
      = true :=
  ⟨demo_contract, wellFormed_fresh mode_rw, by decide!, by decide!, by decide!, by decide!⟩

set_option maxRecDepth 100000 in
/-- C6 (unmap leaves neighbours mapped) fails on the code: on the table that
maps `[0, 0x400000)`, the successful unmap of `[0x1ff000, 0x201000)` unmaps the
page `0x3ff000`, which lies outside the range and was mapped before. -/
theorem c6_unmap_touches_outside :
    Contract demo ∧ WellFormed demo fresh_table mode_rw mapped_4m ∧
    result_of unmap_across = some true ∧
    (0x201000 ≤ 0x3ff000 ∧ 0x3ff000 % PAGE_SIZE = 0 ∧
      0x3ff000 < 2 ^ (PAGE_BITS + (demo.arch_mm_max_level mode_rw + 1) * PAGE_LEVEL_BITS)) ∧
    mm_ptable_is_mapped demo fresh_table 0x3ff000 mode_rw mapped_4m = true ∧
    mm_ptable_is_mapped demo fresh_table 0x3ff000 mode_rw (state_after mapped_4m unmap_across)
      = false :=
  ⟨demo_contract, wellFormed_mapped_4m, by decide!, by decide!, by decide!, by decide!⟩

set_option maxRecDepth 100000 in
/-- C7 (block coarsening) fails on the code: after the successful map of
`[0x3fe00000, 0x40400000)` on a fresh table, the 2 MiB region at `0x40000000`,
which is aligned, lies inside the range, sits at level 1 where blocks are
allowed and is below tables (not blocks) at levels 2 and 3, has an absent
level-1 entry, not a block. -/
theorem c7_block_not_written :
    result_of map_across_gib = some true ∧
    (demo.arch_mm_is_block_allowed 1 = true ∧ 0x40000000 % mm_entry_size 1 = 0 ∧
      0x3fe00000 ≤ 0x40000000 ∧ 0x40000000 + mm_entry_size 1 ≤ 0x40400000) ∧
    (walk_entry demo (state_after fresh map_across_gib).mem 0x40000000 3 3
        fresh_table.table).map demo.arch_mm_pte_is_block = some false ∧
    (walk_entry demo (state_after fresh map_across_gib).mem 0x40000000 2 3
        fresh_table.table).map demo.arch_mm_pte_is_block = some false ∧
    walk_entry demo (state_after fresh map_across_gib).mem 0x40000000 1 3
        fresh_table.table = some demo.arch_mm_absent_pte ∧
    demo.arch_mm_pte_is_block demo.arch_mm_absent_pte = false := by
  decide!

/-- C8 (idempotence): on a well-formed table, with a backend that meets the
contract, when `mm_ptable_identity_map` returns true, a second call with the
same arguments returns true as well and leaves the table memory as the first
call left it, so every `mm_ptable_is_mapped` value and the output of
`mm_ptable_dump` are the same after the second call as after the first. -/
theorem c8_idempotence (A : Arch) (hA : Contract A) (t : mm_ptable)
    (va_begin va_end mode : Nat) (s s1 : State) (hwf : WellFormed A t mode s)
    (h : mm_ptable_identity_map A t va_begin va_end mode s = some (true, s1)) :
    ∃ s2, mm_ptable_identity_map A t va_begin va_end mode s1 = some (true, s2) ∧
      s2.mem = s1.mem ∧
      (∀ x, mm_ptable_is_mapped A t x mode s2 = mm_ptable_is_mapped A t x mode s1) ∧
      mm_ptable_dump A t mode s2 = mm_ptable_dump A t mode s1 := by
  have hleaf : ∀ pa, pa % PAGE_SIZE = 0 →
      A.arch_mm_pte_is_table (A.arch_mm_pa_to_block_pte pa (A.arch_mm_mode_to_attrs mode)) = false :=
    fun pa hpa => not_table_of_block A hA _ (hA.block_is_block pa mode hpa)
  unfold mm_ptable_identity_map at h ⊢
  simp only at h ⊢
  cases hdry : mm_map_level A (A.arch_mm_clear_va va_begin)
      (A.arch_mm_clear_va ((va_end + (PAGE_SIZE - 1)) % WORD)) (A.arch_mm_mode_to_attrs mode)
      (if mode &&& MM_MODE_NOSYNC ≠ 0 then 0 else MAP_FLAG_SYNC) (A.arch_mm_max_level mode)
      (A.arch_mm_clear_pa va_begin) t.table s with
  | none => rw [hdry] at h; exact absurd h (by simp)
  | some res =>
    obtain ⟨okd, sd⟩ := res
    rw [hdry] at h
    cases okd with
    | false => simp at h
    | true =>
      simp only at h
      have hpostd := mm_map_level_post A hA _ _ _ _ (hA.clear_va_lt va_begin)
        (fun hc => absurd hc (by rw [dry_flags]; simp))
        (A.arch_mm_max_level mode) (hA.levels_fit mode) _ t.table s true sd
        (hA.clear_pa_aligned va_begin) hwf.1 hwf.2.1 hdry
      have hdoned := (mm_map_level_done A hA _ _ _ _ (hA.clear_va_lt va_begin)
        (fun hc => absurd hc (by rw [dry_flags]; simp))
        (A.arch_mm_max_level mode) (hA.levels_fit mode) _ t.table s true sd
        (hA.clear_pa_aligned va_begin) hwf.1 hwf.2.1
        (fun hc => absurd hc (by rw [dry_flags]; simp)) hdry).1 rfl
      rw [dry_flags] at hdoned
      cases hcom : mm_map_level A (A.arch_mm_clear_va va_begin)
          (A.arch_mm_clear_va ((va_end + (PAGE_SIZE - 1)) % WORD)) (A.arch_mm_mode_to_attrs mode)
          ((if mode &&& MM_MODE_NOSYNC ≠ 0 then 0 else MAP_FLAG_SYNC) ||| MAP_FLAG_COMMIT)
          (A.arch_mm_max_level mode) (A.arch_mm_clear_pa va_begin) t.table sd with
      | none => rw [hcom] at h; exact absurd h (by simp)
      | some res2 =>
        obtain ⟨okc, sc⟩ := res2
        rw [hcom] at h
        simp only [Option.some.injEq, Prod.mk.injEq, true_and] at h
        have hdonec := mm_map_level_done A hA _ _ _ _ (hA.clear_va_lt va_begin)
          (fun _ => hleaf)
          (A.arch_mm_max_level mode) (hA.levels_fit mode) _ t.table sd okc sc
          (hA.clear_pa_aligned va_begin) hpostd.1.1 (heapOK_ext A _ _ _ _ hwf.2.1 hpostd.1)
          (fun _ => hdoned) hcom
        rw [commit_flags] at hdonec
        have hokc : okc = true := (hdonec.2 rfl).1
        have hdone : Done A (A.arch_mm_clear_va va_begin)
            (A.arch_mm_clear_va ((va_end + (PAGE_SIZE - 1)) % WORD))
            (A.arch_mm_mode_to_attrs mode) true (A.arch_mm_max_level mode)
            (A.arch_mm_clear_pa va_begin) t.table s1.mem := by
          have hm : s1.mem = sc.mem := by
            rw [← h]
            split
            · exact (mm_invalidate_tlb_mem _ _ _ _).1
            · rfl
          rw [hm]
          exact hdonec.1 hokc
        rw [mm_map_level_rerun A _ _ _ _ true (fun _ => rfl) _ _ _ s1 hdone]
        simp only
        rw [mm_map_level_rerun A _ _ _ _ true (fun _ => rfl) _ _ _ s1 hdone]
        simp only
        refine ⟨_, rfl, ?_, ?_, ?_⟩
        · split
          · exact (mm_invalidate_tlb_mem _ _ _ _).1
          · rfl
        · intro x
          unfold mm_ptable_is_mapped
          split
          · rw [(mm_invalidate_tlb_mem _ _ _ _).1]
          · rfl
        · unfold mm_ptable_dump
          split
          · rw [(mm_invalidate_tlb_mem _ _ _ _).1]
          · rfl

set_option maxRecDepth 100000 in
/-- C8, at a concrete input: mapping `[0x1ff000, 0x201000)` twice on the fresh
table of the concrete backend. -/
theorem c8_idempotence_witness :
    Contract demo ∧ WellFormed demo fresh_table mode_rw fresh ∧
    result_of map_across = some true ∧
    ∃ s2, mm_ptable_identity_map demo fresh_table 0x1ff000 0x201000 mode_rw
        (state_after fresh map_across) = some (true, s2) ∧
      s2.mem = (state_after fresh map_across).mem ∧
      (∀ x, mm_ptable_is_mapped demo fresh_table x mode_rw s2 =
        mm_ptable_is_mapped demo fresh_table x mode_rw (state_after fresh map_across)) ∧
      mm_ptable_dump demo fresh_table mode_rw s2 =
        mm_ptable_dump demo fresh_table mode_rw (state_after fresh map_across) :=
  ⟨demo_contract, wellFormed_fresh mode_rw, by decide!,
    c8_idempotence demo demo_contract fresh_table 0x1ff000 0x201000 mode_rw fresh _
      (wellFormed_fresh mode_rw) (eq_of_result _ _ _ (by decide!))⟩

set_option maxRecDepth 100000 in
/-- C9 (single-page map) fails on the code: after `mm_ptable_identity_map_page`
maps the page at `0x09000000` on a fresh table, the page-aligned address
`0x09000000 + 2^48`, a different page, which was not mapped before, is
reported as mapped. -/
theorem c9_other_page_reported_mapped :
    Contract demo ∧
    WellFormed demo fresh_table (MM_MODE_R ||| MM_MODE_W ||| MM_MODE_D) fresh ∧
    map_uart.1 = true ∧
    ((0x09000000 + 2 ^ 48) % PAGE_SIZE = 0 ∧
      0x09000000 + 2 ^ 48 ≠ demo.arch_mm_clear_va 0x09000000) ∧
    mm_ptable_is_mapped demo fresh_table (0x09000000 + 2 ^ 48)
      (MM_MODE_R ||| MM_MODE_W ||| MM_MODE_D) fresh = false ∧
    mm_ptable_is_mapped demo fresh_table (0x09000000 + 2 ^ 48)
      (MM_MODE_R ||| MM_MODE_W ||| MM_MODE_D) map_uart.2 = true :=
  ⟨demo_contract, wellFormed_fresh _, by decide!, by decide!, by decide!, by decide!⟩

set_option maxRecDepth 100000 in
/-- C10 (out-of-range query) fails on the code: with the page at `0x09000000`
mapped, `mm_ptable_is_mapped` returns true for `2^48 + 0x09000000`, an address
beyond the coverage `2^48` of the four-level table. -/
theorem c10_out_of_range_reported_mapped :
    map_uart.1 = true ∧
    2 ^ (PAGE_BITS + (demo.arch_mm_max_level mode_rw + 1) * PAGE_LEVEL_BITS)
      ≤ 2 ^ 48 + 0x09000000 ∧
    mm_ptable_is_mapped demo fresh_table (2 ^ 48 + 0x09000000) mode_rw map_uart.2 = true := by
  decide!

/-- Claim C11. `mm_ptable_init` returns false exactly when the allocator returns
null, and then leaves the handle and the table memory as they were; otherwise it
returns true with `t->table` the allocated page, `t->id` the given id and every
slot of the root holding the absent entry, so that (the absent entry being
neither present, a block nor a table) `mm_ptable_is_mapped` is false on the new
table for every address and mode. -/
theorem c11_init (A : Arch)
    (hp : A.arch_mm_pte_is_present A.arch_mm_absent_pte = false)
    (hb : A.arch_mm_pte_is_block A.arch_mm_absent_pte = false)
    (ht : A.arch_mm_pte_is_table A.arch_mm_absent_pte = false)
    (t : mm_ptable) (id mode : Nat) (s : State) :
    ((mm_ptable_init A t id mode s).1 = false ↔
      (if mode &&& MM_MODE_NOSYNC ≠ 0 then halloc_aligned_nosync s else halloc_aligned s).1 = 0) ∧
    ((mm_ptable_init A t id mode s).1 = false →
      (mm_ptable_init A t id mode s).2.1 = t ∧ (mm_ptable_init A t id mode s).2.2.mem = s.mem) ∧
    ((mm_ptable_init A t id mode s).1 = true →
      (mm_ptable_init A t id mode s).2.1.table =
        (if mode &&& MM_MODE_NOSYNC ≠ 0 then halloc_aligned_nosync s else halloc_aligned s).1 ∧
      (mm_ptable_init A t id mode s).2.1.id = id ∧
      (∀ i, i < ENTRIES →
        (mm_ptable_init A t id mode s).2.2.mem (mm_ptable_init A t id mode s).2.1.table i =
          A.arch_mm_absent_pte) ∧
      ∀ addr mode2,
        mm_ptable_is_mapped A (mm_ptable_init A t id mode s).2.1 addr mode2
          (mm_ptable_init A t id mode s).2.2 = false) := by
  have hsel := init_alloc_eq mode s
  refine ⟨?_, ?_, ?_⟩
  · unfold mm_ptable_init
    simp only [hsel]
    by_cases h0 : (halloc_aligned s).1 = 0
    · simp [h0]
    · simp [h0]
  · intro hf
    unfold mm_ptable_init at hf ⊢
    simp only [hsel] at hf ⊢
    by_cases h0 : (halloc_aligned s).1 = 0
    · rw [if_pos h0]
      refine ⟨rfl, ?_⟩
      show (halloc_aligned s).2.mem = s.mem
      unfold halloc_aligned
      cases s.heap <;> rfl
    · rw [if_neg h0] at hf
      exact absurd hf (by simp)
  · intro hok
    obtain ⟨nt, rest, hheap, hnt, htab, -, -, hmem⟩ := mm_ptable_init_cases A t id mode s hok
    have hent : ∀ i, i < ENTRIES →
        (mm_ptable_init A t id mode s).2.2.mem nt i = A.arch_mm_absent_pte := by
      intro i hi
      rw [hmem, init_loop_spec, if_pos ⟨rfl, Nat.zero_le _, by omega⟩]
    have ha : (halloc_aligned s).1 = nt := by
      unfold halloc_aligned
      rw [hheap]
    rw [hsel, ha, htab]
    refine ⟨rfl, rfl, hent, fun addr mode2 => ?_⟩
    unfold mm_ptable_is_mapped
    exact is_mapped_absent_table A hp hb ht _ nt hent _ _

set_option maxRecDepth 100000 in
/-- C11, at a concrete input: initialising a table on the machine `boot` of the
concrete backend. -/
theorem c11_init_witness :
    (demo.arch_mm_pte_is_present demo.arch_mm_absent_pte = false ∧
      demo.arch_mm_pte_is_block demo.arch_mm_absent_pte = false ∧
      demo.arch_mm_pte_is_table demo.arch_mm_absent_pte = false) ∧
    (mm_ptable_init demo ⟨0, 0⟩ 7 0 boot).1 = true ∧
    ((mm_ptable_init demo ⟨0, 0⟩ 7 0 boot).2.1.table = 0x10000 ∧
      (mm_ptable_init demo ⟨0, 0⟩ 7 0 boot).2.1.id = 7) ∧
    ∀ addr mode2, mm_ptable_is_mapped demo (mm_ptable_init demo ⟨0, 0⟩ 7 0 boot).2.1 addr mode2
      (mm_ptable_init demo ⟨0, 0⟩ 7 0 boot).2.2 = false :=
  ⟨⟨rfl, rfl, rfl⟩, by decide!, by decide!,
    ((c11_init demo rfl rfl rfl ⟨0, 0⟩ 7 0 boot).2.2 (by decide!)).2.2.2⟩

/-- Claim C12. `mm_ptable_unmap_hypervisor` returns, and it returns true exactly
when the unmaps of the text, rodata and data segments, performed in that order,
each on the state the one before left, all return true, the state being the one
the last of them leaves; when an earlier unmap returns false the later ones are
not performed: the call returns false with the state as the failing unmap left
it. -/
theorem c12_unmap_hypervisor (A : Arch) (hA : Contract A) (P : Platform) (t : mm_ptable)
    (mode : Nat) (s : State) :
    (∃ ok s', mm_ptable_unmap_hypervisor A P t mode s = some (ok, s')) ∧
    (∀ s', mm_ptable_unmap_hypervisor A P t mode s = some (true, s') ↔
      ∃ s1 s2, mm_ptable_unmap A t P.text_begin P.text_end mode s = some (true, s1) ∧
        mm_ptable_unmap A t P.rodata_begin P.rodata_end mode s1 = some (true, s2) ∧
        mm_ptable_unmap A t P.data_begin P.data_end mode s2 = some (true, s')) ∧
    (∀ s1, mm_ptable_unmap A t P.text_begin P.text_end mode s = some (false, s1) →
      mm_ptable_unmap_hypervisor A P t mode s = some (false, s1)) ∧
    (∀ s1 s2, mm_ptable_unmap A t P.text_begin P.text_end mode s = some (true, s1) →
      mm_ptable_unmap A t P.rodata_begin P.rodata_end mode s1 = some (false, s2) →
      mm_ptable_unmap_hypervisor A P t mode s = some (false, s2)) ∧
    (∀ s1 s2 s3, mm_ptable_unmap A t P.text_begin P.text_end mode s = some (true, s1) →
      mm_ptable_unmap A t P.rodata_begin P.rodata_end mode s1 = some (true, s2) →
      mm_ptable_unmap A t P.data_begin P.data_end mode s2 = some (false, s3) →
      mm_ptable_unmap_hypervisor A P t mode s = some (false, s3)) := by
  obtain ⟨ok1, s1, h1⟩ := exists_of_ne_none
    (mm_ptable_unmap_returns A hA t P.text_begin P.text_end mode s)
  obtain ⟨ok2, s2, h2⟩ := exists_of_ne_none
    (mm_ptable_unmap_returns A hA t P.rodata_begin P.rodata_end mode s1)
  obtain ⟨ok3, s3, h3⟩ := exists_of_ne_none
    (mm_ptable_unmap_returns A hA t P.data_begin P.data_end mode s2)
  have e1 : ∀ x, mm_ptable_unmap A t P.text_begin P.text_end mode s = some (false, x) →
      mm_ptable_unmap_hypervisor A P t mode s = some (false, x) := by
    intro x hx
    unfold mm_ptable_unmap_hypervisor
    rw [hx]
  have e2 : ∀ x y, mm_ptable_unmap A t P.text_begin P.text_end mode s = some (true, x) →
      mm_ptable_unmap A t P.rodata_begin P.rodata_end mode x = some (false, y) →
      mm_ptable_unmap_hypervisor A P t mode s = some (false, y) := by
    intro x y hx hy
    unfold mm_ptable_unmap_hypervisor
    rw [hx]
    simp only
    rw [hy]
  have e3 : ∀ x y, mm_ptable_unmap A t P.text_begin P.text_end mode s = some (true, x) →
      mm_ptable_unmap A t P.rodata_begin P.rodata_end mode x = some (true, y) →
      mm_ptable_unmap_hypervisor A P t mode s =
        mm_ptable_unmap A t P.data_begin P.data_end mode y := by
    intro x y hx hy
    unfold mm_ptable_unmap_hypervisor
    rw [hx]
    simp only
    rw [hy]
  refine ⟨?_, ?_, e1, e2, ?_⟩
  · cases ok1 with
    | false => exact ⟨false, s1, e1 s1 h1⟩
    | true =>
      cases ok2 with
      | false => exact ⟨false, s2, e2 s1 s2 h1 h2⟩
      | true => exact ⟨ok3, s3, by rw [e3 s1 s2 h1 h2, h3]⟩
  · intro s'
    constructor
    · intro h
      cases ok1 with
      | false =>
        rw [e1 s1 h1] at h
        cases h
      | true =>
        cases ok2 with
        | false =>
          rw [e2 s1 s2 h1 h2] at h
          cases h
        | true =>
          rw [e3 s1 s2 h1 h2] at h
          exact ⟨s1, s2, h1, h2, h⟩
    · rintro ⟨x, y, hx, hy, hz⟩
      rw [e3 x y hx hy, hz]
  · intro x y z hx hy hz
    rw [e3 x y hx hy, hz]

set_option maxRecDepth 100000 in
/-- C12, at a concrete input: unmapping the image from the fresh table. -/
theorem c12_unmap_hypervisor_witness :
    Contract demo ∧
    result_of (mm_ptable_unmap_hypervisor demo image fresh_table mode_rw fresh) = some true ∧
    ∀ s1 s2 s3, mm_ptable_unmap demo fresh_table image.text_begin image.text_end mode_rw fresh
        = some (true, s1) →
      mm_ptable_unmap demo fresh_table image.rodata_begin image.rodata_end mode_rw s1
        = some (true, s2) →
      mm_ptable_unmap demo fresh_table image.data_begin image.data_end mode_rw s2
        = some (false, s3) →
      mm_ptable_unmap_hypervisor demo image fresh_table mode_rw fresh = some (false, s3) :=
  ⟨demo_contract, by decide!,
    (c12_unmap_hypervisor demo demo_contract image fresh_table mode_rw fresh).2.2.2.2⟩

set_option maxRecDepth 100000 in
/-- C13 (`mm_init` returns success iff every step succeeds) fails on the code:
with an allocator that has a single page, the root initialisation succeeds, the
map of the UART page fails and so does the map of the text segment on the state
that leaves, the backend bring-up succeeds, and `mm_init` returns true. -/
theorem c13_init_hides_failed_mapping :
    (mm_ptable_init demo ⟨0, 0⟩ 0 (MM_MODE_NOSYNC ||| MM_MODE_STAGE1) boot_one).1 = true ∧
    (mm_ptable_identity_map_page demo table_one image.PL011_BASE
      (MM_MODE_R ||| MM_MODE_W ||| MM_MODE_D ||| MM_MODE_NOSYNC ||| MM_MODE_STAGE1)
      init_one).1 = false ∧
    result_of (mm_identity_map demo table_one image.text_begin image.text_end
      (MM_MODE_X ||| MM_MODE_NOSYNC)
      (mm_ptable_identity_map_page demo table_one image.PL011_BASE
        (MM_MODE_R ||| MM_MODE_W ||| MM_MODE_D ||| MM_MODE_NOSYNC ||| MM_MODE_STAGE1)
        init_one).2) = some false ∧
    image.arch_mm_init table_one.table true = true ∧
    (mm_init demo image ⟨0, 0⟩ boot_one).map (fun r => r.1) = some true := by
  decide!

/-- Claim C14. On a well-formed table, for a slot of a table of level
`L = l + 1` that holds a 64-bit entry `v` that is not a table, when the
allocation succeeds `mm_populate_table_pte` leaves, in entry `i` of the new
sub-table, `t + i * entry_size(L - 1)` in 64-bit arithmetic if `v` is a block,
where `t` is `arch_mm_block_to_page_pte(v)` when `L = 1` and `v` otherwise, and
the absent entry if `v` is not a block; the slot holds the table entry of the
new sub-table; every address has the same `mm_is_mapped_recursive` value as
before; and, for a decoder `pa_of` of output addresses under which entry `i` of
the split block decodes to the output address of the block plus
`i * entry_size(L - 1)`, every address has the same translation as before. -/
theorem c14_split_preserves (A : Arch) (hA : Contract A) (pa_of : Nat → Nat)
    (l p idx : Nat) (sync : Bool) (s : State)
    (hidx : idx < ENTRIES) (hS : level_shift (l + 2) ≤ 64)
    (ht : Tree A s.mem (l + 1) p)
    (hh : HeapOK s.heap (footprint A s.mem (l + 1) p))
    (hT : A.arch_mm_pte_is_table (s.mem p idx) = false)
    (hv : s.mem p idx < WORD) (hbp : A.arch_mm_block_to_page_pte (s.mem p idx) < WORD)
    (hok : (mm_populate_table_pte A p idx (l + 1) sync s).1 ≠ 0) :
    (A.arch_mm_pte_is_block (s.mem p idx) = true → ∀ i, i < ENTRIES →
      (mm_populate_table_pte A p idx (l + 1) sync s).2.mem
        (mm_populate_table_pte A p idx (l + 1) sync s).1 i =
      ((if l + 1 = 1 then A.arch_mm_block_to_page_pte (s.mem p idx) else s.mem p idx)
        + i * mm_entry_size l) % WORD) ∧
    (A.arch_mm_pte_is_block (s.mem p idx) = false → ∀ i, i < ENTRIES →
      (mm_populate_table_pte A p idx (l + 1) sync s).2.mem
        (mm_populate_table_pte A p idx (l + 1) sync s).1 i = A.arch_mm_absent_pte) ∧
    (mm_populate_table_pte A p idx (l + 1) sync s).2.mem p idx =
      A.arch_mm_pa_to_table_pte (mm_populate_table_pte A p idx (l + 1) sync s).1 ∧
    (∀ x, mm_is_mapped_recursive A (mm_populate_table_pte A p idx (l + 1) sync s).2.mem x (l + 1) p
      = mm_is_mapped_recursive A s.mem x (l + 1) p) ∧
    ((A.arch_mm_pte_is_block (s.mem p idx) = true → ∀ i, i < ENTRIES →
        pa_of (((if l + 1 = 1 then A.arch_mm_block_to_page_pte (s.mem p idx) else s.mem p idx)
          + i * mm_entry_size l) % WORD) = pa_of (s.mem p idx) + i * mm_entry_size l) →
      ∀ x, translate A pa_of (mm_populate_table_pte A p idx (l + 1) sync s).2.mem x (l + 1) p
        = translate A pa_of s.mem x (l + 1) p) := by
  obtain ⟨hntp, h2, h3, h3t, h3p, hent, hsub⟩ :=
    populate_alloc A hA l p idx sync s hidx ht hh hT hok
  have h3b := hA.table_not_block _ h3t
  have hblk : A.arch_mm_pte_is_block (s.mem p idx) = true → ∀ i, i < ENTRIES →
      (mm_populate_table_pte A p idx (l + 1) sync s).2.mem
        (mm_populate_table_pte A p idx (l + 1) sync s).1 i =
      ((if l + 1 = 1 then A.arch_mm_block_to_page_pte (s.mem p idx) else s.mem p idx)
        + i * mm_entry_size l) % WORD := by
    intro hb i hi
    rw [hent i hi, hb]
    simp only [Bool.not_true, Bool.false_eq_true, if_false, Nat.add_sub_cancel]
    apply fill_val_closed
    split
    · exact hbp
    · exact hv
  have habs : A.arch_mm_pte_is_block (s.mem p idx) = false → ∀ i, i < ENTRIES →
      (mm_populate_table_pte A p idx (l + 1) sync s).2.mem
        (mm_populate_table_pte A p idx (l + 1) sync s).1 i = A.arch_mm_absent_pte := by
    intro hb i hi
    rw [hent i hi]
    exact (split_entries A hA l (s.mem p idx) i).1 hb
  refine ⟨hblk, habs, h3, (populate_ext A hA l p idx sync s hidx hS ht hh).2.2.1, ?_⟩
  intro hdec x
  have hballow : A.arch_mm_pte_is_block (s.mem p idx) = true →
      A.arch_mm_is_block_allowed (l + 1) = true := ht.1 idx hidx
  rw [translate_succ, translate_succ]
  by_cases hend : x ≥ mm_level_end x (l + 1)
  · rw [if_pos hend, if_pos hend]
  · rw [if_neg hend, if_neg hend]
    by_cases hji : mm_index x (l + 1) = idx
    · rw [hji, h3, h3b, h3t, h3p, hT]
      simp only [Bool.and_false, Bool.false_eq_true, if_false, if_true]
      have hend' : ¬ x ≥ mm_level_end x l := by
        have := mm_level_end_nest x l hS (by omega)
        omega
      have hs9 : level_shift (l + 2) = level_shift (l + 1) + 9 := level_shift_succ (l + 1)
      have hoff := offset_split x l (by omega)
      rcases Bool.eq_false_or_eq_true (A.arch_mm_pte_is_block (s.mem p idx)) with hbv | hbv
      · -- a block is split
        have hpa := hdec hbv (mm_index x l) (mm_index_lt _ _)
        rw [← hblk hbv _ (mm_index_lt _ _)] at hpa
        rw [hballow hbv, hbv]
        simp only [Bool.and_true, if_true]
        cases l with
        | zero =>
          rw [translate_zero, if_neg hend']
          have hpres := (split_entries A hA 0 (s.mem p idx) (mm_index x 0)).2.1 hbv rfl
          rw [← hent _ (mm_index_lt _ _)] at hpres
          rw [hpres, if_pos rfl, hpa, hoff]
          congr 1
          omega
        | succ l' =>
          rw [translate_succ, if_neg hend']
          have hb2 := (split_entries A hA (l' + 1) (s.mem p idx) (mm_index x (l' + 1))).2.2 hbv
            (Nat.succ_ne_zero l')
          rw [← hent _ (mm_index_lt _ _)] at hb2
          rw [hb2, hA.allowed_down (l' + 1) (by omega) (hballow hbv)]
          simp only [Bool.and_true, if_true]
          rw [hpa, hoff]
          congr 1
          omega
      · -- the slot held no mapping
        rw [hbv]
        simp only [Bool.and_false, Bool.false_eq_true, if_false]
        cases l with
        | zero =>
          rw [translate_zero, if_neg hend', habs hbv _ (mm_index_lt _ _),
            hA.absent_not_present]
          simp
        | succ l' =>
          rw [translate_succ, if_neg hend', habs hbv _ (mm_index_lt _ _),
            hA.absent_not_block, hA.absent_not_table]
          simp
    · rw [h2 _ hji]
      by_cases htj : A.arch_mm_pte_is_table (s.mem p (mm_index x (l + 1))) = true
      · rw [translate_agree A pa_of s.mem _ x l _
          (fun q hq i _ => hsub _ hji q ⟨mm_index_lt _ _, htj, hq⟩ i)]
      · simp [htj]

set_option maxRecDepth 100000 in
/-- C14, at a concrete input: in the state `mapped_4m` of the concrete backend
the slot 1 of the table of level 1 at `0x12000` holds the 2 MiB block at
`0x200000`; splitting it fills the new table with the 512 pages of the block and
keeps the translation of every address. -/
theorem c14_split_preserves_witness :
    Contract demo ∧
    ((1 < ENTRIES ∧ level_shift (0 + 2) ≤ 64) ∧
      (Tree demo mapped_4m.mem 1 0x12000 ∧
        HeapOK mapped_4m.heap (footprint demo mapped_4m.mem 1 0x12000)) ∧
      demo.arch_mm_pte_is_table (mapped_4m.mem 0x12000 1) = false ∧
      demo.arch_mm_pte_is_block (mapped_4m.mem 0x12000 1) = true ∧
      mapped_4m.mem 0x12000 1 = 0x20000d ∧
      demo.arch_mm_block_to_page_pte (mapped_4m.mem 0x12000 1) = 0x20000f ∧
      (mm_populate_table_pte demo 0x12000 1 1 true mapped_4m).1 = 0x13000) ∧
    (∀ i, i < ENTRIES →
      (mm_populate_table_pte demo 0x12000 1 1 true mapped_4m).2.mem
        (mm_populate_table_pte demo 0x12000 1 1 true mapped_4m).1 i =
      ((if 0 + 1 = 1 then demo.arch_mm_block_to_page_pte (mapped_4m.mem 0x12000 1)
          else mapped_4m.mem 0x12000 1) + i * mm_entry_size 0) % WORD) ∧
    ∀ x, translate demo demo_pa_of (mm_populate_table_pte demo 0x12000 1 1 true mapped_4m).2.mem
        x 1 0x12000 = translate demo demo_pa_of mapped_4m.mem x 1 0x12000 :=
  have h := c14_split_preserves demo demo_contract demo_pa_of 0 0x12000 1 true mapped_4m
    (by decide) (by decide) tree_mapped_4m_level1.1 tree_mapped_4m_level1.2 (by decide!)
    (by decide!) (by decide!) (by decide!)
  ⟨demo_contract,
    ⟨⟨by decide, by decide⟩, tree_mapped_4m_level1, by decide!, by decide!, by decide!,
      by decide!, by decide!⟩,
    h.1 (by decide!),
    h.2.2.2.2 (fun _ => by
      have e1 : mapped_4m.mem 0x12000 1 = 0x20000d := by decide!
      rw [e1]
      decide!)⟩

/-- Claim C15. For a backend that meets the contract and a decoder of output
addresses that meets the placement contract, the block-placement invariant
(every entry reachable from the root that classifies as a block sits at a level
where blocks are allowed and encodes an address aligned to the entry size of
its level) holds on the table `mm_ptable_init` makes, and on a well-formed
table on which it holds, `mm_ptable_identity_map`, `mm_ptable_unmap` and
`mm_ptable_identity_map_page` return and it holds on the table they leave,
whether they return true or false. -/
theorem c15_block_placement (A : Arch) (hA : Contract A) (pa_of : Nat → Nat)
    (hP : PlacementContract A pa_of) (t : mm_ptable) (mode : Nat) (s : State) :
    (∀ id mode0, (mm_ptable_init A t id mode0 s).1 = true →
      Placed A pa_of (mm_ptable_init A t id mode0 s).2.2.mem (A.arch_mm_max_level mode)
        (mm_ptable_init A t id mode0 s).2.1.table) ∧
    (WellFormed A t mode s → Placed A pa_of s.mem (A.arch_mm_max_level mode) t.table →
      (∀ va_begin va_end, ∃ ok s',
        mm_ptable_identity_map A t va_begin va_end mode s = some (ok, s') ∧
        Placed A pa_of s'.mem (A.arch_mm_max_level mode) t.table) ∧
      (∀ va_begin va_end, ∃ ok s',
        mm_ptable_unmap A t va_begin va_end mode s = some (ok, s') ∧
        Placed A pa_of s'.mem (A.arch_mm_max_level mode) t.table) ∧
      (∀ va, Placed A pa_of (mm_ptable_identity_map_page A t va mode s).2.mem
        (A.arch_mm_max_level mode) t.table)) := by
  refine ⟨fun id mode0 hok => init_placed A hA pa_of t id mode0 _ s hok,
    fun hwf hp => ⟨fun b e => ?_, fun b e => ?_, fun va => ?_⟩⟩
  · obtain ⟨ok, s', h⟩ := exists_of_ne_none (mm_ptable_identity_map_returns A hA t b e mode s)
    exact ⟨ok, s', h, identity_map_placed A hA pa_of hP t b e mode s s' ok hwf hp h⟩
  · obtain ⟨ok, s', h⟩ := exists_of_ne_none (mm_ptable_unmap_returns A hA t b e mode s)
    exact ⟨ok, s', h, unmap_placed A hA pa_of hP t b e mode s s' ok hwf hp h⟩
  · exact identity_map_page_placed A hA pa_of hP t va mode s hwf hp

set_option maxRecDepth 100000 in
/-- C15, at a concrete input: on the fresh table of the concrete backend, which
meets the invariant, the map of the 4 MiB `[0, 0x400000)` leaves a table that
meets it; the map writes two 2 MiB blocks, the second one for the address
`0x200000`. -/
theorem c15_block_placement_witness :
    Contract demo ∧ PlacementContract demo demo_pa_of ∧
    WellFormed demo fresh_table mode_rw fresh ∧
    Placed demo demo_pa_of fresh.mem (demo.arch_mm_max_level mode_rw) fresh_table.table ∧
    (demo.arch_mm_pte_is_block (mapped_4m.mem 0x12000 1) = true ∧
      demo_pa_of (mapped_4m.mem 0x12000 1) = 0x200000 ∧ mm_entry_size 1 = 0x200000) ∧
    ∃ ok s', mm_ptable_identity_map demo fresh_table 0 0x400000 mode_rw fresh = some (ok, s') ∧
      Placed demo demo_pa_of s'.mem (demo.arch_mm_max_level mode_rw) fresh_table.table :=
  ⟨demo_contract, demo_placement, wellFormed_fresh mode_rw,
    (c15_block_placement demo demo_contract demo_pa_of demo_placement ⟨0, 0⟩ mode_rw boot).1
      0 0 (by decide),
    by decide!,
    ((c15_block_placement demo demo_contract demo_pa_of demo_placement fresh_table mode_rw
      fresh).2 (wellFormed_fresh mode_rw)
      ((c15_block_placement demo demo_contract demo_pa_of demo_placement ⟨0, 0⟩ mode_rw boot).1
        0 0 (by decide))).1 0 0x400000⟩

/-- Claim C16. Viewing a call as the sequence of its effects, stores and calls
of the backend's TLB primitives in program order (`Effect`), with the backend's
`arch_mm_clear_va` dropping the low `PAGE_BITS`, for a 64-bit `begin` and every
`end`: `mm_ptable_identity_map` and `mm_ptable_unmap` return; the TLB trace
they leave is the old one with, in front of it, exactly the one invalidation of
`[begin rounded down to a page, end rounded up to a page)` (in 64-bit
arithmetic) on the stage that `STAGE1` selects when the call returns true and
`NOINVALIDATE` is not set, and the old trace otherwise; the effects performed
in order give the memory and the TLB trace the call leaves; when the call
returns true the effects are the memory events of the dry run, then the memory
events of the commit walk, then that one invalidation unless `NOINVALIDATE` is
set, and the memory events of the two walks alone already give the memory the
call leaves; when the call returns false no TLB call is among the effects; and
wherever a TLB call stands in the effects, no effect follows it, no TLB call
precedes it and the memory at that point is the memory the call leaves: the
invalidation comes after every store of the commit walk. -/
theorem c16_tlb_maintenance (A : Arch) (hA : Contract A)
    (hclr : ∀ x, x < WORD → A.arch_mm_clear_va x = page_floor x)
    (t : mm_ptable) (va_begin va_end mode : Nat) (s : State)
    (hb : va_begin < WORD) :
    (∃ ok s', mm_ptable_identity_map A t va_begin va_end mode s = some (ok, s') ∧
      (s'.tlb = if ok = true ∧ mode &&& MM_MODE_NOINVALIDATE = 0 then
          range_invalidation mode (page_floor va_begin) (page_ceil va_end % WORD) :: s.tlb
        else s.tlb) ∧
      ((perform (mm_ptable_identity_map_effects A t va_begin va_end mode s) s).mem = s'.mem ∧
        (perform (mm_ptable_identity_map_effects A t va_begin va_end mode s) s).tlb = s'.tlb) ∧
      (ok = true → ∃ sd okc sc,
        mm_map_level A (page_floor va_begin) (page_ceil va_end % WORD) (A.arch_mm_mode_to_attrs mode)
          (if mode &&& MM_MODE_NOSYNC ≠ 0 then 0 else MAP_FLAG_SYNC) (A.arch_mm_max_level mode)
          (A.arch_mm_clear_pa va_begin) t.table s = some (true, sd) ∧
        mm_map_level A (page_floor va_begin) (page_ceil va_end % WORD) (A.arch_mm_mode_to_attrs mode)
          ((if mode &&& MM_MODE_NOSYNC ≠ 0 then 0 else MAP_FLAG_SYNC) ||| MAP_FLAG_COMMIT)
          (A.arch_mm_max_level mode) (A.arch_mm_clear_pa va_begin) t.table sd = some (okc, sc) ∧
        mm_ptable_identity_map_effects A t va_begin va_end mode s =
          (mm_map_level_events A (page_floor va_begin) (page_ceil va_end % WORD)
            (A.arch_mm_mode_to_attrs mode)
            (if mode &&& MM_MODE_NOSYNC ≠ 0 then 0 else MAP_FLAG_SYNC) (A.arch_mm_max_level mode)
            (A.arch_mm_clear_pa va_begin) t.table s).map Effect.mem ++
          (mm_map_level_events A (page_floor va_begin) (page_ceil va_end % WORD)
            (A.arch_mm_mode_to_attrs mode)
            ((if mode &&& MM_MODE_NOSYNC ≠ 0 then 0 else MAP_FLAG_SYNC) ||| MAP_FLAG_COMMIT)
            (A.arch_mm_max_level mode) (A.arch_mm_clear_pa va_begin) t.table sd).map Effect.mem ++
          (if mode &&& MM_MODE_NOINVALIDATE = 0 then
            [Effect.tlb (range_invalidation mode (page_floor va_begin) (page_ceil va_end % WORD))]
          else []) ∧
        replay
          (mm_map_level_events A (page_floor va_begin) (page_ceil va_end % WORD)
            (A.arch_mm_mode_to_attrs mode)
            (if mode &&& MM_MODE_NOSYNC ≠ 0 then 0 else MAP_FLAG_SYNC) (A.arch_mm_max_level mode)
            (A.arch_mm_clear_pa va_begin) t.table s ++
          mm_map_level_events A (page_floor va_begin) (page_ceil va_end % WORD)
            (A.arch_mm_mode_to_attrs mode)
            ((if mode &&& MM_MODE_NOSYNC ≠ 0 then 0 else MAP_FLAG_SYNC) ||| MAP_FLAG_COMMIT)
            (A.arch_mm_max_level mode) (A.arch_mm_clear_pa va_begin) t.table sd) s.mem = s'.mem ∧
        s'.mem = sc.mem ∧ sc.tlb = s.tlb) ∧
      (ok = false → ∀ x,
        Effect.tlb x ∉ mm_ptable_identity_map_effects A t va_begin va_end mode s) ∧
      (∀ pre x suf,
        mm_ptable_identity_map_effects A t va_begin va_end mode s = pre ++ Effect.tlb x :: suf →
        suf = [] ∧ (∀ y, Effect.tlb y ∉ pre) ∧ (perform pre s).mem = s'.mem)) ∧
    (∃ ok s', mm_ptable_unmap A t va_begin va_end mode s = some (ok, s') ∧
      (s'.tlb = if ok = true ∧ mode &&& MM_MODE_NOINVALIDATE = 0 then
          range_invalidation mode (page_floor va_begin) (page_ceil va_end % WORD) :: s.tlb
        else s.tlb) ∧
      ((perform (mm_ptable_unmap_effects A t va_begin va_end mode s) s).mem = s'.mem ∧
        (perform (mm_ptable_unmap_effects A t va_begin va_end mode s) s).tlb = s'.tlb) ∧
      (ok = true → ∃ sd okc sc,
        mm_map_level A (page_floor va_begin) (page_ceil va_end % WORD) 0
          (if mode &&& MM_MODE_NOSYNC ≠ 0 then 0 else MAP_FLAG_SYNC) (A.arch_mm_max_level mode)
          (page_floor va_begin) t.table s = some (true, sd) ∧
        mm_map_level A (page_floor va_begin) (page_ceil va_end % WORD) 0
          ((if mode &&& MM_MODE_NOSYNC ≠ 0 then 0 else MAP_FLAG_SYNC) ||| MAP_FLAG_COMMIT)
          (A.arch_mm_max_level mode) (page_floor va_begin) t.table sd = some (okc, sc) ∧
        mm_ptable_unmap_effects A t va_begin va_end mode s =
          (mm_map_level_events A (page_floor va_begin) (page_ceil va_end % WORD) 0
            (if mode &&& MM_MODE_NOSYNC ≠ 0 then 0 else MAP_FLAG_SYNC) (A.arch_mm_max_level mode)
            (page_floor va_begin) t.table s).map Effect.mem ++
          (mm_map_level_events A (page_floor va_begin) (page_ceil va_end % WORD) 0
            ((if mode &&& MM_MODE_NOSYNC ≠ 0 then 0 else MAP_FLAG_SYNC) ||| MAP_FLAG_COMMIT)
            (A.arch_mm_max_level mode) (page_floor va_begin) t.table sd).map Effect.mem ++
          (if mode &&& MM_MODE_NOINVALIDATE = 0 then
            [Effect.tlb (range_invalidation mode (page_floor va_begin) (page_ceil va_end % WORD))]
          else []) ∧
        replay
          (mm_map_level_events A (page_floor va_begin) (page_ceil va_end % WORD) 0
            (if mode &&& MM_MODE_NOSYNC ≠ 0 then 0 else MAP_FLAG_SYNC) (A.arch_mm_max_level mode)
            (page_floor va_begin) t.table s ++
          mm_map_level_events A (page_floor va_begin) (page_ceil va_end % WORD) 0
            ((if mode &&& MM_MODE_NOSYNC ≠ 0 then 0 else MAP_FLAG_SYNC) ||| MAP_FLAG_COMMIT)
            (A.arch_mm_max_level mode) (page_floor va_begin) t.table sd) s.mem = s'.mem ∧
        s'.mem = sc.mem ∧ sc.tlb = s.tlb) ∧
      (ok = false → ∀ x, Effect.tlb x ∉ mm_ptable_unmap_effects A t va_begin va_end mode s) ∧
      (∀ pre x suf,
        mm_ptable_unmap_effects A t va_begin va_end mode s = pre ++ Effect.tlb x :: suf →
        suf = [] ∧ (∀ y, Effect.tlb y ∉ pre) ∧ (perform pre s).mem = s'.mem)) := by
  have hbe : A.arch_mm_clear_va va_begin = page_floor va_begin := hclr _ hb
  have hee : A.arch_mm_clear_va ((va_end + (PAGE_SIZE - 1)) % WORD)
      = page_ceil va_end % WORD := by
    rw [hclr _ (Nat.mod_lt _ (by unfold WORD; norm_num))]
    unfold page_floor page_ceil
    have hP : PAGE_SIZE = 4096 := by decide
    have hW : WORD = 18446744073709551616 := by decide
    rw [hP, hW] at *
    omega
  constructor
  · obtain ⟨ok, s', hr⟩ := exists_of_ne_none
      (mm_ptable_identity_map_returns A hA t va_begin va_end mode s)
    have h := two_walks_maintenance A (A.arch_mm_clear_va va_begin)
      (A.arch_mm_clear_va ((va_end + (PAGE_SIZE - 1)) % WORD)) (A.arch_mm_mode_to_attrs mode)
      (if mode &&& MM_MODE_NOSYNC ≠ 0 then 0 else MAP_FLAG_SYNC) (A.arch_mm_max_level mode)
      (A.arch_mm_clear_pa va_begin) t.table mode s
      (mm_ptable_identity_map A t va_begin va_end mode s) rfl ok s' hr
    unfold mm_ptable_identity_map_effects
    rw [hbe, hee] at h ⊢
    exact ⟨ok, s', hr, h⟩
  · obtain ⟨ok, s', hr⟩ := exists_of_ne_none
      (mm_ptable_unmap_returns A hA t va_begin va_end mode s)
    have h := two_walks_maintenance A (A.arch_mm_clear_va va_begin)
      (A.arch_mm_clear_va ((va_end + (PAGE_SIZE - 1)) % WORD)) 0
      (if mode &&& MM_MODE_NOSYNC ≠ 0 then 0 else MAP_FLAG_SYNC) (A.arch_mm_max_level mode)
      (A.arch_mm_clear_va va_begin) t.table mode s
      (mm_ptable_unmap A t va_begin va_end mode s) rfl ok s' hr
    unfold mm_ptable_unmap_effects
    rw [hbe, hee] at h ⊢
    exact ⟨ok, s', hr, h⟩

set_option maxRecDepth 100000 in
/-- C16, at a concrete input: mapping `[0x1ff800, 0x200800)` on the fresh table
of the concrete backend invalidates `[0x1ff000, 0x201000)` once, at stage 2; of
the 2059 effects of the call the last three are the two stores of the commit
walk and then the invalidation. -/
theorem c16_tlb_maintenance_witness :
    Contract demo ∧ (∀ x, x < WORD → demo.arch_mm_clear_va x = page_floor x) ∧
    0x1ff800 < WORD ∧
    (page_floor 0x1ff800 = 0x1ff000 ∧ page_ceil 0x200800 % WORD = 0x201000 ∧
      fresh.tlb = [] ∧ mode_rw &&& MM_MODE_NOINVALIDATE = 0 ∧
      range_invalidation mode_rw 0x1ff000 0x201000 = TlbEvent.stage2 0x1ff000 0x201000) ∧
    ((mm_ptable_identity_map_effects demo fresh_table 0x1ff800 0x200800 mode_rw fresh).length
        = 2059 ∧
      (mm_ptable_identity_map_effects demo fresh_table 0x1ff800 0x200800 mode_rw fresh).drop 2056
        = [Effect.mem (MemEvent.store 0x13000 511 0x1ff00f),
          Effect.mem (MemEvent.store 0x14000 511 0x20000f),
          Effect.tlb (TlbEvent.stage2 0x1ff000 0x201000)]) ∧
    ∃ ok s', mm_ptable_identity_map demo fresh_table 0x1ff800 0x200800 mode_rw fresh
        = some (ok, s') ∧
      (s'.tlb = if ok = true ∧ mode_rw &&& MM_MODE_NOINVALIDATE = 0 then
          range_invalidation mode_rw (page_floor 0x1ff800) (page_ceil 0x200800 % WORD) :: fresh.tlb
        else fresh.tlb) ∧
      ((perform (mm_ptable_identity_map_effects demo fresh_table 0x1ff800 0x200800 mode_rw fresh)
          fresh).mem = s'.mem ∧
        (perform (mm_ptable_identity_map_effects demo fresh_table 0x1ff800 0x200800 mode_rw fresh)
          fresh).tlb = s'.tlb) ∧
      (∀ pre x suf,
        mm_ptable_identity_map_effects demo fresh_table 0x1ff800 0x200800 mode_rw fresh =
          pre ++ Effect.tlb x :: suf →
        suf = [] ∧ (∀ y, Effect.tlb y ∉ pre) ∧ (perform pre fresh).mem = s'.mem) :=
  ⟨demo_contract, demo_clear_va, by decide, by decide!, by decide!,
    (c16_tlb_maintenance demo demo_contract demo_clear_va fresh_table 0x1ff800 0x200800 mode_rw
      fresh (by decide)).1.imp
      (fun _ h => h.imp (fun _ h2 => ⟨h2.1, h2.2.1, h2.2.2.1, h2.2.2.2.2.2⟩))⟩

/-- Claim C17. On a well-formed table, with a backend that meets the contract,
viewing `mm_ptable_identity_map`, `mm_ptable_unmap` and
`mm_ptable_identity_map_page` as the sequence of their memory events: the
events performed in order give the memory the call leaves, and at every point
of the sequence every table reachable from the root either was reachable before
the call or has had every one of its slots stored to by the events so far
(`TraceSafe`), so that no reachable slot holds a table entry for a sub-table
with an entry not yet written. In `mm_populate_table_pte`, when it allocates a
sub-table, the events are the `PAGE_SIZE / sizeof(pte_t)` stores to the new
sub-table, slot by slot, then the release fence, then the single store of the
table entry into the slot. -/
theorem c17_publication_order (A : Arch) (hA : Contract A) (t : mm_ptable) (mode : Nat)
    (s : State) (hwf : WellFormed A t mode s) :
    (∀ va_begin va_end, ∃ ok s',
      mm_ptable_identity_map A t va_begin va_end mode s = some (ok, s') ∧
      replay (mm_ptable_identity_map_events A t va_begin va_end mode s) s.mem = s'.mem ∧
      TraceSafe A (A.arch_mm_max_level mode) t.table s
        (mm_ptable_identity_map_events A t va_begin va_end mode s)) ∧
    (∀ va_begin va_end, ∃ ok s',
      mm_ptable_unmap A t va_begin va_end mode s = some (ok, s') ∧
      replay (mm_ptable_unmap_events A t va_begin va_end mode s) s.mem = s'.mem ∧
      TraceSafe A (A.arch_mm_max_level mode) t.table s
        (mm_ptable_unmap_events A t va_begin va_end mode s)) ∧
    (∀ va,
      replay (mm_ptable_identity_map_page_events A t va mode s) s.mem =
        (mm_ptable_identity_map_page A t va mode s).2.mem ∧
      TraceSafe A (A.arch_mm_max_level mode) t.table s
        (mm_ptable_identity_map_page_events A t va mode s)) ∧
    (∀ table idx level sync s0,
      A.arch_mm_pte_is_table (s0.mem table idx) = false →
      (mm_populate_table_pte A table idx level sync s0).1 ≠ 0 →
      mm_populate_table_pte_events A table idx level sync s0 =
        (List.range ENTRIES).map (fun k =>
          MemEvent.store (mm_populate_table_pte A table idx level sync s0).1 k
            (fill_val
              (if !A.arch_mm_pte_is_block (s0.mem table idx) then 0
                else mm_entry_size (level - 1)) k
              (if !A.arch_mm_pte_is_block (s0.mem table idx) then A.arch_mm_absent_pte
                else if level = 1 then A.arch_mm_block_to_page_pte (s0.mem table idx)
                else s0.mem table idx))) ++
        [MemEvent.fence, MemEvent.store table idx
          (A.arch_mm_pa_to_table_pte (mm_populate_table_pte A table idx level sync s0).1)]) := by
  refine ⟨fun b e => ?_, fun b e => ?_, fun va => ?_,
    fun table idx level sync s0 hT hok => populate_events_order A table idx level sync s0 hT hok⟩
  · obtain ⟨ok, s', h⟩ := exists_of_ne_none (mm_ptable_identity_map_returns A hA t b e mode s)
    exact ⟨ok, s', h, two_walks_trace A hA t (A.arch_mm_clear_va b)
      (A.arch_mm_clear_va ((e + (PAGE_SIZE - 1)) % WORD)) (A.arch_mm_mode_to_attrs mode)
      (if mode &&& MM_MODE_NOSYNC ≠ 0 then 0 else MAP_FLAG_SYNC) (A.arch_mm_clear_pa b)
      mode s (hA.clear_va_lt b) (hA.clear_pa_aligned b) (dry_flags mode)
      (mode_block_not_table A hA mode) hwf
      (mm_ptable_identity_map A t b e mode s) rfl ok s' h⟩
  · obtain ⟨ok, s', h⟩ := exists_of_ne_none (mm_ptable_unmap_returns A hA t b e mode s)
    exact ⟨ok, s', h, two_walks_trace A hA t (A.arch_mm_clear_va b)
      (A.arch_mm_clear_va ((e + (PAGE_SIZE - 1)) % WORD)) 0
      (if mode &&& MM_MODE_NOSYNC ≠ 0 then 0 else MAP_FLAG_SYNC) (A.arch_mm_clear_va b)
      mode s (hA.clear_va_lt b) (hA.clear_va_aligned b) (dry_flags mode)
      (fun pa hpa => (hA.block_zero_absent pa hpa).2.2) hwf
      (mm_ptable_unmap A t b e mode s) rfl ok s' h⟩
  · have h := page_loop_trace A hA (A.arch_mm_clear_va va) (A.arch_mm_clear_pa va) mode
      (decide (mode &&& MM_MODE_NOSYNC = 0)) (A.arch_mm_max_level mode) (hA.levels_fit mode)
      t.table s hwf.1 hwf.2.1
    exact ⟨h.1, h.2.1⟩

set_option maxRecDepth 100000 in
/-- C17, at a concrete input: mapping the page at `0x09000000` on the fresh
table of the concrete backend takes three new tables, each filled by 512 stores
and published after a fence, and ends with the store of the page entry. -/
theorem c17_publication_order_witness :
    Contract demo ∧ WellFormed demo fresh_table mode_rw fresh ∧
    ((mm_ptable_identity_map_page_events demo fresh_table 0x09000000 mode_rw fresh).length
        = 3 * (ENTRIES + 2) + 1 ∧
      (mm_ptable_identity_map_page_events demo fresh_table 0x09000000 mode_rw fresh).drop 1540 =
        [MemEvent.fence, MemEvent.store 0x12000 72 0x13003,
          MemEvent.store 0x13000 0 0x0900000f]) ∧
    replay (mm_ptable_identity_map_page_events demo fresh_table 0x09000000 mode_rw fresh)
        fresh.mem = (mm_ptable_identity_map_page demo fresh_table 0x09000000 mode_rw fresh).2.mem ∧
    TraceSafe demo (demo.arch_mm_max_level mode_rw) fresh_table.table fresh
      (mm_ptable_identity_map_page_events demo fresh_table 0x09000000 mode_rw fresh) :=
  ⟨demo_contract, wellFormed_fresh mode_rw, by decide!,
    (c17_publication_order demo demo_contract fresh_table mode_rw fresh
      (wellFormed_fresh mode_rw)).2.2.1 0x09000000⟩

/-- Claim C18. For every 64-bit `va_begin`, every `va_end`, `pa`, table, state
and every level, `mm_map_level` returns, each call running its loop body at
most 512 times (the iterations the model gives a call) and a call at level 0
making no recursive call (in the model such a call would not return); at level
0 the loop's result does not depend on what the recursive call would do; and in
every iteration the loop variable `begin` strictly increases and stays at or
below the end of the level. (At a level whose shift widths reach 64 bits, where
the model truncates the shifted values to 64 bits, the end of the level is 0 and
the loop does not run.) -/
theorem c18_bounded_traversal (A : Arch) (va_begin va_end attrs flags level pa table : Nat)
    (s : State) (hva : va_begin < WORD) :
    (∃ ok s', mm_map_level A va_begin va_end attrs flags level pa table s = some (ok, s')) ∧
    (∀ begin, va_begin ≤ begin →
      begin < (if va_end > mm_level_end va_begin level then mm_level_end va_begin level
        else va_end) →
      begin < ((begin + mm_entry_size level) % WORD) &&& not64 (mm_entry_size level - 1) ∧
      ((begin + mm_entry_size level) % WORD) &&& not64 (mm_entry_size level - 1)
        ≤ mm_level_end va_begin level) ∧
    (level = 0 → ∀ recurse,
      mm_map_level_loop A recurse 0
        (if va_end > mm_level_end va_begin 0 then mm_level_end va_begin 0 else va_end)
        (mm_entry_size 0) attrs (decide (flags &&& MAP_FLAG_COMMIT ≠ 0))
        (decide (flags &&& MAP_FLAG_SYNC ≠ 0)) table ENTRIES va_begin pa (mm_index va_begin 0) s
      = mm_map_level A va_begin va_end attrs flags level pa table s) := by
  have h0 : level = 0 → ∀ recurse,
      mm_map_level_loop A recurse 0
        (if va_end > mm_level_end va_begin 0 then mm_level_end va_begin 0 else va_end)
        (mm_entry_size 0) attrs (decide (flags &&& MAP_FLAG_COMMIT ≠ 0))
        (decide (flags &&& MAP_FLAG_SYNC ≠ 0)) table ENTRIES va_begin pa (mm_index va_begin 0) s
      = mm_map_level A va_begin va_end attrs flags level pa table s := by
    intro h0 recurse
    subst h0
    rw [mm_map_level_eq]
    exact loop_level_zero A _ _ _ _ _ _ _ _ _ _ _ _ _
  by_cases hS : level_shift (level + 1) ≤ 64
  · exact ⟨exists_of_ne_none (mm_map_level_returns_any A va_begin va_end attrs flags hva level hS
      pa table s), fun begin hge hlt => begin_advances level va_begin va_end begin hS hva hge hlt,
      h0⟩
  · have hw : 64 < level_shift (level + 1) := by omega
    refine ⟨⟨true, s, (mm_map_level_wide A va_begin va_end attrs flags level pa table s hva
      hw).1⟩, fun begin _ hlt => ?_, h0⟩
    rw [capped_end_wide va_begin va_end level hva hw] at hlt
    exact absurd hlt (Nat.not_lt_zero _)

set_option maxRecDepth 100000 in
/-- C18, at a concrete input: a map at the top of the 64-bit address space,
where the end of the level wraps to 0, on the fresh table of the concrete
backend. -/
theorem c18_bounded_traversal_witness :
    0xfffffffffffff000 < WORD ∧
    mm_level_end 0xfffffffffffff000 3 = 0 ∧
    ∃ ok s', mm_map_level demo 0xfffffffffffff000 0xffffffffffffffff 0 MAP_FLAG_COMMIT 3
      0xfffffffffffff000 fresh_table.table fresh = some (ok, s') :=
  ⟨by decide, by decide!,
    (c18_bounded_traversal demo 0xfffffffffffff000 0xffffffffffffffff 0 MAP_FLAG_COMMIT 3
      0xfffffffffffff000 fresh_table.table fresh (by decide)).1⟩

/-- Claim C19. In every call of `mm_map_level` with a 64-bit `va_begin`, at
every level, the call returns within the iterations the model gives it, so that
the recorded slots are all the slots of the run; every slot `pte` is pointed at
has an index `i` with `mm_index(va_begin, level) <= i < 512`, and the loop body
runs at most `512 - mm_index(va_begin, level)` times; and
`mm_index(va, level) < 512` for every `va` and `level`, which is the only index
`mm_ptable_identity_map_page` and `mm_is_mapped_recursive` use. -/
theorem c19_in_bounds (A : Arch) (va_begin va_end attrs flags level pa table : Nat)
    (s : State) (hva : va_begin < WORD) :
    (∃ ok s', mm_map_level A va_begin va_end attrs flags level pa table s = some (ok, s')) ∧
    (∀ i ∈ mm_map_level_slots A va_begin va_end attrs flags level pa table s,
      mm_index va_begin level ≤ i ∧ i < ENTRIES) ∧
    (mm_map_level_slots A va_begin va_end attrs flags level pa table s).length
      ≤ ENTRIES - mm_index va_begin level ∧
    ∀ va l, mm_index va l < ENTRIES := by
  by_cases hS : level_shift (level + 1) ≤ 64
  · refine ⟨exists_of_ne_none (mm_map_level_returns_any A va_begin va_end attrs flags hva level
      hS pa table s), ?_⟩
    unfold mm_map_level_slots
    have h := fun recurse => loop_slots_bound A recurse
      level va_begin va_end _ attrs (decide (flags &&& MAP_FLAG_COMMIT ≠ 0))
      (decide (flags &&& MAP_FLAG_SYNC ≠ 0)) table rfl hS hva ENTRIES va_begin pa
      (mm_index va_begin level) s (loopPos_init_any level va_begin)
    exact ⟨(h _).1, (h _).2, mm_index_lt⟩
  · have hw := mm_map_level_wide A va_begin va_end attrs flags level pa table s hva
      (by omega)
    rw [hw.2]
    exact ⟨⟨true, s, hw.1⟩, fun i hi => absurd hi (List.not_mem_nil _), Nat.zero_le _,
      mm_index_lt⟩

set_option maxRecDepth 100000 in
/-- C19, at a concrete input: the commit walk of a map of `[0x1ff000, 0x201000)`
at level 0 points at the slot 511 of its table only, the end being capped at the end
of the table. -/
theorem c19_in_bounds_witness :
    0x1ff000 < WORD ∧
    mm_map_level_slots demo 0x1ff000 0x201000 0 MAP_FLAG_COMMIT 0 0 0x11000 fresh = [511] ∧
    mm_index 0x1ff000 0 = 511 ∧
    ∀ i ∈ mm_map_level_slots demo 0x1ff000 0x201000 0 MAP_FLAG_COMMIT 0 0 0x11000 fresh,
      mm_index 0x1ff000 0 ≤ i ∧ i < ENTRIES :=
  ⟨by decide, by decide!, by decide!,
    (c19_in_bounds demo 0x1ff000 0x201000 0 MAP_FLAG_COMMIT 0 0 0x11000 fresh (by decide)).2.1⟩

/-- Claim C20. On a well-formed table, for every range, level and attributes
whose block entries do not classify as tables (the attributes of a mode and the
attributes 0 of an unmap are such), if the dry-run call of `mm_map_level`
returns true, then the call with the same arguments and `flags |
MAP_FLAG_COMMIT` on the state the dry run left returns true and leaves the
allocator as it was: it requests no page, every slot it descends through
holding a table entry already (`Done`). -/
theorem c20_commit_cannot_fail (A : Arch) (hA : Contract A)
    (va_begin va_end attrs flags level pa table : Nat) (s sd : State)
    (hva : va_begin < WORD) (hpa : pa % PAGE_SIZE = 0)
    (hflags : flags &&& MAP_FLAG_COMMIT = 0)
    (hleaf : ∀ pa, pa % PAGE_SIZE = 0 →
      A.arch_mm_pte_is_table (A.arch_mm_pa_to_block_pte pa attrs) = false)
    (ht : Tree A s.mem level table) (hh : HeapOK s.heap (footprint A s.mem level table))
    (hdry : mm_map_level A va_begin va_end attrs flags level pa table s = some (true, sd)) :
    Done A va_begin va_end attrs false level pa table sd.mem ∧
    ∃ sc, mm_map_level A va_begin va_end attrs (flags ||| MAP_FLAG_COMMIT) level pa table sd
        = some (true, sc) ∧
      sc.heap = sd.heap := by
  by_cases hS : level_shift (level + 1) ≤ 64
  swap
  · have hw : 64 < level_shift (level + 1) := by omega
    refine ⟨done_wide A va_begin va_end attrs false level pa table sd.mem hva hw, sd,
      (mm_map_level_wide A va_begin va_end attrs _ level pa table sd hva hw).1, rfl⟩
  have hcf : decide (flags &&& MAP_FLAG_COMMIT ≠ 0) = false := by
    rw [hflags]; decide
  have hct := commit_bit_set flags hflags
  have hno : decide (flags &&& MAP_FLAG_COMMIT ≠ 0) = true → ∀ pa, pa % PAGE_SIZE = 0 →
      A.arch_mm_pte_is_table (A.arch_mm_pa_to_block_pte pa attrs) = false :=
    fun _ => hleaf
  have hpost := mm_map_level_post A hA va_begin va_end attrs flags hva hno level hS pa table
    s true sd hpa ht hh hdry
  have htd : Tree A sd.mem level table := hpost.1.1
  have hhd := heapOK_ext A level table s sd hh hpost.1
  have hdone := (mm_map_level_done A hA va_begin va_end attrs flags hva hno level hS pa table
    s true sd hpa ht hh (fun hc => absurd hc (by rw [hcf]; simp)) hdry).1 rfl
  rw [hcf] at hdone
  refine ⟨hdone, ?_⟩
  obtain ⟨okc, sc, hcom⟩ := exists_of_ne_none
    (mm_map_level_returns A va_begin va_end attrs (flags ||| MAP_FLAG_COMMIT) hva level hS
      pa table sd hpa)
  have h2 := (mm_map_level_done A hA va_begin va_end attrs (flags ||| MAP_FLAG_COMMIT) hva
    (fun _ => hleaf) level hS pa table sd okc sc hpa htd hhd (fun _ => hdone) hcom).2 hct
  obtain ⟨rfl, hheap⟩ := h2
  exact ⟨sc, hcom, hheap⟩

set_option maxRecDepth 100000 in
/-- C20, at a concrete input: the two walks of the map of `[0x1ff000, 0x201000)`
on the fresh table of the concrete backend. -/
theorem c20_commit_cannot_fail_witness :
    Contract demo ∧
    ((0x1ff000 < WORD ∧ 0x1ff000 % PAGE_SIZE = 0 ∧
      MAP_FLAG_SYNC &&& MAP_FLAG_COMMIT = 0) ∧
      (∀ pa, pa % PAGE_SIZE = 0 → demo.arch_mm_pte_is_table
        (demo.arch_mm_pa_to_block_pte pa (demo.arch_mm_mode_to_attrs mode_rw)) = false) ∧
      Tree demo fresh.mem 3 fresh_table.table ∧
      HeapOK fresh.heap (footprint demo fresh.mem 3 fresh_table.table)) ∧
    result_of (mm_map_level demo 0x1ff000 0x201000 (demo.arch_mm_mode_to_attrs mode_rw)
      MAP_FLAG_SYNC 3 0x1ff000 fresh_table.table fresh) = some true ∧
    ∃ sc, mm_map_level demo 0x1ff000 0x201000 (demo.arch_mm_mode_to_attrs mode_rw)
        (MAP_FLAG_SYNC ||| MAP_FLAG_COMMIT) 3 0x1ff000 fresh_table.table
        (state_after fresh (mm_map_level demo 0x1ff000 0x201000
          (demo.arch_mm_mode_to_attrs mode_rw) MAP_FLAG_SYNC 3 0x1ff000 fresh_table.table fresh))
        = some (true, sc) ∧
      sc.heap = (state_after fresh (mm_map_level demo 0x1ff000 0x201000
          (demo.arch_mm_mode_to_attrs mode_rw) MAP_FLAG_SYNC 3 0x1ff000 fresh_table.table
          fresh)).heap :=
  ⟨demo_contract,
    ⟨⟨by decide, by decide, by decide⟩, mode_block_not_table demo demo_contract mode_rw,
      (wellFormed_fresh mode_rw).1, (wellFormed_fresh mode_rw).2.1⟩,
    by decide!,
    (c20_commit_cannot_fail demo demo_contract 0x1ff000 0x201000
      (demo.arch_mm_mode_to_attrs mode_rw) MAP_FLAG_SYNC 3 0x1ff000 fresh_table.table fresh _
      (by decide) (by decide) (by decide)
      (mode_block_not_table demo demo_contract mode_rw)
      (wellFormed_fresh mode_rw).1 (wellFormed_fresh mode_rw).2.1
      (eq_of_result _ _ _ (by decide!))).2⟩

end Mm
